import Mathlib

/-!
# modelCC83: transposable elements in a diploid population

A shallow embedding of the core of the simulator (Chromosome.cpp, Individual.cpp,
Population.cpp, Simulation.cpp) and theorems about it.

Conventions of the embedding

* A `vector<int>` is a `List Int`; an index is a `Nat`.  Reading or writing past the end of a
  vector is reported as `Res.fault`.
* Counts that configure the objects (`nbSites`, `nbChr`, `nbSitesPerChr`, `nbDiploids`) are
  `Nat`; loads and event numbers are `Int`, as in the source.  The sizes of the vectors and
  the loads they hold are taken below `2^31`: the product `nbChr * nbSitesPerChr` and the sums
  of sites are exact.  A Poisson count is an `unsigned int` that the callers store in an
  `int`: a count from `2^31` on is stored as the negative `int` with the same 32 bits
  (`gsl_ran_poisson`), and the sum `nbTEs + nbTransp` of `Individual::transposition` wraps
  modulo `2^32`, as the compiled program computes it (`wrapInt`).
* A `float` is a rational, and every operation that the source makes on `float`s is rounded
  to single precision by `toFloat`: the conversion of an `int`, a product, a sum, a quotient,
  the narrowing of a `double`.  The operations that the source makes on `double`s are rounded
  by `toDouble`; `pow` of the C library is a parameter.  The range of the exponent is not
  bounded, and a quotient by 0 is said where it occurs.  A uniform draw is the value as the
  callers store it in a `float`, a number of `[0, 1]`.
* The random generator is a stream of draws: the list of the values that the successive
  generator calls return.  A call reads the head of the stream.  When the stream is empty, or
  its head is not a value the call can return, no run of the program corresponds to the
  stream: `Res.noRun`.  A loop that redraws for ever ends as `Res.noRun` on every stream.
  A Poisson count is `Draw.poisson k`, a count below `2^31` returned by a call of any mean,
  or `Draw.poissonAt m k`, a count below `2^32` returned by the call of mean `m`.
* `exit( EXIT_FAILURE )` is `Res.exit`, carrying the object as it is at that time.
* A loop `for( i=0; i<n; ++i )` is a recursion on the number of turns left; a loop that
  redraws is a recursion on the stream.
* Output on `cout` and `cerr` is not modelled.  Of the output file, the model keeps the
  sequence of the rows that `saveData` appends.
-/

namespace ModelCC83

/-! ## Single precision -/

/-- Rounding of a rational to the nearest integer, a tie going to the even one. -/
def roundHalfEven (m : ℚ) : Int :=
  if m - ⌊m⌋ < 1 / 2 then ⌊m⌋
  else if 1 / 2 < m - ⌊m⌋ then ⌊m⌋ + 1
  else if ⌊m⌋ % 2 = 0 then ⌊m⌋ else ⌊m⌋ + 1

/-- Rounding of a positive rational to 24 significant bits: `Int.log 2 q` is the exponent of
`q` and `2 ^ (Int.log 2 q - 23)` its unit in the last place. -/
def toFloatPos (q : ℚ) : ℚ :=
  (roundHalfEven (q / (2 : ℚ) ^ (Int.log 2 q - 23)) : ℚ) * (2 : ℚ) ^ (Int.log 2 q - 23)

/-- Conversion to `float` (IEEE 754 binary32, round to nearest, ties to even), as in
`(float) locus` or `float x = gsl_rng_uniform( r )`.  The range of the exponent is not
bounded: the program converts integers and draws of a 32-bit generator, which neither
overflow nor reach the subnormal numbers. -/
def toFloat (q : ℚ) : ℚ :=
  if q = 0 then 0 else if 0 < q then toFloatPos q else - toFloatPos (-q)

/-- Rounding of a positive rational to 53 significant bits. -/
def toDoublePos (q : ℚ) : ℚ :=
  (roundHalfEven (q / (2 : ℚ) ^ (Int.log 2 q - 52)) : ℚ) * (2 : ℚ) ^ (Int.log 2 q - 52)

/-- Conversion to `double` (IEEE 754 binary64, round to nearest, ties to even), the result of
an operation on `double`s.  The range of the exponent is not bounded. -/
def toDouble (q : ℚ) : ℚ :=
  if q = 0 then 0 else if 0 < q then toDoublePos q else - toDoublePos (-q)

/-- Rounding of a positive rational to `p + 1` significant bits. -/
def roundPos (p : Nat) (q : ℚ) : ℚ :=
  (roundHalfEven (q / (2 : ℚ) ^ (Int.log 2 q - p)) : ℚ) * (2 : ℚ) ^ (Int.log 2 q - p)

/-- Rounding to `p + 1` significant bits, to nearest, ties to even: `toFloat` is `roundTo 23`
and `toDouble` is `roundTo 52`. -/
def roundTo (p : Nat) (q : ℚ) : ℚ :=
  if q = 0 then 0 else if 0 < q then roundPos p q else - roundPos p (-q)

/-- The `int` that the compiled program computes for an `int` expression of exact value `z`:
the value modulo `2^32` in `[-2^31, 2^31)`. -/
def wrapInt (z : Int) : Int := (z + 2 ^ 31) % 2 ^ 32 - 2 ^ 31

/-! ## Random generator -/

/-- One value returned by a call to the generator: `gsl_rng_uniform`,
`gsl_rng_uniform_int` or `gsl_ran_poisson`. -/
inductive Draw
  | uniform (u : ℚ)
  | uniformInt (v : Nat)
  | poisson (k : Nat)
  /-- the count `k` returned by a call `gsl_ran_poisson( r, mu )` of mean `mu` -/
  | poissonAt (mu : ℚ) (k : Nat)
  deriving DecidableEq

/-- Outcome of an operation on an object of type `σ` returning an `α`. -/
inductive Res (σ α : Type)
  /-- normal return: the object afterwards, the returned value, the draws not consumed -/
  | ret (st : σ) (a : α) (rest : List Draw)
  /-- the process called `exit( EXIT_FAILURE )`; `st` is the object at that time -/
  | exit (st : σ)
  /-- out-of-bounds access to a vector, or a call the generator library rejects -/
  | fault
  /-- the stream does not describe a run: a draw is missing or is not admissible -/
  | noRun
  deriving DecidableEq

/-- Value of `gsl_rng_uniform_int( r, n )` when the next element of the stream is `d`:
an integer of `[0, n)`.  (For `n <= 0` the library rejects the call; the callers test this
before they read the stream.) -/
def gsl_rng_uniform_int (n : Int) : Draw → Option Nat
  | Draw.uniformInt v => if (v : Int) < n then some v else none
  | _ => none

/-- Value of `int n = gsl_ran_poisson( r, mu )` when the next element of the stream is `d`.
The library returns an `unsigned int` count: any count below `2^32` when `mu > 0`, only 0
when `mu <= 0`; the three callers store it in an `int`.  `Draw.poisson k` is a count below
`2^31`, which the `int` holds as it is, returned by a call of any mean.  `Draw.poissonAt m k`
is a count below `2^32` returned by the call of mean `m`, and of this mean only; from `2^31`
on it is stored as the negative `int` `k - 2^32` (`wrapInt`). -/
def gsl_ran_poisson (mu : ℚ) : Draw → Option Int
  | Draw.poisson k => if (0 < mu ∨ k = 0) ∧ k < 2 ^ 31 then some (k : Int) else none
  | Draw.poissonAt m k =>
    if m = mu ∧ (0 < mu ∨ k = 0) ∧ k < 2 ^ 32 then some (wrapInt k) else none
  | _ => none

/-- Value of `float x = gsl_rng_uniform( r )` when the next element of the stream is `d`.
The call returns a double of `[0, 1)` and both callers store it in a `float`; the stream
holds the stored value, a number of `[0, 1]`: the doubles nearest to 1 are stored as 1
(`toFloat_range`, `toFloat_near_one`). -/
def gsl_rng_uniform : Draw → Option ℚ
  | Draw.uniform u => if 0 ≤ u ∧ u ≤ 1 then some u else none
  | _ => none

/-! ## Chromosome -/

/-- Class `Chromosome` (Chromosome.h); `r` is the identity of the generator handle. -/
structure Chromosome where
  nbSites : Nat
  probTEPerSite : ℚ
  verbose : Int
  r : Nat
  vSeq : List Int
  deriving DecidableEq

/-- `Chromosome::getNbTEs`: `accumulate` over the sites. -/
def Chromosome.getNbTEs (c : Chromosome) : Int := c.vSeq.sum

/-- Every site is 0 or 1. -/
def Binary (v : List Int) : Prop := ∀ x ∈ v, x = 0 ∨ x = 1

/-- The scan of `Chromosome::loss`: `sites` are the sites from index `site` on,
`rankCurrentTE` the running rank.  Returns the index of the site that the loop clears, or
`none` when the scan runs past the end of the vector. -/
def Chromosome.lossScan (rankLostTE : Int) : List Int → Nat → Int → Option Nat
  | [], _, _ => none
  | x :: sites, site, rankCurrentTE =>
    if x = 1 then
      if rankCurrentTE = rankLostTE then some site
      else Chromosome.lossScan rankLostTE sites (site + 1) (rankCurrentTE + 1)
    else Chromosome.lossScan rankLostTE sites (site + 1) rankCurrentTE

/-- The indices `site` at which the scan of `Chromosome::loss` reads `vSeq[ site ]`, one per
iteration, with the control flow of `Chromosome.lossScan`; the last index is the length of
the vector when the scan runs past its end. -/
def Chromosome.lossScanReads (rankLostTE : Int) : List Int → Nat → Int → List Nat
  | [], site, _ => [site]
  | x :: sites, site, rankCurrentTE =>
    site ::
      (if x = 1 then
        if rankCurrentTE = rankLostTE then []
        else Chromosome.lossScanReads rankLostTE sites (site + 1) (rankCurrentTE + 1)
      else Chromosome.lossScanReads rankLostTE sites (site + 1) rankCurrentTE)

/-- `Chromosome::loss`. -/
def Chromosome.loss (c : Chromosome) (s : List Draw) : Res Chromosome Unit :=
  if c.getNbTEs ≤ 0 then Res.fault
  else
    match s with
    | [] => Res.noRun
    | d :: rest =>
      match gsl_rng_uniform_int c.getNbTEs d with
      | none => Res.noRun
      | some v =>
        match Chromosome.lossScan ((v : Int) + 1) c.vSeq 0 1 with
        | none => Res.fault
        | some site => Res.ret { c with vSeq := c.vSeq.set site 0 } () rest

/-- The loop of `Chromosome::transposition`: draw a site until it is not occupied, then
set it. -/
def Chromosome.transpositionLoop (c : Chromosome) : List Draw → Res Chromosome Unit
  | [] => Res.noRun
  | d :: rest =>
    match gsl_rng_uniform_int c.nbSites d with
    | none => Res.noRun
    | some insSite =>
      match c.vSeq[insSite]? with
      | none => Res.fault
      | some x =>
        if x = 1 then Chromosome.transpositionLoop c rest
        else Res.ret { c with vSeq := c.vSeq.set insSite 1 } () rest

/-- `Chromosome::transposition`. -/
def Chromosome.transposition (c : Chromosome) (s : List Draw) : Res Chromosome Unit :=
  if c.nbSites = 0 then Res.fault else Chromosome.transpositionLoop c s

/-- `Chromosome::operator==`.  The second test of the source is
`probTEPerSite == probTEPerSite`: the member is compared with itself. -/
def Chromosome.operatorEq (c other : Chromosome) : Bool :=
  c.nbSites == other.nbSites && c.probTEPerSite == c.probTEPerSite
    && c.verbose == other.verbose && c.r == other.r && c.vSeq == other.vSeq

/-! ## Individual -/

/-- Class `Individual` (Individual.h); `r` is the identity of the generator handle. -/
structure Individual where
  nbChr : Nat
  nbSitesPerChr : Nat
  expNbTEsPerInd : Int
  zygoteSelection : Bool
  selMult : ℚ
  selExp : ℚ
  verbose : Int
  r : Nat
  vChr : List Chromosome
  deriving DecidableEq

/-- `Individual::reset`: the selection flag and the generator handle are not touched. -/
def Individual.reset (ind : Individual) : Individual :=
  { ind with nbChr := 0, nbSitesPerChr := 0, expNbTEsPerInd := 0, selMult := 0, selExp := 0,
             verbose := 0, vChr := [] }

/-- `Individual::Individual( void )`: `reset` on fresh storage, whose content `raw` is
indeterminate. -/
def Individual.ctor (raw : Individual) : Individual := raw.reset

/-- `Individual::operator=`: every field of `src` but the selection flag is copied. -/
def Individual.assign (dst src : Individual) : Individual :=
  { dst with nbChr := src.nbChr, nbSitesPerChr := src.nbSitesPerChr,
             expNbTEsPerInd := src.expNbTEsPerInd, selMult := src.selMult,
             selExp := src.selExp, verbose := src.verbose, r := src.r, vChr := src.vChr }

/-- The loop of `Individual::getNbTEs`: `k` iterations are left, `i` is the index. -/
def Individual.getNbTEsLoop (vChr : List Chromosome) : Nat → Nat → Int → Option Int
  | 0, _, nbTEs => some nbTEs
  | k + 1, i, nbTEs =>
    match vChr[i]? with
    | none => none
    | some c => Individual.getNbTEsLoop vChr k (i + 1) (nbTEs + c.getNbTEs)

/-- `Individual::getNbTEs`; `none` when `nbChr` exceeds the number of chromosomes held. -/
def Individual.getNbTEs (ind : Individual) : Option Int :=
  Individual.getNbTEsLoop ind.vChr ind.nbChr 0 0

/-- The inner loop of `Individual::recombine`, `for( j=coLocus; j<nbSitesPerChr; ++j )`:
`k` iterations are left, `j` is the index, `tmp` the copy of `vChrA` taken before the loop. -/
def Individual.crossOver (tmp : Chromosome) :
    Nat → Nat → Chromosome → Chromosome → Option (Chromosome × Chromosome)
  | 0, _, vChrA, vChrB => some (vChrA, vChrB)
  | k + 1, j, vChrA, vChrB =>
    match vChrB.vSeq[j]?, tmp.vSeq[j]? with
    | some b, some t =>
      if j < vChrA.vSeq.length then
        Individual.crossOver tmp k (j + 1) { vChrA with vSeq := vChrA.vSeq.set j b }
          { vChrB with vSeq := vChrB.vSeq.set j t }
      else none
    | _, _ => none

/-- The loop over the crossing-overs of `Individual::recombine`: `k` are left. -/
def Individual.recombineLoop (ind : Individual) :
    Nat → Chromosome → Chromosome → List Draw → Res (Chromosome × Chromosome) Unit
  | 0, vChrA, vChrB, s => Res.ret (vChrA, vChrB) () s
  | k + 1, vChrA, vChrB, s =>
    if ind.nbSitesPerChr = 0 then Res.fault
    else
      match s with
      | [] => Res.noRun
      | d :: rest =>
        match gsl_rng_uniform_int ind.nbSitesPerChr d with
        | none => Res.noRun
        | some coLocus =>
          match Individual.crossOver vChrA (ind.nbSitesPerChr - coLocus) coLocus vChrA vChrB with
          | none => Res.fault
          | some (vChrA1, vChrB1) => Individual.recombineLoop ind k vChrA1 vChrB1 rest

/-- `Individual::recombine`; the object is the pair of chromosomes passed by reference. -/
def Individual.recombine (ind : Individual) (totalMapDist : Int) (vChrA vChrB : Chromosome)
    (s : List Draw) : Res (Chromosome × Chromosome) Unit :=
  match s with
  | [] => Res.noRun
  | d :: rest =>
    match gsl_ran_poisson totalMapDist d with
    | none => Res.noRun
    | some nbCrossOvers =>
      if nbCrossOvers > 0 then Individual.recombineLoop ind nbCrossOvers.toNat vChrA vChrB rest
      else Res.ret (vChrA, vChrB) () rest

/-- One call `gsl_rng_uniform_int( r, 2 )` of `Individual::getGamete`. -/
def Individual.pickHomologue : List Draw → Option (Nat × List Draw)
  | [] => none
  | d :: rest =>
    match gsl_rng_uniform_int 2 d with
    | none => none
    | some id => some (id, rest)

/-- `Individual::getGamete`; the object is the organism together with the vector `gamete`
passed by reference. -/
def Individual.getGamete (ind : Individual) (totalMapDist : Int) (gamete : List Chromosome)
    (s : List Draw) : Res (Individual × List Chromosome) Unit :=
  match ind.vChr[0]?, ind.vChr[1]? with
  | some c0, some c1 =>
    match ind.recombine totalMapDist c0 c1 s with
    | Res.ret (a, b) _ s1 =>
      let ind1 := { ind with vChr := (ind.vChr.set 0 a).set 1 b }
      match Individual.pickHomologue s1 with
      | none => Res.noRun
      | some (idChr1, s2) =>
        match ind1.vChr[2]?, ind1.vChr[3]? with
        | some c2, some c3 =>
          match ind1.recombine totalMapDist c2 c3 s2 with
          | Res.ret (c, d) _ s3 =>
            let ind2 := { ind1 with vChr := (ind1.vChr.set 2 c).set 3 d }
            match Individual.pickHomologue s3 with
            | none => Res.noRun
            | some (id2, s4) =>
              match ind2.vChr[idChr1]?, ind2.vChr[id2 + 2]? with
              | some g1, some g2 => Res.ret (ind2, [g1, g2]) () s4
              | _, _ => Res.fault
          | Res.exit (c, d) => Res.exit ({ ind1 with vChr := (ind1.vChr.set 2 c).set 3 d }, gamete)
          | Res.fault => Res.fault
          | Res.noRun => Res.noRun
        | _, _ => Res.fault
    | Res.exit (a, b) => Res.exit ({ ind with vChr := (ind.vChr.set 0 a).set 1 b }, gamete)
    | Res.fault => Res.fault
    | Res.noRun => Res.noRun
  | _, _ => Res.fault

/-- `Individual::fecundation`; `none` when a gamete has fewer than two chromosomes. -/
def Individual.fecundation (ind : Individual) (gam1 gam2 : List Chromosome) (zs : Bool)
    (sm se : ℚ) (v : Int) : Option Individual :=
  match gam1[0]?, gam2[0]?, gam1[1]?, gam2[1]? with
  | some g10, some g20, some g11, some g21 =>
    some { ind with verbose := v, nbChr := gam1.length + gam2.length, nbSitesPerChr := g10.nbSites,
                    zygoteSelection := zs, selMult := sm, selExp := se, r := g10.r,
                    vChr := ind.vChr ++ [g10, g20, g11, g21] }
  | _, _, _, _ => none

/-- The chromosome choice of `Individual::loss`: draw a chromosome until its load is
not 0. -/
def Individual.lossPickLoop (ind : Individual) : List Draw → Res Unit Nat
  | [] => Res.noRun
  | d :: rest =>
    match gsl_rng_uniform_int ind.nbChr d with
    | none => Res.noRun
    | some chr =>
      match ind.vChr[chr]? with
      | none => Res.fault
      | some c => if c.getNbTEs = 0 then Individual.lossPickLoop ind rest else Res.ret () chr rest

/-- The chromosome choice of `Individual::loss`, with the test of the generator library. -/
def Individual.lossPick (ind : Individual) (s : List Draw) : Res Unit Nat :=
  if ind.nbChr = 0 then Res.fault else Individual.lossPickLoop ind s

/-- The loop over the losses of `Individual::loss`: `k` losses are left. -/
def Individual.lossEvents : Nat → Individual → List Draw → Res Individual Unit
  | 0, ind, s => Res.ret ind () s
  | k + 1, ind, s =>
    match ind.lossPick s with
    | Res.ret _ chr s1 =>
      match ind.vChr[chr]? with
      | none => Res.fault
      | some c =>
        match c.loss s1 with
        | Res.ret c1 _ s2 => Individual.lossEvents k { ind with vChr := ind.vChr.set chr c1 } s2
        | Res.exit c1 => Res.exit { ind with vChr := ind.vChr.set chr c1 }
        | Res.fault => Res.fault
        | Res.noRun => Res.noRun
    | Res.exit _ => Res.exit ind
    | Res.fault => Res.fault
    | Res.noRun => Res.noRun

/-- The local `meanNbLoss` of `Individual::loss`, `float meanNbLoss = probLoss * nbTEs`:
the load is converted to `float` and the product is rounded. -/
def Individual.meanNbLoss (probLoss : ℚ) (nbTEs : Int) : ℚ :=
  toFloat (probLoss * toFloat (nbTEs : ℚ))

/-- `Individual::loss`. -/
def Individual.loss (ind : Individual) (probLoss : ℚ) (s : List Draw) : Res Individual Int :=
  match ind.getNbTEs with
  | none => Res.fault
  | some nbTEs =>
    if nbTEs > 0 then
      match s with
      | [] => Res.noRun
      | d :: rest =>
        match gsl_ran_poisson (Individual.meanNbLoss probLoss nbTEs) d with
        | none => Res.noRun
        | some nbLoss =>
          if nbLoss > 0 then
            match Individual.lossEvents nbLoss.toNat ind rest with
            | Res.ret ind1 _ s1 =>
              match ind1.getNbTEs with
              | none => Res.fault
              | some nbTEs1 =>
                if nbTEs1 ≠ nbTEs - nbLoss then Res.exit ind1 else Res.ret ind1 nbLoss s1
            | Res.exit ind1 => Res.exit ind1
            | Res.fault => Res.fault
            | Res.noRun => Res.noRun
          else Res.ret ind nbLoss rest
    else Res.ret ind 0 s

/-- The chromosome choice of `Individual::transposition`: draw a chromosome until its load
is not `nbSitesPerChr`. -/
def Individual.transpositionPickLoop (ind : Individual) : List Draw → Res Unit Nat
  | [] => Res.noRun
  | d :: rest =>
    match gsl_rng_uniform_int ind.nbChr d with
    | none => Res.noRun
    | some chr =>
      match ind.vChr[chr]? with
      | none => Res.fault
      | some c =>
        if c.getNbTEs = ind.nbSitesPerChr then Individual.transpositionPickLoop ind rest
        else Res.ret () chr rest

/-- The chromosome choice of `Individual::transposition`, with the test of the generator
library. -/
def Individual.transpositionPick (ind : Individual) (s : List Draw) : Res Unit Nat :=
  if ind.nbChr = 0 then Res.fault else Individual.transpositionPickLoop ind s

/-- The loop over the transpositions of `Individual::transposition`: `k` are left. -/
def Individual.transpositionEvents : Nat → Individual → List Draw → Res Individual Unit
  | 0, ind, s => Res.ret ind () s
  | k + 1, ind, s =>
    match ind.transpositionPick s with
    | Res.ret _ chr s1 =>
      match ind.vChr[chr]? with
      | none => Res.fault
      | some c =>
        match c.transposition s1 with
        | Res.ret c1 _ s2 =>
          Individual.transpositionEvents k { ind with vChr := ind.vChr.set chr c1 } s2
        | Res.exit c1 => Res.exit { ind with vChr := ind.vChr.set chr c1 }
        | Res.fault => Res.fault
        | Res.noRun => Res.noRun
    | Res.exit _ => Res.exit ind
    | Res.fault => Res.fault
    | Res.noRun => Res.noRun

/-- The local `probTransp` of `Individual::transposition`, the rate of transposition per
element of an organism of load `nbTEs`: `probTransp0` if `k == 0`, else
`probTransp0 / float( 1 + k * nbTEs )`, every operation in single precision: the load is
converted to `float`, the product, the sum and the quotient are rounded.  When the divisor
is 0 the quotient is an infinity or not a number: `none`. -/
def Individual.probTransp (probTransp0 k : ℚ) (nbTEs : Int) : Option ℚ :=
  if k = 0 then some probTransp0
  else if toFloat (1 + toFloat (k * toFloat (nbTEs : ℚ))) = 0 then none
  else some (toFloat (probTransp0 / toFloat (1 + toFloat (k * toFloat (nbTEs : ℚ)))))

/-- The local `meanNbTransp` of `Individual::transposition`,
`float meanNbTransp = probTransp * nbTEs`: the load is converted to `float` and the product
is rounded. -/
def Individual.meanNbTransp (probTransp : ℚ) (nbTEs : Int) : ℚ :=
  toFloat (probTransp * toFloat (nbTEs : ℚ))

/-- `Individual::transposition`.  The sum `nbTEs + nbTransp` is a sum of two `int`s
(`wrapInt`).  When the rate is an infinity or not a number, so is the mean of the Poisson
call, of which the library says nothing: `Res.fault`. -/
def Individual.transposition (ind : Individual) (probTransp0 k : ℚ) (s : List Draw) :
    Res Individual Int :=
  match ind.getNbTEs with
  | none => Res.fault
  | some nbTEs =>
    if nbTEs > 0 then
      match Individual.probTransp probTransp0 k nbTEs with
      | none => Res.fault
      | some probTransp =>
        match s with
        | [] => Res.noRun
        | d :: rest =>
          match gsl_ran_poisson (Individual.meanNbTransp probTransp nbTEs) d with
          | none => Res.noRun
          | some nbTransp =>
            if wrapInt (nbTEs + nbTransp) ≥ ((ind.nbChr * ind.nbSitesPerChr : Nat) : Int) then
              Res.exit ind
            else if nbTransp > 0 then
              match Individual.transpositionEvents nbTransp.toNat ind rest with
              | Res.ret ind1 _ s1 =>
                match ind1.getNbTEs with
                | none => Res.fault
                | some nbTEs1 =>
                  if nbTEs1 ≠ wrapInt (nbTEs + nbTransp) then Res.exit ind1
                  else Res.ret ind1 nbTransp s1
              | Res.exit ind1 => Res.exit ind1
              | Res.fault => Res.fault
              | Res.noRun => Res.noRun
            else Res.ret ind nbTransp rest
    else Res.ret ind 0 s

/-- `Individual::getFitness`; `pow` is the function of the C library, a parameter, which
takes and returns `double`s.  The product and the difference are operations on `double`s,
and the value returned is narrowed to `float`. -/
def Individual.getFitness (pow : ℚ → ℚ → ℚ) (ind : Individual) : Option ℚ :=
  match ind.getNbTEs with
  | none => none
  | some nbTEs => some (toFloat (toDouble (1 - toDouble (ind.selMult * pow nbTEs ind.selExp))))

/-- `Individual::isViable`: the draw stored in the `float probSel` is compared with the
`float` that `getFitness` returns. -/
def Individual.isViable (pow : ℚ → ℚ → ℚ) (ind : Individual) (s : List Draw) :
    Res Individual Bool :=
  if ¬ ind.zygoteSelection then Res.ret ind true s
  else
    match s with
    | [] => Res.noRun
    | d :: rest =>
      match gsl_rng_uniform d with
      | none => Res.noRun
      | some probSel =>
        match ind.getFitness pow with
        | none => Res.fault
        | some fitness => if probSel ≤ fitness then Res.ret ind true rest else Res.ret ind false rest

/-- An organism of `nbChr` chromosomes of `nbSitesPerChr` binary sites. -/
def Individual.WellFormed (ind : Individual) : Prop :=
  ind.vChr.length = ind.nbChr ∧
  ∀ c ∈ ind.vChr, c.nbSites = ind.nbSitesPerChr ∧ c.vSeq.length = ind.nbSitesPerChr ∧ Binary c.vSeq

/-- The events of the loop over the losses of `Individual::loss`, with the control flow of
`Individual.lossEvents`: for each event begun, the organism before the event and the
chromosome on which `vChr[ chr ].loss()` is called (`none` when the choice of the chromosome
does not return). -/
def Individual.lossSteps : Nat → Individual → List Draw → List (Individual × Option Chromosome)
  | 0, _, _ => []
  | k + 1, ind, s =>
    match ind.lossPick s with
    | Res.ret _ chr s1 =>
      match ind.vChr[chr]? with
      | none => [(ind, none)]
      | some c =>
        (ind, some c) ::
          (match c.loss s1 with
           | Res.ret c1 _ s2 => Individual.lossSteps k { ind with vChr := ind.vChr.set chr c1 } s2
           | _ => [])
    | _ => [(ind, none)]

/-- The events of a call of `Individual::loss`, with the control flow of
`Individual.loss`. -/
def Individual.lossTrace (ind : Individual) (probLoss : ℚ) (s : List Draw) :
    List (Individual × Option Chromosome) :=
  match ind.getNbTEs with
  | none => []
  | some nbTEs =>
    if nbTEs > 0 then
      match s with
      | [] => []
      | d :: rest =>
        match gsl_ran_poisson (Individual.meanNbLoss probLoss nbTEs) d with
        | none => []
        | some nbLoss => if nbLoss > 0 then Individual.lossSteps nbLoss.toNat ind rest else []
    else []

/-- The events of the loop over the transpositions of `Individual::transposition`, with the
control flow of `Individual.transpositionEvents`: for each event begun, the organism before
the event and the chromosome on which `vChr[ chr ].transposition()` is called (`none` when
the choice of the chromosome does not return). -/
def Individual.transpositionSteps :
    Nat → Individual → List Draw → List (Individual × Option Chromosome)
  | 0, _, _ => []
  | k + 1, ind, s =>
    match ind.transpositionPick s with
    | Res.ret _ chr s1 =>
      match ind.vChr[chr]? with
      | none => [(ind, none)]
      | some c =>
        (ind, some c) ::
          (match c.transposition s1 with
           | Res.ret c1 _ s2 =>
             Individual.transpositionSteps k { ind with vChr := ind.vChr.set chr c1 } s2
           | _ => [])
    | _ => [(ind, none)]

/-- The events of a call of `Individual::transposition`, with the control flow of
`Individual.transposition`: none when the test of the capacity exits. -/
def Individual.transpositionTrace (ind : Individual) (probTransp0 k : ℚ) (s : List Draw) :
    List (Individual × Option Chromosome) :=
  match ind.getNbTEs with
  | none => []
  | some nbTEs =>
    if nbTEs > 0 then
      match Individual.probTransp probTransp0 k nbTEs with
      | none => []
      | some probTransp =>
        match s with
        | [] => []
        | d :: rest =>
          match gsl_ran_poisson (Individual.meanNbTransp probTransp nbTEs) d with
          | none => []
          | some nbTransp =>
            if wrapInt (nbTEs + nbTransp) ≥ ((ind.nbChr * ind.nbSitesPerChr : Nat) : Int) then []
            else if nbTransp > 0 then Individual.transpositionSteps nbTransp.toNat ind rest
            else []
    else []

/-- Class `Population` (Population.h). -/
structure Population where
  nbDiploids : Nat
  nbChrPerInd : Nat
  nbSitesPerChr : Nat
  expNbTEsPerInd : Int
  totalMapDist : Int
  zygoteSelection : Bool
  selMult : ℚ
  selExp : ℚ
  verbose : Int
  r : Nat
  vInd : List Individual
  deriving DecidableEq

/-- The redraw loop of `Population::sampleCouple`: draw `idPar2` until it differs from
`idPar1`. -/
def Population.sampleCoupleLoop (pop : Population) (idPar1 : Nat) : List Draw → Res Unit Nat
  | [] => Res.noRun
  | d :: rest =>
    match gsl_rng_uniform_int pop.nbDiploids d with
    | none => Res.noRun
    | some idPar2 =>
      if idPar2 = idPar1 then Population.sampleCoupleLoop pop idPar1 rest
      else Res.ret () idPar2 rest

/-- `Population::sampleCouple`; the object is the pair `parent1`, `parent2` passed by
reference. -/
def Population.sampleCouple (pop : Population) (parent1 parent2 : Individual) (s : List Draw) :
    Res (Individual × Individual) Unit :=
  if pop.nbDiploids = 0 then Res.fault
  else
    match s with
    | [] => Res.noRun
    | d :: rest =>
      match gsl_rng_uniform_int pop.nbDiploids d with
      | none => Res.noRun
      | some idPar1 =>
        match Population.sampleCoupleLoop pop idPar1 rest with
        | Res.ret _ idPar2 s1 =>
          match pop.vInd[idPar1]?, pop.vInd[idPar2]? with
          | some i1, some i2 => Res.ret (parent1.assign i1, parent2.assign i2) () s1
          | _, _ => Res.fault
        | Res.exit _ => Res.exit (parent1, parent2)
        | Res.fault => Res.fault
        | Res.noRun => Res.noRun

/-- The copy assignment `vInd = vNewInd` of `std::vector<Individual>` when no storage is
reallocated, which is the case whenever `vInd` holds at least as many organisms as `vNewInd`:
the organisms already in `vInd` are assigned with `Individual::operator=`, the further ones are
copy-constructed, the organisms in excess are destroyed. -/
def assignVector : List Individual → List Individual → List Individual
  | o :: old, n :: new => o.assign n :: assignVector old new
  | [], new => new
  | _ :: _, [] => []

/-- `Population::setIndividuals`; it reads no draw, `s` is handed back. -/
def Population.setIndividuals (pop : Population) (vNewInd : List Individual) (s : List Draw) :
    Res Population Unit :=
  if vNewInd.length ≠ pop.nbDiploids then Res.exit pop
  else
    match vNewInd[0]? with
    | none => Res.fault
    | some ind0 =>
      if ind0.nbChr ≠ pop.nbChrPerInd ∨ ind0.nbSitesPerChr ≠ pop.nbSitesPerChr then Res.exit pop
      else Res.ret { pop with vInd := assignVector pop.vInd vNewInd } () s

/-- What one turn of the loop of `Population::makeNewGeneration` does to the stream. -/
inductive Candidate
  /-- the candidate built, its viability, the draws left -/
  | made (ind : Individual) (viable : Bool) (rest : List Draw)
  | exit
  | fault
  | noRun

/-- The body of the loop of `Population::makeNewGeneration`: one couple, two gametes, one
candidate and its viability.  `raw` is the indeterminate content of a fresh `Individual`. -/
def Population.makeCandidate (pow : ℚ → ℚ → ℚ) (pop : Population) (raw : Individual)
    (s : List Draw) : Candidate :=
  match pop.sampleCouple (Individual.ctor raw) (Individual.ctor raw) s with
  | Res.ret (parent1, parent2) _ s1 =>
    match parent1.getGamete pop.totalMapDist [] s1 with
    | Res.ret (_, gamete1) _ s2 =>
      match parent2.getGamete pop.totalMapDist [] s2 with
      | Res.ret (_, gamete2) _ s3 =>
        match (Individual.ctor raw).fecundation gamete1 gamete2 pop.zygoteSelection pop.selMult
            pop.selExp (pop.verbose - 1) with
        | none => Candidate.fault
        | some ind =>
          match ind.isViable pow s3 with
          | Res.ret _ viable s4 => Candidate.made ind viable s4
          | Res.exit _ => Candidate.exit
          | Res.fault => Candidate.fault
          | Res.noRun => Candidate.noRun
      | Res.exit _ => Candidate.exit
      | Res.fault => Candidate.fault
      | Res.noRun => Candidate.noRun
    | Res.exit _ => Candidate.exit
    | Res.fault => Candidate.fault
    | Res.noRun => Candidate.noRun
  | Res.exit _ => Candidate.exit
  | Res.fault => Candidate.fault
  | Res.noRun => Candidate.noRun

/-- The loop `while( i < getNbDiploids() )` of `Population::makeNewGeneration`.  A turn reads
at least one draw, so `fuel` = 1 + the number of draws bounds the number of turns. -/
def Population.makeNewGenerationLoop (pow : ℚ → ℚ → ℚ) (pop : Population) (raw : Individual) :
    Nat → Nat → List Individual → List Draw → Res (List Individual) Unit
  | 0, _, _, _ => Res.noRun
  | fuel + 1, i, vNewInd, s =>
    if i < pop.nbDiploids then
      match pop.makeCandidate pow raw s with
      | Candidate.made ind viable s1 =>
        if viable then
          Population.makeNewGenerationLoop pow pop raw fuel (i + 1) (vNewInd ++ [ind]) s1
        else Population.makeNewGenerationLoop pow pop raw fuel i vNewInd s1
      | Candidate.exit => Res.exit vNewInd
      | Candidate.fault => Res.fault
      | Candidate.noRun => Res.noRun
    else Res.ret vNewInd () s

/-- `Population::makeNewGeneration`; its argument `v` is not used by the source. -/
def Population.makeNewGeneration (pow : ℚ → ℚ → ℚ) (pop : Population) (raw : Individual)
    (s : List Draw) : Res Population Unit :=
  match Population.makeNewGenerationLoop pow pop raw (s.length + 1) 0 [] s with
  | Res.ret vNewInd _ s1 => pop.setIndividuals vNewInd s1
  | Res.exit _ => Res.exit pop
  | Res.fault => Res.fault
  | Res.noRun => Res.noRun

/-- The loop of `Population::loss`: `k` organisms are left, `i` is the index. -/
def Population.lossLoop (probLoss : ℚ) :
    Nat → Nat → Population → Int → List Draw → Res Population Int
  | 0, _, pop, nbLosses, s => Res.ret pop nbLosses s
  | k + 1, i, pop, nbLosses, s =>
    match pop.vInd[i]? with
    | none => Res.fault
    | some ind =>
      match ind.loss probLoss s with
      | Res.ret ind1 n s1 =>
        Population.lossLoop probLoss k (i + 1) { pop with vInd := pop.vInd.set i ind1 }
          (nbLosses + n) s1
      | Res.exit ind1 => Res.exit { pop with vInd := pop.vInd.set i ind1 }
      | Res.fault => Res.fault
      | Res.noRun => Res.noRun

/-- `Population::loss`; the value is the total `nbLosses`, which the source only prints. -/
def Population.loss (pop : Population) (probLoss : ℚ) (s : List Draw) : Res Population Int :=
  Population.lossLoop probLoss pop.nbDiploids 0 pop 0 s

/-- The loop of `Population::transposition`: `k` organisms are left, `i` is the index. -/
def Population.transpositionLoop (probTransp0 k : ℚ) :
    Nat → Nat → Population → Int → List Draw → Res Population Int
  | 0, _, pop, nbTransp, s => Res.ret pop nbTransp s
  | n + 1, i, pop, nbTransp, s =>
    match pop.vInd[i]? with
    | none => Res.fault
    | some ind =>
      match ind.transposition probTransp0 k s with
      | Res.ret ind1 m s1 =>
        Population.transpositionLoop probTransp0 k n (i + 1)
          { pop with vInd := pop.vInd.set i ind1 } (nbTransp + m) s1
      | Res.exit ind1 => Res.exit { pop with vInd := pop.vInd.set i ind1 }
      | Res.fault => Res.fault
      | Res.noRun => Res.noRun

/-- `Population::transposition`; the value is the total `nbTransp`, which the source only
prints. -/
def Population.transposition (pop : Population) (probTransp0 k : ℚ) (s : List Draw) :
    Res Population Int :=
  Population.transpositionLoop probTransp0 k pop.nbDiploids 0 pop 0 s

/-! ## Initialization -/

/-- `vSeq.resize( n )`: the vector is cut to `n` sites or filled with sites 0 up to `n`. -/
def resize (vSeq : List Int) (n : Nat) : List Int :=
  vSeq.take n ++ List.replicate (n - vSeq.length) 0

/-- The loop of `Chromosome::initialize`: `k` sites are left, `i` is the index. -/
def Chromosome.initializeLoop (probTEPerSite : ℚ) :
    Nat → Nat → List Int → List Draw → Res (List Int) Unit
  | 0, _, vSeq, s => Res.ret vSeq () s
  | k + 1, i, vSeq, s =>
    match s with
    | [] => Res.noRun
    | d :: rest =>
      match gsl_rng_uniform d with
      | none => Res.noRun
      | some probTE =>
        if probTE < probTEPerSite then
          if i < vSeq.length then
            Chromosome.initializeLoop probTEPerSite k (i + 1) (vSeq.set i 1) rest
          else Res.fault
        else Chromosome.initializeLoop probTEPerSite k (i + 1) vSeq rest

/-- `Chromosome::initialize`. -/
def Chromosome.initialize (c : Chromosome) (s : List Draw) : Res Chromosome Unit :=
  match Chromosome.initializeLoop c.probTEPerSite c.nbSites 0 (resize c.vSeq c.nbSites) s with
  | Res.ret vSeq _ rest => Res.ret { c with vSeq := vSeq } () rest
  | Res.exit vSeq => Res.exit { c with vSeq := vSeq }
  | Res.fault => Res.fault
  | Res.noRun => Res.noRun

/-- The loop of `Individual::initialize`: `k` chromosomes are left.  Each turn builds a
chromosome with the default constructor, sets its four parameters, initializes it and pushes
it onto `vChr`. -/
def Individual.initializeLoop (probTEPerSite : ℚ) :
    Nat → Individual → List Draw → Res Individual Unit
  | 0, ind, s => Res.ret ind () s
  | k + 1, ind, s =>
    match Chromosome.initialize
        { nbSites := ind.nbSitesPerChr, probTEPerSite := probTEPerSite,
          verbose := ind.verbose - 1, r := ind.r, vSeq := [] } s with
    | Res.ret chr _ rest =>
      Individual.initializeLoop probTEPerSite k { ind with vChr := ind.vChr ++ [chr] } rest
    | Res.exit _ => Res.exit ind
    | Res.fault => Res.fault
    | Res.noRun => Res.noRun

/-- The local `probTEPerSite` of `Individual::initialize`,
`float probTEPerSite = expNbTEsPerInd / float( nbChr * nbSitesPerChr )`: both operands are
converted to `float` and the quotient is rounded.  (With `nbChr * nbSitesPerChr = 0` the
quotient is an infinity or not a number, which no site is compared with; the value of the
model is then 0.) -/
def Individual.probTEPerSite (ind : Individual) : ℚ :=
  toFloat (toFloat (ind.expNbTEsPerInd : ℚ) / toFloat ((ind.nbChr * ind.nbSitesPerChr : Nat) : ℚ))

/-- `Individual::initialize`. -/
def Individual.initialize (ind : Individual) (s : List Draw) : Res Individual Unit :=
  Individual.initializeLoop ind.probTEPerSite ind.nbChr ind s

/-- The loop of `Population::initialize`: `k` organisms are left.  Each turn builds an
organism with the default constructor, sets its eight parameters, initializes it and pushes
it onto `vInd`. -/
def Population.initializeLoop : Nat → Population → List Draw → Res Population Unit
  | 0, pop, s => Res.ret pop () s
  | k + 1, pop, s =>
    match Individual.initialize
        { nbChr := pop.nbChrPerInd, nbSitesPerChr := pop.nbSitesPerChr,
          expNbTEsPerInd := pop.expNbTEsPerInd, zygoteSelection := pop.zygoteSelection,
          selMult := pop.selMult, selExp := pop.selExp, verbose := pop.verbose - 1,
          r := pop.r, vChr := [] } s with
    | Res.ret ind _ rest =>
      Population.initializeLoop k { pop with vInd := pop.vInd ++ [ind] } rest
    | Res.exit _ => Res.exit pop
    | Res.fault => Res.fault
    | Res.noRun => Res.noRun

/-- `Population::initialize`. -/
def Population.initialize (pop : Population) (s : List Draw) : Res Population Unit :=
  Population.initializeLoop pop.nbDiploids pop s

/-! ## Occupancy of the loci -/

/-- `Chromosome::isTranspElemAtSite`; `none` when `site` is past the end of the sequence. -/
def Chromosome.isTranspElemAtSite (c : Chromosome) (site : Nat) : Option Bool :=
  match c.vSeq[site]? with
  | none => none
  | some x => some (decide (x = 1))

/-- The statement `++ v[ i ]`; `none` when `i` is past the end of `v`. -/
def incrAt (v : List Int) (i : Nat) : Option (List Int) :=
  match v[i]? with
  | none => none
  | some x => some (v.set i (x + 1))

/-- One statement `if( vChr[ chr ].isTranspElemAtSite( site ) ) ++ vOccInd[ locus ];` of
`Individual::getOccPerLocus`. -/
def Individual.countAt (ind : Individual) (chr site locus : Nat) (vOccInd : List Int) :
    Option (List Int) :=
  match ind.vChr[chr]? with
  | none => none
  | some c =>
    match c.isTranspElemAtSite site with
    | none => none
    | some true => incrAt vOccInd locus
    | some false => some vOccInd

/-- The inner loop of `Individual::getOccPerLocus` over the sites of the pair `chr`,
`chr + 1`: `k` sites are left; the value holds the vector and the counter `locus`. -/
def Individual.getOccPerLocusSites (ind : Individual) (chr : Nat) :
    Nat → Nat → Nat → List Int → Option (List Int × Nat)
  | 0, _, locus, vOccInd => some (vOccInd, locus)
  | k + 1, site, locus, vOccInd =>
    match ind.countAt chr site locus vOccInd with
    | none => none
    | some v1 =>
      match ind.countAt (chr + 1) site locus v1 with
      | none => none
      | some v2 => Individual.getOccPerLocusSites ind chr k (site + 1) (locus + 1) v2

/-- The outer loop `for( chr=0; chr<nbChr; chr+=2 )` of `Individual::getOccPerLocus`: `k`
turns are left. -/
def Individual.getOccPerLocusPairs (ind : Individual) :
    Nat → Nat → Nat → List Int → Option (List Int)
  | 0, _, _, vOccInd => some vOccInd
  | k + 1, chr, locus, vOccInd =>
    match Individual.getOccPerLocusSites ind chr ind.nbSitesPerChr 0 locus vOccInd with
    | none => none
    | some (v1, locus1) => Individual.getOccPerLocusPairs ind k (chr + 2) locus1 v1

/-- `Individual::getOccPerLocus`: the loop makes `(nbChr + 1) / 2` turns; the value is the
vector `vOccInd` afterwards, `none` on an access out of bounds. -/
def Individual.getOccPerLocus (ind : Individual) (vOccInd : List Int) : Option (List Int) :=
  Individual.getOccPerLocusPairs ind ((ind.nbChr + 1) / 2) 0 0 vOccInd

/-- `Individual::getNbTEsForLocus`.  The quotient `(float) locus / nbSitesPerChr` is computed
in single precision: both operands are converted to `float` and the quotient is rounded.  It
is not a number when `nbSitesPerChr` is 0: `none`.  A site index below 0 is out of bounds:
`none`. -/
def Individual.getNbTEsForLocus (ind : Individual) (locus : Nat) : Option Int :=
  if ind.nbSitesPerChr = 0 then none
  else
    let chrPair : Nat :=
      ⌊toFloat (toFloat (locus : ℚ) / toFloat (ind.nbSitesPerChr : ℚ))⌋.toNat
    if locus < ind.nbSitesPerChr * chrPair then none
    else
      match ind.vChr[2 * chrPair]? with
      | none => none
      | some cA =>
        match cA.isTranspElemAtSite (locus - ind.nbSitesPerChr * chrPair) with
        | none => none
        | some a =>
          match ind.vChr[2 * chrPair + 1]? with
          | none => none
          | some cB =>
            match cB.isTranspElemAtSite (locus - ind.nbSitesPerChr * chrPair) with
            | none => none
            | some b => some ((if a then 1 else 0) + (if b then 1 else 0))

/-- The loop of `Population::getOccPerLocus`: `k` organisms are left, `ind` is the index. -/
def Population.getOccPerLocusLoop (vInd : List Individual) :
    Nat → Nat → List (List Int) → Option (List (List Int))
  | 0, _, vOcc => some vOcc
  | k + 1, ind, vOcc =>
    match vInd[ind]?, vOcc[ind]? with
    | some i, some row =>
      match i.getOccPerLocus row with
      | none => none
      | some row1 => Population.getOccPerLocusLoop vInd k (ind + 1) (vOcc.set ind row1)
    | _, _ => none

/-- `Population::getOccPerLocus`. -/
def Population.getOccPerLocus (pop : Population) (vOcc : List (List Int)) :
    Option (List (List Int)) :=
  Population.getOccPerLocusLoop pop.vInd pop.nbDiploids 0 vOcc

/-- The inner loop of `Population::getPropEmptyLoci` over the organisms, for the locus
`loc`: `k` organisms are left. -/
def Population.countEmptyInds (vOcc : List (List Int)) (loc : Nat) :
    Nat → Nat → Int → Option Int
  | 0, _, nbEmptyLoci => some nbEmptyLoci
  | k + 1, ind, nbEmptyLoci =>
    match vOcc[ind]? with
    | none => none
    | some row =>
      match row[loc]? with
      | none => none
      | some x =>
        Population.countEmptyInds vOcc loc k (ind + 1)
          (if x = 0 then nbEmptyLoci + 1 else nbEmptyLoci)

/-- The outer loop of `Population::getPropEmptyLoci` over the loci: `k` loci are left. -/
def Population.countEmptyLoci (vOcc : List (List Int)) (nbDiploids : Nat) :
    Nat → Nat → Int → Option Int
  | 0, _, nbEmptyLoci => some nbEmptyLoci
  | k + 1, loc, nbEmptyLoci =>
    match Population.countEmptyInds vOcc loc nbDiploids 0 nbEmptyLoci with
    | none => none
    | some n1 => Population.countEmptyLoci vOcc nbDiploids k (loc + 1) n1

/-- `Population::getPropEmptyLoci`; `none` on an access out of bounds.  The value returned is
`(float) nbEmptyLoci / ( nbLociPerInd * nbDiploids )`: both counts are converted to `float`
and the quotient is rounded.  When `nbLociPerInd * nbDiploids` is 0 the source computes 0/0,
which is not a number; the value of the model there has no meaning. -/
def Population.getPropEmptyLoci (pop : Population) : Option ℚ :=
  let nbLociPerInd := (pop.nbChrPerInd * pop.nbSitesPerChr) / 2
  match pop.getOccPerLocus (List.replicate pop.nbDiploids (List.replicate nbLociPerInd 0)) with
  | none => none
  | some vOcc =>
    match Population.countEmptyLoci vOcc pop.nbDiploids nbLociPerInd 0 0 with
    | none => none
    | some nbEmptyLoci =>
      some (toFloat (toFloat (nbEmptyLoci : ℚ)
        / toFloat ((nbLociPerInd * pop.nbDiploids : Nat) : ℚ)))

/-! ## Simulation -/

/-- The loop of `Population::getNbTEsPerInd`: `k` organisms are left, `i` is the index. -/
def Population.getNbTEsPerIndLoop (vInd : List Individual) :
    Nat → Nat → List Int → Option (List Int)
  | 0, _, vNbTEsPerInd => some vNbTEsPerInd
  | k + 1, i, vNbTEsPerInd =>
    match vInd[i]? with
    | none => none
    | some ind =>
      match ind.getNbTEs with
      | none => none
      | some nbTEs => Population.getNbTEsPerIndLoop vInd k (i + 1) (vNbTEsPerInd ++ [nbTEs])

/-- `Population::getNbTEsPerInd`: the loads of the organisms; `none` on an access out of
bounds. -/
def Population.getNbTEsPerInd (pop : Population) : Option (List Int) :=
  Population.getNbTEsPerIndLoop pop.vInd pop.nbDiploids 0 []

/-- `Population::getSumNbTEs( void )`: `accumulate` over the loads, from 0. -/
def Population.getSumNbTEs (pop : Population) : Option Int :=
  match pop.getNbTEsPerInd with
  | none => none
  | some vNbTEsPerInd => some vNbTEsPerInd.sum

/-- A row of the output file: the identifier of the simulation, the generation, and the data
of the other columns.  The sum, mean, variance, standard deviation, minimum, quartiles and
maximum are computed by the GSL library from the loads per organism, which the row holds;
the last column is the proportion of empty loci. -/
structure Row where
  simu : Int
  gen : Nat
  nbTEsPerInd : List Int
  propEmptyLoci : ℚ
  deriving DecidableEq

/-- `Population::saveData`: the row appended to the output file (the file itself is not
modelled).  `none` on an access out of bounds; the statistics read the first load, so a
population without organism is out of bounds too. -/
def Population.saveData (pop : Population) (simu : Int) (gen : Nat) : Option Row :=
  match pop.getNbTEsPerInd with
  | none => none
  | some vNbTEsPerInd =>
    if vNbTEsPerInd.length = 0 then none
    else
      match pop.getPropEmptyLoci with
      | none => none
      | some propEmptyLoci =>
        some { simu := simu, gen := gen, nbTEsPerInd := vNbTEsPerInd,
               propEmptyLoci := propEmptyLoci }

/-- Class `Simulation` (Simulation.h); `r` is the identity of the generator handle. -/
structure Simulation where
  simuId : Int
  nbGen : Nat
  nbDiploids : Nat
  nbChrPerInd : Nat
  nbSitesPerChr : Nat
  expNbTEsPerInd : Int
  totalMapDist : Int
  probLoss : ℚ
  probTransp0 : ℚ
  k : ℚ
  zygoteSelection : Bool
  selMult : ℚ
  selExp : ℚ
  outFile : String
  verbose : Int
  r : Nat

/-- A row as `Simulation::run` emits it, together with the population it was computed from
and the draws not yet consumed at that time.  The source writes the row only; the other two
fields are kept by the model to state what the run did. -/
structure Snapshot where
  row : Row
  pop : Population
  rest : List Draw
  deriving DecidableEq

/-- The loop `for( g=1; g<=nbGen; ++g )` of `Simulation::run`: `t` turns are left, `g` is
the generation, `rows` are the rows emitted so far.  The value is the rows emitted and how
the run ends.  (The printing under `verbose > 0` is not modelled; it reads the loads that
`getSumNbTEs` reads next.) -/
def Simulation.runLoop (pow : ℚ → ℚ → ℚ) (raw : Individual) (sim : Simulation) :
    Nat → Nat → Population → List Draw → List Snapshot → List Snapshot × Res Population Unit
  | 0, _, pop, s, rows => (rows, Res.ret pop () s)
  | t + 1, g, pop, s, rows =>
    match pop.getSumNbTEs with
    | none => (rows, Res.fault)
    | some sumNbTEs =>
      if sumNbTEs > 0 then
        match pop.makeNewGeneration pow raw s with
        | Res.ret pop1 _ s1 =>
          match pop1.loss sim.probLoss s1 with
          | Res.ret pop2 _ s2 =>
            match pop2.transposition sim.probTransp0 sim.k s2 with
            | Res.ret pop3 _ s3 =>
              match pop3.saveData sim.simuId g with
              | none => (rows, Res.fault)
              | some row =>
                Simulation.runLoop pow raw sim t (g + 1) pop3 s3
                  (rows ++ [{ row := row, pop := pop3, rest := s3 }])
            | Res.exit pop3 => (rows, Res.exit pop3)
            | Res.fault => (rows, Res.fault)
            | Res.noRun => (rows, Res.noRun)
          | Res.exit pop2 => (rows, Res.exit pop2)
          | Res.fault => (rows, Res.fault)
          | Res.noRun => (rows, Res.noRun)
        | Res.exit pop1 => (rows, Res.exit pop1)
        | Res.fault => (rows, Res.fault)
        | Res.noRun => (rows, Res.noRun)
      else (rows, Res.ret pop () s)

/-- The population that `Simulation::run` builds and configures before it initializes it. -/
def Simulation.newPopulation (sim : Simulation) : Population :=
  { nbDiploids := sim.nbDiploids, nbChrPerInd := sim.nbChrPerInd,
    nbSitesPerChr := sim.nbSitesPerChr, expNbTEsPerInd := sim.expNbTEsPerInd,
    totalMapDist := sim.totalMapDist, zygoteSelection := sim.zygoteSelection,
    selMult := sim.selMult, selExp := sim.selExp, verbose := sim.verbose - 1, r := sim.r,
    vInd := [] }

/-- `Simulation::run`: the rows emitted, in the order of emission, and how the run ends.
`raw` is the indeterminate content of a fresh `Individual`. -/
def Simulation.run (pow : ℚ → ℚ → ℚ) (raw : Individual) (sim : Simulation) (s : List Draw) :
    List Snapshot × Res Population Unit :=
  match sim.newPopulation.initialize s with
  | Res.ret pop _ s1 =>
    match pop.saveData sim.simuId 0 with
    | none => ([], Res.fault)
    | some row =>
      Simulation.runLoop pow raw sim sim.nbGen 1 pop s1 [{ row := row, pop := pop, rest := s1 }]
  | Res.exit pop => ([], Res.exit pop)
  | Res.fault => ([], Res.fault)
  | Res.noRun => ([], Res.noRun)

/-- A population of `nbDiploids` well-formed organisms of `nbChrPerInd` chromosomes of
`nbSitesPerChr` sites. -/
def Population.WellFormed (pop : Population) : Prop :=
  pop.vInd.length = pop.nbDiploids ∧
  ∀ ind ∈ pop.vInd, ind.WellFormed ∧ ind.nbChr = pop.nbChrPerInd ∧
    ind.nbSitesPerChr = pop.nbSitesPerChr

/-- Every site of the sequence satisfies `P`. -/
def Sites (P : Int → Prop) (v : List Int) : Prop := ∀ x ∈ v, P x

/-- Every site of every chromosome of the organism satisfies `P`. -/
def Individual.AllSites (P : Int → Prop) (ind : Individual) : Prop :=
  ∀ c ∈ ind.vChr, Sites P c.vSeq

/-- Every site of every organism of the population satisfies `P`. -/
def Population.AllSites (P : Int → Prop) (pop : Population) : Prop :=
  ∀ ind ∈ pop.vInd, ind.AllSites P

/-- Every site of every chromosome of the organism is 0 or 1. -/
def Individual.BinarySites (ind : Individual) : Prop := ∀ c ∈ ind.vChr, Binary c.vSeq

/-- Every site of every organism of the population is 0 or 1. -/
def Population.BinarySites (pop : Population) : Prop := ∀ ind ∈ pop.vInd, ind.BinarySites

/-! ## Outcomes -/

/-- The outcome is neither `exit` nor `fault`, and satisfies `P` when it is a return. -/
def Res.Holds {σ α : Type} (P : σ → α → List Draw → Prop) : Res σ α → Prop
  | Res.ret st a rest => P st a rest
  | Res.noRun => True
  | Res.exit _ => False
  | Res.fault => False

/-- Sum of the loads of the chromosomes held, the value of `Individual::getNbTEs` on a
well-formed organism (`getNbTEs_eq_load`). -/
def Individual.load (ind : Individual) : Int := (ind.vChr.map Chromosome.getNbTEs).sum

/-- The call returned. -/
def Res.isRet {σ α : Type} : Res σ α → Bool
  | Res.ret _ _ _ => true
  | _ => false

/-- 1 when chromosome `chr` of the organism carries an element at `site`, else 0. -/
def Individual.occAt (ind : Individual) (chr site : Nat) : Int :=
  match ind.vChr[chr]? with
  | none => 0
  | some c => if c.vSeq[site]? = some 1 then 1 else 0

/-- One generation of `Simulation::run` between two rows: the load of the population of row
`a` is positive, and the population of row `b` is what `makeNewGeneration`, then `loss`,
then `transposition` make of it, each reading the draws that the one before left; the row
`b` is what `saveData` writes for it, with the next generation number. -/
def Simulation.Step (pow : ℚ → ℚ → ℚ) (raw : Individual) (sim : Simulation)
    (a b : Snapshot) : Prop :=
  (∃ sumNbTEs : Int, a.pop.getSumNbTEs = some sumNbTEs ∧ 0 < sumNbTEs) ∧
  ∃ (pop1 : Population) (s1 : List Draw) (pop2 : Population) (nbLosses : Int)
    (s2 : List Draw) (nbTransp : Int),
    a.pop.makeNewGeneration pow raw a.rest = Res.ret pop1 () s1 ∧
    pop1.loss sim.probLoss s1 = Res.ret pop2 nbLosses s2 ∧
    pop2.transposition sim.probTransp0 sim.k s2 = Res.ret b.pop nbTransp b.rest ∧
    b.pop.saveData sim.simuId (a.row.gen + 1) = some b.row

/-- The invariant of the core operators: the organism has exactly 4 chromosomes (its count
`nbChr` and its vector `vChr`), each of length `nbSitesPerChr` (the field `nbSites` and the
sequence), every site is 0 or 1, and `getNbTEs` is the sum of the loads of the chromosomes. -/
def Individual.Core (ind : Individual) : Prop :=
  ind.nbChr = 4 ∧ ind.vChr.length = 4 ∧
  (∀ c ∈ ind.vChr,
    c.nbSites = ind.nbSitesPerChr ∧ c.vSeq.length = ind.nbSitesPerChr ∧ Binary c.vSeq) ∧
  ind.getNbTEs = some ind.load

/-- The organism `c` is an offspring of the population: the fecundation, on a fresh organism,
of one gamete of each of two copies of members at two distinct indices. -/
def Population.IsOffspring (pop : Population) (raw : Individual) (c : Individual) : Prop :=
  ∃ (i1 i2 : Nat) (m1 m2 : Individual) (s1 s2 r1 r2 : List Draw) (q1 q2 : Individual)
    (gam1 gam2 : List Chromosome),
    i1 ≠ i2 ∧ i1 < pop.nbDiploids ∧ i2 < pop.nbDiploids ∧
    pop.vInd[i1]? = some m1 ∧ pop.vInd[i2]? = some m2 ∧
    ((Individual.ctor raw).assign m1).getGamete pop.totalMapDist [] s1
      = Res.ret (q1, gam1) () r1 ∧
    ((Individual.ctor raw).assign m2).getGamete pop.totalMapDist [] s2
      = Res.ret (q2, gam2) () r2 ∧
    (Individual.ctor raw).fecundation gam1 gam2 pop.zygoteSelection pop.selMult pop.selExp
      (pop.verbose - 1) = some c

/-- The candidates `trace`, each with the value of `isViable`, are the ones that the turns of
the loop of `makeNewGeneration` build one after the other from the stream `s`, and `rest` are
the draws left after the last one. -/
def Population.Candidates (pow : ℚ → ℚ → ℚ) (pop : Population) (raw : Individual) :
    List (Individual × Bool) → List Draw → List Draw → Prop
  | [], s, rest => s = rest
  | cv :: trace, s, rest =>
    ∃ s1, pop.makeCandidate pow raw s = Candidate.made cv.1 cv.2 s1 ∧
      Population.Candidates pow pop raw trace s1 rest

/-- The candidates that passed `isViable`, in the order of the trace. -/
def accepted (trace : List (Individual × Bool)) : List Individual :=
  (trace.filter (fun cv => cv.2)).map (fun cv => cv.1)

/-- The load of the pair `p` of homologues: the chromosomes `2 p` and `2 p + 1`. -/
def Individual.pairLoad (ind : Individual) (p : Nat) : Int :=
  (((ind.vChr.drop (2 * p)).take 2).map Chromosome.getNbTEs).sum

/-! ## Concrete objects -/

/-- The chromosome built by `Chromosome( ns, pts, v, rng )` with `ns` the length of `sites`,
`pts = 0`, `v = 0`, handle 0, followed by `setSequence( sites )`. -/
def Chromosome.ofSites (sites : List Int) : Chromosome :=
  { nbSites := sites.length, probTEPerSite := 0, verbose := 0, r := 0, vSeq := sites }

/-- Closed form of one crossing-over at `coLocus`: the suffixes from `coLocus` of the two
site vectors are exchanged (`crossOver_eq_swapSuffix` proves it equal to the loop). -/
def swapSuffix (coLocus : Nat) (p : Chromosome × Chromosome) : Chromosome × Chromosome :=
  ({ p.1 with vSeq := p.1.vSeq.take coLocus ++ p.2.vSeq.drop coLocus },
   { p.2 with vSeq := p.2.vSeq.take coLocus ++ p.1.vSeq.drop coLocus })

/-- The organism of `test_Individual_recombine`: 2 chromosomes of 10 sites, expected load 0,
after `initialize`. -/
def testInd : Individual :=
  { nbChr := 2, nbSitesPerChr := 10, expNbTEsPerInd := 0, zygoteSelection := false,
    selMult := 0, selExp := 0, verbose := 0, r := 0,
    vChr := [Chromosome.ofSites [0, 0, 0, 0, 0, 0, 0, 0, 0, 0],
             Chromosome.ofSites [0, 0, 0, 0, 0, 0, 0, 0, 0, 0]] }

/-- The all-empty chromosome `chr1` of `test_Individual_recombine`. -/
def testChr1 : Chromosome := Chromosome.ofSites [0, 0, 0, 0, 0, 0, 0, 0, 0, 0]

/-- The all-occupied chromosome `chr2` of `test_Individual_recombine`. -/
def testChr2 : Chromosome := Chromosome.ofSites [1, 1, 1, 1, 1, 1, 1, 1, 1, 1]

/-- An organism of 4 chromosomes of 3 sites. -/
def fourChrInd : Individual :=
  { nbChr := 4, nbSitesPerChr := 3, expNbTEsPerInd := 0, zygoteSelection := false,
    selMult := 0, selExp := 0, verbose := 0, r := 0,
    vChr := [Chromosome.ofSites [1, 1, 0], Chromosome.ofSites [0, 0, 0],
             Chromosome.ofSites [0, 1, 0], Chromosome.ofSites [1, 0, 1]] }

/-- An organism of 4 chromosomes of 3 sites that carries one element, on chromosome 0, under
zygote selection with multiplier 1 and exponent 1. -/
def carrier : Individual :=
  { nbChr := 4, nbSitesPerChr := 3, expNbTEsPerInd := 1, zygoteSelection := true,
    selMult := 1, selExp := 1, verbose := 0, r := 0,
    vChr := [Chromosome.ofSites [1, 0, 0], Chromosome.ofSites [0, 0, 0],
             Chromosome.ofSites [0, 0, 0], Chromosome.ofSites [0, 0, 0]] }

/-- A population of two such organisms, under zygote selection. -/
def twoPop : Population :=
  { nbDiploids := 2, nbChrPerInd := 4, nbSitesPerChr := 3, expNbTEsPerInd := 1,
    totalMapDist := 1, zygoteSelection := true, selMult := 1, selExp := 1, verbose := 0,
    r := 0, vInd := [carrier, carrier] }

/-- The offspring of two gametes without element, as `fecundation` builds it in
`makeNewGeneration` on `twoPop`. -/
def emptyChild : Individual :=
  { nbChr := 4, nbSitesPerChr := 3, expNbTEsPerInd := 0, zygoteSelection := true,
    selMult := 1, selExp := 1, verbose := -1, r := 0,
    vChr := [Chromosome.ofSites [0, 0, 0], Chromosome.ofSites [0, 0, 0],
             Chromosome.ofSites [0, 0, 0], Chromosome.ofSites [0, 0, 0]] }

/-- The offspring that received chromosome 0 of its first parent in `twoPop`. -/
def loadedChild : Individual :=
  { emptyChild with
    vChr := [Chromosome.ofSites [1, 0, 0], Chromosome.ofSites [0, 0, 0],
             Chromosome.ofSites [0, 0, 0], Chromosome.ofSites [0, 0, 0]] }

/-- The draws of one candidate on `twoPop`: the couple 0, 1; for each parent no
crossing-over and a pick in each pair (`pickA` in the first pair of the first parent); the
viability draw 1/2. -/
def candidateDraws (pickA : Nat) : List Draw :=
  [Draw.uniformInt 0, Draw.uniformInt 1,
   Draw.poisson 0, Draw.uniformInt pickA, Draw.poisson 0, Draw.uniformInt 0,
   Draw.poisson 0, Draw.uniformInt 1, Draw.poisson 0, Draw.uniformInt 0,
   Draw.uniform (1 / 2)]

/-- An organism of 4 chromosomes of 1 site, all occupied: its load is its capacity. -/
def fullInd : Individual :=
  { nbChr := 4, nbSitesPerChr := 1, expNbTEsPerInd := 4, zygoteSelection := false,
    selMult := 0, selExp := 0, verbose := 0, r := 0,
    vChr := [Chromosome.ofSites [1], Chromosome.ofSites [1],
             Chromosome.ofSites [1], Chromosome.ofSites [1]] }

/-- The organism of the occupancy scenario: 4 chromosomes of 2 sites, 1 0, 1 0, 0 1 and
0 0. -/
def occInd : Individual :=
  { nbChr := 4, nbSitesPerChr := 2, expNbTEsPerInd := 4, zygoteSelection := false,
    selMult := 0, selExp := 0, verbose := 0, r := 0,
    vChr := [Chromosome.ofSites [1, 0], Chromosome.ofSites [1, 0],
             Chromosome.ofSites [0, 1], Chromosome.ofSites [0, 0]] }

/-- An organism of 4 chromosomes of `N` sites that carries no element: what
`Individual::initialize` builds with `expNbTEsPerInd = 0`. -/
def zeroInd (N : Nat) : Individual :=
  { nbChr := 4, nbSitesPerChr := N, expNbTEsPerInd := 0, zygoteSelection := false,
    selMult := 0, selExp := 0, verbose := 0, r := 0,
    vChr := List.replicate 4
      { nbSites := N, probTEPerSite := 0, verbose := 0, r := 0, vSeq := List.replicate N 0 } }

/-- A configuration that the command line accepts: 2 organisms of 4 chromosomes of 4 sites,
1 element expected per organism, the default rates of the program, no selection, 3
generations. -/
def runSim : Simulation :=
  { simuId := 1, nbGen := 3, nbDiploids := 2, nbChrPerInd := 4, nbSitesPerChr := 4,
    expNbTEsPerInd := 1, totalMapDist := 1, probLoss := 1 / 200, probTransp0 := 1 / 100,
    k := 1 / 20, zygoteSelection := false, selMult := 0, selExp := 0, outFile := "data.tsv",
    verbose := 0, r := 0 }

/-- The configuration `runSim` with one generation. -/
def oneGenSim : Simulation := { runSim with nbGen := 1 }

/-- Some content of the storage of a fresh `Individual`. -/
def rawInd : Individual :=
  { nbChr := 0, nbSitesPerChr := 0, expNbTEsPerInd := 0, zygoteSelection := false,
    selMult := 0, selExp := 0, verbose := 0, r := 0, vChr := [] }

/-- Draws of the initialization of `runSim` (probability 1/16 per site): the first organism
gets one element, at site 0 of its chromosome 0, the second organism none. -/
def initDraws : List Draw :=
  Draw.uniform 0 :: List.replicate 31 (Draw.uniform (1 / 2))

/-- Draws of one candidate of `makeNewGeneration` in `runSim`: the parents 0 and 1, no
crossing-over, the homologues `h1` and 0 of the first parent, `h2` and 0 of the second. -/
def pairDraws (h1 h2 : Nat) : List Draw :=
  [Draw.uniformInt 0, Draw.uniformInt 1,
   Draw.poisson 0, Draw.uniformInt h1, Draw.poisson 0, Draw.uniformInt 0,
   Draw.poisson 0, Draw.uniformInt h2, Draw.poisson 0, Draw.uniformInt 0]

/-- A stream for one full generation of `runSim`: both offspring inherit the element, the
first one loses it (chromosome 0, rank 0), the second one gains an element (chromosome 2,
site 3). -/
def fullDraws : List Draw :=
  initDraws ++ pairDraws 0 0 ++ pairDraws 0 0 ++
    [Draw.poisson 1, Draw.uniformInt 0, Draw.uniformInt 0, Draw.poisson 0,
     Draw.poisson 1, Draw.uniformInt 2, Draw.uniformInt 3]

/-- A population of two organisms without element, under zygote selection. -/
def extinctPop : Population :=
  { nbDiploids := 2, nbChrPerInd := 4, nbSitesPerChr := 2, expNbTEsPerInd := 0,
    totalMapDist := 1, zygoteSelection := true, selMult := 1 / 2, selExp := 1, verbose := 0,
    r := 0, vInd := [zeroInd 2, zeroInd 2] }

/-- Draws of one generation of `extinctPop`: two candidates, each followed by the draw of
`isViable`. -/
def extinctDraws : List Draw :=
  pairDraws 0 0 ++ Draw.uniform (1 / 2) :: (pairDraws 0 0 ++ [Draw.uniform (1 / 2)])

/-- The stream of the uniform draws `uss`, one list per chromosome, the first list first. -/
def uniformDraws (uss : List (List ℚ)) : List Draw :=
  (uss.map (List.map Draw.uniform)).flatten

/-- An organism without chromosome, as the default constructor and the setters of
`Population::initialize` leave it in `freshPop`. -/
def freshInd : Individual :=
  { nbChr := 4, nbSitesPerChr := 2, expNbTEsPerInd := 4, zygoteSelection := false,
    selMult := 0, selExp := 0, verbose := -1, r := 0, vChr := [] }

/-- Stored draws for the 4 chromosomes of 2 sites of an organism. -/
def freshDraws : List (List ℚ) := [[1 / 4, 3 / 4], [3 / 4, 3 / 4], [0, 1 / 4], [1, 1 / 2]]

/-- Draws of one call of `getGamete` without crossing-over: the homologue 0 of each pair. -/
def gameteDraws : List Draw :=
  [Draw.poisson 0, Draw.uniformInt 0, Draw.poisson 0, Draw.uniformInt 0]

/-- The chromosome of `N` sites 0 of `zeroInd N`. -/
def zeroChr (N : Nat) : Chromosome :=
  { nbSites := N, probTEPerSite := 0, verbose := 0, r := 0, vSeq := List.replicate N 0 }

/-- An organism of load 1 and fitness 1/2, under zygote selection. -/
def halfInd : Individual := { loadedChild with selMult := 1 / 2 }

/-- An organism of 4 chromosomes of 1 site with a single element (load 1, capacity 4). -/
def singleInd : Individual :=
  { nbChr := 4, nbSitesPerChr := 1, expNbTEsPerInd := 1, zygoteSelection := false,
    selMult := 0, selExp := 0, verbose := 0, r := 0,
    vChr := [Chromosome.ofSites [1], Chromosome.ofSites [0], Chromosome.ofSites [0],
             Chromosome.ofSites [0]] }

/-! ## Lemmas on single precision -/

/-- The rounding is the floor or the next integer, and within one half of the number. -/
theorem roundHalfEven_bounds (m : ℚ) :
    ⌊m⌋ ≤ roundHalfEven m ∧ roundHalfEven m ≤ ⌊m⌋ + 1 ∧
    (roundHalfEven m : ℚ) ≤ m + 1 / 2 ∧ m - 1 / 2 ≤ (roundHalfEven m : ℚ) := by
  have hf := Int.floor_le m
  have hl := Int.lt_floor_add_one m
  unfold roundHalfEven
  split_ifs with h1 h2 h3
  · refine ⟨le_refl _, by omega, by linarith, by linarith⟩
  · refine ⟨by omega, le_refl _, ?_, ?_⟩ <;> push_cast <;> linarith
  · refine ⟨le_refl _, by omega, by linarith, by linarith⟩
  · refine ⟨by omega, le_refl _, ?_, ?_⟩ <;> push_cast <;> linarith

/-- An integer is its own rounding. -/
theorem roundHalfEven_intCast (z : Int) : roundHalfEven (z : ℚ) = z := by
  unfold roundHalfEven
  simp

/-- The exponent of a positive `q`. -/
theorem log_bounds (q : ℚ) (hq : 0 < q) :
    (2 : ℚ) ^ (Int.log 2 q) ≤ q ∧ q < (2 : ℚ) ^ (Int.log 2 q + 1) := by
  have h1 := Int.zpow_log_le_self (b := 2) (by norm_num) hq
  have h2 := Int.lt_zpow_succ_log_self (b := 2) (by norm_num) q
  exact ⟨by exact_mod_cast h1, by exact_mod_cast h2⟩

/-- The exponent of `q` is the `e` with `2 ^ e ≤ q < 2 ^ (e + 1)`. -/
theorem log_eq (q : ℚ) (hq : 0 < q) (e : Int) (h1 : (2 : ℚ) ^ e ≤ q) (h2 : q < (2 : ℚ) ^ (e + 1)) :
    Int.log 2 q = e := by
  have a : e ≤ Int.log 2 q := (Int.zpow_le_iff_le_log (b := 2) (by norm_num) hq).1
    (by exact_mod_cast h1)
  have b : Int.log 2 q < e + 1 := (Int.lt_zpow_iff_log_lt (b := 2) (by norm_num) hq).1
    (by exact_mod_cast h2)
  omega

/-- The unit in the last place of a positive `q`, and the significand it scales. -/
theorem ulp_bounds (q : ℚ) :
    0 < (2 : ℚ) ^ (Int.log 2 q - 23) ∧
    (2 : ℚ) ^ (Int.log 2 q) = 2 ^ 23 * (2 : ℚ) ^ (Int.log 2 q - 23) ∧
    (2 : ℚ) ^ (Int.log 2 q + 1) = 2 ^ 24 * (2 : ℚ) ^ (Int.log 2 q - 23) := by
  refine ⟨by positivity, ?_, ?_⟩
  · have : Int.log 2 q = 23 + (Int.log 2 q - 23) := by ring
    conv_lhs => rw [this, zpow_add₀ (by norm_num : (2 : ℚ) ≠ 0)]
    norm_num
  · have : Int.log 2 q + 1 = 24 + (Int.log 2 q - 23) := by ring
    conv_lhs => rw [this, zpow_add₀ (by norm_num : (2 : ℚ) ≠ 0)]
    norm_num

/-- A positive `q` whose significand is an integer is its own rounding. -/
theorem toFloatPos_exact (q : ℚ) (z : Int)
    (h : q / (2 : ℚ) ^ (Int.log 2 q - 23) = z) : toFloatPos q = q := by
  have hU : (2 : ℚ) ^ (Int.log 2 q - 23) ≠ 0 := by positivity
  unfold toFloatPos
  rw [h, roundHalfEven_intCast, ← h]
  field_simp

/-- Bounds of the rounding of a positive `q`: it stays in the closed binade of `q` and within
half a unit in the last place of `q`. -/
theorem toFloatPos_bounds (q : ℚ) (hq : 0 < q) :
    (2 : ℚ) ^ (Int.log 2 q) ≤ toFloatPos q ∧ toFloatPos q ≤ (2 : ℚ) ^ (Int.log 2 q + 1) ∧
    toFloatPos q ≤ q + (2 : ℚ) ^ (Int.log 2 q - 23) / 2 := by
  obtain ⟨hU, e1, e2⟩ := ulp_bounds q
  obtain ⟨l1, l2⟩ := log_bounds q hq
  obtain ⟨b1, b2, b3, b4⟩ := roundHalfEven_bounds (q / (2 : ℚ) ^ (Int.log 2 q - 23))
  have m1 : (2 : ℚ) ^ 23 ≤ q / (2 : ℚ) ^ (Int.log 2 q - 23) := by
    rw [le_div_iff₀ hU, ← e1]; exact l1
  have m2 : q / (2 : ℚ) ^ (Int.log 2 q - 23) < (2 : ℚ) ^ 24 := by
    rw [div_lt_iff₀ hU, ← e2]; exact l2
  have f1 : (2 : Int) ^ 23 ≤ ⌊q / (2 : ℚ) ^ (Int.log 2 q - 23)⌋ := by
    apply Int.le_floor.2
    push_cast
    exact m1
  have f2 : ⌊q / (2 : ℚ) ^ (Int.log 2 q - 23)⌋ < (2 : Int) ^ 24 := by
    apply Int.floor_lt.2
    push_cast
    exact m2
  have r1 : ((2 : Int) ^ 23 : ℚ) ≤ (roundHalfEven (q / (2 : ℚ) ^ (Int.log 2 q - 23)) : ℚ) := by
    exact_mod_cast le_trans f1 b1
  have r2 : (roundHalfEven (q / (2 : ℚ) ^ (Int.log 2 q - 23)) : ℚ) ≤ ((2 : Int) ^ 24 : ℚ) := by
    have : roundHalfEven (q / (2 : ℚ) ^ (Int.log 2 q - 23)) ≤ (2 : Int) ^ 24 := by omega
    exact_mod_cast this
  unfold toFloatPos
  refine ⟨?_, ?_, ?_⟩
  · rw [e1]
    exact mul_le_mul_of_nonneg_right (by exact_mod_cast r1) hU.le
  · rw [e2]
    exact mul_le_mul_of_nonneg_right (by exact_mod_cast r2) hU.le
  · have := mul_le_mul_of_nonneg_right b3 hU.le
    rw [add_mul, div_mul_cancel₀ q hU.ne.symm] at this
    linarith

/-- Zero is a single-precision number. -/
theorem toFloat_zero : toFloat 0 = 0 := by
  simp [toFloat]

/-- Conversion of a positive number. -/
theorem toFloat_pos (q : ℚ) (hq : 0 < q) : toFloat q = toFloatPos q := by
  simp [toFloat, hq, hq.ne.symm]

/-- A number `n * 2 ^ j` with `n < 2 ^ 24` is a single-precision number. -/
theorem toFloat_exact (n : Nat) (j : Int) (hn : n < 2 ^ 24) :
    toFloat ((n : ℚ) * (2 : ℚ) ^ j) = (n : ℚ) * (2 : ℚ) ^ j := by
  rcases Nat.eq_zero_or_pos n with h0 | hpos
  · subst h0
    simp [toFloat]
  have hP : (0 : ℚ) < (2 : ℚ) ^ j := by positivity
  have hq : (0 : ℚ) < (n : ℚ) * (2 : ℚ) ^ j := mul_pos (by exact_mod_cast hpos) hP
  rw [toFloat_pos _ hq]
  obtain ⟨l1, l2⟩ := log_bounds _ hq
  -- the exponent is below `j + 24`
  have hlt : (n : ℚ) * (2 : ℚ) ^ j < (2 : ℚ) ^ (j + 24) := by
    rw [zpow_add₀ (by norm_num : (2 : ℚ) ≠ 0), mul_comm ((2 : ℚ) ^ j)]
    apply mul_lt_mul_of_pos_right _ hP
    exact_mod_cast hn
  have he : Int.log 2 ((n : ℚ) * (2 : ℚ) ^ j) < j + 24 :=
    (Int.lt_zpow_iff_log_lt (b := 2) (by norm_num) hq).1 (by exact_mod_cast hlt)
  obtain ⟨k, hk⟩ : ∃ k : Nat, j = (Int.log 2 ((n : ℚ) * (2 : ℚ) ^ j) - 23) + k :=
    ⟨(j - (Int.log 2 ((n : ℚ) * (2 : ℚ) ^ j) - 23)).toNat, by omega⟩
  apply toFloatPos_exact _ ((n : Int) * 2 ^ k)
  have hU : (2 : ℚ) ^ (Int.log 2 ((n : ℚ) * (2 : ℚ) ^ j) - 23) ≠ 0 := by positivity
  rw [div_eq_iff hU]
  conv_lhs => rw [hk, zpow_add₀ (by norm_num : (2 : ℚ) ≠ 0)]
  push_cast
  rw [zpow_natCast]
  ring

/-- The integers up to `2 ^ 24` are single-precision numbers. -/
theorem toFloat_natCast (n : Nat) (hn : n ≤ 2 ^ 24) : toFloat (n : ℚ) = n := by
  rcases Nat.lt_or_ge n (2 ^ 24) with h | h
  · have := toFloat_exact n 0 h
    simpa using this
  · have e : n = 2 ^ 24 := by omega
    have := toFloat_exact 1 24 (by norm_num)
    subst e
    norm_num at this ⊢
    exact this

/-- A draw of `[0, 1)` stored in a `float` is a value of `[0, 1]`. -/
theorem toFloat_range (u : ℚ) (h0 : 0 ≤ u) (h1 : u < 1) : 0 ≤ toFloat u ∧ toFloat u ≤ 1 := by
  rcases eq_or_lt_of_le h0 with h | h
  · subst h
    simp [toFloat_zero]
  rw [toFloat_pos u h]
  obtain ⟨b1, b2, _⟩ := toFloatPos_bounds u h
  have he : Int.log 2 u < 0 :=
    (Int.lt_zpow_iff_log_lt (b := 2) (by norm_num) h).1 (by simpa using h1)
  constructor
  · exact le_trans (by positivity) b1
  · refine le_trans b2 ?_
    have : (2 : ℚ) ^ (Int.log 2 u + 1) ≤ (2 : ℚ) ^ (0 : Int) :=
      zpow_le_zpow_right₀ (by norm_num) (by omega)
    simpa using this

/-- Rounding up: the fractional part is above one half. -/
theorem roundHalfEven_up (m : ℚ) (f : Int) (h1 : (f : ℚ) + 1 / 2 < m) (h2 : m < (f : ℚ) + 1) :
    roundHalfEven m = f + 1 := by
  have hf : ⌊m⌋ = f := Int.floor_eq_iff.2 ⟨by linarith, h2⟩
  unfold roundHalfEven
  rw [hf, if_neg (by linarith), if_pos (by linarith)]

/-- A tie goes to the even integer. -/
theorem roundHalfEven_tie (m : ℚ) (f : Int) (h1 : m = (f : ℚ) + 1 / 2) (h2 : f % 2 = 0) :
    roundHalfEven m = f := by
  have hf : ⌊m⌋ = f := Int.floor_eq_iff.2 ⟨by linarith, by linarith⟩
  unfold roundHalfEven
  rw [hf, if_neg (by linarith), if_neg (by linarith), if_pos h2]

/-- The `int` 16777217 converted to `float` is 16777216. -/
theorem toFloat_two_pow_24_succ : toFloat 16777217 = 16777216 := by
  have hl : Int.log 2 (16777217 : ℚ) = 24 := log_eq _ (by norm_num) 24 (by norm_num) (by norm_num)
  rw [toFloat_pos _ (by norm_num)]
  unfold toFloatPos
  rw [hl, roundHalfEven_tie _ 8388608 (by norm_num) (by decide)]
  norm_num

/-- The largest double that a 32-bit generator returns, stored in a `float`, is 1. -/
theorem toFloat_near_one : toFloat (1 - 1 / 2 ^ 32) = 1 := by
  have hl : Int.log 2 (1 - 1 / 2 ^ 32 : ℚ) = -1 :=
    log_eq _ (by norm_num) (-1) (by norm_num) (by norm_num)
  rw [toFloat_pos _ (by norm_num)]
  unfold toFloatPos
  rw [hl, roundHalfEven_up _ 16777215 (by norm_num) (by norm_num)]
  norm_num

/-- The floor of a single-precision quotient of two naturals below `2 ^ 24` is their
integer quotient. -/
theorem floor_toFloat_div (a N : Nat) (hN : 0 < N) (hN2 : N ≤ 2 ^ 24) (ha : a < 2 ^ 24) :
    ⌊toFloat (toFloat (a : ℚ) / toFloat (N : ℚ))⌋ = ((a / N : Nat) : Int) := by
  rw [toFloat_natCast a ha.le, toFloat_natCast N hN2]
  have hNq : (0 : ℚ) < (N : ℚ) := by exact_mod_cast hN
  rcases Nat.eq_zero_or_pos a with h0 | hpos
  · subst h0
    simp [toFloat_zero]
  have hq : (0 : ℚ) < (a : ℚ) / (N : ℚ) := div_pos (by exact_mod_cast hpos) hNq
  rw [toFloat_pos _ hq]
  obtain ⟨hU, e1, e2⟩ := ulp_bounds ((a : ℚ) / (N : ℚ))
  obtain ⟨l1, l2⟩ := log_bounds _ hq
  obtain ⟨_, _, b3⟩ := toFloatPos_bounds _ hq
  obtain ⟨r1, _, _, _⟩ := roundHalfEven_bounds
    ((a : ℚ) / (N : ℚ) / (2 : ℚ) ^ (Int.log 2 ((a : ℚ) / (N : ℚ)) - 23))
  -- the integer quotient
  have hd1 : (a / N) * N ≤ a := Nat.div_mul_le_self a N
  have hd2 : a + 1 ≤ (a / N + 1) * N := by
    have := Nat.lt_mul_div_succ a hN
    rw [Nat.mul_comm] at this
    exact this
  have hd1q : ((a / N : Nat) : ℚ) ≤ (a : ℚ) / (N : ℚ) := by
    rw [le_div_iff₀ hNq]
    exact_mod_cast hd1
  have hd2q : (a : ℚ) / (N : ℚ) + 1 / (N : ℚ) ≤ ((a / N : Nat) : ℚ) + 1 := by
    rw [← add_div, div_le_iff₀ hNq]
    exact_mod_cast hd2
  apply Int.floor_eq_iff.2
  constructor
  · -- the integer quotient is a multiple of the unit in the last place
    have he : Int.log 2 ((a : ℚ) / (N : ℚ)) < 24 := by
      apply (Int.lt_zpow_iff_log_lt (b := 2) (by norm_num) hq).1
      have h4 : (a : ℚ) < 2 ^ 24 := by exact_mod_cast ha
      have h5 : (a : ℚ) / (N : ℚ) ≤ (a : ℚ) := div_le_self (by positivity) (by exact_mod_cast hN)
      have : (a : ℚ) / (N : ℚ) < (2 : ℚ) ^ (24 : Int) := by
        rw [show ((2 : ℚ) ^ (24 : Int)) = 2 ^ 24 by norm_num]
        linarith
      exact_mod_cast this
    obtain ⟨k, hk⟩ : ∃ k : Nat, Int.log 2 ((a : ℚ) / (N : ℚ)) - 23 = -(k : Int) :=
      ⟨(23 - Int.log 2 ((a : ℚ) / (N : ℚ))).toNat, by omega⟩
    have hUk : (2 : ℚ) ^ (Int.log 2 ((a : ℚ) / (N : ℚ)) - 23) * 2 ^ k = 1 := by
      rw [hk, zpow_neg, zpow_natCast]
      field_simp
    have hfl : ((a / N : Nat) : Int) * 2 ^ k
        ≤ ⌊(a : ℚ) / (N : ℚ) / (2 : ℚ) ^ (Int.log 2 ((a : ℚ) / (N : ℚ)) - 23)⌋ := by
      apply Int.le_floor.2
      rw [le_div_iff₀ hU]
      push_cast
      rw [mul_assoc, mul_comm ((2 : ℚ) ^ k), hUk, mul_one]
      exact hd1q
    have hR : (((a / N : Nat) : Int) * 2 ^ k : ℚ)
        ≤ (roundHalfEven
            ((a : ℚ) / (N : ℚ) / (2 : ℚ) ^ (Int.log 2 ((a : ℚ) / (N : ℚ)) - 23)) : ℚ) := by
      exact_mod_cast le_trans hfl r1
    have := mul_le_mul_of_nonneg_right hR hU.le
    rw [mul_assoc, mul_comm ((2 : ℚ) ^ k), hUk, mul_one] at this
    unfold toFloatPos
    exact this
  · -- half a unit in the last place is below `1 / N`
    have hu : (2 : ℚ) ^ (Int.log 2 ((a : ℚ) / (N : ℚ)) - 23) / 2 < 1 / (N : ℚ) := by
      rw [lt_div_iff₀ hNq]
      have h3 : 2 ^ 23 * (2 : ℚ) ^ (Int.log 2 ((a : ℚ) / (N : ℚ)) - 23) * (N : ℚ) ≤ (a : ℚ) := by
        rw [← e1]
        exact (le_div_iff₀ hNq).1 l1
      have h4 : (a : ℚ) < 2 ^ 24 := by exact_mod_cast ha
      nlinarith
    rw [Int.cast_natCast]
    linarith

/-! ## Rounding to a precision -/

/-- Single precision is the rounding to 24 significant bits. -/
theorem toFloat_eq_roundTo (q : ℚ) : toFloat q = roundTo 23 q := by
  simp [toFloat, roundTo, toFloatPos, roundPos]

/-- The rounding to the nearest integer is monotone. -/
theorem roundHalfEven_mono {m n : ℚ} (h : m ≤ n) : roundHalfEven m ≤ roundHalfEven n := by
  obtain ⟨a1, a2, _, _⟩ := roundHalfEven_bounds m
  obtain ⟨b1, b2, _, _⟩ := roundHalfEven_bounds n
  have hfl : ⌊m⌋ ≤ ⌊n⌋ := Int.floor_le_floor h
  rcases lt_or_eq_of_le hfl with hlt | heq
  · omega
  · unfold roundHalfEven
    rw [← heq]
    split_ifs <;> first | omega | (exfalso; linarith)

/-- The unit in the last place at precision `p`, and the significand it scales. -/
theorem ulp_bounds_at (p : Nat) (q : ℚ) :
    0 < (2 : ℚ) ^ (Int.log 2 q - p) ∧
    (2 : ℚ) ^ (Int.log 2 q) = 2 ^ p * (2 : ℚ) ^ (Int.log 2 q - p) ∧
    (2 : ℚ) ^ (Int.log 2 q + 1) = 2 ^ (p + 1) * (2 : ℚ) ^ (Int.log 2 q - p) := by
  refine ⟨by positivity, ?_, ?_⟩
  · have : Int.log 2 q = (p : Int) + (Int.log 2 q - p) := by ring
    conv_lhs => rw [this, zpow_add₀ (by norm_num : (2 : ℚ) ≠ 0), zpow_natCast]
  · have : Int.log 2 q + 1 = ((p + 1 : Nat) : Int) + (Int.log 2 q - p) := by push_cast; ring
    conv_lhs => rw [this, zpow_add₀ (by norm_num : (2 : ℚ) ≠ 0), zpow_natCast]

/-- Bounds of the rounding of a positive `q` at precision `p`: it stays in the closed binade
of `q` and within half a unit in the last place of `q`. -/
theorem roundPos_bounds (p : Nat) (q : ℚ) (hq : 0 < q) :
    (2 : ℚ) ^ (Int.log 2 q) ≤ roundPos p q ∧ roundPos p q ≤ (2 : ℚ) ^ (Int.log 2 q + 1) ∧
    roundPos p q ≤ q + (2 : ℚ) ^ (Int.log 2 q - p) / 2 ∧
    q - (2 : ℚ) ^ (Int.log 2 q - p) / 2 ≤ roundPos p q := by
  obtain ⟨hU, e1, e2⟩ := ulp_bounds_at p q
  obtain ⟨l1, l2⟩ := log_bounds q hq
  obtain ⟨b1, b2, b3, b4⟩ := roundHalfEven_bounds (q / (2 : ℚ) ^ (Int.log 2 q - p))
  have m1 : (2 : ℚ) ^ p ≤ q / (2 : ℚ) ^ (Int.log 2 q - p) := by
    rw [le_div_iff₀ hU, ← e1]; exact l1
  have m2 : q / (2 : ℚ) ^ (Int.log 2 q - p) < (2 : ℚ) ^ (p + 1) := by
    rw [div_lt_iff₀ hU, ← e2]; exact l2
  have f1 : (2 : Int) ^ p ≤ ⌊q / (2 : ℚ) ^ (Int.log 2 q - p)⌋ := by
    apply Int.le_floor.2
    push_cast
    exact m1
  have f2 : ⌊q / (2 : ℚ) ^ (Int.log 2 q - p)⌋ < (2 : Int) ^ (p + 1) := by
    apply Int.floor_lt.2
    push_cast
    exact m2
  have r1 : ((2 : Int) ^ p : ℚ) ≤ (roundHalfEven (q / (2 : ℚ) ^ (Int.log 2 q - p)) : ℚ) := by
    exact_mod_cast le_trans f1 b1
  have r2 : (roundHalfEven (q / (2 : ℚ) ^ (Int.log 2 q - p)) : ℚ) ≤ ((2 : Int) ^ (p + 1) : ℚ) := by
    have : roundHalfEven (q / (2 : ℚ) ^ (Int.log 2 q - p)) ≤ (2 : Int) ^ (p + 1) := by omega
    exact_mod_cast this
  unfold roundPos
  refine ⟨?_, ?_, ?_, ?_⟩
  · rw [e1]
    exact mul_le_mul_of_nonneg_right (by exact_mod_cast r1) hU.le
  · rw [e2]
    exact mul_le_mul_of_nonneg_right (by exact_mod_cast r2) hU.le
  · have := mul_le_mul_of_nonneg_right b3 hU.le
    rw [add_mul, div_mul_cancel₀ q hU.ne.symm] at this
    linarith
  · have := mul_le_mul_of_nonneg_right b4 hU.le
    rw [sub_mul, div_mul_cancel₀ q hU.ne.symm] at this
    linarith

/-- The rounding of a positive number is positive. -/
theorem roundPos_pos (p : Nat) (q : ℚ) (hq : 0 < q) : 0 < roundPos p q :=
  lt_of_lt_of_le (by positivity) (roundPos_bounds p q hq).1

/-- The rounding of positive numbers is monotone. -/
theorem roundPos_mono (p : Nat) {x y : ℚ} (hx : 0 < x) (h : x ≤ y) :
    roundPos p x ≤ roundPos p y := by
  have hy : 0 < y := lt_of_lt_of_le hx h
  have hlog : Int.log 2 x ≤ Int.log 2 y := Int.log_mono_right hx h
  rcases lt_or_eq_of_le hlog with hlt | heq
  · obtain ⟨_, a2, _, _⟩ := roundPos_bounds p x hx
    obtain ⟨b1, _, _, _⟩ := roundPos_bounds p y hy
    have : (2 : ℚ) ^ (Int.log 2 x + 1) ≤ (2 : ℚ) ^ (Int.log 2 y) :=
      zpow_le_zpow_right₀ (by norm_num) (by omega)
    linarith
  · unfold roundPos
    rw [heq]
    have hU : (0 : ℚ) < (2 : ℚ) ^ (Int.log 2 y - p) := by positivity
    apply mul_le_mul_of_nonneg_right _ hU.le
    have := roundHalfEven_mono (div_le_div_of_nonneg_right h hU.le)
    exact_mod_cast this

/-- Rounding of 0. -/
theorem roundTo_zero (p : Nat) : roundTo p 0 = 0 := by
  simp [roundTo]

/-- Rounding of a positive number. -/
theorem roundTo_of_pos (p : Nat) {q : ℚ} (hq : 0 < q) : roundTo p q = roundPos p q := by
  simp [roundTo, hq, hq.ne.symm]

/-- Rounding of a negative number. -/
theorem roundTo_of_neg (p : Nat) {q : ℚ} (hq : q < 0) : roundTo p q = - roundPos p (-q) := by
  simp [roundTo, hq.ne, not_lt.2 hq.le]

/-- Rounding commutes with the change of sign. -/
theorem roundTo_neg (p : Nat) (q : ℚ) : roundTo p (-q) = - roundTo p q := by
  rcases lt_trichotomy q 0 with h | h | h
  · rw [roundTo_of_neg p h, roundTo_of_pos p (by linarith : 0 < -q)]
    simp
  · subst h
    simp [roundTo_zero]
  · rw [roundTo_of_pos p h, roundTo_of_neg p (by linarith : -q < 0)]
    simp

/-- Rounding keeps the sign. -/
theorem roundTo_pos_iff (p : Nat) (q : ℚ) : 0 < roundTo p q ↔ 0 < q := by
  rcases lt_trichotomy q 0 with h | h | h
  · rw [roundTo_of_neg p h]
    have := roundPos_pos p (-q) (by linarith)
    constructor
    · intro h1; linarith
    · intro h1; linarith
  · subst h
    simp [roundTo_zero]
  · rw [roundTo_of_pos p h]
    exact ⟨fun _ => h, fun _ => roundPos_pos p q h⟩

/-- Rounding gives 0 only for 0. -/
theorem roundTo_eq_zero_iff (p : Nat) (q : ℚ) : roundTo p q = 0 ↔ q = 0 := by
  rcases lt_trichotomy q 0 with h | h | h
  · rw [roundTo_of_neg p h]
    have := roundPos_pos p (-q) (by linarith)
    constructor
    · intro h1; linarith
    · intro h1; linarith
  · subst h
    simp [roundTo_zero]
  · rw [roundTo_of_pos p h]
    have := roundPos_pos p q h
    constructor
    · intro h1; linarith
    · intro h1; linarith

/-- Rounding is monotone. -/
theorem roundTo_mono (p : Nat) {x y : ℚ} (h : x ≤ y) : roundTo p x ≤ roundTo p y := by
  rcases lt_trichotomy x 0 with hx | hx | hx
  · rcases lt_trichotomy y 0 with hy | hy | hy
    · rw [roundTo_of_neg p hx, roundTo_of_neg p hy]
      have := roundPos_mono p (by linarith : 0 < -y) (by linarith : -y ≤ -x)
      linarith
    · subst hy
      rw [roundTo_of_neg p hx, roundTo_zero]
      have := roundPos_pos p (-x) (by linarith)
      linarith
    · rw [roundTo_of_neg p hx, roundTo_of_pos p hy]
      have := roundPos_pos p (-x) (by linarith)
      have := roundPos_pos p y hy
      linarith
  · subst hx
    rw [roundTo_zero]
    rcases eq_or_lt_of_le h with hy | hy
    · rw [← hy, roundTo_zero]
    · exact ((roundTo_pos_iff p y).2 hy).le
  · have hy : 0 < y := lt_of_lt_of_le hx h
    rw [roundTo_of_pos p hx, roundTo_of_pos p hy]
    exact roundPos_mono p hx h

/-- A positive `q` whose significand at precision `p` is an integer is its own rounding. -/
theorem roundPos_exact (p : Nat) (q : ℚ) (z : Int)
    (h : q / (2 : ℚ) ^ (Int.log 2 q - p) = z) : roundPos p q = q := by
  have hU : (2 : ℚ) ^ (Int.log 2 q - p) ≠ 0 := by positivity
  unfold roundPos
  rw [h, roundHalfEven_intCast, ← h]
  field_simp

/-- A number `n * 2 ^ j` with `n < 2 ^ (p + 1)` is its own rounding at precision `p`. -/
theorem roundTo_exact (p n : Nat) (j : Int) (hn : n < 2 ^ (p + 1)) :
    roundTo p ((n : ℚ) * (2 : ℚ) ^ j) = (n : ℚ) * (2 : ℚ) ^ j := by
  rcases Nat.eq_zero_or_pos n with h0 | hpos
  · subst h0
    simp [roundTo]
  have hP : (0 : ℚ) < (2 : ℚ) ^ j := by positivity
  have hq : (0 : ℚ) < (n : ℚ) * (2 : ℚ) ^ j := mul_pos (by exact_mod_cast hpos) hP
  rw [roundTo_of_pos p hq]
  have hlt : (n : ℚ) * (2 : ℚ) ^ j < (2 : ℚ) ^ (j + (p + 1 : Nat)) := by
    rw [zpow_add₀ (by norm_num : (2 : ℚ) ≠ 0), mul_comm ((2 : ℚ) ^ j), zpow_natCast]
    apply mul_lt_mul_of_pos_right _ hP
    exact_mod_cast hn
  have he : Int.log 2 ((n : ℚ) * (2 : ℚ) ^ j) < j + (p + 1 : Nat) :=
    (Int.lt_zpow_iff_log_lt (b := 2) (by norm_num) hq).1 (by exact_mod_cast hlt)
  obtain ⟨k, hk⟩ : ∃ k : Nat, j = (Int.log 2 ((n : ℚ) * (2 : ℚ) ^ j) - p) + k :=
    ⟨(j - (Int.log 2 ((n : ℚ) * (2 : ℚ) ^ j) - p)).toNat, by push_cast at he; omega⟩
  apply roundPos_exact p _ ((n : Int) * 2 ^ k)
  have hU : (2 : ℚ) ^ (Int.log 2 ((n : ℚ) * (2 : ℚ) ^ j) - p) ≠ 0 := by positivity
  rw [div_eq_iff hU]
  conv_lhs => rw [hk, zpow_add₀ (by norm_num : (2 : ℚ) ≠ 0)]
  push_cast
  rw [zpow_natCast]
  ring

/-- The number 1 is its own rounding. -/
theorem roundTo_one (p : Nat) : roundTo p 1 = 1 := by
  have := roundTo_exact p 1 0 (Nat.one_lt_two_pow (by omega))
  simpa using this

/-- Single precision: the conversion is monotone. -/
theorem toFloat_mono {x y : ℚ} (h : x ≤ y) : toFloat x ≤ toFloat y := by
  rw [toFloat_eq_roundTo, toFloat_eq_roundTo]
  exact roundTo_mono 23 h

/-- Single precision: the conversion keeps the sign. -/
theorem toFloat_pos_iff (q : ℚ) : 0 < toFloat q ↔ 0 < q := by
  rw [toFloat_eq_roundTo]
  exact roundTo_pos_iff 23 q

/-- Single precision: only 0 is converted to 0. -/
theorem toFloat_eq_zero_iff (q : ℚ) : toFloat q = 0 ↔ q = 0 := by
  rw [toFloat_eq_roundTo]
  exact roundTo_eq_zero_iff 23 q

/-- Single precision: the conversion commutes with the change of sign. -/
theorem toFloat_neg (q : ℚ) : toFloat (-q) = - toFloat q := by
  rw [toFloat_eq_roundTo, toFloat_eq_roundTo]
  exact roundTo_neg 23 q

/-- Single precision: 1 is a `float`. -/
theorem toFloat_one : toFloat 1 = 1 := by
  rw [toFloat_eq_roundTo]
  exact roundTo_one 23

/-- Single precision: a number that is not negative stays so. -/
theorem toFloat_nonneg {q : ℚ} (h : 0 ≤ q) : 0 ≤ toFloat q := by
  have := toFloat_mono h
  rwa [toFloat_zero] at this

/-- The rounding of a positive number is a number `n * 2 ^ j` with `n < 2 ^ (p + 1)`. -/
theorem roundPos_form (p : Nat) (q : ℚ) (hq : 0 < q) :
    ∃ (n : Nat) (j : Int), n < 2 ^ (p + 1) ∧ roundPos p q = (n : ℚ) * (2 : ℚ) ^ j := by
  obtain ⟨hU, e1, e2⟩ := ulp_bounds_at p q
  obtain ⟨l1, l2⟩ := log_bounds q hq
  obtain ⟨b1, b2, _, _⟩ := roundHalfEven_bounds (q / (2 : ℚ) ^ (Int.log 2 q - p))
  have m1 : (2 : ℚ) ^ p ≤ q / (2 : ℚ) ^ (Int.log 2 q - p) := by
    rw [le_div_iff₀ hU, ← e1]; exact l1
  have m2 : q / (2 : ℚ) ^ (Int.log 2 q - p) < (2 : ℚ) ^ (p + 1) := by
    rw [div_lt_iff₀ hU, ← e2]; exact l2
  have f1 : (2 : Int) ^ p ≤ ⌊q / (2 : ℚ) ^ (Int.log 2 q - p)⌋ := by
    apply Int.le_floor.2
    push_cast
    exact m1
  have f2 : ⌊q / (2 : ℚ) ^ (Int.log 2 q - p)⌋ < (2 : Int) ^ (p + 1) := by
    apply Int.floor_lt.2
    push_cast
    exact m2
  have hp0 : (0 : Int) < 2 ^ p := by positivity
  rcases lt_or_eq_of_le (show roundHalfEven (q / (2 : ℚ) ^ (Int.log 2 q - p))
      ≤ (2 : Int) ^ (p + 1) by omega) with hlt | heq
  · refine ⟨(roundHalfEven (q / (2 : ℚ) ^ (Int.log 2 q - p))).toNat, Int.log 2 q - p, ?_, ?_⟩
    · have : ((roundHalfEven (q / (2 : ℚ) ^ (Int.log 2 q - p))).toNat : Int)
          < ((2 ^ (p + 1) : Nat) : Int) := by
        rw [Int.toNat_of_nonneg (by omega)]
        push_cast
        exact hlt
      exact_mod_cast this
    · unfold roundPos
      congr 1
      have : (((roundHalfEven (q / (2 : ℚ) ^ (Int.log 2 q - p))).toNat : Int) : ℚ)
          = (roundHalfEven (q / (2 : ℚ) ^ (Int.log 2 q - p)) : ℚ) := by
        rw [Int.toNat_of_nonneg (by omega)]
      exact_mod_cast this.symm
  · refine ⟨1, Int.log 2 q + 1, Nat.one_lt_two_pow (by omega), ?_⟩
    unfold roundPos
    rw [heq, e2]
    push_cast
    ring

/-- A rounded number is its own rounding. -/
theorem roundTo_idem (p : Nat) (q : ℚ) : roundTo p (roundTo p q) = roundTo p q := by
  rcases lt_trichotomy q 0 with h | h | h
  · rw [roundTo_of_neg p h]
    obtain ⟨n, j, hn, e⟩ := roundPos_form p (-q) (by linarith)
    rw [e, roundTo_neg, roundTo_exact p n j hn]
  · subst h
    simp [roundTo_zero]
  · rw [roundTo_of_pos p h]
    obtain ⟨n, j, hn, e⟩ := roundPos_form p q h
    rw [e, roundTo_exact p n j hn]

/-- A `float` is its own conversion: the conversion is idempotent. -/
theorem toFloat_idem (q : ℚ) : toFloat (toFloat q) = toFloat q := by
  rw [toFloat_eq_roundTo, toFloat_eq_roundTo]
  exact roundTo_idem 23 q

/-- The conversion of a number of `[0, 1]` is a number of `[0, 1]`. -/
theorem toFloat_unit {q : ℚ} (h0 : 0 ≤ q) (h1 : q ≤ 1) : 0 ≤ toFloat q ∧ toFloat q ≤ 1 := by
  refine ⟨toFloat_nonneg h0, ?_⟩
  have := toFloat_mono h1
  rwa [toFloat_one] at this

/-! ## Lemmas on sites -/

theorem Binary.tail {x : Int} {v : List Int} (h : Binary (x :: v)) : Binary v :=
  fun y hy => h y (List.mem_cons_of_mem x hy)

theorem Binary.head {x : Int} {v : List Int} (h : Binary (x :: v)) : x = 0 ∨ x = 1 :=
  h x (List.mem_cons_self x v)

theorem Binary.sum_nonneg : ∀ {v : List Int}, Binary v → 0 ≤ v.sum
  | [], _ => by simp
  | x :: v, h => by
    have h1 := Binary.sum_nonneg (Binary.tail h)
    have h2 := Binary.head h
    simp only [List.sum_cons]
    omega

theorem Binary.sum_le_length : ∀ {v : List Int}, Binary v → v.sum ≤ v.length
  | [], _ => by simp
  | x :: v, h => by
    have h1 := Binary.sum_le_length (Binary.tail h)
    have h2 := Binary.head h
    simp only [List.sum_cons, List.length_cons]
    push_cast
    omega

theorem Binary.set_site {v : List Int} (h : Binary v) (i : Nat) (b : Int) (hb : b = 0 ∨ b = 1) :
    Binary (v.set i b) := by
  intro y hy
  rcases List.mem_or_eq_of_mem_set hy with h1 | h1
  · exact h y h1
  · exact h1 ▸ hb

/-- Writing `b` over the value `a` at index `i` changes the sum by `b - a`. -/
theorem sum_set_of_getElem? : ∀ (v : List Int) (i : Nat) (a b : Int),
    v[i]? = some a → (v.set i b).sum = v.sum - a + b
  | [], i, a, b, h => by simp at h
  | x :: v, 0, a, b, h => by
    simp at h
    simp [h]
    omega
  | x :: v, i + 1, a, b, h => by
    simp at h
    have := sum_set_of_getElem? v i a b h
    simp [this]
    omega

/-! ## Chromosome::loss -/

/-- The scan finds the occupied site that has exactly `r` occupied sites before it. -/
theorem lossScan_rank : ∀ (v : List Int), Binary v → ∀ (off : Nat) (rk : Int) (r : Nat),
    (r : Int) < v.sum →
    ∃ i, i < v.length ∧ v[i]? = some 1 ∧ ((v.take i).sum = r) ∧
      Chromosome.lossScan (rk + r) v off rk = some (off + i)
  | [], _, off, rk, r, hr => by simp at hr; omega
  | x :: v, hb, off, rk, r, hr => by
    have hx := Binary.head hb
    have hv := Binary.tail hb
    simp only [List.sum_cons] at hr
    rcases hx with hx | hx
    · subst hx
      obtain ⟨i, hi, h1, h2, h3⟩ := lossScan_rank v hv (off + 1) rk r (by omega)
      refine ⟨i + 1, by simpa using hi, by simpa using h1, by simpa using h2, ?_⟩
      simp only [Chromosome.lossScan]
      rw [if_neg (by decide), h3]
      congr 1
      omega
    · subst hx
      cases r with
      | zero =>
        refine ⟨0, by simp, by simp, by simp, ?_⟩
        simp [Chromosome.lossScan]
      | succ r =>
        obtain ⟨i, hi, h1, h2, h3⟩ := lossScan_rank v hv (off + 1) (rk + 1) r (by push_cast at hr; omega)
        refine ⟨i + 1, by simpa using hi, by simpa using h1, ?_, ?_⟩
        · simp only [List.take_succ_cons, List.sum_cons, h2]
          push_cast
          omega
        · simp only [Chromosome.lossScan]
          rw [if_pos trivial, if_neg (by push_cast; omega)]
          have e : rk + ((r + 1 : Nat) : Int) = rk + 1 + (r : Int) := by push_cast; omega
          rw [e, h3]
          congr 1
          omega

/-- Every occupied site is the one found for the rank given by the number of occupied sites
before it. -/
theorem lossScan_of_occupied : ∀ (v : List Int), Binary v → ∀ (off : Nat) (rk : Int) (i : Nat),
    v[i]? = some 1 →
    (v.take i).sum < v.sum ∧ 0 ≤ (v.take i).sum ∧
      Chromosome.lossScan (rk + (v.take i).sum) v off rk = some (off + i)
  | [], _, off, rk, i, h => by simp at h
  | x :: v, hb, off, rk, 0, h => by
    simp at h
    subst h
    have := Binary.sum_nonneg (Binary.tail hb)
    simp [Chromosome.lossScan]
    omega
  | x :: v, hb, off, rk, i + 1, h => by
    have hx := Binary.head hb
    have hv := Binary.tail hb
    simp only [List.getElem?_cons_succ] at h
    rcases hx with hx | hx
    · subst hx
      obtain ⟨h1, h2, h3⟩ := lossScan_of_occupied v hv (off + 1) rk i h
      refine ⟨by simpa using h1, by simpa using h2, ?_⟩
      simp only [Chromosome.lossScan, List.take_succ_cons, List.sum_cons]
      rw [if_neg (by decide), zero_add, h3]
      congr 1
      omega
    · subst hx
      obtain ⟨h1, h2, h3⟩ := lossScan_of_occupied v hv (off + 1) (rk + 1) i h
      refine ⟨by simpa using h1, by simp only [List.take_succ_cons, List.sum_cons]; omega, ?_⟩
      simp only [Chromosome.lossScan, List.take_succ_cons, List.sum_cons]
      rw [if_pos trivial, if_neg (by omega)]
      have e : rk + (1 + (v.take i).sum) = rk + 1 + (v.take i).sum := by omega
      rw [e, h3]
      congr 1
      omega

/-- What `Chromosome::loss` does on an admissible rank draw. -/
theorem Chromosome.loss_spec (c : Chromosome) (hb : Binary c.vSeq) (r : Nat)
    (hr : (r : Int) < c.getNbTEs) (rest : List Draw) :
    ∃ site, site < c.vSeq.length ∧ c.vSeq[site]? = some 1 ∧ (c.vSeq.take site).sum = r ∧
      Chromosome.lossScan ((r : Int) + 1) c.vSeq 0 1 = some site ∧
      c.loss (Draw.uniformInt r :: rest) = Res.ret { c with vSeq := c.vSeq.set site 0 } () rest ∧
      Chromosome.getNbTEs { c with vSeq := c.vSeq.set site 0 } = c.getNbTEs - 1 := by
  unfold Chromosome.getNbTEs at hr
  obtain ⟨i, hi, h1, h2, h3⟩ := lossScan_rank c.vSeq hb 0 1 r hr
  have e : (1 : Int) + r = r + 1 := by omega
  rw [e, zero_add] at h3
  refine ⟨i, hi, h1, h2, h3, ?_, ?_⟩
  · have hpos : ¬ c.getNbTEs ≤ 0 := by unfold Chromosome.getNbTEs; omega
    simp only [Chromosome.loss, if_neg hpos, gsl_rng_uniform_int]
    rw [if_pos (by unfold Chromosome.getNbTEs; exact hr)]
    simp only [h3]
  · simp only [Chromosome.getNbTEs]
    rw [sum_set_of_getElem? c.vSeq i 1 0 h1]
    omega

/-- C4: for a chromosome with binary sites and load `L > 0`, `Chromosome::loss` on the rank
draw `r` of `[0, L)` clears the occupied site that has exactly `r` occupied sites before it
(the `(r+1)`-th occupied site), leaves every other site as it is, and the load becomes
`L - 1`; two different rank draws give different chromosomes, and every occupied site is the
one cleared for some rank draw of `[0, L)`. -/
theorem Chromosome.loss_effect (c : Chromosome) (hb : Binary c.vSeq) (hL : 0 < c.getNbTEs) :
    (∀ (r : Nat) (rest : List Draw), (r : Int) < c.getNbTEs →
      ∃ site, site < c.vSeq.length ∧ c.vSeq[site]? = some 1 ∧ (c.vSeq.take site).sum = r ∧
        c.loss (Draw.uniformInt r :: rest)
          = Res.ret { c with vSeq := c.vSeq.set site 0 } () rest ∧
        (c.vSeq.set site 0)[site]? = some 0 ∧
        (∀ j, j ≠ site → (c.vSeq.set site 0)[j]? = c.vSeq[j]?) ∧
        Chromosome.getNbTEs { c with vSeq := c.vSeq.set site 0 } = c.getNbTEs - 1) ∧
    (∀ (r1 r2 : Nat) (rest1 rest2 : List Draw) (c1 : Chromosome),
      (r1 : Int) < c.getNbTEs → (r2 : Int) < c.getNbTEs →
      c.loss (Draw.uniformInt r1 :: rest1) = Res.ret c1 () rest1 →
      c.loss (Draw.uniformInt r2 :: rest2) = Res.ret c1 () rest2 → r1 = r2) ∧
    (∀ site, c.vSeq[site]? = some 1 →
      ∃ r : Nat, (r : Int) < c.getNbTEs ∧ ∀ rest : List Draw,
        c.loss (Draw.uniformInt r :: rest)
          = Res.ret { c with vSeq := c.vSeq.set site 0 } () rest) := by
  have _ := hL
  refine ⟨?_, ?_, ?_⟩
  · intro r rest hr
    obtain ⟨site, h1, h2, h3, _, h5, h6⟩ := Chromosome.loss_spec c hb r hr rest
    refine ⟨site, h1, h2, h3, h5, ?_, ?_, h6⟩
    · simp [List.getElem?_set, h1]
    · intro j hj
      simp [List.getElem?_set, Ne.symm hj]
  · intro r1 r2 rest1 rest2 c1 hr1 hr2 e1 e2
    obtain ⟨s1, h1, h2, h3, _, h5, _⟩ := Chromosome.loss_spec c hb r1 hr1 rest1
    obtain ⟨s2, k1, k2, k3, _, k5, _⟩ := Chromosome.loss_spec c hb r2 hr2 rest2
    rw [h5] at e1
    rw [k5] at e2
    injection e1 with e1
    injection e2 with e2
    have e : c.vSeq.set s1 0 = c.vSeq.set s2 0 := by
      have := e1.trans e2.symm
      exact congrArg Chromosome.vSeq this
    have hs : s1 = s2 := by
      by_contra hne
      have a1 : (c.vSeq.set s1 0)[s1]? = some 0 := by simp [List.getElem?_set, h1]
      have a2 : (c.vSeq.set s2 0)[s1]? = some 1 := by
        simp only [List.getElem?_set, if_neg (Ne.symm hne)]
        exact h2
      rw [e, a2] at a1
      simp at a1
    subst hs
    have : (r1 : Int) = r2 := h3.symm.trans k3
    exact_mod_cast this
  · intro site hs
    obtain ⟨h1, h2, h3⟩ := lossScan_of_occupied c.vSeq hb 0 1 site hs
    obtain ⟨r, hr⟩ := Int.eq_ofNat_of_zero_le h2
    refine ⟨r, by unfold Chromosome.getNbTEs; omega, ?_⟩
    intro rest
    have hpos : ¬ c.getNbTEs ≤ 0 := by unfold Chromosome.getNbTEs; omega
    have e : (1 : Int) + (c.vSeq.take site).sum = r + 1 := by omega
    rw [e, zero_add] at h3
    simp only [Chromosome.loss, if_neg hpos, gsl_rng_uniform_int]
    rw [if_pos (by unfold Chromosome.getNbTEs; omega)]
    simp only [h3]

/-- C4, on the chromosome 0 1 1 0 1: the rank draw 1 clears site 2. -/
theorem Chromosome.loss_effect_witness :
    Binary (Chromosome.ofSites [0, 1, 1, 0, 1]).vSeq ∧
    0 < (Chromosome.ofSites [0, 1, 1, 0, 1]).getNbTEs ∧
    (Chromosome.ofSites [0, 1, 1, 0, 1]).loss [Draw.uniformInt 1]
      = Res.ret (Chromosome.ofSites [0, 1, 0, 0, 1]) () [] ∧
    ∃ r : Nat, (r : Int) < (Chromosome.ofSites [0, 1, 1, 0, 1]).getNbTEs ∧ ∀ rest : List Draw,
      (Chromosome.ofSites [0, 1, 1, 0, 1]).loss (Draw.uniformInt r :: rest)
        = Res.ret { Chromosome.ofSites [0, 1, 1, 0, 1] with
            vSeq := (Chromosome.ofSites [0, 1, 1, 0, 1]).vSeq.set 4 0 } () rest :=
  ⟨by simp [Binary, Chromosome.ofSites], by decide, by decide,
    (Chromosome.loss_effect (Chromosome.ofSites [0, 1, 1, 0, 1])
      (by simp [Binary, Chromosome.ofSites]) (by decide)).2.2 4 (by decide)⟩

/-! ## Chromosome::transposition -/

/-- The loop skips the draws of occupied sites and sets the first unset site drawn. -/
theorem Chromosome.transpositionLoop_spec (c : Chromosome) (i : Nat) (rest : List Draw)
    (hi : i < c.nbSites) (x : Int) (hx : c.vSeq[i]? = some x) (hx1 : x ≠ 1) :
    ∀ (pre : List Nat), (∀ j ∈ pre, j < c.nbSites ∧ c.vSeq[j]? = some 1) →
      Chromosome.transpositionLoop c (pre.map Draw.uniformInt ++ Draw.uniformInt i :: rest)
        = Res.ret { c with vSeq := c.vSeq.set i 1 } () rest
  | [], _ => by
    simp only [List.map_nil, List.nil_append, Chromosome.transpositionLoop, gsl_rng_uniform_int]
    rw [if_pos (by exact_mod_cast hi)]
    simp only [hx, if_neg hx1]
  | j :: pre, h => by
    have hj := h j (List.mem_cons_self j pre)
    simp only [List.map_cons, List.cons_append, Chromosome.transpositionLoop,
      gsl_rng_uniform_int]
    rw [if_pos (by exact_mod_cast hj.1)]
    simp only [hj.2, if_pos]
    exact Chromosome.transpositionLoop_spec c i rest hi x hx hx1 pre
      (fun j1 hj1 => h j1 (List.mem_cons_of_mem j hj1))

/-- A binary vector whose site `i` is 0 has a sum below its length. -/
theorem Binary.sum_lt_length_of_zero : ∀ (v : List Int), Binary v → ∀ i : Nat,
    v[i]? = some 0 → v.sum < v.length
  | [], _, i, h => by simp at h
  | x :: v, hb, 0, h => by
    simp at h
    subst h
    have := Binary.sum_le_length (Binary.tail hb)
    simp only [List.sum_cons, List.length_cons]
    push_cast
    omega
  | x :: v, hb, i + 1, h => by
    simp only [List.getElem?_cons_succ] at h
    have := Binary.sum_lt_length_of_zero v (Binary.tail hb) i h
    have hx := Binary.head hb
    simp only [List.sum_cons, List.length_cons]
    push_cast
    omega

/-- C5: for a chromosome of `N` binary sites and a stream of site-index draws whose first
index of an unset site is `i` (the draws `pre` before it are indices of occupied sites),
`Chromosome::transposition` sets site `i` to 1, leaves every other site as it is, consumes
the draws up to `i`, and the load, which was below `N`, increases by exactly 1. -/
theorem Chromosome.transposition_effect (c : Chromosome) (hN : c.vSeq.length = c.nbSites)
    (hb : Binary c.vSeq) (pre : List Nat) (i : Nat) (rest : List Draw)
    (hpre : ∀ j ∈ pre, j < c.nbSites ∧ c.vSeq[j]? = some 1)
    (hi : i < c.nbSites) (hunset : c.vSeq[i]? ≠ some 1) :
    c.getNbTEs < c.nbSites ∧
    c.transposition (pre.map Draw.uniformInt ++ Draw.uniformInt i :: rest)
      = Res.ret { c with vSeq := c.vSeq.set i 1 } () rest ∧
    (c.vSeq.set i 1)[i]? = some 1 ∧
    (∀ j, j ≠ i → (c.vSeq.set i 1)[j]? = c.vSeq[j]?) ∧
    Chromosome.getNbTEs { c with vSeq := c.vSeq.set i 1 } = c.getNbTEs + 1 := by
  have hlt : i < c.vSeq.length := by omega
  have hget : c.vSeq[i]? = some c.vSeq[i] := List.getElem?_eq_getElem hlt
  have h0 : c.vSeq[i] = 0 := by
    rcases hb _ (List.getElem_mem hlt) with h | h
    · exact h
    · rw [hget, h] at hunset
      exact absurd rfl hunset
  rw [h0] at hget
  refine ⟨?_, ?_, ?_, ?_, ?_⟩
  · have := Binary.sum_lt_length_of_zero c.vSeq hb i hget
    unfold Chromosome.getNbTEs
    omega
  · simp only [Chromosome.transposition]
    rw [if_neg (by omega)]
    exact Chromosome.transpositionLoop_spec c i rest hi 0 hget (by decide) pre hpre
  · simp [List.getElem?_set, hlt]
  · intro j hj
    simp [List.getElem?_set, Ne.symm hj]
  · simp only [Chromosome.getNbTEs]
    rw [sum_set_of_getElem? c.vSeq i 0 1 hget]
    omega

/-- C5, on the chromosome 1 0 1 0 with the site draws 2, 0, 3: site 3 is set. -/
theorem Chromosome.transposition_effect_witness :
    (Chromosome.ofSites [1, 0, 1, 0]).transposition
      [Draw.uniformInt 2, Draw.uniformInt 0, Draw.uniformInt 3, Draw.uniformInt 1]
      = Res.ret (Chromosome.ofSites [1, 0, 1, 1]) () [Draw.uniformInt 1] :=
  (Chromosome.transposition_effect (Chromosome.ofSites [1, 0, 1, 0]) rfl
    (by simp [Binary, Chromosome.ofSites]) [2, 0] 3 [Draw.uniformInt 1]
    (by simp [Chromosome.ofSites]) (by decide) (by decide)).2.1

/-! ## Individual::recombine -/

theorem getElem?_append_length (x : Int) (s : List Int) : ∀ p : List Int,
    (p ++ x :: s)[p.length]? = some x
  | [] => by simp
  | y :: p => by simpa using getElem?_append_length x s p

/-- The inner loop, started at index `j` for `k` turns, copies `k` sites from `vChrB` into
`vChrA` and `k` sites from `tmp` into `vChrB`. -/
theorem crossOver_append (tmp : Chromosome) : ∀ (k j : Nat) (A B : Chromosome)
    (pa sa pb sb pt st : List Int),
    A.vSeq = pa ++ sa → B.vSeq = pb ++ sb → tmp.vSeq = pt ++ st →
    pa.length = j → pb.length = j → pt.length = j →
    k ≤ sa.length → k ≤ sb.length → k ≤ st.length →
    Individual.crossOver tmp k j A B
      = some ({ A with vSeq := pa ++ (sb.take k ++ sa.drop k) },
              { B with vSeq := pb ++ (st.take k ++ sb.drop k) })
  | 0, j, A, B, pa, sa, pb, sb, pt, st, hA, hB, _, _, _, _, _, _, _ => by
    simp [Individual.crossOver, ← hA, ← hB]
  | k + 1, j, A, B, pa, sa, pb, sb, pt, st, hA, hB, hT, ha, hb, ht, ka, kb, kt => by
    match sa, sb, st, ka, kb, kt with
    | a :: sa, b :: sb, t :: st, ka, kb, kt =>
      simp only [List.length_cons, Nat.add_le_add_iff_right] at ka kb kt
      have e1 : B.vSeq[j]? = some b := by rw [hB, ← hb]; exact getElem?_append_length b sb pb
      have e2 : tmp.vSeq[j]? = some t := by rw [hT, ← ht]; exact getElem?_append_length t st pt
      have e3 : j < A.vSeq.length := by rw [hA]; simp; omega
      simp only [Individual.crossOver, e1, e2, if_pos e3]
      have hA1 : A.vSeq.set j b = (pa ++ [b]) ++ sa := by rw [hA, ← ha]; simp
      have hB1 : B.vSeq.set j t = (pb ++ [t]) ++ sb := by rw [hB, ← hb]; simp
      have hT1 : tmp.vSeq = (pt ++ [t]) ++ st := by rw [hT]; simp
      rw [crossOver_append tmp k (j + 1) _ _ (pa ++ [b]) sa (pb ++ [t]) sb (pt ++ [t]) st
        hA1 hB1 hT1 (by simp [ha]) (by simp [hb]) (by simp [ht]) ka kb kt]
      simp

/-- One crossing-over of the source is the exchange of the suffixes. -/
theorem crossOver_eq_swapSuffix (N l : Nat) (A B : Chromosome) (hA : A.vSeq.length = N)
    (hB : B.vSeq.length = N) (hl : l ≤ N) :
    Individual.crossOver A (N - l) l A B = some (swapSuffix l (A, B)) := by
  rw [crossOver_append A (N - l) l A B (A.vSeq.take l) (A.vSeq.drop l) (B.vSeq.take l)
    (B.vSeq.drop l) (A.vSeq.take l) (A.vSeq.drop l) (by simp) (by simp) (by simp)
    (by simp; omega) (by simp; omega) (by simp; omega) (by simp; omega) (by simp; omega)
    (by simp; omega)]
  have e1 : (B.vSeq.drop l).take (N - l) = B.vSeq.drop l :=
    List.take_of_length_le (by simp; omega)
  have e2 : (A.vSeq.drop l).take (N - l) = A.vSeq.drop l :=
    List.take_of_length_le (by simp; omega)
  have e3 : (A.vSeq.drop l).drop (N - l) = [] := List.drop_of_length_le (by simp; omega)
  have e4 : (B.vSeq.drop l).drop (N - l) = [] := List.drop_of_length_le (by simp; omega)
  simp [swapSuffix, e1, e2, e3, e4]

theorem swapSuffix_length (N l : Nat) (p : Chromosome × Chromosome)
    (h1 : p.1.vSeq.length = N) (h2 : p.2.vSeq.length = N) :
    (swapSuffix l p).1.vSeq.length = N ∧ (swapSuffix l p).2.vSeq.length = N := by
  simp only [swapSuffix, List.length_append, List.length_take, List.length_drop]
  omega

/-- The loop over the crossing-overs, on the loci `loci` drawn in this order. -/
theorem recombineLoop_loci (ind : Individual) (rest : List Draw) :
    ∀ (loci : List Nat) (A B : Chromosome), A.vSeq.length = ind.nbSitesPerChr →
      B.vSeq.length = ind.nbSitesPerChr → (∀ l ∈ loci, l < ind.nbSitesPerChr) →
      Individual.recombineLoop ind loci.length A B (loci.map Draw.uniformInt ++ rest)
        = Res.ret (loci.foldl (fun p l => swapSuffix l p) (A, B)) () rest
  | [], A, B, _, _, _ => by simp [Individual.recombineLoop]
  | l :: loci, A, B, hA, hB, h => by
    have hl := h l (List.mem_cons_self l loci)
    have hlen := swapSuffix_length ind.nbSitesPerChr l (A, B) hA hB
    simp only [List.length_cons, List.map_cons, List.cons_append, Individual.recombineLoop,
      gsl_rng_uniform_int, List.foldl_cons]
    rw [if_neg (by omega), if_pos (by exact_mod_cast hl)]
    simp only [crossOver_eq_swapSuffix ind.nbSitesPerChr l A B hA hB (by omega)]
    exact recombineLoop_loci ind rest loci _ _ hlen.1 hlen.2
      (fun l1 h1 => h l1 (List.mem_cons_of_mem l h1))

/-- `Individual::recombine` on the draw of `loci.length` crossing-overs at the loci `loci`. -/
theorem recombine_loci (ind : Individual) (d : Int) (rest : List Draw) (loci : List Nat)
    (A B : Chromosome) (hA : A.vSeq.length = ind.nbSitesPerChr)
    (hB : B.vSeq.length = ind.nbSitesPerChr) (h : ∀ l ∈ loci, l < ind.nbSitesPerChr)
    (hd : 0 < d ∨ loci = []) (hlen : loci.length < 2 ^ 31) :
    ind.recombine d A B (Draw.poisson loci.length :: (loci.map Draw.uniformInt ++ rest))
      = Res.ret (loci.foldl (fun p l => swapSuffix l p) (A, B)) () rest := by
  have hadm : (0 < (d : ℚ) ∨ loci.length = 0) ∧ loci.length < 2 ^ 31 := by
    refine ⟨?_, hlen⟩
    rcases hd with hd | hd
    · exact Or.inl (by exact_mod_cast hd)
    · exact Or.inr (by simp [hd])
  simp only [Individual.recombine, gsl_ran_poisson, if_pos hadm]
  cases loci with
  | nil => simp
  | cons l loci =>
    rw [if_pos (by simp only [List.length_cons]; push_cast; omega)]
    have := recombineLoop_loci ind rest (l :: loci) A B hA hB h
    simpa using this

theorem getElem?_swap (A B : List Int) (h : A.length = B.length) (l i : Nat) :
    (A.take l ++ B.drop l)[i]? = if i < l then A[i]? else B[i]? := by
  by_cases hi : i < l
  · rw [if_pos hi]
    by_cases hA : i < A.length
    · rw [List.getElem?_append_left (by simp; omega)]
      simp [List.getElem?_take, hi]
    · have : A[i]? = none := by simp; omega
      rw [this]
      simp
      omega
  · rw [if_neg hi]
    by_cases hA : l ≤ A.length
    · rw [List.getElem?_append_right (by simp; omega)]
      simp [List.getElem?_drop]
      congr 1
      simp [Nat.min_eq_left hA]
      omega
    · have : A.take l = A := List.take_of_length_le (by omega)
      have h2 : B.drop l = [] := List.drop_of_length_le (by omega)
      rw [this, h2]
      simp
      rw [List.getElem?_eq_none (by omega), List.getElem?_eq_none (by omega)]

/-- Two exchanges of suffixes, at `a` then at `b`, site by site. -/
theorem swap_swap_sites (A B : List Int) (h : A.length = B.length) (a b : Nat) :
    (A.take a ++ B.drop a).take b ++ (B.take a ++ A.drop a).drop b
      = (A.take b ++ B.drop b).take a ++ (B.take b ++ A.drop b).drop a := by
  have l1 : (A.take a ++ B.drop a).length = (B.take a ++ A.drop a).length := by simp; omega
  have l2 : (A.take b ++ B.drop b).length = (B.take b ++ A.drop b).length := by simp; omega
  apply List.ext_getElem?
  intro i
  rw [getElem?_swap _ _ l1, getElem?_swap _ _ l2, getElem?_swap _ _ h, getElem?_swap _ _ h,
    getElem?_swap _ _ h.symm, getElem?_swap _ _ h.symm]
  split_ifs <;> rfl

/-- Two crossing-overs commute. -/
theorem swapSuffix_comm (a b : Nat) (p : Chromosome × Chromosome)
    (h : p.1.vSeq.length = p.2.vSeq.length) :
    swapSuffix b (swapSuffix a p) = swapSuffix a (swapSuffix b p) := by
  simp only [swapSuffix]
  rw [swap_swap_sites p.1.vSeq p.2.vSeq h a b, swap_swap_sites p.2.vSeq p.1.vSeq h.symm a b]

/-- The exchange of the suffixes at `a` then at `b >= a` exchanges the sites of `[a, b)`. -/
theorem swap_swap_segment (A B : List Int) (h : A.length = B.length) (a b : Nat)
    (hab : a ≤ b) (hb : b ≤ A.length) :
    (A.take a ++ B.drop a).take b ++ (B.take a ++ A.drop a).drop b
      = A.take a ++ ((B.drop a).take (b - a) ++ A.drop b) := by
  have e1 : (A.take a).length = a := by simp; omega
  have e2 : (B.take a).length = a := by simp; omega
  have e3 : (A.take a).take b = A.take a := List.take_of_length_le (by omega)
  have e4 : (B.take a).drop b = [] := List.drop_of_length_le (by omega)
  have e5 : (A.drop a).drop (b - a) = A.drop b := by
    rw [List.drop_drop]
    congr 1
    omega
  rw [List.take_append_eq_append_take, List.drop_append_eq_append_drop, e1, e2, e3, e4, e5]
  simp

/-- Permuting the loci does not change what the crossing-overs do. -/
theorem foldl_swapSuffix_perm {l1 l2 : List Nat} (hp : l1.Perm l2) :
    ∀ p : Chromosome × Chromosome, p.1.vSeq.length = p.2.vSeq.length →
      l1.foldl (fun p l => swapSuffix l p) p = l2.foldl (fun p l => swapSuffix l p) p := by
  induction hp with
  | nil => intro p _; rfl
  | cons x _ ih =>
    intro p h
    simp only [List.foldl_cons]
    exact ih _ (by
      have := swapSuffix_length p.2.vSeq.length x p h rfl
      omega)
  | swap x y l =>
    intro p h
    simp only [List.foldl_cons]
    rw [swapSuffix_comm y x p h]
  | trans _ _ ih1 ih2 =>
    intro p h
    exact (ih1 p h).trans (ih2 p h)

/-- `Individual::recombine` gives the same outcome on the same loci drawn in another order. -/
theorem recombine_perm (ind : Individual) (d : Int) (rest : List Draw) (loci loci1 : List Nat)
    (A B : Chromosome) (hA : A.vSeq.length = ind.nbSitesPerChr)
    (hB : B.vSeq.length = ind.nbSitesPerChr) (h : ∀ l ∈ loci, l < ind.nbSitesPerChr)
    (hp : loci.Perm loci1) :
    ind.recombine d A B (Draw.poisson loci.length :: (loci.map Draw.uniformInt ++ rest))
      = ind.recombine d A B
          (Draw.poisson loci1.length :: (loci1.map Draw.uniformInt ++ rest)) := by
  have h1 : ∀ l ∈ loci1, l < ind.nbSitesPerChr := fun l hl => h l (hp.mem_iff.mpr hl)
  by_cases hadm : (0 < d ∨ loci = []) ∧ loci.length < 2 ^ 31
  · have hadm1 : (0 < d ∨ loci1 = []) ∧ loci1.length < 2 ^ 31 := by
      refine ⟨?_, by rw [← hp.length_eq]; exact hadm.2⟩
      rcases hadm.1 with hd | hd
      · exact Or.inl hd
      · subst hd
        exact Or.inr hp.nil_eq.symm
    rw [recombine_loci ind d rest loci A B hA hB h hadm.1 hadm.2,
      recombine_loci ind d rest loci1 A B hA hB h1 hadm1.1 hadm1.2,
      foldl_swapSuffix_perm hp (A, B) (by simp [hA, hB])]
  · have hno : ¬ ((0 < (d : ℚ) ∨ loci.length = 0) ∧ loci.length < 2 ^ 31) := by
      intro hh
      apply hadm
      refine ⟨?_, hh.2⟩
      rcases hh.1 with hd | hd
      · exact Or.inl (by exact_mod_cast hd)
      · exact Or.inr (List.length_eq_zero.mp hd)
    have hno1 : ¬ ((0 < (d : ℚ) ∨ loci1.length = 0) ∧ loci1.length < 2 ^ 31) := by
      rw [← hp.length_eq]
      exact hno
    simp only [Individual.recombine, gsl_ran_poisson, if_neg hno, if_neg hno1]

/-- C6: for two chromosomes `A`, `B` of `N` sites and a locus `l < N`, `Individual::recombine`
on the draw of exactly one crossing-over at `l` yields `A[0..l) ++ B[l..N)` and
`B[0..l) ++ A[l..N)`; on the draw of zero crossing-overs both chromosomes are unchanged. -/
theorem Individual.recombine_single_crossover (ind : Individual) (d : Int) (A B : Chromosome)
    (l : Nat) (rest : List Draw) (hd : 0 < d) (hA : A.vSeq.length = ind.nbSitesPerChr)
    (hB : B.vSeq.length = ind.nbSitesPerChr) (hl : l < ind.nbSitesPerChr) :
    ind.recombine d A B (Draw.poisson 1 :: Draw.uniformInt l :: rest)
      = Res.ret ({ A with vSeq := A.vSeq.take l ++ B.vSeq.drop l },
                 { B with vSeq := B.vSeq.take l ++ A.vSeq.drop l }) () rest ∧
    ind.recombine d A B (Draw.poisson 0 :: rest) = Res.ret (A, B) () rest := by
  constructor
  · have := recombine_loci ind d rest [l] A B hA hB (by simpa using hl) (Or.inl hd)
      (by simp)
    simpa [swapSuffix] using this
  · have := recombine_loci ind d rest [] A B hA hB (by simp) (Or.inr rfl) (by simp)
    simpa using this

/-- C6, on the chromosomes of the test: one crossing-over at locus 7, and none. -/
theorem Individual.recombine_single_crossover_witness :
    testInd.recombine 2 testChr1 testChr2
        [Draw.poisson 1, Draw.uniformInt 7, Draw.uniformInt 0]
      = Res.ret (Chromosome.ofSites [0, 0, 0, 0, 0, 0, 0, 1, 1, 1],
                 Chromosome.ofSites [1, 1, 1, 1, 1, 1, 1, 0, 0, 0]) () [Draw.uniformInt 0] ∧
    testInd.recombine 2 testChr1 testChr2 [Draw.poisson 0, Draw.uniformInt 0]
      = Res.ret (testChr1, testChr2) () [Draw.uniformInt 0] :=
  Individual.recombine_single_crossover testInd 2 testChr1 testChr2 7 [Draw.uniformInt 0]
    (by decide) rfl rfl (by decide)

/-- C7, as the specification states it, fails: one crossing-over at locus 3 on the all-empty
`chr1` and the all-occupied `chr2` does not produce 0001110000 and 1110001111. -/
theorem Individual.recombine_scenario_refuted :
    testInd.recombine 1 testChr1 testChr2 [Draw.poisson 1, Draw.uniformInt 3]
      ≠ Res.ret (Chromosome.ofSites [0, 0, 0, 1, 1, 1, 0, 0, 0, 0],
                 Chromosome.ofSites [1, 1, 1, 0, 0, 0, 1, 1, 1, 1]) () [] := by
  decide

/-- C7, amended: one crossing-over at locus 3 on the all-empty `chr1` and the all-occupied
`chr2` of 10 sites produces `chr1` = 0001111111 and `chr2` = 1110000000. -/
theorem Individual.recombine_scenario :
    testInd.recombine 1 testChr1 testChr2 [Draw.poisson 1, Draw.uniformInt 3]
      = Res.ret (Chromosome.ofSites [0, 0, 0, 1, 1, 1, 1, 1, 1, 1],
                 Chromosome.ofSites [1, 1, 1, 0, 0, 0, 0, 0, 0, 0]) () [] := by
  decide

/-- C8: for two chromosomes of `N` sites and two loci `a <= b < N`, `Individual::recombine`
on the draw of two crossing-overs at `a` and `b` (in either order) exchanges between the two
chromosomes the sites of `[a, b)` and leaves the sites of `[0, a)` and `[b, N)` in place. -/
theorem Individual.recombine_segment_exchange (ind : Individual) (d : Int) (A B : Chromosome)
    (a b : Nat) (rest : List Draw) (hd : 0 < d) (hA : A.vSeq.length = ind.nbSitesPerChr)
    (hB : B.vSeq.length = ind.nbSitesPerChr) (hab : a ≤ b) (hb : b < ind.nbSitesPerChr) :
    ind.recombine d A B (Draw.poisson 2 :: Draw.uniformInt a :: Draw.uniformInt b :: rest)
      = Res.ret
          ({ A with vSeq := A.vSeq.take a ++ ((B.vSeq.drop a).take (b - a) ++ A.vSeq.drop b) },
           { B with vSeq := B.vSeq.take a ++ ((A.vSeq.drop a).take (b - a) ++ B.vSeq.drop b) })
          () rest ∧
    ind.recombine d A B (Draw.poisson 2 :: Draw.uniformInt b :: Draw.uniformInt a :: rest)
      = Res.ret
          ({ A with vSeq := A.vSeq.take a ++ ((B.vSeq.drop a).take (b - a) ++ A.vSeq.drop b) },
           { B with vSeq := B.vSeq.take a ++ ((A.vSeq.drop a).take (b - a) ++ B.vSeq.drop b) })
          () rest := by
  have hloci : ∀ l ∈ [a, b], l < ind.nbSitesPerChr := by
    intro l hl
    simp only [List.mem_cons, List.mem_singleton, List.not_mem_nil, or_false] at hl
    rcases hl with hl | hl <;> omega
  have hAB : A.vSeq.length = B.vSeq.length := by omega
  have key : [a, b].foldl (fun p l => swapSuffix l p) (A, B)
      = ({ A with vSeq := A.vSeq.take a ++ ((B.vSeq.drop a).take (b - a) ++ A.vSeq.drop b) },
         { B with vSeq := B.vSeq.take a ++ ((A.vSeq.drop a).take (b - a) ++ B.vSeq.drop b) }) := by
    simp only [List.foldl_cons, List.foldl_nil, swapSuffix]
    rw [swap_swap_segment A.vSeq B.vSeq hAB a b hab (by omega),
      swap_swap_segment B.vSeq A.vSeq hAB.symm a b hab (by omega)]
  have e1 := recombine_loci ind d rest [a, b] A B hA hB hloci (Or.inl hd) (by simp)
  have e2 := recombine_perm ind d rest [a, b] [b, a] A B hA hB hloci (List.Perm.swap b a [])
  rw [e1] at e2
  rw [key] at e1 e2
  exact ⟨by simpa using e1, by simpa using e2.symm⟩

/-- C8, on the chromosomes of the test: crossing-overs at 3 and 6 give 0001110000 and
1110001111. -/
theorem Individual.recombine_segment_exchange_witness :
    testInd.recombine 1 testChr1 testChr2
        [Draw.poisson 2, Draw.uniformInt 3, Draw.uniformInt 6]
      = Res.ret (Chromosome.ofSites [0, 0, 0, 1, 1, 1, 0, 0, 0, 0],
                 Chromosome.ofSites [1, 1, 1, 0, 0, 0, 1, 1, 1, 1]) () [] :=
  (Individual.recombine_segment_exchange testInd 1 testChr1 testChr2 3 6 [] (by decide) rfl rfl
    (by decide) (by decide)).1

/-- C9, as the specification states it, fails: no pair of chromosomes of `nbSitesPerChr`
sites and no sequence of crossing-over loci give a different outcome when the same loci are
drawn in another order. -/
theorem Individual.recombine_order_refuted :
    ¬ ∃ (ind : Individual) (d : Int) (A B : Chromosome) (loci loci1 : List Nat)
        (rest : List Draw),
        A.vSeq.length = ind.nbSitesPerChr ∧ B.vSeq.length = ind.nbSitesPerChr ∧
        (∀ l ∈ loci, l < ind.nbSitesPerChr) ∧ loci.Perm loci1 ∧
        ind.recombine d A B (Draw.poisson loci.length :: (loci.map Draw.uniformInt ++ rest))
          ≠ ind.recombine d A B
              (Draw.poisson loci1.length :: (loci1.map Draw.uniformInt ++ rest)) := by
  rintro ⟨ind, d, A, B, loci, loci1, rest, hA, hB, h, hp, hne⟩
  exact hne (recombine_perm ind d rest loci loci1 A B hA hB h hp)

/-- C9, amended: the order of the crossing-over draws does not matter.  For two chromosomes
of `N` sites and loci of `[0, N)`, `Individual::recombine` returns the same pair of
chromosomes whatever the order in which the same loci are drawn (and it does return, when the
map distance is positive and the number of loci is a count the generator can give). -/
theorem Individual.recombine_order_irrelevant (ind : Individual) (d : Int) (A B : Chromosome)
    (loci loci1 : List Nat) (rest : List Draw) (hA : A.vSeq.length = ind.nbSitesPerChr)
    (hB : B.vSeq.length = ind.nbSitesPerChr) (h : ∀ l ∈ loci, l < ind.nbSitesPerChr)
    (hp : loci.Perm loci1) :
    ind.recombine d A B (Draw.poisson loci.length :: (loci.map Draw.uniformInt ++ rest))
      = ind.recombine d A B
          (Draw.poisson loci1.length :: (loci1.map Draw.uniformInt ++ rest)) ∧
    (0 < d → loci.length < 2 ^ 31 → ∃ A1 B1,
      ind.recombine d A B (Draw.poisson loci.length :: (loci.map Draw.uniformInt ++ rest))
        = Res.ret (A1, B1) () rest) :=
  ⟨recombine_perm ind d rest loci loci1 A B hA hB h hp,
   fun hd hlen => ⟨_, _, recombine_loci ind d rest loci A B hA hB h (Or.inl hd) hlen⟩⟩

/-- C9, on the chromosomes of the test: the loci 7, 2, 5 and the loci 5, 7, 2. -/
theorem Individual.recombine_order_irrelevant_witness :
    testInd.recombine 1 testChr1 testChr2
        [Draw.poisson 3, Draw.uniformInt 7, Draw.uniformInt 2, Draw.uniformInt 5]
      = testInd.recombine 1 testChr1 testChr2
        [Draw.poisson 3, Draw.uniformInt 5, Draw.uniformInt 7, Draw.uniformInt 2] :=
  (Individual.recombine_order_irrelevant testInd 1 testChr1 testChr2 [7, 2, 5] [5, 7, 2] []
    rfl rfl (by decide) (by decide)).1

/-! ## Individual::getGamete -/

/-- The loop over the crossing-overs reads only `nbSitesPerChr` of the organism. -/
theorem recombineLoop_congr (ind ind1 : Individual) (h : ind1.nbSitesPerChr = ind.nbSitesPerChr) :
    ∀ (k : Nat) (A B : Chromosome) (s : List Draw),
      Individual.recombineLoop ind1 k A B s = Individual.recombineLoop ind k A B s
  | 0, A, B, s => by simp [Individual.recombineLoop]
  | k + 1, A, B, s => by
    simp only [Individual.recombineLoop, h]
    split
    · rfl
    · cases s with
      | nil => rfl
      | cons d rest =>
        simp only
        cases gsl_rng_uniform_int (ind.nbSitesPerChr : Int) d with
        | none => rfl
        | some coLocus =>
          simp only
          cases Individual.crossOver A (ind.nbSitesPerChr - coLocus) coLocus A B with
          | none => rfl
          | some p => exact recombineLoop_congr ind ind1 h k p.1 p.2 rest

/-- `Individual::recombine` reads only `nbSitesPerChr` of the organism. -/
theorem recombine_congr (ind ind1 : Individual) (h : ind1.nbSitesPerChr = ind.nbSitesPerChr)
    (d : Int) (A B : Chromosome) (s : List Draw) :
    ind1.recombine d A B s = ind.recombine d A B s := by
  cases s with
  | nil => rfl
  | cons x rest =>
    simp only [Individual.recombine]
    cases gsl_ran_poisson (d : ℚ) x with
    | none => rfl
    | some n => simp only [recombineLoop_congr ind ind1 h]

/-- Every gamete returned has exactly two chromosomes. -/
theorem getGamete_length (ind : Individual) (d : Int) (gamete0 : List Chromosome)
    (s : List Draw) (ind1 : Individual) (g : List Chromosome) (rest : List Draw)
    (h : ind.getGamete d gamete0 s = Res.ret (ind1, g) () rest) : g.length = 2 := by
  unfold Individual.getGamete at h
  repeat' first | split at h | (dsimp only at h; split at h)
  all_goals first
    | (injection h with h1 h2 h3; injection h1 with h4 h5; subst h5; rfl)
    | (exact absurd h (by simp))

/-- C10: on an organism of 4 chromosomes `c0 c1 c2 c3`, `Individual::getGamete` recombines
`c0, c1` into `a, b`, reads the pick `p1` of `{0,1}`, recombines `c2, c3` into `c, e`, reads
the pick `p2` of `{0,1}`, in this order on the stream, and returns the gamete of exactly two
chromosomes: chromosome `p1` of `a, b` and chromosome `2 + p2` of the organism, that is `c` or
`e`; the organism keeps `a, b, c, e` and the previous content `gamete0` of the output vector
is discarded.  Every gamete that `getGamete` returns has exactly two chromosomes. -/
theorem Individual.getGamete_effect (ind : Individual) (c0 c1 c2 c3 : Chromosome)
    (hv : ind.vChr = [c0, c1, c2, c3]) (d : Int) (gamete0 : List Chromosome)
    (s s2 s4 : List Draw) (a b c e : Chromosome) (p1 p2 : Nat)
    (h1 : ind.recombine d c0 c1 s = Res.ret (a, b) () (Draw.uniformInt p1 :: s2))
    (hp1 : p1 < 2)
    (h2 : ind.recombine d c2 c3 s2 = Res.ret (c, e) () (Draw.uniformInt p2 :: s4))
    (hp2 : p2 < 2) :
    ind.getGamete d gamete0 s
      = Res.ret ({ ind with vChr := [a, b, c, e] },
                 [if p1 = 0 then a else b, if p2 = 0 then c else e]) () s4 ∧
    [a, b, c, e][p1]? = some (if p1 = 0 then a else b) ∧
    [a, b, c, e][2 + p2]? = some (if p2 = 0 then c else e) ∧
    (∀ (t : List Draw) (ind1 : Individual) (g : List Chromosome) (rest : List Draw),
      ind.getGamete d gamete0 t = Res.ret (ind1, g) () rest → g.length = 2) := by
  have hpick1 : Individual.pickHomologue (Draw.uniformInt p1 :: s2) = some (p1, s2) := by
    simp only [Individual.pickHomologue, gsl_rng_uniform_int]
    rw [if_pos (by exact_mod_cast hp1)]
  have hpick2 : Individual.pickHomologue (Draw.uniformInt p2 :: s4) = some (p2, s4) := by
    simp only [Individual.pickHomologue, gsl_rng_uniform_int]
    rw [if_pos (by exact_mod_cast hp2)]
  have h2a : Individual.recombine { ind with vChr := [a, b, c2, c3] } d c2 c3 s2
      = Res.ret (c, e) () (Draw.uniformInt p2 :: s4) := by
    exact (recombine_congr ind { ind with vChr := [a, b, c2, c3] } rfl d c2 c3 s2).trans h2
  have hp1c : p1 = 0 ∨ p1 = 1 := by omega
  have hp2c : p2 = 0 ∨ p2 = 1 := by omega
  refine ⟨?_, ?_, ?_, ?_⟩
  · simp only [Individual.getGamete, hv, List.getElem?_cons_zero, List.getElem?_cons_succ, h1,
      List.set_cons_zero, List.set_cons_succ, hpick1, h2a, hpick2]
    rcases hp1c with rfl | rfl <;> rcases hp2c with rfl | rfl <;> simp
  · rcases hp1c with rfl | rfl <;> simp
  · rcases hp2c with rfl | rfl <;> simp
  · intro t ind1 g rest ht
    exact getGamete_length ind d gamete0 t ind1 g rest ht

/-- C10, on an organism of 4 chromosomes of 3 sites: no crossing-over in the first pair and
pick 1, one crossing-over at locus 1 in the second pair and pick 0. -/
theorem Individual.getGamete_effect_witness :
    fourChrInd.getGamete 1 [Chromosome.ofSites [1, 1, 1]]
        [Draw.poisson 0, Draw.uniformInt 1, Draw.poisson 1, Draw.uniformInt 1,
         Draw.uniformInt 0, Draw.uniformInt 5]
      = Res.ret ({ fourChrInd with
                    vChr := [Chromosome.ofSites [1, 1, 0], Chromosome.ofSites [0, 0, 0],
                             Chromosome.ofSites [0, 0, 1], Chromosome.ofSites [1, 1, 0]] },
                 [Chromosome.ofSites [0, 0, 0], Chromosome.ofSites [0, 0, 1]]) ()
          [Draw.uniformInt 5] :=
  (Individual.getGamete_effect fourChrInd (Chromosome.ofSites [1, 1, 0])
    (Chromosome.ofSites [0, 0, 0]) (Chromosome.ofSites [0, 1, 0]) (Chromosome.ofSites [1, 0, 1])
    rfl 1 [Chromosome.ofSites [1, 1, 1]]
    [Draw.poisson 0, Draw.uniformInt 1, Draw.poisson 1, Draw.uniformInt 1,
      Draw.uniformInt 0, Draw.uniformInt 5]
    [Draw.poisson 1, Draw.uniformInt 1, Draw.uniformInt 0, Draw.uniformInt 5]
    [Draw.uniformInt 5]
    (Chromosome.ofSites [1, 1, 0]) (Chromosome.ofSites [0, 0, 0])
    (Chromosome.ofSites [0, 0, 1]) (Chromosome.ofSites [1, 1, 0]) 1 0
    (by decide) (by decide) (by decide) (by decide)).1

/-! ## Individual::loss -/

theorem gsl_rng_uniform_int_some {n : Int} {d : Draw} {v : Nat}
    (h : gsl_rng_uniform_int n d = some v) : d = Draw.uniformInt v ∧ (v : Int) < n := by
  cases d with
  | uniform u => simp [gsl_rng_uniform_int] at h
  | poisson k => simp [gsl_rng_uniform_int] at h
  | poissonAt m k => simp [gsl_rng_uniform_int] at h
  | uniformInt w =>
    simp only [gsl_rng_uniform_int] at h
    split at h
    · injection h with h
      subst h
      exact ⟨rfl, by assumption⟩
    · exact absurd h (by simp)

/-- An `int` of `[-2^31, 2^31)` is not changed by the wrap. -/
theorem wrapInt_eq {z : Int} (h1 : -2 ^ 31 ≤ z) (h2 : z < 2 ^ 31) : wrapInt z = z := by
  unfold wrapInt
  omega

/-- The wrap gives an `int`. -/
theorem wrapInt_range (z : Int) : -2 ^ 31 ≤ wrapInt z ∧ wrapInt z < 2 ^ 31 := by
  unfold wrapInt
  omega

/-- A count from `2^31` on is stored as a negative `int`. -/
theorem wrapInt_count {k : Nat} (h1 : 2 ^ 31 ≤ k) (h2 : k < 2 ^ 32) :
    wrapInt (k : Int) = (k : Int) - 2 ^ 32 := by
  unfold wrapInt
  omega

/-- The value that a caller of `gsl_ran_poisson` stores is an `int`, and it is 0 when the
mean is not positive. -/
theorem gsl_ran_poisson_some {mu : ℚ} {d : Draw} {n : Int}
    (h : gsl_ran_poisson mu d = some n) :
    -2 ^ 31 ≤ n ∧ n < 2 ^ 31 ∧ (n ≠ 0 → 0 < mu) := by
  cases d with
  | uniform u => simp [gsl_ran_poisson] at h
  | uniformInt v => simp [gsl_ran_poisson] at h
  | poisson k =>
    simp only [gsl_ran_poisson] at h
    split at h
    · injection h with h
      rename_i hk
      subst h
      refine ⟨by omega, by omega, ?_⟩
      intro hne
      rcases hk.1 with a | a
      · exact a
      · subst a
        exact absurd rfl hne
    · exact absurd h (by simp)
  | poissonAt m k =>
    simp only [gsl_ran_poisson] at h
    split at h
    · injection h with h
      rename_i hk
      subst h
      obtain ⟨r1, r2⟩ := wrapInt_range (k : Int)
      refine ⟨r1, r2, ?_⟩
      intro hne
      rcases hk.2.1 with a | a
      · exact a
      · subst a
        exact absurd (by decide) hne
    · exact absurd h (by simp)

/-- The mean of the losses is positive for a positive rate and a positive load. -/
theorem meanNbLoss_pos {probLoss : ℚ} {L : Int} (hq : 0 < probLoss) (hL : 0 < L) :
    0 < Individual.meanNbLoss probLoss L := by
  unfold Individual.meanNbLoss
  rw [toFloat_pos_iff]
  exact mul_pos hq ((toFloat_pos_iff _).2 (by exact_mod_cast hL))

theorem getNbTEsLoop_eq (vChr : List Chromosome) : ∀ (k i : Nat) (acc : Int),
    i + k = vChr.length →
    Individual.getNbTEsLoop vChr k i acc
      = some (acc + ((vChr.drop i).map Chromosome.getNbTEs).sum)
  | 0, i, acc, h => by
    have : vChr.drop i = [] := List.drop_of_length_le (by omega)
    simp [Individual.getNbTEsLoop, this]
  | k + 1, i, acc, h => by
    have hi : i < vChr.length := by omega
    have e : vChr.drop i = vChr[i] :: vChr.drop (i + 1) := List.drop_eq_getElem_cons hi
    simp only [Individual.getNbTEsLoop, List.getElem?_eq_getElem hi]
    rw [getNbTEsLoop_eq vChr k (i + 1) _ (by omega), e]
    simp only [List.map_cons, List.sum_cons]
    congr 1
    omega

/-- On an organism that holds `nbChr` chromosomes, `getNbTEs` is the sum of the loads. -/
theorem getNbTEs_eq_load (ind : Individual) (h : ind.vChr.length = ind.nbChr) :
    ind.getNbTEs = some ind.load := by
  unfold Individual.getNbTEs Individual.load
  rw [getNbTEsLoop_eq ind.vChr ind.nbChr 0 0 (by omega)]
  simp

/-- Replacing chromosome `chr` changes the load by the difference of the two loads. -/
theorem load_set (ind : Individual) (chr : Nat) (c c1 : Chromosome)
    (h : ind.vChr[chr]? = some c) :
    Individual.load { ind with vChr := ind.vChr.set chr c1 }
      = ind.load - c.getNbTEs + c1.getNbTEs := by
  unfold Individual.load
  simp only [List.map_set]
  exact sum_set_of_getElem? _ chr c.getNbTEs c1.getNbTEs (by simp [h])

/-- Replacing a chromosome by one of the same architecture keeps the organism well formed. -/
theorem WellFormed.set_chr {ind : Individual} (hw : ind.WellFormed) (chr : Nat) (c1 : Chromosome)
    (h1 : c1.nbSites = ind.nbSitesPerChr) (h2 : c1.vSeq.length = ind.nbSitesPerChr)
    (h3 : Binary c1.vSeq) :
    Individual.WellFormed { ind with vChr := ind.vChr.set chr c1 } := by
  refine ⟨by simpa using hw.1, ?_⟩
  intro c hc
  rcases List.mem_or_eq_of_mem_set hc with h | h
  · exact hw.2 c h
  · subst h
    exact ⟨h1, h2, h3⟩

/-- The load of a well-formed organism is not negative. -/
theorem WellFormed.load_nonneg {ind : Individual} (hw : ind.WellFormed) : 0 ≤ ind.load := by
  unfold Individual.load
  apply List.sum_nonneg
  intro x hx
  obtain ⟨c, hc, rfl⟩ := List.mem_map.mp hx
  exact Binary.sum_nonneg (hw.2 c hc).2.2

/-- An organism of positive load holds a chromosome. -/
theorem WellFormed.nbChr_ne_zero {ind : Individual} (hw : ind.WellFormed) (h : 0 < ind.load) :
    ind.nbChr ≠ 0 := by
  intro h0
  have : ind.vChr = [] := List.length_eq_zero.mp (hw.1.trans h0)
  simp [Individual.load, this] at h

/-- The chromosome choice of `loss` returns the index of a chromosome whose load is not 0. -/
theorem lossPickLoop_holds (ind : Individual) (hlen : ind.vChr.length = ind.nbChr) :
    ∀ s : List Draw, (Individual.lossPickLoop ind s).Holds
      (fun _ chr _ => ∃ c, ind.vChr[chr]? = some c ∧ c.getNbTEs ≠ 0)
  | [] => by simp [Individual.lossPickLoop, Res.Holds]
  | d :: rest => by
    simp only [Individual.lossPickLoop]
    cases hg : gsl_rng_uniform_int (ind.nbChr : Int) d with
    | none => simp [Res.Holds]
    | some chr =>
      have hchr := (gsl_rng_uniform_int_some hg).2
      have hlt : chr < ind.vChr.length := by omega
      simp only [List.getElem?_eq_getElem hlt]
      split
      · exact lossPickLoop_holds ind hlen rest
      · rename_i hne
        exact ⟨ind.vChr[chr], List.getElem?_eq_getElem hlt, hne⟩

/-- `Chromosome::loss` on a binary chromosome of load not 0 removes exactly one element. -/
theorem Chromosome.loss_holds (c : Chromosome) (hb : Binary c.vSeq) (hne : c.getNbTEs ≠ 0)
    (s : List Draw) :
    (c.loss s).Holds (fun c1 _ _ => c1.nbSites = c.nbSites ∧ c1.vSeq.length = c.vSeq.length ∧
      Binary c1.vSeq ∧ c1.getNbTEs = c.getNbTEs - 1) := by
  have hpos : 0 < c.getNbTEs := by
    have := Binary.sum_nonneg hb
    unfold Chromosome.getNbTEs at hne ⊢
    omega
  cases s with
  | nil => simp [Chromosome.loss, Res.Holds, not_le.mpr hpos]
  | cons d rest =>
    cases hg : gsl_rng_uniform_int c.getNbTEs d with
    | none => simp [Chromosome.loss, Res.Holds, not_le.mpr hpos, hg]
    | some v =>
      obtain ⟨hd, hv⟩ := gsl_rng_uniform_int_some hg
      subst hd
      obtain ⟨site, _, _, _, _, h5, h6⟩ := Chromosome.loss_spec c hb v hv rest
      rw [h5]
      exact ⟨rfl, by simp, Binary.set_site hb site 0 (Or.inl rfl), h6⟩

theorem Res.Holds.mono {σ α : Type} {P Q : σ → α → List Draw → Prop} {x : Res σ α}
    (h : x.Holds P) (hPQ : ∀ st a rest, P st a rest → Q st a rest) : x.Holds Q := by
  cases x with
  | ret st a rest => exact hPQ st a rest h
  | exit st => exact h
  | fault => exact h
  | noRun => trivial

/-- The `k` losses of `Individual::loss` remove exactly `k` elements. -/
theorem lossEvents_holds : ∀ (k : Nat) (ind : Individual), ind.WellFormed → ind.nbChr ≠ 0 →
    ∀ s : List Draw,
    (Individual.lossEvents k ind s).Holds (fun ind1 _ _ =>
      ind1.WellFormed ∧ ind1.nbChr = ind.nbChr ∧ ind1.nbSitesPerChr = ind.nbSitesPerChr ∧
      ind1.load = ind.load - k)
  | 0, ind, hw, _, s => by simp [Individual.lossEvents, Res.Holds, hw]
  | k + 1, ind, hw, hn, s => by
    simp only [Individual.lossEvents, Individual.lossPick, if_neg hn]
    have hp := lossPickLoop_holds ind hw.1 s
    cases hr : Individual.lossPickLoop ind s with
    | fault => rw [hr] at hp; exact hp.elim
    | exit st => rw [hr] at hp; exact hp.elim
    | noRun => trivial
    | ret u chr s1 =>
      rw [hr] at hp
      obtain ⟨c, hc, hne⟩ := hp
      simp only [hc]
      obtain ⟨w1, w2, w3⟩ := hw.2 c (List.getElem?_mem hc)
      have hl := Chromosome.loss_holds c w3 hne s1
      cases hc1 : c.loss s1 with
      | fault => rw [hc1] at hl; exact hl.elim
      | exit st => rw [hc1] at hl; exact hl.elim
      | noRun => trivial
      | ret c1 u2 s2 =>
        rw [hc1] at hl
        obtain ⟨a1, a2, a3, a4⟩ := hl
        have hw1 : Individual.WellFormed { ind with vChr := ind.vChr.set chr c1 } :=
          WellFormed.set_chr hw chr c1 (a1.trans w1) (a2.trans w2) a3
        have hload := load_set ind chr c c1 hc
        refine (lossEvents_holds k _ hw1 hn s2).mono ?_
        intro ind1 _ _ ⟨b1, b2, b3, b4⟩
        refine ⟨b1, b2, b3, ?_⟩
        rw [b4, hload, a4]
        push_cast
        omega

/-- How `Individual::loss` runs when the Poisson draw is `n > 0`. -/
theorem loss_eval (ind ind1 : Individual) (probLoss : ℚ) (L : Int) (n : Nat)
    (rest s1 : List Draw) (hL : ind.getNbTEs = some L) (hpos : 0 < L)
    (hmu : 0 < Individual.meanNbLoss probLoss L) (hn : 0 < n) (hn31 : n < 2 ^ 31)
    (hev : Individual.lossEvents n ind rest = Res.ret ind1 () s1)
    (hL1 : ind1.getNbTEs = some (L - n)) :
    ind.loss probLoss (Draw.poisson n :: rest) = Res.ret ind1 (n : Int) s1 := by
  simp only [Individual.loss, hL, gsl_ran_poisson]
  rw [if_pos hpos, if_pos ⟨Or.inl hmu, hn31⟩]
  simp only
  rw [if_pos (by exact_mod_cast hn)]
  simp only [Int.toNat_ofNat, hev, hL1]
  rw [if_neg (by simp)]

/-- A list of loads that are not negative and have a positive sum has a positive load. -/
theorem exists_pos_of_sum_pos : ∀ (l : List Chromosome), (∀ c ∈ l, 0 ≤ c.getNbTEs) →
    0 < (l.map Chromosome.getNbTEs).sum →
    ∃ (chr : Nat) (c : Chromosome), l[chr]? = some c ∧ 0 < c.getNbTEs
  | [], _, h => by simp at h
  | c :: l, hnn, h => by
    by_cases hc : 0 < c.getNbTEs
    · exact ⟨0, c, by simp, hc⟩
    · have h0 := hnn c (List.mem_cons_self c l)
      simp only [List.map_cons, List.sum_cons] at h
      obtain ⟨chr, c1, h1, h2⟩ := exists_pos_of_sum_pos l
        (fun x hx => hnn x (List.mem_cons_of_mem c hx)) (by omega)
      exact ⟨chr + 1, c1, by simpa using h1, h2⟩

/-- For every number `n` of losses up to the load there is a stream on which the `n` losses
of `Individual::loss` return. -/
theorem lossEvents_returns : ∀ (n : Nat) (ind : Individual), ind.WellFormed →
    (n : Int) ≤ ind.load → ∃ (s : List Draw) (ind1 : Individual),
      Individual.lossEvents n ind s = Res.ret ind1 () []
  | 0, ind, _, _ => ⟨[], ind, by simp [Individual.lossEvents]⟩
  | n + 1, ind, hw, hn => by
    have hpos : 0 < ind.load := by push_cast at hn; omega
    obtain ⟨chr, c, hc, hcpos⟩ := exists_pos_of_sum_pos ind.vChr
      (fun x hx => Binary.sum_nonneg (hw.2 x hx).2.2) hpos
    have hchr : chr < ind.nbChr := by
      rw [← hw.1]
      by_contra hge
      rw [List.getElem?_eq_none (by omega)] at hc
      exact absurd hc (by simp)
    obtain ⟨w1, w2, w3⟩ := hw.2 c (List.getElem?_mem hc)
    obtain ⟨site, _, _, _, hscan, _, hload⟩ :=
      Chromosome.loss_spec c w3 0 (by simpa using hcpos) []
    have hw1 : Individual.WellFormed
        { ind with vChr := ind.vChr.set chr { c with vSeq := c.vSeq.set site 0 } } :=
      WellFormed.set_chr hw chr _ w1 (by simpa using w2) (Binary.set_site w3 _ 0 (Or.inl rfl))
    have hl1 := load_set ind chr c { c with vSeq := c.vSeq.set site 0 } hc
    obtain ⟨s, ind1, hs⟩ := lossEvents_returns n _ hw1 (by rw [hl1, hload]; push_cast at hn; omega)
    obtain ⟨site1, _, _, _, hscan1, hloss1, _⟩ :=
      Chromosome.loss_spec c w3 0 (by simpa using hcpos) s
    have hsite : site1 = site := by
      rw [hscan] at hscan1
      injection hscan1 with h
      exact h.symm
    subst hsite
    refine ⟨Draw.uniformInt chr :: Draw.uniformInt 0 :: s, ind1, ?_⟩
    have hc0 : ind.nbChr ≠ 0 := by omega
    have hne : ¬ c.getNbTEs = 0 := by omega
    simp only [Individual.lossEvents, Individual.lossPick, if_neg hc0, Individual.lossPickLoop,
      gsl_rng_uniform_int]
    rw [if_pos (by exact_mod_cast hchr)]
    simp only [hc, if_neg hne, hloss1, hs]

/-- For every well-formed organism of load `L > 0`, every positive loss rate and every
count `n <= L` that the generator can give, there is a stream on which
`Individual::loss` returns `n`. -/
theorem loss_returns (ind : Individual) (hw : ind.WellFormed) (probLoss : ℚ)
    (hq : 0 < probLoss) (hpos : 0 < ind.load) (n : Nat) (hn : (n : Int) ≤ ind.load)
    (hn31 : n < 2 ^ 31) :
    ∃ (s : List Draw) (ind1 : Individual), ind.loss probLoss s = Res.ret ind1 (n : Int) [] := by
  have hL := getNbTEs_eq_load ind hw.1
  have hmu : 0 < Individual.meanNbLoss probLoss ind.load := meanNbLoss_pos hq hpos
  by_cases h0 : n = 0
  · subst h0
    refine ⟨[Draw.poisson 0], ind, ?_⟩
    simp [Individual.loss, hL, hpos, gsl_ran_poisson]
  · obtain ⟨s, ind1, hs⟩ := lossEvents_returns n ind hw hn
    have hh := lossEvents_holds n ind hw (WellFormed.nbChr_ne_zero hw hpos) s
    rw [hs] at hh
    obtain ⟨b1, _, _, b4⟩ := hh
    exact ⟨Draw.poisson n :: s, ind1, loss_eval ind ind1 probLoss ind.load n s [] hL hpos hmu
      (by omega) hn31 hs (by rw [getNbTEs_eq_load ind1 b1.1, b4])⟩

/-- C1: for a well-formed organism (`nbChr` chromosomes of `nbSitesPerChr` binary sites) of
load `L`, on every draw stream `Individual::loss` neither takes the exit `bad number of lost
TEs` nor faults, and the organism returned is well formed.  A value `nbLoss >= 0` is returned
with the load `L - nbLoss` afterwards (and `nbLoss <= L`); such returns exist for every count
`n <= L`.  But the count of `gsl_ran_poisson` is an `unsigned int` that the source stores in
the `int nbLoss`: a count `k` from `2^31` on is stored as `k - 2^32 < 0`, the test
`nbLoss > 0` fails and the call returns this negative `nbLoss` with the organism unchanged,
so that the load afterwards is `L` and not `L - nbLoss`. -/
theorem Individual.loss_postcondition (ind : Individual) (hw : ind.WellFormed) (probLoss : ℚ)
    (s : List Draw) :
    ∃ L : Int, ind.getNbTEs = some L ∧
      (∀ st, ind.loss probLoss s ≠ Res.exit st) ∧ ind.loss probLoss s ≠ Res.fault ∧
      (∀ (ind1 : Individual) (nbLoss : Int) (rest : List Draw),
        ind.loss probLoss s = Res.ret ind1 nbLoss rest →
          ind1.WellFormed ∧
          (0 ≤ nbLoss → ind1.getNbTEs = some (L - nbLoss) ∧ nbLoss ≤ L) ∧
          (nbLoss < 0 → ind1 = ind ∧ ind1.getNbTEs = some L ∧ -2 ^ 31 ≤ nbLoss)) ∧
      (0 < L → 0 < probLoss → ∀ n : Nat, (n : Int) ≤ L → n < 2 ^ 31 →
        ∃ (t : List Draw) (ind1 : Individual),
          ind.loss probLoss t = Res.ret ind1 (n : Int) []) ∧
      (0 < L → 0 < probLoss → ∀ (k : Nat) (rest : List Draw), 2 ^ 31 ≤ k → k < 2 ^ 32 →
        ind.loss probLoss (Draw.poissonAt (Individual.meanNbLoss probLoss L) k :: rest)
          = Res.ret ind ((k : Int) - 2 ^ 32) rest ∧
        L ≠ L - ((k : Int) - 2 ^ 32)) := by
  refine ⟨ind.load, getNbTEs_eq_load ind hw.1, ?_⟩
  have hnn : 0 ≤ ind.load := WellFormed.load_nonneg hw
  have key : (ind.loss probLoss s).Holds (fun ind1 nbLoss _ =>
      ind1.WellFormed ∧
      (0 ≤ nbLoss → ind1.getNbTEs = some (ind.load - nbLoss) ∧ nbLoss ≤ ind.load) ∧
      (nbLoss < 0 → ind1 = ind ∧ ind1.getNbTEs = some ind.load ∧ -2 ^ 31 ≤ nbLoss)) := by
    simp only [Individual.loss, getNbTEs_eq_load ind hw.1]
    split
    · rename_i hpos
      cases s with
      | nil => trivial
      | cons d rest =>
        simp only
        cases hg : gsl_ran_poisson (Individual.meanNbLoss probLoss ind.load) d with
        | none => trivial
        | some nbLoss =>
          obtain ⟨hr1, _, _⟩ := gsl_ran_poisson_some hg
          simp only
          split
          · rename_i hgt
            have hn0 : ind.nbChr ≠ 0 := WellFormed.nbChr_ne_zero hw hpos
            have he := lossEvents_holds nbLoss.toNat ind hw hn0 rest
            cases hr : Individual.lossEvents nbLoss.toNat ind rest with
            | fault => rw [hr] at he; exact he.elim
            | exit st => rw [hr] at he; exact he.elim
            | noRun => trivial
            | ret ind1 u s1 =>
              rw [hr] at he
              obtain ⟨b1, b2, b3, b4⟩ := he
              simp only [getNbTEs_eq_load ind1 b1.1]
              have hcast : ((nbLoss.toNat : Nat) : Int) = nbLoss := Int.toNat_of_nonneg (by omega)
              have b5 : ind1.load = ind.load - nbLoss := by rw [b4, hcast]
              have hnn1 : 0 ≤ ind1.load := WellFormed.load_nonneg b1
              rw [if_neg (by simp [b5])]
              exact ⟨b1, fun _ => ⟨by rw [getNbTEs_eq_load ind1 b1.1, b5], by omega⟩,
                fun hneg => absurd hneg (by omega)⟩
          · rename_i hle
            refine ⟨hw, fun h0 => ?_, fun _ => ⟨rfl, getNbTEs_eq_load ind hw.1, hr1⟩⟩
            have : nbLoss = 0 := by omega
            subst this
            exact ⟨by simpa using getNbTEs_eq_load ind hw.1, hnn⟩
    · refine ⟨hw, fun _ => ⟨by simpa using getNbTEs_eq_load ind hw.1, hnn⟩,
        fun hneg => absurd hneg (by omega)⟩
  refine ⟨?_, ?_, ?_, ?_, ?_⟩
  · intro st h
    rw [h] at key
    exact key
  · intro h
    rw [h] at key
    exact key
  · intro ind1 nbLoss rest h
    rw [h] at key
    exact key
  · intro hpos hq n hn hn31
    exact loss_returns ind hw probLoss hq hpos n hn hn31
  · intro hpos hq k rest hk1 hk2
    have hmu := meanNbLoss_pos hq hpos
    refine ⟨?_, by omega⟩
    simp only [Individual.loss, getNbTEs_eq_load ind hw.1, if_pos hpos, gsl_ran_poisson]
    rw [if_pos ⟨trivial, Or.inl hmu, hk2⟩]
    simp only [wrapInt_count hk1 hk2]
    rw [if_neg (by omega)]

/-- C1 on `carrier` (load 1) with the loss rate `2^31`: the Poisson call of mean `2^31`
returns the count `2^31`, the call returns `-2^31` and the load is still 1.  And on
`fourChrInd` (load 5): two losses, the first choice of a chromosome being redrawn because
chromosome 1 is empty; the load afterwards is 3. -/
theorem Individual.loss_postcondition_witness :
    carrier.WellFormed ∧ carrier.getNbTEs = some 1 ∧
    Individual.meanNbLoss 2147483648 1 = 2147483648 ∧
    carrier.loss 2147483648 [Draw.poissonAt 2147483648 2147483648]
      = Res.ret carrier (-2147483648) [] ∧
    carrier.getNbTEs ≠ some (1 - (-2147483648)) ∧
    fourChrInd.loss 1
        [Draw.poisson 2, Draw.uniformInt 1, Draw.uniformInt 0, Draw.uniformInt 1,
         Draw.uniformInt 3, Draw.uniformInt 0, Draw.uniform 0]
      = Res.ret { fourChrInd with
                    vChr := [Chromosome.ofSites [1, 0, 0], Chromosome.ofSites [0, 0, 0],
                             Chromosome.ofSites [0, 1, 0], Chromosome.ofSites [0, 0, 1]] }
          2 [Draw.uniform 0] := by
  have hw : carrier.WellFormed := by
    simp [Individual.WellFormed, carrier, Chromosome.ofSites, Binary]
  have h1 : carrier.getNbTEs = some 1 := by decide
  have hm : Individual.meanNbLoss 2147483648 1 = 2147483648 := by
    have e2 := toFloat_exact 1 31 (by norm_num)
    unfold Individual.meanNbLoss
    norm_num [toFloat_one] at e2 ⊢
    exact e2
  obtain ⟨L, hL, _, _, _, _, h⟩ := Individual.loss_postcondition carrier hw 2147483648 []
  have hL1 : L = 1 := by
    rw [h1] at hL
    injection hL with hL
    exact hL.symm
  subst hL1
  have hr := (h (by decide) (by norm_num) 2147483648 [] (by norm_num) (by norm_num)).1
  rw [hm] at hr
  exact ⟨hw, h1, hm, hr, by decide, by decide!⟩

/-! ## Individual::transposition -/

/-- The chromosome choice of `transposition` returns the index of a chromosome whose load is
not `nbSitesPerChr`. -/
theorem transpositionPickLoop_holds (ind : Individual) (hlen : ind.vChr.length = ind.nbChr) :
    ∀ s : List Draw, (Individual.transpositionPickLoop ind s).Holds
      (fun _ chr _ => ∃ c, ind.vChr[chr]? = some c ∧ c.getNbTEs ≠ (ind.nbSitesPerChr : Int))
  | [] => by simp [Individual.transpositionPickLoop, Res.Holds]
  | d :: rest => by
    simp only [Individual.transpositionPickLoop]
    cases hg : gsl_rng_uniform_int (ind.nbChr : Int) d with
    | none => simp [Res.Holds]
    | some chr =>
      have hchr := (gsl_rng_uniform_int_some hg).2
      have hlt : chr < ind.vChr.length := by omega
      simp only [List.getElem?_eq_getElem hlt]
      split
      · exact transpositionPickLoop_holds ind hlen rest
      · rename_i hne
        exact ⟨ind.vChr[chr], List.getElem?_eq_getElem hlt, hne⟩

/-- The loop of `Chromosome::transposition` on a binary chromosome adds exactly one
element. -/
theorem Chromosome.transpositionLoop_holds (c : Chromosome) (hN : c.vSeq.length = c.nbSites)
    (hb : Binary c.vSeq) :
    ∀ s : List Draw, (Chromosome.transpositionLoop c s).Holds
      (fun c1 _ _ => c1.nbSites = c.nbSites ∧ c1.vSeq.length = c.vSeq.length ∧
        Binary c1.vSeq ∧ c1.getNbTEs = c.getNbTEs + 1)
  | [] => by simp [Chromosome.transpositionLoop, Res.Holds]
  | d :: rest => by
    simp only [Chromosome.transpositionLoop]
    cases hg : gsl_rng_uniform_int (c.nbSites : Int) d with
    | none => simp [Res.Holds]
    | some insSite =>
      have hi := (gsl_rng_uniform_int_some hg).2
      have hlt : insSite < c.vSeq.length := by omega
      have hget : c.vSeq[insSite]? = some c.vSeq[insSite] := List.getElem?_eq_getElem hlt
      simp only [hget]
      split
      · exact Chromosome.transpositionLoop_holds c hN hb rest
      · rename_i hne
        have h0 : c.vSeq[insSite] = 0 := by
          rcases hb _ (List.getElem_mem hlt) with h | h
          · exact h
          · exact absurd h hne
        refine ⟨rfl, by simp, Binary.set_site hb insSite 1 (Or.inr rfl), ?_⟩
        simp only [Chromosome.getNbTEs]
        rw [sum_set_of_getElem? c.vSeq insSite 0 1 (by rw [hget, h0])]
        omega

/-- The `k` transpositions of `Individual::transposition` add exactly `k` elements. -/
theorem transpositionEvents_holds : ∀ (k : Nat) (ind : Individual), ind.WellFormed →
    ind.nbChr ≠ 0 → ∀ s : List Draw,
    (Individual.transpositionEvents k ind s).Holds (fun ind1 _ _ =>
      ind1.WellFormed ∧ ind1.nbChr = ind.nbChr ∧ ind1.nbSitesPerChr = ind.nbSitesPerChr ∧
      ind1.load = ind.load + k)
  | 0, ind, hw, _, s => by simp [Individual.transpositionEvents, Res.Holds, hw]
  | k + 1, ind, hw, hn, s => by
    simp only [Individual.transpositionEvents, Individual.transpositionPick, if_neg hn]
    have hp := transpositionPickLoop_holds ind hw.1 s
    cases hr : Individual.transpositionPickLoop ind s with
    | fault => rw [hr] at hp; exact hp.elim
    | exit st => rw [hr] at hp; exact hp.elim
    | noRun => trivial
    | ret u chr s1 =>
      rw [hr] at hp
      obtain ⟨c, hc, hne⟩ := hp
      simp only [hc]
      obtain ⟨w1, w2, w3⟩ := hw.2 c (List.getElem?_mem hc)
      have hN0 : c.nbSites ≠ 0 := by
        intro h0
        apply hne
        have : c.vSeq = [] := List.length_eq_zero.mp (by omega)
        simp [Chromosome.getNbTEs, this]
        omega
      have hl := Chromosome.transpositionLoop_holds c (w2.trans w1.symm) w3 s1
      simp only [Chromosome.transposition, if_neg hN0]
      cases hc1 : Chromosome.transpositionLoop c s1 with
      | fault => rw [hc1] at hl; exact hl.elim
      | exit st => rw [hc1] at hl; exact hl.elim
      | noRun => trivial
      | ret c1 u2 s2 =>
        rw [hc1] at hl
        obtain ⟨a1, a2, a3, a4⟩ := hl
        have hw1 : Individual.WellFormed { ind with vChr := ind.vChr.set chr c1 } :=
          WellFormed.set_chr hw chr c1 (a1.trans w1) (a2.trans w2) a3
        have hload := load_set ind chr c c1 hc
        refine (transpositionEvents_holds k _ hw1 hn s2).mono ?_
        intro ind1 _ _ ⟨b1, b2, b3, b4⟩
        refine ⟨b1, b2, b3, ?_⟩
        rw [b4, hload, a4]
        push_cast
        omega

/-- The load of a list of chromosomes of at most `N` elements each. -/
theorem sum_loads_le (N : Nat) : ∀ (l : List Chromosome), (∀ c ∈ l, c.getNbTEs ≤ N) →
    (l.map Chromosome.getNbTEs).sum ≤ ((l.length * N : Nat) : Int)
  | [], _ => by simp
  | c :: l, h => by
    have h0 := h c (List.mem_cons_self c l)
    have ih := sum_loads_le N l (fun x hx => h x (List.mem_cons_of_mem c hx))
    simp only [List.map_cons, List.sum_cons, List.length_cons]
    push_cast at ih ⊢
    linarith

/-- The load of a well-formed organism is at most its capacity. -/
theorem WellFormed.load_le {ind : Individual} (hw : ind.WellFormed) :
    ind.load ≤ ((ind.nbChr * ind.nbSitesPerChr : Nat) : Int) := by
  have := sum_loads_le ind.nbSitesPerChr ind.vChr (fun c hc => by
    have h := hw.2 c hc
    have h2 := Binary.sum_le_length h.2.2
    unfold Chromosome.getNbTEs
    omega)
  rw [hw.1] at this
  exact this

/-- The mean of the transpositions is positive for a positive rate and a positive load. -/
theorem meanNbTransp_pos {rate : ℚ} {L : Int} (hq : 0 < rate) (hL : 0 < L) :
    0 < Individual.meanNbTransp rate L := by
  unfold Individual.meanNbTransp
  rw [toFloat_pos_iff]
  exact mul_pos hq ((toFloat_pos_iff _).2 (by exact_mod_cast hL))

/-- Without regulation (`k = 0`) the rate is `probTransp0`. -/
theorem probTransp_zero (probTransp0 : ℚ) (L : Int) :
    Individual.probTransp probTransp0 0 L = some probTransp0 := by
  simp [Individual.probTransp]

/-- How `Individual::transposition` runs on a well-formed organism of load `> 0` once the
Poisson count `n` is read: it exits at the test of the capacity, or returns `n <= 0` with
the organism as it was, or makes `n > 0` events, which add `n` elements when they return. -/
theorem transposition_after_count (ind : Individual) (hw : ind.WellFormed)
    (hcap : ind.nbChr * ind.nbSitesPerChr < 2 ^ 31) (probTransp0 k rate : ℚ)
    (hpos : 0 < ind.load) (hrate : Individual.probTransp probTransp0 k ind.load = some rate)
    (d : Draw) (rest : List Draw) (n : Int)
    (hg : gsl_ran_poisson (Individual.meanNbTransp rate ind.load) d = some n) :
    (wrapInt (ind.load + n) ≥ ((ind.nbChr * ind.nbSitesPerChr : Nat) : Int) ∧
      ind.transposition probTransp0 k (d :: rest) = Res.exit ind) ∨
    (wrapInt (ind.load + n) < ((ind.nbChr * ind.nbSitesPerChr : Nat) : Int) ∧ n ≤ 0 ∧
      ind.transposition probTransp0 k (d :: rest) = Res.ret ind n rest) ∨
    (wrapInt (ind.load + n) < ((ind.nbChr * ind.nbSitesPerChr : Nat) : Int) ∧ 0 < n ∧
      Individual.transpositionEvents n.toNat ind rest = Res.noRun ∧
      ind.transposition probTransp0 k (d :: rest) = Res.noRun) ∨
    (wrapInt (ind.load + n) < ((ind.nbChr * ind.nbSitesPerChr : Nat) : Int) ∧ 0 < n ∧
      ∃ (ind1 : Individual) (s1 : List Draw),
        Individual.transpositionEvents n.toNat ind rest = Res.ret ind1 () s1 ∧
        ind.transposition probTransp0 k (d :: rest) = Res.ret ind1 n s1 ∧
        ind1.WellFormed ∧ ind1.nbChr = ind.nbChr ∧ ind1.nbSitesPerChr = ind.nbSitesPerChr ∧
        ind1.load = ind.load + n ∧
        ind.load + n < ((ind.nbChr * ind.nbSitesPerChr : Nat) : Int)) := by
  have hL := getNbTEs_eq_load ind hw.1
  by_cases hc : wrapInt (ind.load + n) ≥ ((ind.nbChr * ind.nbSitesPerChr : Nat) : Int)
  · left
    refine ⟨hc, ?_⟩
    simp only [Individual.transposition, hL, if_pos hpos, hrate, hg, if_pos hc]
  · right
    have hc1 : wrapInt (ind.load + n) < ((ind.nbChr * ind.nbSitesPerChr : Nat) : Int) := by
      omega
    by_cases hn0 : n > 0
    · right
      have hc0 : ind.nbChr ≠ 0 := WellFormed.nbChr_ne_zero hw hpos
      have he := transpositionEvents_holds n.toNat ind hw hc0 rest
      cases hr : Individual.transpositionEvents n.toNat ind rest with
      | fault => rw [hr] at he; exact he.elim
      | exit st => rw [hr] at he; exact he.elim
      | noRun =>
        left
        refine ⟨hc1, hn0, rfl, ?_⟩
        simp only [Individual.transposition, hL, if_pos hpos, hrate, hg, if_neg hc,
          if_pos hn0, hr]
      | ret ind1 u s1 =>
        right
        rw [hr] at he
        obtain ⟨b1, b2, b3, b4⟩ := he
        have hcast : ((n.toNat : Nat) : Int) = n := Int.toNat_of_nonneg (by omega)
        rw [hcast] at b4
        have hle := WellFormed.load_le b1
        rw [b2, b3, b4] at hle
        have hcapz : ((ind.nbChr * ind.nbSitesPerChr : Nat) : Int) < 2 ^ 31 := by
          exact_mod_cast hcap
        have hwr : wrapInt (ind.load + n) = ind.load + n := wrapInt_eq (by omega) (by omega)
        refine ⟨hc1, hn0, ind1, s1, rfl, ?_, b1, b2, b3, b4, by rw [← hwr]; exact hc1⟩
        simp only [Individual.transposition, hL, if_pos hpos, hrate, hg, if_neg hc,
          if_pos hn0, hr, getNbTEs_eq_load ind1 b1.1]
        rw [if_neg (by rw [hwr, b4]; simp)]
    · left
      refine ⟨hc1, by omega, ?_⟩
      simp only [Individual.transposition, hL, if_pos hpos, hrate, hg, if_neg hc, if_neg hn0]

/-- How `Individual::transposition` runs when the Poisson draw is `n > 0`, below the
capacity. -/
theorem transposition_eval (ind ind1 : Individual) (probTransp0 k rate : ℚ) (L : Int) (n : Nat)
    (rest s1 : List Draw) (hL : ind.getNbTEs = some L) (hpos : 0 < L)
    (hrate : Individual.probTransp probTransp0 k L = some rate)
    (hmu : 0 < Individual.meanNbTransp rate L)
    (hn : 0 < n) (hn31 : n < 2 ^ 31)
    (hcap : L + n < ((ind.nbChr * ind.nbSitesPerChr : Nat) : Int))
    (hcap31 : ind.nbChr * ind.nbSitesPerChr < 2 ^ 31)
    (hev : Individual.transpositionEvents n ind rest = Res.ret ind1 () s1)
    (hL1 : ind1.getNbTEs = some (L + n)) :
    ind.transposition probTransp0 k (Draw.poisson n :: rest) = Res.ret ind1 (n : Int) s1 := by
  have hcapz : ((ind.nbChr * ind.nbSitesPerChr : Nat) : Int) < 2 ^ 31 := by
    exact_mod_cast hcap31
  have hwr : wrapInt (L + (n : Int)) = L + n := wrapInt_eq (by omega) (by omega)
  simp only [Individual.transposition, hL, if_pos hpos, hrate, gsl_ran_poisson]
  rw [if_pos ⟨Or.inl hmu, hn31⟩]
  simp only [hwr]
  rw [if_neg (by omega), if_pos (by exact_mod_cast hn)]
  simp only [Int.toNat_ofNat, hev, hL1]
  rw [if_neg (by simp)]

/-- A binary vector whose sum is below its length has an unset site. -/
theorem exists_unset_site : ∀ (v : List Int), Binary v → v.sum < v.length →
    ∃ i : Nat, i < v.length ∧ v[i]? = some 0
  | [], _, h => by simp at h
  | x :: v, hb, h => by
    rcases Binary.head hb with hx | hx
    · subst hx
      exact ⟨0, by simp, by simp⟩
    · subst hx
      simp only [List.sum_cons, List.length_cons] at h
      push_cast at h
      obtain ⟨i, h1, h2⟩ := exists_unset_site v (Binary.tail hb) (by omega)
      exact ⟨i + 1, by simpa using h1, by simpa using h2⟩

/-- An organism whose load is below its capacity holds a chromosome that is not full. -/
theorem exists_not_full (N : Nat) : ∀ (l : List Chromosome),
    (∀ c ∈ l, c.getNbTEs ≤ N) → (l.map Chromosome.getNbTEs).sum < ((l.length * N : Nat) : Int) →
    ∃ (chr : Nat) (c : Chromosome), l[chr]? = some c ∧ c.getNbTEs < N
  | [], _, h => by simp at h
  | c :: l, hle, h => by
    by_cases hc : c.getNbTEs < N
    · exact ⟨0, c, by simp, hc⟩
    · have h0 := hle c (List.mem_cons_self c l)
      simp only [List.map_cons, List.sum_cons, List.length_cons] at h
      have e : (((l.length + 1) * N : Nat) : Int) = ((l.length * N : Nat) : Int) + N := by
        push_cast
        ring
      rw [e] at h
      obtain ⟨chr, c1, h1, h2⟩ := exists_not_full N l
        (fun x hx => hle x (List.mem_cons_of_mem c hx)) (by omega)
      exact ⟨chr + 1, c1, by simpa using h1, h2⟩

/-- For every number `n` of transpositions that the capacity admits there is a stream on
which the `n` transpositions of `Individual::transposition` return. -/
theorem transpositionEvents_returns : ∀ (n : Nat) (ind : Individual), ind.WellFormed →
    ind.load + n ≤ ((ind.nbChr * ind.nbSitesPerChr : Nat) : Int) →
    ∃ (s : List Draw) (ind1 : Individual),
      Individual.transpositionEvents n ind s = Res.ret ind1 () []
  | 0, ind, _, _ => ⟨[], ind, by simp [Individual.transpositionEvents]⟩
  | n + 1, ind, hw, hn => by
    have hlt : ind.load < ((ind.vChr.length * ind.nbSitesPerChr : Nat) : Int) := by
      rw [hw.1]
      push_cast at hn ⊢
      omega
    obtain ⟨chr, c, hc, hcN⟩ := exists_not_full ind.nbSitesPerChr ind.vChr
      (fun x hx => by
        have := hw.2 x hx
        have h2 := Binary.sum_le_length this.2.2
        unfold Chromosome.getNbTEs
        omega) hlt
    have hchr : chr < ind.nbChr := by
      rw [← hw.1]
      by_contra hge
      rw [List.getElem?_eq_none (by omega)] at hc
      exact absurd hc (by simp)
    obtain ⟨w1, w2, w3⟩ := hw.2 c (List.getElem?_mem hc)
    obtain ⟨i, hi, hi0⟩ := exists_unset_site c.vSeq w3 (by
      unfold Chromosome.getNbTEs at hcN
      omega)
    have hN0 : c.nbSites ≠ 0 := by omega
    have hload1 : Chromosome.getNbTEs { c with vSeq := c.vSeq.set i 1 } = c.getNbTEs + 1 := by
      simp only [Chromosome.getNbTEs]
      rw [sum_set_of_getElem? c.vSeq i 0 1 hi0]
      omega
    have hw1 : Individual.WellFormed
        { ind with vChr := ind.vChr.set chr { c with vSeq := c.vSeq.set i 1 } } :=
      WellFormed.set_chr hw chr _ w1 (by simpa using w2) (Binary.set_site w3 _ 1 (Or.inr rfl))
    have hl1 := load_set ind chr c { c with vSeq := c.vSeq.set i 1 } hc
    obtain ⟨s, ind1, hs⟩ := transpositionEvents_returns n _ hw1 (by
      rw [hl1, hload1]
      push_cast at hn ⊢
      omega)
    refine ⟨Draw.uniformInt chr :: Draw.uniformInt i :: s, ind1, ?_⟩
    have hc0 : ind.nbChr ≠ 0 := by omega
    have hne : ¬ c.getNbTEs = (ind.nbSitesPerChr : Int) := by omega
    have ht : c.transposition (Draw.uniformInt i :: s)
        = Res.ret { c with vSeq := c.vSeq.set i 1 } () s := by
      simp only [Chromosome.transposition, if_neg hN0]
      exact Chromosome.transpositionLoop_spec c i s (by omega) 0 hi0 (by decide) []
        (by simp)
    simp only [Individual.transpositionEvents, Individual.transpositionPick, if_neg hc0,
      Individual.transpositionPickLoop, gsl_rng_uniform_int]
    rw [if_pos (by exact_mod_cast hchr)]
    simp only [hc, if_neg hne, ht, hs]

/-- For every well-formed organism of load `L > 0`, every positive rate and every count `n`
with `L + n` below the capacity, there is a stream on which `Individual::transposition`
returns `n`. -/
theorem transposition_returns (ind : Individual) (hw : ind.WellFormed) (probTransp0 k rate : ℚ)
    (hcap31 : ind.nbChr * ind.nbSitesPerChr < 2 ^ 31)
    (hpos : 0 < ind.load)
    (hrate : Individual.probTransp probTransp0 k ind.load = some rate) (hq : 0 < rate)
    (n : Nat) (hn : ind.load + n < ((ind.nbChr * ind.nbSitesPerChr : Nat) : Int)) :
    ∃ (s : List Draw) (ind1 : Individual),
      ind.transposition probTransp0 k s = Res.ret ind1 (n : Int) [] := by
  have hL := getNbTEs_eq_load ind hw.1
  have hmu := meanNbTransp_pos hq hpos
  have hcapz : ((ind.nbChr * ind.nbSitesPerChr : Nat) : Int) < 2 ^ 31 := by
    exact_mod_cast hcap31
  have hn31 : n < 2 ^ 31 := by omega
  by_cases h0 : n = 0
  · subst h0
    refine ⟨[Draw.poisson 0], ind, ?_⟩
    have hwr : wrapInt (ind.load + ((0 : Nat) : Int)) = ind.load + ((0 : Nat) : Int) :=
      wrapInt_eq (by omega) (by omega)
    simp only [Individual.transposition, hL, if_pos hpos, hrate, gsl_ran_poisson]
    rw [if_pos ⟨Or.inr trivial, by decide⟩]
    simp only [hwr]
    rw [if_neg (by omega), if_neg (by simp)]
  · obtain ⟨s, ind1, hs⟩ := transpositionEvents_returns n ind hw (by omega)
    have hh := transpositionEvents_holds n ind hw (WellFormed.nbChr_ne_zero hw hpos) s
    rw [hs] at hh
    obtain ⟨b1, _, _, b4⟩ := hh
    exact ⟨Draw.poisson n :: s, ind1, transposition_eval ind ind1 probTransp0 k rate ind.load n
      s [] hL hpos hrate hmu (by omega) hn31 hn hcap31 hs
      (by rw [getNbTEs_eq_load ind1 b1.1, b4])⟩

/-- C2: for a well-formed organism of load `L` (its capacity `nbChr * nbSitesPerChr` being an
`int`), on every draw stream: `Individual::transposition` faults only when the rate is not a
number; it never takes the exit `bad number of transposed TEs` (an exit is the test of the
capacity, with the organism untouched); the organism returned is well formed, and a value
`nbTransp >= 0` is returned with the load `L + nbTransp` afterwards, below the capacity; such
returns exist for every count below the capacity.  But the count of `gsl_ran_poisson` is an
`unsigned int` stored in the `int nbTransp`, and `nbTEs + nbTransp` is a sum of `int`s.  A
count `c` from `2^31` on is stored as `c - 2^32 < 0`: the call returns this negative
`nbTransp` with the organism unchanged, so that the load afterwards is `L` and not
`L + nbTransp`.  And a count `n < 2^31` with `L + n >= 2^31` is over the capacity, but the sum
wraps to a negative `int`: the call does not exit, it runs the events (its trace is the trace
of the `n` events), which never complete. -/
theorem Individual.transposition_postcondition (ind : Individual) (hw : ind.WellFormed)
    (hcap : ind.nbChr * ind.nbSitesPerChr < 2 ^ 31) (probTransp0 k : ℚ) (s : List Draw) :
    ∃ L : Int, ind.getNbTEs = some L ∧
      (ind.transposition probTransp0 k s = Res.fault →
        0 < L ∧ Individual.probTransp probTransp0 k L = none) ∧
      (∀ (ind1 : Individual) (nbTransp : Int) (rest : List Draw),
        ind.transposition probTransp0 k s = Res.ret ind1 nbTransp rest →
          ind1.WellFormed ∧
          (0 ≤ nbTransp → ind1.getNbTEs = some (L + nbTransp) ∧
            (0 < L → L + nbTransp < ((ind.nbChr * ind.nbSitesPerChr : Nat) : Int))) ∧
          (nbTransp < 0 → ind1 = ind ∧ ind1.getNbTEs = some L ∧ -2 ^ 31 ≤ nbTransp)) ∧
      (∀ st, ind.transposition probTransp0 k s = Res.exit st → st = ind ∧ 0 < L) ∧
      (∀ rate : ℚ, 0 < L → Individual.probTransp probTransp0 k L = some rate → 0 < rate →
        (∀ n : Nat, L + n < ((ind.nbChr * ind.nbSitesPerChr : Nat) : Int) →
          ∃ (t : List Draw) (ind1 : Individual),
            ind.transposition probTransp0 k t = Res.ret ind1 (n : Int) []) ∧
        (∀ (c : Nat) (rest : List Draw), 2 ^ 31 ≤ c → c < 2 ^ 32 →
          ind.transposition probTransp0 k
              (Draw.poissonAt (Individual.meanNbTransp rate L) c :: rest)
            = Res.ret ind ((c : Int) - 2 ^ 32) rest ∧
          L ≠ L + ((c : Int) - 2 ^ 32)) ∧
        (∀ (n : Nat) (rest : List Draw), n < 2 ^ 31 → 2 ^ 31 ≤ L + n →
          ((ind.nbChr * ind.nbSitesPerChr : Nat) : Int) ≤ L + n ∧
          ind.transposition probTransp0 k (Draw.poisson n :: rest) = Res.noRun ∧
          ind.transpositionTrace probTransp0 k (Draw.poisson n :: rest)
            = Individual.transpositionSteps n ind rest)) := by
  have hL := getNbTEs_eq_load ind hw.1
  have hnn : 0 ≤ ind.load := WellFormed.load_nonneg hw
  have hle := WellFormed.load_le hw
  have hcapz : ((ind.nbChr * ind.nbSitesPerChr : Nat) : Int) < 2 ^ 31 := by exact_mod_cast hcap
  refine ⟨ind.load, hL, ?_⟩
  have main : ind.transposition probTransp0 k s ≠ Res.fault ∨
      (0 < ind.load ∧ Individual.probTransp probTransp0 k ind.load = none) := by
    by_cases hpos : ind.load > 0
    · cases hrate : Individual.probTransp probTransp0 k ind.load with
      | none => exact Or.inr ⟨hpos, rfl⟩
      | some rate =>
        left
        cases s with
        | nil => simp [Individual.transposition, hL, hpos, hrate]
        | cons d rest =>
          cases hg : gsl_ran_poisson (Individual.meanNbTransp rate ind.load) d with
          | none => simp [Individual.transposition, hL, hpos, hrate, hg]
          | some n =>
            rcases transposition_after_count ind hw hcap probTransp0 k rate hpos hrate d rest n hg
              with ⟨_, e⟩ | ⟨_, _, e⟩ | ⟨_, _, _, e⟩ | ⟨_, _, ind1, s1, _, e, _⟩ <;>
              rw [e] <;> simp
    · left
      simp [Individual.transposition, hL, hpos]
  have rets : ∀ (ind1 : Individual) (nbTransp : Int) (rest : List Draw),
      ind.transposition probTransp0 k s = Res.ret ind1 nbTransp rest →
        ind1.WellFormed ∧
        (0 ≤ nbTransp → ind1.getNbTEs = some (ind.load + nbTransp) ∧
          (0 < ind.load →
            ind.load + nbTransp < ((ind.nbChr * ind.nbSitesPerChr : Nat) : Int))) ∧
        (nbTransp < 0 → ind1 = ind ∧ ind1.getNbTEs = some ind.load ∧ -2 ^ 31 ≤ nbTransp) := by
    intro ind1 nbTransp rest h
    by_cases hpos : ind.load > 0
    · cases hrate : Individual.probTransp probTransp0 k ind.load with
      | none => simp [Individual.transposition, hL, hpos, hrate] at h
      | some rate =>
        cases s with
        | nil => simp [Individual.transposition, hL, hpos, hrate] at h
        | cons d rest0 =>
          cases hg : gsl_ran_poisson (Individual.meanNbTransp rate ind.load) d with
          | none => simp [Individual.transposition, hL, hpos, hrate, hg] at h
          | some n =>
            obtain ⟨hr1, hr2, _⟩ := gsl_ran_poisson_some hg
            rcases transposition_after_count ind hw hcap probTransp0 k rate hpos hrate d rest0
                n hg with ⟨_, e⟩ | ⟨hc, hn, e⟩ | ⟨_, _, _, e⟩ |
                ⟨_, hn, i1, s1, _, e, b1, _, _, b4, b5⟩
            · rw [e] at h
              exact absurd h (by simp)
            · rw [e] at h
              simp only [Res.ret.injEq] at h
              obtain ⟨h1, h2, _⟩ := h
              subst h1 h2
              refine ⟨hw, fun h0 => ?_, fun _ => ⟨rfl, hL, hr1⟩⟩
              have hz : n = 0 := by omega
              subst hz
              rw [wrapInt_eq (by omega) (by omega)] at hc
              exact ⟨by simpa using hL, fun _ => hc⟩
            · rw [e] at h
              exact absurd h (by simp)
            · rw [e] at h
              simp only [Res.ret.injEq] at h
              obtain ⟨h1, h2, _⟩ := h
              subst h1 h2
              exact ⟨b1, fun _ => ⟨by rw [getNbTEs_eq_load i1 b1.1, b4], fun _ => b5⟩,
                fun hneg => absurd hneg (by omega)⟩
    · have e : ind.transposition probTransp0 k s = Res.ret ind 0 s := by
        simp only [Individual.transposition, hL, if_neg hpos]
      rw [e] at h
      simp only [Res.ret.injEq] at h
      obtain ⟨h1, h2, _⟩ := h
      subst h1 h2
      exact ⟨hw, fun _ => ⟨by simpa using hL, fun hp => absurd hp hpos⟩,
        fun hneg => absurd hneg (by omega)⟩
  have exits : ∀ st, ind.transposition probTransp0 k s = Res.exit st →
      st = ind ∧ 0 < ind.load := by
    intro st h
    by_cases hpos : ind.load > 0
    · cases hrate : Individual.probTransp probTransp0 k ind.load with
      | none => simp [Individual.transposition, hL, hpos, hrate] at h
      | some rate =>
        cases s with
        | nil => simp [Individual.transposition, hL, hpos, hrate] at h
        | cons d rest0 =>
          cases hg : gsl_ran_poisson (Individual.meanNbTransp rate ind.load) d with
          | none => simp [Individual.transposition, hL, hpos, hrate, hg] at h
          | some n =>
            rcases transposition_after_count ind hw hcap probTransp0 k rate hpos hrate d rest0
                n hg with ⟨_, e⟩ | ⟨_, _, e⟩ | ⟨_, _, _, e⟩ | ⟨_, _, i1, s1, _, e, _⟩
            · rw [e] at h
              simp only [Res.exit.injEq] at h
              exact ⟨h.symm, hpos⟩
            · rw [e] at h
              exact absurd h (by simp)
            · rw [e] at h
              exact absurd h (by simp)
            · rw [e] at h
              exact absurd h (by simp)
    · simp [Individual.transposition, hL, hpos] at h
  refine ⟨?_, rets, exits, ?_⟩
  · intro hf
    rcases main with h | h
    · exact absurd hf h
    · exact h
  · intro rate hpos hrate hq
    have hmu := meanNbTransp_pos hq hpos
    refine ⟨fun n hn => transposition_returns ind hw probTransp0 k rate hcap hpos hrate hq n hn,
      ?_, ?_⟩
    · intro c rest hc1 hc2
      refine ⟨?_, by omega⟩
      simp only [Individual.transposition, hL, if_pos hpos, hrate, gsl_ran_poisson]
      rw [if_pos ⟨trivial, Or.inl hmu, hc2⟩]
      simp only [wrapInt_count hc1 hc2]
      rw [wrapInt_eq (by omega) (by omega), if_neg (by omega), if_neg (by omega)]
    · intro n rest hn hwrap
      have hg : gsl_ran_poisson (Individual.meanNbTransp rate ind.load) (Draw.poisson n)
          = some (n : Int) := by
        simp only [gsl_ran_poisson]
        rw [if_pos ⟨Or.inl hmu, hn⟩]
      have hwr : wrapInt (ind.load + (n : Int)) = ind.load + n - 2 ^ 32 := by
        unfold wrapInt
        omega
      refine ⟨by omega, ?_, ?_⟩
      · rcases transposition_after_count ind hw hcap probTransp0 k rate hpos hrate
            (Draw.poisson n) rest n hg with ⟨h1, _⟩ | ⟨_, h1, _⟩ | ⟨_, _, _, e⟩ |
            ⟨_, _, _, _, _, _, _, _, _, _, h1⟩
        · omega
        · omega
        · exact e
        · omega
      · simp only [Individual.transpositionTrace, hL, if_pos hpos, hrate, hg, hwr]
        rw [if_neg (by omega), if_pos (by omega)]
        simp

/-- C2 on `carrier` (4 chromosomes of 3 sites, load 1, capacity 12).  With the rate `2^31`
the Poisson call of mean `2^31` returns the count `2^31`: the call returns `-2^31` and the
load is still 1.  With the rate 1 and the count `2^31 - 1` the sum `1 + (2^31 - 1)` is over
the capacity, but the call does not exit: it makes a first event, which sets a site of
chromosome 1.  And on `fourChrInd` (load 5, capacity 12): one transposition, the first site
drawn being occupied, gives the load 6; a Poisson count of 7 reaches the capacity and the
call exits. -/
theorem Individual.transposition_postcondition_witness :
    carrier.WellFormed ∧ carrier.getNbTEs = some 1 ∧
    carrier.transposition 2147483648 0 [Draw.poissonAt 2147483648 2147483648]
      = Res.ret carrier (-2147483648) [] ∧
    carrier.getNbTEs ≠ some (1 + (-2147483648)) ∧
    carrier.transposition 1 0 [Draw.poisson 2147483647, Draw.uniformInt 1, Draw.uniformInt 0]
      = Res.noRun ∧
    (carrier.transpositionTrace 1 0
        [Draw.poisson 2147483647, Draw.uniformInt 1, Draw.uniformInt 0]).map
        (fun e => e.1.vChr.map Chromosome.vSeq)
      = [[[1, 0, 0], [0, 0, 0], [0, 0, 0], [0, 0, 0]],
         [[1, 0, 0], [1, 0, 0], [0, 0, 0], [0, 0, 0]]] ∧
    fourChrInd.transposition 1 0
        [Draw.poisson 1, Draw.uniformInt 0, Draw.uniformInt 0, Draw.uniformInt 2,
         Draw.poisson 0]
      = Res.ret { fourChrInd with
                    vChr := [Chromosome.ofSites [1, 1, 1], Chromosome.ofSites [0, 0, 0],
                             Chromosome.ofSites [0, 1, 0], Chromosome.ofSites [1, 0, 1]] }
          1 [Draw.poisson 0] ∧
    fourChrInd.transposition 1 0 [Draw.poisson 7] = Res.exit fourChrInd := by
  have hw : carrier.WellFormed := by
    simp [Individual.WellFormed, carrier, Chromosome.ofSites, Binary]
  have h1 : carrier.getNbTEs = some 1 := by decide
  have hm : Individual.meanNbTransp 2147483648 1 = 2147483648 := by
    have e2 := toFloat_exact 1 31 (by norm_num)
    unfold Individual.meanNbTransp
    norm_num [toFloat_one] at e2 ⊢
    exact e2
  obtain ⟨L, hL, _, _, _, h⟩ := Individual.transposition_postcondition carrier hw (by decide)
    2147483648 0 []
  obtain ⟨L1, hL1, _, _, _, h'⟩ := Individual.transposition_postcondition carrier hw (by decide)
    1 0 []
  have e1 : L = 1 := by
    rw [h1] at hL
    injection hL with hL
    exact hL.symm
  have e2 : L1 = 1 := by
    rw [h1] at hL1
    injection hL1 with hL1
    exact hL1.symm
  subst e1 e2
  have hr := ((h 2147483648 (by decide) (probTransp_zero _ _) (by norm_num)).2.1
    2147483648 [] (by norm_num) (by norm_num)).1
  rw [hm] at hr
  have hn := ((h' 1 (by decide) (probTransp_zero _ _) (by norm_num)).2.2
    2147483647 [Draw.uniformInt 1, Draw.uniformInt 0] (by norm_num) (by norm_num)).2
  refine ⟨hw, h1, hr, by decide, hn.1, ?_, by decide!, by decide!⟩
  rw [hn.2]
  decide!

/-! ## Population: size -/

theorem assignVector_length : ∀ (old new : List Individual),
    (assignVector old new).length = new.length
  | [], new => by simp [assignVector]
  | _ :: _, [] => by simp [assignVector]
  | o :: old, n :: new => by simp [assignVector, assignVector_length old new]

/-- `setIndividuals` only installs a vector of `nbDiploids` organisms. -/
theorem setIndividuals_size (pop pop1 : Population) (vNewInd : List Individual)
    (s rest : List Draw) (h : pop.setIndividuals vNewInd s = Res.ret pop1 () rest) :
    pop1.vInd = assignVector pop.vInd vNewInd ∧ vNewInd.length = pop.nbDiploids ∧
      pop1.nbDiploids = pop.nbDiploids := by
  unfold Population.setIndividuals at h
  split at h
  · exact absurd h (by simp)
  · rename_i hlen
    split at h
    · exact absurd h (by simp)
    · split at h
      · exact absurd h (by simp)
      · injection h with h1 h2 h3
        subst h1
        exact ⟨rfl, not_not.mp hlen, rfl⟩

/-- The loop of `Population::loss` keeps the number of organisms. -/
theorem lossLoop_size (probLoss : ℚ) : ∀ (k i : Nat) (pop : Population) (acc : Int)
    (s : List Draw),
    (∀ pop1 n rest, Population.lossLoop probLoss k i pop acc s = Res.ret pop1 n rest →
      pop1.vInd.length = pop.vInd.length ∧ pop1.nbDiploids = pop.nbDiploids) ∧
    (∀ pop1, Population.lossLoop probLoss k i pop acc s = Res.exit pop1 →
      pop1.vInd.length = pop.vInd.length ∧ pop1.nbDiploids = pop.nbDiploids)
  | 0, i, pop, acc, s => by
    simp only [Population.lossLoop]
    constructor
    · intro pop1 n rest h
      injection h with h1
      subst h1
      exact ⟨rfl, rfl⟩
    · intro pop1 h
      exact absurd h (by simp)
  | k + 1, i, pop, acc, s => by
    simp only [Population.lossLoop]
    cases pop.vInd[i]? with
    | none => simp
    | some ind =>
      simp only
      cases ind.loss probLoss s with
      | fault => simp
      | noRun => simp
      | exit ind1 =>
        simp only
        constructor
        · intro pop1 n rest h
          exact absurd h (by simp)
        · intro pop1 h
          injection h with h1
          subst h1
          simp
      | ret ind1 n s1 =>
        simp only
        have ih := lossLoop_size probLoss k (i + 1) { pop with vInd := pop.vInd.set i ind1 }
          (acc + n) s1
        simp only [List.length_set] at ih
        exact ih

/-- The loop of `Population::transposition` keeps the number of organisms. -/
theorem transpositionLoop_size (probTransp0 k : ℚ) : ∀ (n i : Nat) (pop : Population)
    (acc : Int) (s : List Draw),
    (∀ pop1 m rest,
      Population.transpositionLoop probTransp0 k n i pop acc s = Res.ret pop1 m rest →
      pop1.vInd.length = pop.vInd.length ∧ pop1.nbDiploids = pop.nbDiploids) ∧
    (∀ pop1, Population.transpositionLoop probTransp0 k n i pop acc s = Res.exit pop1 →
      pop1.vInd.length = pop.vInd.length ∧ pop1.nbDiploids = pop.nbDiploids)
  | 0, i, pop, acc, s => by
    simp only [Population.transpositionLoop]
    constructor
    · intro pop1 n rest h
      injection h with h1
      subst h1
      exact ⟨rfl, rfl⟩
    · intro pop1 h
      exact absurd h (by simp)
  | n + 1, i, pop, acc, s => by
    simp only [Population.transpositionLoop]
    cases pop.vInd[i]? with
    | none => simp
    | some ind =>
      simp only
      cases ind.transposition probTransp0 k s with
      | fault => simp
      | noRun => simp
      | exit ind1 =>
        simp only
        constructor
        · intro pop1 n rest h
          exact absurd h (by simp)
        · intro pop1 h
          injection h with h1
          subst h1
          simp
      | ret ind1 m s1 =>
        simp only
        have ih := transpositionLoop_size probTransp0 k n (i + 1)
          { pop with vInd := pop.vInd.set i ind1 } (acc + m) s1
        simp only [List.length_set] at ih
        exact ih

/-- The loop of `Population::makeNewGeneration` returns only when `i` has reached
`nbDiploids`, with one organism added to the vector for each step of `i`. -/
theorem makeNewGenerationLoop_size (pow : ℚ → ℚ → ℚ) (pop : Population) (raw : Individual) :
    ∀ (fuel i : Nat) (vNewInd : List Individual) (s : List Draw) (v1 : List Individual)
      (rest : List Draw), i ≤ pop.nbDiploids →
      Population.makeNewGenerationLoop pow pop raw fuel i vNewInd s = Res.ret v1 () rest →
      v1.length + i = vNewInd.length + pop.nbDiploids
  | 0, i, vNewInd, s, v1, rest, _, h => by
    simp [Population.makeNewGenerationLoop] at h
  | fuel + 1, i, vNewInd, s, v1, rest, hi, h => by
    simp only [Population.makeNewGenerationLoop] at h
    split at h
    · rename_i hlt
      split at h
      · split at h
        · have := makeNewGenerationLoop_size pow pop raw fuel (i + 1) _ _ _ _ (by omega) h
          simp only [List.length_append, List.length_singleton] at this
          omega
        · exact makeNewGenerationLoop_size pow pop raw fuel i _ _ _ _ hi h
      · exact absurd h (by simp)
      · exact absurd h (by simp)
      · exact absurd h (by simp)
    · injection h with h1
      subst h1
      omega

/-- C3: the size of the population is invariant.  On a population holding `nbDiploids`
organisms, whenever `makeNewGeneration`, `Population::loss` or `Population::transposition`
returns, the population holds exactly `nbDiploids` organisms (and `nbDiploids` is unchanged);
the same holds for the population as it is when one of them exits.  In `makeNewGeneration` the
loop hands over exactly `nbDiploids` accepted offspring, whatever the number of candidates it
rejected. -/
theorem Population.size_invariant (pow : ℚ → ℚ → ℚ) (pop : Population) (raw : Individual)
    (hsize : pop.vInd.length = pop.nbDiploids) (s : List Draw) :
    (∀ pop1 rest, pop.makeNewGeneration pow raw s = Res.ret pop1 () rest →
      pop1.vInd.length = pop.nbDiploids ∧ pop1.nbDiploids = pop.nbDiploids) ∧
    (∀ pop1, pop.makeNewGeneration pow raw s = Res.exit pop1 →
      pop1.vInd.length = pop.nbDiploids ∧ pop1.nbDiploids = pop.nbDiploids) ∧
    (∀ fuel vNewInd rest,
      Population.makeNewGenerationLoop pow pop raw fuel 0 [] s = Res.ret vNewInd () rest →
      vNewInd.length = pop.nbDiploids) ∧
    (∀ probLoss pop1 n rest, pop.loss probLoss s = Res.ret pop1 n rest →
      pop1.vInd.length = pop.nbDiploids ∧ pop1.nbDiploids = pop.nbDiploids) ∧
    (∀ probLoss pop1, pop.loss probLoss s = Res.exit pop1 →
      pop1.vInd.length = pop.nbDiploids ∧ pop1.nbDiploids = pop.nbDiploids) ∧
    (∀ probTransp0 k pop1 n rest, pop.transposition probTransp0 k s = Res.ret pop1 n rest →
      pop1.vInd.length = pop.nbDiploids ∧ pop1.nbDiploids = pop.nbDiploids) ∧
    (∀ probTransp0 k pop1, pop.transposition probTransp0 k s = Res.exit pop1 →
      pop1.vInd.length = pop.nbDiploids ∧ pop1.nbDiploids = pop.nbDiploids) := by
  have hexit : ∀ (vNewInd : List Individual) (t : List Draw) (pop1 : Population),
      pop.setIndividuals vNewInd t = Res.exit pop1 → pop1 = pop := by
    intro vNewInd t pop1 h
    unfold Population.setIndividuals at h
    split at h
    · injection h with h
      exact h.symm
    · split at h
      · exact absurd h (by simp)
      · split at h
        · injection h with h
          exact h.symm
        · exact absurd h (by simp)
  refine ⟨?_, ?_, ?_, ?_, ?_, ?_, ?_⟩
  · intro pop1 rest h
    unfold Population.makeNewGeneration at h
    split at h
    · obtain ⟨h1, h2, h3⟩ := setIndividuals_size pop pop1 _ _ _ h
      exact ⟨by rw [h1, assignVector_length, h2], h3⟩
    · exact absurd h (by simp)
    · exact absurd h (by simp)
    · exact absurd h (by simp)
  · intro pop1 h
    unfold Population.makeNewGeneration at h
    split at h
    · rw [hexit _ _ _ h]
      exact ⟨hsize, rfl⟩
    · injection h with h
      subst h
      exact ⟨hsize, rfl⟩
    · exact absurd h (by simp)
    · exact absurd h (by simp)
  · intro fuel vNewInd rest h
    have := makeNewGenerationLoop_size pow pop raw fuel 0 [] s vNewInd rest (Nat.zero_le _) h
    simpa using this
  · intro probLoss pop1 n rest h
    have := (lossLoop_size probLoss pop.nbDiploids 0 pop 0 s).1 pop1 n rest h
    exact ⟨this.1.trans hsize, this.2⟩
  · intro probLoss pop1 h
    have := (lossLoop_size probLoss pop.nbDiploids 0 pop 0 s).2 pop1 h
    exact ⟨this.1.trans hsize, this.2⟩
  · intro probTransp0 k pop1 n rest h
    have := (transpositionLoop_size probTransp0 k pop.nbDiploids 0 pop 0 s).1 pop1 n rest h
    exact ⟨this.1.trans hsize, this.2⟩
  · intro probTransp0 k pop1 h
    have := (transpositionLoop_size probTransp0 k pop.nbDiploids 0 pop 0 s).2 pop1 h
    exact ⟨this.1.trans hsize, this.2⟩

/-- How `Individual::isViable` runs under zygote selection. -/
theorem isViable_eval (pow : ℚ → ℚ → ℚ) (ind : Individual) (u f : ℚ)
    (rest : List Draw) (hz : ind.zygoteSelection = true) (hu : 0 ≤ u ∧ u ≤ 1)
    (hf : ind.getFitness pow = some f) :
    ind.isViable pow (Draw.uniform u :: rest) = Res.ret ind (decide (u ≤ f)) rest := by
  simp only [Individual.isViable, hz, gsl_rng_uniform, if_pos hu, hf]
  by_cases h : u ≤ f
  · simp [h]
  · simp [h]

/-- How the body of the loop of `makeNewGeneration` runs. -/
theorem makeCandidate_eval (pow : ℚ → ℚ → ℚ) (pop : Population) (raw : Individual)
    (s s1 s2 s3 s4 : List Draw) (parent1 parent2 i1 i2 ind : Individual)
    (gamete1 gamete2 : List Chromosome) (viable : Bool)
    (h1 : pop.sampleCouple (Individual.ctor raw) (Individual.ctor raw) s
      = Res.ret (parent1, parent2) () s1)
    (h2 : parent1.getGamete pop.totalMapDist [] s1 = Res.ret (i1, gamete1) () s2)
    (h3 : parent2.getGamete pop.totalMapDist [] s2 = Res.ret (i2, gamete2) () s3)
    (h4 : (Individual.ctor raw).fecundation gamete1 gamete2 pop.zygoteSelection pop.selMult
      pop.selExp (pop.verbose - 1) = some ind)
    (h5 : ind.isViable pow s3 = Res.ret ind viable s4) :
    pop.makeCandidate pow raw s = Candidate.made ind viable s4 := by
  simp only [Population.makeCandidate, h1, h2, h3, h4, h5]

/-- One turn of the loop of `makeNewGeneration` on a viable candidate. -/
theorem makeNewGenerationLoop_accept (pow : ℚ → ℚ → ℚ) (pop : Population) (raw : Individual)
    (fuel i : Nat) (vNewInd : List Individual) (s s1 : List Draw) (ind : Individual)
    (hi : i < pop.nbDiploids) (h : pop.makeCandidate pow raw s = Candidate.made ind true s1) :
    Population.makeNewGenerationLoop pow pop raw (fuel + 1) i vNewInd s
      = Population.makeNewGenerationLoop pow pop raw fuel (i + 1) (vNewInd ++ [ind]) s1 := by
  simp only [Population.makeNewGenerationLoop, if_pos hi, h, if_true]

/-- One turn of the loop of `makeNewGeneration` on a candidate that is not viable. -/
theorem makeNewGenerationLoop_reject (pow : ℚ → ℚ → ℚ) (pop : Population) (raw : Individual)
    (fuel i : Nat) (vNewInd : List Individual) (s s1 : List Draw) (ind : Individual)
    (hi : i < pop.nbDiploids) (h : pop.makeCandidate pow raw s = Candidate.made ind false s1) :
    Population.makeNewGenerationLoop pow pop raw (fuel + 1) i vNewInd s
      = Population.makeNewGenerationLoop pow pop raw fuel i vNewInd s1 := by
  simp only [Population.makeNewGenerationLoop, if_pos hi, h]
  simp

/-- A candidate of `twoPop` whose first gamete takes chromosome 0 of the first parent is
not viable on the draw 1/2. -/
theorem twoPop_candidate_rejected (rest : List Draw) :
    twoPop.makeCandidate (fun x _ => x) carrier (candidateDraws 0 ++ rest)
      = Candidate.made loadedChild false rest := by
  refine makeCandidate_eval _ twoPop carrier _
    ([Draw.poisson 0, Draw.uniformInt 0, Draw.poisson 0, Draw.uniformInt 0,
      Draw.poisson 0, Draw.uniformInt 1, Draw.poisson 0, Draw.uniformInt 0,
      Draw.uniform (1 / 2)] ++ rest)
    ([Draw.poisson 0, Draw.uniformInt 1, Draw.poisson 0, Draw.uniformInt 0,
      Draw.uniform (1 / 2)] ++ rest)
    (Draw.uniform (1 / 2) :: rest) rest carrier carrier carrier carrier loadedChild
    [Chromosome.ofSites [1, 0, 0], Chromosome.ofSites [0, 0, 0]]
    [Chromosome.ofSites [0, 0, 0], Chromosome.ofSites [0, 0, 0]] false ?_ ?_ ?_ ?_ ?_
  · simp [Population.sampleCouple, candidateDraws, twoPop, gsl_rng_uniform_int,
      Population.sampleCoupleLoop, Individual.ctor, Individual.assign, Individual.reset, carrier]
  · simp [Individual.getGamete, Individual.recombine, gsl_ran_poisson, carrier, twoPop,
      Individual.pickHomologue, gsl_rng_uniform_int]
  · simp [Individual.getGamete, Individual.recombine, gsl_ran_poisson, carrier, twoPop,
      Individual.pickHomologue, gsl_rng_uniform_int]
  · simp [Individual.fecundation, Individual.ctor, Individual.reset, carrier, twoPop,
      loadedChild, emptyChild, Chromosome.ofSites]
  · have h := isViable_eval (fun x _ => x) loadedChild (1 / 2) 0 rest rfl (by norm_num)
      (by decide!)
    rw [h]
    congr 1
    simp

/-- A candidate of `twoPop` whose gametes take no element is viable on the draw 1/2. -/
theorem twoPop_candidate_accepted (rest : List Draw) :
    twoPop.makeCandidate (fun x _ => x) carrier (candidateDraws 1 ++ rest)
      = Candidate.made emptyChild true rest := by
  refine makeCandidate_eval _ twoPop carrier _
    ([Draw.poisson 0, Draw.uniformInt 1, Draw.poisson 0, Draw.uniformInt 0,
      Draw.poisson 0, Draw.uniformInt 1, Draw.poisson 0, Draw.uniformInt 0,
      Draw.uniform (1 / 2)] ++ rest)
    ([Draw.poisson 0, Draw.uniformInt 1, Draw.poisson 0, Draw.uniformInt 0,
      Draw.uniform (1 / 2)] ++ rest)
    (Draw.uniform (1 / 2) :: rest) rest carrier carrier carrier carrier emptyChild
    [Chromosome.ofSites [0, 0, 0], Chromosome.ofSites [0, 0, 0]]
    [Chromosome.ofSites [0, 0, 0], Chromosome.ofSites [0, 0, 0]] true ?_ ?_ ?_ ?_ ?_
  · simp [Population.sampleCouple, candidateDraws, twoPop, gsl_rng_uniform_int,
      Population.sampleCoupleLoop, Individual.ctor, Individual.assign, Individual.reset, carrier]
  · simp [Individual.getGamete, Individual.recombine, gsl_ran_poisson, carrier, twoPop,
      Individual.pickHomologue, gsl_rng_uniform_int]
  · simp [Individual.getGamete, Individual.recombine, gsl_ran_poisson, carrier, twoPop,
      Individual.pickHomologue, gsl_rng_uniform_int]
  · simp [Individual.fecundation, Individual.ctor, Individual.reset, carrier, twoPop,
      emptyChild, Chromosome.ofSites]
  · have h := isViable_eval (fun x _ => x) emptyChild (1 / 2) 1 rest rfl (by norm_num)
      (by decide!)
    rw [h]
    congr 1
    simp
    norm_num

/-- On `twoPop`, a first candidate rejected and two candidates accepted make the new
generation. -/
theorem twoPop_makeNewGeneration :
    twoPop.makeNewGeneration (fun x _ => x) carrier
        (candidateDraws 0 ++ (candidateDraws 1 ++ (candidateDraws 1 ++ [])))
      = Res.ret { twoPop with vInd := [emptyChild, emptyChild] } () [] := by
  have hfuel : (candidateDraws 0 ++ (candidateDraws 1 ++ (candidateDraws 1 ++ []))).length + 1
      = 30 + 1 + 1 + 1 + 1 := by decide
  unfold Population.makeNewGeneration
  rw [hfuel,
    makeNewGenerationLoop_reject _ twoPop carrier _ 0 [] _ _ _ (by decide)
      (twoPop_candidate_rejected _),
    makeNewGenerationLoop_accept _ twoPop carrier _ 0 [] _ _ _ (by decide)
      (twoPop_candidate_accepted _),
    makeNewGenerationLoop_accept _ twoPop carrier _ 1 _ _ _ _ (by decide)
      (twoPop_candidate_accepted _)]
  simp [Population.makeNewGenerationLoop, Population.setIndividuals, twoPop, emptyChild,
    assignVector, Individual.assign, carrier]

/-- C3, on a population of two organisms under zygote selection: the first candidate is
rejected, the next two are accepted, and the new generation holds two organisms. -/
theorem Population.size_invariant_witness :
    twoPop.vInd.length = twoPop.nbDiploids ∧
    twoPop.makeNewGeneration (fun x _ => x) carrier
        (candidateDraws 0 ++ (candidateDraws 1 ++ (candidateDraws 1 ++ [])))
      = Res.ret { twoPop with vInd := [emptyChild, emptyChild] } () [] ∧
    (Population.vInd { twoPop with vInd := [emptyChild, emptyChild] }).length
      = twoPop.nbDiploids :=
  ⟨rfl, twoPop_makeNewGeneration,
    ((Population.size_invariant (fun x _ => x) twoPop carrier rfl
      (candidateDraws 0 ++ (candidateDraws 1 ++ (candidateDraws 1 ++ [])))).1 _ _
      twoPop_makeNewGeneration).1⟩

/-! ## The fuel of makeNewGeneration -/

theorem sampleCoupleLoop_consumes (pop : Population) (idPar1 : Nat) :
    ∀ (s : List Draw) (u : Unit) (idPar2 : Nat) (rest : List Draw),
      Population.sampleCoupleLoop pop idPar1 s = Res.ret u idPar2 rest →
      rest.length < s.length
  | [], u, idPar2, rest, h => by simp [Population.sampleCoupleLoop] at h
  | d :: s, u, idPar2, rest, h => by
    simp only [Population.sampleCoupleLoop] at h
    split at h
    · exact absurd h (by simp)
    · split at h
      · have := sampleCoupleLoop_consumes pop idPar1 s u idPar2 rest h
        simp only [List.length_cons]
        omega
      · injection h with _ _ h3
        subst h3
        simp

theorem sampleCouple_consumes (pop : Population) (parent1 parent2 : Individual)
    (s : List Draw) (p : Individual × Individual) (u : Unit) (rest : List Draw)
    (h : pop.sampleCouple parent1 parent2 s = Res.ret p u rest) : rest.length < s.length := by
  unfold Population.sampleCouple at h
  split at h
  · exact absurd h (by simp)
  · split at h
    · exact absurd h (by simp)
    · split at h
      · exact absurd h (by simp)
      · split at h
        · rename_i hl
          have := sampleCoupleLoop_consumes pop _ _ _ _ _ hl
          split at h
          · injection h with _ _ h3
            subst h3
            simp only [List.length_cons]
            omega
          · exact absurd h (by simp)
        · exact absurd h (by simp)
        · exact absurd h (by simp)
        · exact absurd h (by simp)

theorem recombineLoop_consumes (ind : Individual) :
    ∀ (k : Nat) (A B : Chromosome) (s : List Draw) (p : Chromosome × Chromosome) (u : Unit)
      (rest : List Draw),
      Individual.recombineLoop ind k A B s = Res.ret p u rest → rest.length ≤ s.length
  | 0, A, B, s, p, u, rest, h => by
    simp only [Individual.recombineLoop] at h
    injection h with _ _ h3
    subst h3
    exact le_refl _
  | k + 1, A, B, s, p, u, rest, h => by
    simp only [Individual.recombineLoop] at h
    split at h
    · exact absurd h (by simp)
    · split at h
      · exact absurd h (by simp)
      · split at h
        · exact absurd h (by simp)
        · split at h
          · exact absurd h (by simp)
          · have := recombineLoop_consumes ind k _ _ _ _ _ _ h
            simp only [List.length_cons]
            omega

theorem recombine_consumes (ind : Individual) (d : Int) (A B : Chromosome) (s : List Draw)
    (p : Chromosome × Chromosome) (u : Unit) (rest : List Draw)
    (h : ind.recombine d A B s = Res.ret p u rest) : rest.length ≤ s.length := by
  unfold Individual.recombine at h
  split at h
  · exact absurd h (by simp)
  · split at h
    · exact absurd h (by simp)
    · split at h
      · have := recombineLoop_consumes ind _ _ _ _ _ _ _ h
        simp only [List.length_cons]
        omega
      · injection h with _ _ h3
        subst h3
        simp

theorem pickHomologue_consumes (s : List Draw) (id : Nat) (rest : List Draw)
    (h : Individual.pickHomologue s = some (id, rest)) : rest.length < s.length := by
  unfold Individual.pickHomologue at h
  split at h
  · exact absurd h (by simp)
  · split at h
    · exact absurd h (by simp)
    · injection h with h
      injection h with _ h2
      subst h2
      simp

theorem getGamete_consumes (ind : Individual) (d : Int) (gamete0 : List Chromosome)
    (s : List Draw) (p : Individual × List Chromosome) (u : Unit) (rest : List Draw)
    (h : ind.getGamete d gamete0 s = Res.ret p u rest) : rest.length ≤ s.length := by
  unfold Individual.getGamete at h
  split at h
  · split at h
    · rename_i hr1
      have l1 := recombine_consumes _ _ _ _ _ _ _ _ hr1
      dsimp only at h
      split at h
      · exact absurd h (by simp)
      · rename_i hp1
        have l2 := pickHomologue_consumes _ _ _ hp1
        split at h
        · split at h
          · rename_i hr2
            have l3 := recombine_consumes _ _ _ _ _ _ _ _ hr2
            split at h
            · exact absurd h (by simp)
            · rename_i hp2
              have l4 := pickHomologue_consumes _ _ _ hp2
              split at h
              · injection h with _ _ h3
                subst h3
                omega
              · exact absurd h (by simp)
          · exact absurd h (by simp)
          · exact absurd h (by simp)
          · exact absurd h (by simp)
        · exact absurd h (by simp)
    · exact absurd h (by simp)
    · exact absurd h (by simp)
    · exact absurd h (by simp)
  · exact absurd h (by simp)

theorem isViable_consumes (pow : ℚ → ℚ → ℚ) (ind : Individual) (s : List Draw)
    (ind1 : Individual) (b : Bool) (rest : List Draw)
    (h : ind.isViable pow s = Res.ret ind1 b rest) : rest.length ≤ s.length := by
  unfold Individual.isViable at h
  split at h
  · injection h with _ _ h3
    subst h3
    exact le_refl _
  · split at h
    · exact absurd h (by simp)
    · split at h
      · exact absurd h (by simp)
      · split at h
        · exact absurd h (by simp)
        · split at h <;>
          · injection h with _ _ h3
            subst h3
            simp

/-- A turn of the loop of `makeNewGeneration` that builds a candidate reads at least one
draw. -/
theorem makeCandidate_consumes (pow : ℚ → ℚ → ℚ) (pop : Population) (raw : Individual)
    (s : List Draw) (ind : Individual) (viable : Bool) (rest : List Draw)
    (h : pop.makeCandidate pow raw s = Candidate.made ind viable rest) :
    rest.length < s.length := by
  unfold Population.makeCandidate at h
  split at h
  · rename_i h1
    have l1 := sampleCouple_consumes _ _ _ _ _ _ _ h1
    split at h
    · rename_i h2
      have l2 := getGamete_consumes _ _ _ _ _ _ _ h2
      split at h
      · rename_i h3
        have l3 := getGamete_consumes _ _ _ _ _ _ _ h3
        split at h
        · exact absurd h (by simp)
        · split at h
          · rename_i h5
            have l5 := isViable_consumes _ _ _ _ _ _ h5
            injection h with _ _ h3
            subst h3
            omega
          · exact absurd h (by simp)
          · exact absurd h (by simp)
          · exact absurd h (by simp)
      · exact absurd h (by simp)
      · exact absurd h (by simp)
      · exact absurd h (by simp)
    · exact absurd h (by simp)
    · exact absurd h (by simp)
    · exact absurd h (by simp)
  · exact absurd h (by simp)
  · exact absurd h (by simp)
  · exact absurd h (by simp)

/-- The fuel of the loop of `makeNewGeneration` is never what stops it: any two amounts of
fuel above the number of draws give the same outcome. -/
theorem makeNewGenerationLoop_fuel (pow : ℚ → ℚ → ℚ) (pop : Population) (raw : Individual) :
    ∀ (f1 f2 i : Nat) (vNewInd : List Individual) (s : List Draw),
      s.length < f1 → s.length < f2 →
      Population.makeNewGenerationLoop pow pop raw f1 i vNewInd s
        = Population.makeNewGenerationLoop pow pop raw f2 i vNewInd s
  | 0, _, _, _, _, h, _ => absurd h (Nat.not_lt_zero _)
  | _ + 1, 0, _, _, _, _, h => absurd h (Nat.not_lt_zero _)
  | f1 + 1, f2 + 1, i, vNewInd, s, h1, h2 => by
    simp only [Population.makeNewGenerationLoop]
    split
    · cases hc : pop.makeCandidate pow raw s with
      | made ind viable s1 =>
        have := makeCandidate_consumes pow pop raw s ind viable s1 hc
        simp only
        split
        · exact makeNewGenerationLoop_fuel pow pop raw f1 f2 _ _ s1 (by omega) (by omega)
        · exact makeNewGenerationLoop_fuel pow pop raw f1 f2 _ _ s1 (by omega) (by omega)
      | exit => rfl
      | fault => rfl
      | noRun => rfl
    · rfl

/-- `makeNewGeneration` with any amount of fuel above the number of draws. -/
theorem makeNewGeneration_fuel (pow : ℚ → ℚ → ℚ) (pop : Population) (raw : Individual)
    (s : List Draw) (fuel : Nat) (h : s.length < fuel) :
    pop.makeNewGeneration pow raw s
      = match Population.makeNewGenerationLoop pow pop raw fuel 0 [] s with
        | Res.ret vNewInd _ s1 => pop.setIndividuals vNewInd s1
        | Res.exit _ => Res.exit pop
        | Res.fault => Res.fault
        | Res.noRun => Res.noRun := by
  unfold Population.makeNewGeneration
  rw [makeNewGenerationLoop_fuel pow pop raw (s.length + 1) fuel 0 [] s (by omega) h]

/-! ## Individual::fecundation -/

/-- C11: `Individual::fecundation` on a freshly constructed organism with two gametes of two
chromosomes `[a, b]` and `[c, e]` yields the organism whose chromosomes are exactly
`[a, c, b, e]`, with `nbChr = 4`, `nbSitesPerChr` the site count of `a`, the given selection
flag, multiplier and exponent (and verbosity), the generator handle of `a`, and a load equal
to the sum of the loads of the four chromosomes. -/
theorem Individual.fecundation_effect (raw : Individual) (a b c e : Chromosome) (zs : Bool)
    (sm se : ℚ) (v : Int) :
    ∃ ind : Individual,
      (Individual.ctor raw).fecundation [a, b] [c, e] zs sm se v = some ind ∧
      ind.vChr = [a, c, b, e] ∧ ind.nbChr = 4 ∧ ind.nbSitesPerChr = a.nbSites ∧
      ind.zygoteSelection = zs ∧ ind.selMult = sm ∧ ind.selExp = se ∧ ind.verbose = v ∧
      ind.r = a.r ∧
      ind.getNbTEs = some (a.getNbTEs + b.getNbTEs + c.getNbTEs + e.getNbTEs) := by
  refine ⟨{ Individual.ctor raw with
      verbose := v, nbChr := 4, nbSitesPerChr := a.nbSites, zygoteSelection := zs,
      selMult := sm, selExp := se, r := a.r, vChr := [a, c, b, e] },
    rfl, rfl, rfl, rfl, rfl, rfl, rfl, rfl, rfl, ?_⟩
  simp only [Individual.getNbTEs, Individual.getNbTEsLoop, List.getElem?_cons_zero,
    List.getElem?_cons_succ]
  congr 1
  omega

/-! ## Individual::transposition: the fatal exit -/

/-- Every exit of `Individual::transposition` on a well-formed organism is the test on the
capacity, taken right after the Poisson draw. -/
theorem transposition_exit_inv (ind : Individual) (hw : ind.WellFormed)
    (hcap : ind.nbChr * ind.nbSitesPerChr < 2 ^ 31) (probTransp0 k : ℚ)
    (s : List Draw) (st : Individual) (h : ind.transposition probTransp0 k s = Res.exit st) :
    st = ind ∧ 0 < ind.load ∧ ∃ (rate : ℚ) (d : Draw) (rest : List Draw) (nbTransp : Int),
      s = d :: rest ∧ Individual.probTransp probTransp0 k ind.load = some rate ∧
      gsl_ran_poisson (Individual.meanNbTransp rate ind.load) d = some nbTransp ∧
      wrapInt (ind.load + nbTransp) ≥ ((ind.nbChr * ind.nbSitesPerChr : Nat) : Int) := by
  have hL := getNbTEs_eq_load ind hw.1
  by_cases hpos : ind.load > 0
  · cases hrate : Individual.probTransp probTransp0 k ind.load with
    | none => simp [Individual.transposition, hL, hpos, hrate] at h
    | some rate =>
      cases s with
      | nil => simp [Individual.transposition, hL, hpos, hrate] at h
      | cons d rest0 =>
        cases hg : gsl_ran_poisson (Individual.meanNbTransp rate ind.load) d with
        | none => simp [Individual.transposition, hL, hpos, hrate, hg] at h
        | some n =>
          rcases transposition_after_count ind hw hcap probTransp0 k rate hpos hrate d rest0
              n hg with ⟨hc, e⟩ | ⟨_, _, e⟩ | ⟨_, _, _, e⟩ | ⟨_, _, i1, s1, _, e, _⟩
          · rw [e] at h
            simp only [Res.exit.injEq] at h
            exact ⟨h.symm, hpos, rate, d, rest0, n, rfl, rfl, hg, hc⟩
          · rw [e] at h
            exact absurd h (by simp)
          · rw [e] at h
            exact absurd h (by simp)
          · rw [e] at h
            exact absurd h (by simp)
  · simp [Individual.transposition, hL, hpos] at h

/-- C12: on a well-formed organism of load `L` (its capacity `nbChr * nbSitesPerChr` being an
`int`), `Individual::transposition` exits if and only if `L > 0` and the `int` sum
`nbTEs + nbTransp` of the source is at or over the capacity, for the Poisson count `nbTransp`
it reads, and then the organism is untouched; the sum is `L + nbTransp` whenever this is
below `2^31`; the call exits for `nbTransp = 0` when `L` is the capacity; when `L = 0` it
returns 0 and consumes no draw.  But a count `n < 2^31` with `L + n >= 2^31` is over the
capacity and the call does not exit, the sum of the `int`s being negative; and a count `c`
from `2^31` on, stored as the negative `c - 2^32`, does not make it exit either. -/
theorem Individual.transposition_abort (ind : Individual) (hw : ind.WellFormed)
    (hcap : ind.nbChr * ind.nbSitesPerChr < 2 ^ 31) (probTransp0 k : ℚ) :
    ∃ L : Int, ind.getNbTEs = some L ∧
      (∀ (s : List Draw) (st : Individual),
        ind.transposition probTransp0 k s = Res.exit st ↔
          (st = ind ∧ 0 < L ∧ ∃ (rate : ℚ) (d : Draw) (rest : List Draw) (nbTransp : Int),
            s = d :: rest ∧ Individual.probTransp probTransp0 k L = some rate ∧
            gsl_ran_poisson (Individual.meanNbTransp rate L) d = some nbTransp ∧
            wrapInt (L + nbTransp) ≥ ((ind.nbChr * ind.nbSitesPerChr : Nat) : Int))) ∧
      (∀ nbTransp : Int, -2 ^ 31 ≤ nbTransp → L + nbTransp < 2 ^ 31 →
        wrapInt (L + nbTransp) = L + nbTransp) ∧
      (0 < L → L = ((ind.nbChr * ind.nbSitesPerChr : Nat) : Int) →
        Individual.probTransp probTransp0 k L ≠ none → ∀ rest : List Draw,
        ind.transposition probTransp0 k (Draw.poisson 0 :: rest) = Res.exit ind) ∧
      (L = 0 → ∀ s : List Draw, ind.transposition probTransp0 k s = Res.ret ind 0 s) ∧
      (∀ rate : ℚ, 0 < L → Individual.probTransp probTransp0 k L = some rate → 0 < rate →
        (∀ (n : Nat) (rest : List Draw), n < 2 ^ 31 → 2 ^ 31 ≤ L + n →
          L + n ≥ ((ind.nbChr * ind.nbSitesPerChr : Nat) : Int) ∧
          ∀ st, ind.transposition probTransp0 k (Draw.poisson n :: rest) ≠ Res.exit st) ∧
        (∀ (c : Nat) (rest : List Draw), 2 ^ 31 ≤ c → c < 2 ^ 32 →
          L + c ≥ ((ind.nbChr * ind.nbSitesPerChr : Nat) : Int) ∧
          ∀ st, ind.transposition probTransp0 k
            (Draw.poissonAt (Individual.meanNbTransp rate L) c :: rest) ≠ Res.exit st)) := by
  have hL := getNbTEs_eq_load ind hw.1
  have hnn : 0 ≤ ind.load := WellFormed.load_nonneg hw
  have hle := WellFormed.load_le hw
  have hcapz : ((ind.nbChr * ind.nbSitesPerChr : Nat) : Int) < 2 ^ 31 := by exact_mod_cast hcap
  refine ⟨ind.load, hL, ?_, ?_, ?_, ?_, ?_⟩
  · intro s st
    constructor
    · exact transposition_exit_inv ind hw hcap probTransp0 k s st
    · rintro ⟨hst, hpos, rate, d, rest, nbTransp, hs, hrate, hg, hc⟩
      subst hst hs
      simp only [Individual.transposition, hL, hrate, hg]
      rw [if_pos hpos, if_pos hc]
  · intro nbTransp h1 h2
    exact wrapInt_eq (by omega) h2
  · intro hpos hc hrate rest
    obtain ⟨rate, hrate⟩ := Option.ne_none_iff_exists'.mp hrate
    simp only [Individual.transposition, hL, hrate, gsl_ran_poisson]
    rw [if_pos hpos, if_pos ⟨Or.inr trivial, by decide⟩]
    simp only
    rw [if_pos (by
      rw [wrapInt_eq (by simp; omega) (by simp; omega)]
      simp; omega)]
  · intro h0 s
    simp only [Individual.transposition, hL]
    rw [if_neg (by omega)]
  · intro rate hpos hrate hq
    have hmu := meanNbTransp_pos hq hpos
    constructor
    · intro n rest hn hwrap
      have hg : gsl_ran_poisson (Individual.meanNbTransp rate ind.load) (Draw.poisson n)
          = some (n : Int) := by
        simp only [gsl_ran_poisson]
        rw [if_pos ⟨Or.inl hmu, hn⟩]
      have hwr : wrapInt (ind.load + (n : Int)) = ind.load + n - 2 ^ 32 := by
        unfold wrapInt
        omega
      refine ⟨by omega, ?_⟩
      intro st h
      obtain ⟨_, _, rate1, d1, rest1, nb1, hs, hrate1, hg1, hc1⟩ :=
        transposition_exit_inv ind hw hcap probTransp0 k _ st h
      injection hs with hs1 hs2
      subst hs1
      rw [hrate] at hrate1
      injection hrate1 with hrate1
      subst hrate1
      rw [hg] at hg1
      injection hg1 with hg1
      subst hg1
      rw [hwr] at hc1
      omega
    · intro c rest hc1 hc2
      have hg : gsl_ran_poisson (Individual.meanNbTransp rate ind.load)
          (Draw.poissonAt (Individual.meanNbTransp rate ind.load) c)
          = some ((c : Int) - 2 ^ 32) := by
        simp only [gsl_ran_poisson]
        rw [if_pos ⟨trivial, Or.inl hmu, hc2⟩, wrapInt_count hc1 hc2]
      refine ⟨by omega, ?_⟩
      intro st h
      obtain ⟨_, _, rate1, d1, rest1, nb1, hs, hrate1, hg1, hc3⟩ :=
        transposition_exit_inv ind hw hcap probTransp0 k _ st h
      injection hs with hs1 hs2
      subst hs1
      rw [hrate] at hrate1
      injection hrate1 with hrate1
      subst hrate1
      rw [hg] at hg1
      injection hg1 with hg1
      subst hg1
      rw [wrapInt_eq (by omega) (by omega)] at hc3
      omega

/-- C12, on `fullInd`, 4 chromosomes of 1 site, all occupied (load 4, capacity 4): the
Poisson count 0 makes the call exit, the organism being untouched.  And on `carrier` (load 1,
capacity 12): with the Poisson count `2^31 - 1` the sum `1 + (2^31 - 1)` is over the
capacity, and the call does not exit. -/
theorem Individual.transposition_abort_witness :
    fullInd.WellFormed ∧ fullInd.getNbTEs = some 4 ∧
    fullInd.transposition 0 0 [Draw.poisson 0, Draw.uniformInt 0] = Res.exit fullInd ∧
    carrier.WellFormed ∧ carrier.getNbTEs = some 1 ∧
    (1 : Int) + (2147483647 : Nat) ≥ ((carrier.nbChr * carrier.nbSitesPerChr : Nat) : Int) ∧
    ∀ (rest : List Draw) (st : Individual),
      carrier.transposition 1 0 (Draw.poisson 2147483647 :: rest) ≠ Res.exit st := by
  have hw : fullInd.WellFormed := by
    simp [Individual.WellFormed, fullInd, Chromosome.ofSites, Binary]
  have hwc : carrier.WellFormed := by
    simp [Individual.WellFormed, carrier, Chromosome.ofSites, Binary]
  have h4 : fullInd.getNbTEs = some 4 := by decide
  have h1 : carrier.getNbTEs = some 1 := by decide
  obtain ⟨L, hL, _, _, h, _⟩ := Individual.transposition_abort fullInd hw (by decide) 0 0
  have hL4 : L = 4 := by
    rw [h4] at hL
    injection hL with hL
    exact hL.symm
  subst hL4
  obtain ⟨L1, hL1, _, _, _, _, h'⟩ := Individual.transposition_abort carrier hwc (by decide) 1 0
  have e1 : L1 = 1 := by
    rw [h1] at hL1
    injection hL1 with hL1
    exact hL1.symm
  subst e1
  have hx := (h' 1 (by decide) (probTransp_zero _ _) (by norm_num)).1
  refine ⟨hw, h4, h (by decide) (by decide) (by simp [probTransp_zero]) _, hwc, h1,
    (hx 2147483647 [] (by norm_num) (by norm_num)).1, ?_⟩
  intro rest st
  exact (hx 2147483647 rest (by norm_num) (by norm_num)).2 st

/-! ## Individual::getFitness and Individual::isViable -/

/-- The value of `getFitness` is a `float`. -/
theorem getFitness_isFloat (pow : ℚ → ℚ → ℚ) (ind : Individual) (f : ℚ)
    (hf : ind.getFitness pow = some f) : toFloat f = f := by
  unfold Individual.getFitness at hf
  split at hf
  · exact absurd hf (by simp)
  · injection hf with hf
    rw [← hf, toFloat_idem]

/-- C14: `Individual::isViable`.  Without zygote selection it returns true and consumes no
draw, whatever the organism.  With zygote selection it consumes exactly one uniform draw and
compares the `float probSel` in which it stores the draw with the `float` that
`getFitness()` returns: for a draw `u` of `[0, 1)` it returns true if and only if
`toFloat u <= getFitness()`.  Hence an organism of negative fitness is never viable, an
organism of fitness at least 1 always is, and a draw `u <= getFitness()` gives true.  But a
draw `u > getFitness()` that the `float` rounds down to the fitness gives true as well: with
the fitness 1/2 and the draw `1/2 + 2^-32`, stored as 1/2, the organism is viable. -/
theorem Individual.isViable_effect (pow : ℚ → ℚ → ℚ) (ind : Individual) :
    (ind.zygoteSelection = false → ∀ s : List Draw,
      ind.isViable pow s = Res.ret ind true s) ∧
    (ind.zygoteSelection = true → ∀ (u f : ℚ) (rest : List Draw), 0 ≤ u → u < 1 →
      ind.getFitness pow = some f →
      ind.isViable pow (Draw.uniform (toFloat u) :: rest)
        = Res.ret ind (decide (toFloat u ≤ f)) rest ∧
      (f < 0 → ind.isViable pow (Draw.uniform (toFloat u) :: rest) = Res.ret ind false rest) ∧
      (1 ≤ f → ind.isViable pow (Draw.uniform (toFloat u) :: rest) = Res.ret ind true rest) ∧
      (u ≤ f → ind.isViable pow (Draw.uniform (toFloat u) :: rest) = Res.ret ind true rest)) ∧
    (halfInd.zygoteSelection = true ∧ halfInd.getFitness (fun x _ => x) = some (1 / 2) ∧
      ¬ ((1 / 2 + 1 / 2 ^ 32 : ℚ) ≤ 1 / 2) ∧ toFloat (1 / 2 + 1 / 2 ^ 32) = 1 / 2 ∧
      ∀ rest : List Draw,
        halfInd.isViable (fun x _ => x) (Draw.uniform (toFloat (1 / 2 + 1 / 2 ^ 32)) :: rest)
          = Res.ret halfInd true rest) := by
  refine ⟨?_, ?_, ?_⟩
  · intro hz s
    simp [Individual.isViable, hz]
  · intro hz u f rest hu0 hu1 hf
    have e := isViable_eval pow ind (toFloat u) f rest hz (toFloat_range u hu0 hu1) hf
    have hfl := getFitness_isFloat pow ind f hf
    obtain ⟨r0, r1⟩ := toFloat_range u hu0 hu1
    refine ⟨e, ?_, ?_, ?_⟩
    · intro hneg
      rw [e]
      have : ¬ toFloat u ≤ f := by linarith
      simp [this]
    · intro hge
      rw [e]
      have : toFloat u ≤ f := by linarith
      simp [this]
    · intro hle
      rw [e]
      have : toFloat u ≤ f := by
        have := toFloat_mono hle
        rwa [hfl] at this
      simp [this]
  · have hf : halfInd.getFitness (fun x _ => x) = some (1 / 2) := by decide!
    have ht : toFloat (1 / 2 + 1 / 2 ^ 32) = 1 / 2 := by decide!
    refine ⟨rfl, hf, by norm_num, ht, ?_⟩
    intro rest
    rw [isViable_eval (fun x _ => x) halfInd _ (1 / 2) rest rfl
      (toFloat_range _ (by norm_num) (by norm_num)) hf, ht]
    simp

/-- C14, on an organism of load 1 and fitness 0 under zygote selection, with the draw 1/2,
and on an organism without zygote selection. -/
theorem Individual.isViable_effect_witness :
    loadedChild.getFitness (fun x _ => x) = some 0 ∧
    loadedChild.isViable (fun x _ => x) [Draw.uniform (toFloat (1 / 2)), Draw.poisson 3]
      = Res.ret loadedChild false [Draw.poisson 3] ∧
    fourChrInd.isViable (fun x _ => x) [Draw.uniform (1 / 2)]
      = Res.ret fourChrInd true [Draw.uniform (1 / 2)] := by
  have hf : loadedChild.getFitness (fun x _ => x) = some 0 := by decide!
  have h := ((Individual.isViable_effect (fun x _ => x) loadedChild).2.1 rfl (1 / 2) 0
      [Draw.poisson 3] (by norm_num) (by norm_num) hf).1
  have hd : decide (toFloat (1 / 2) ≤ (0 : ℚ)) = false := by decide!
  rw [hd] at h
  exact ⟨hf, h, (Individual.isViable_effect (fun x _ => x) fourChrInd).1 rfl _⟩

/-! ## Chromosome::initialize -/

theorem resize_replicate (m n : Nat) : resize (List.replicate m 0) n = List.replicate n 0 := by
  apply List.ext_getElem?
  intro i
  simp only [resize, List.length_replicate, List.getElem?_append, List.length_take,
    List.getElem?_take, List.getElem?_replicate]
  split_ifs <;> first | rfl | omega

theorem set_append_replicate (pre : List Int) (k : Nat) (x : Int) :
    (pre ++ List.replicate (k + 1) 0).set pre.length x = (pre ++ [x]) ++ List.replicate k 0 := by
  induction pre with
  | nil => simp [List.replicate_succ]
  | cons y pre ih => simpa using ih

/-- The loop of `Chromosome::initialize` on sites 0: site `i` becomes 1 exactly when the
draw `u_i` is below the probability. -/
theorem initializeLoop_fresh (p : ℚ) (rest : List Draw) :
    ∀ (us : List ℚ) (pre : List Int), (∀ u ∈ us, 0 ≤ u ∧ u ≤ 1) →
      Chromosome.initializeLoop p us.length pre.length (pre ++ List.replicate us.length 0)
          (us.map Draw.uniform ++ rest)
        = Res.ret (pre ++ us.map (fun u => if u < p then 1 else 0)) () rest
  | [], pre, _ => by simp [Chromosome.initializeLoop]
  | u :: us, pre, h => by
    have hu := h u (List.mem_cons_self u us)
    have ih := initializeLoop_fresh p rest us
    simp only [List.length_cons, List.map_cons, List.cons_append, Chromosome.initializeLoop,
      gsl_rng_uniform, if_pos hu]
    by_cases hp : u < p
    · rw [if_pos hp, if_pos (by simp), set_append_replicate]
      have := ih (pre ++ [1]) (fun v hv => h v (List.mem_cons_of_mem u hv))
      simp only [List.length_append, List.length_singleton] at this
      rw [this]
      simp [hp]
    · rw [if_neg hp]
      have e : pre ++ List.replicate (us.length + 1) 0
          = (pre ++ [0]) ++ List.replicate us.length 0 := by
        simp [List.replicate_succ]
      rw [e]
      have := ih (pre ++ [0]) (fun v hv => h v (List.mem_cons_of_mem u hv))
      simp only [List.length_append, List.length_singleton] at this
      rw [this]
      simp [hp]

/-- `Chromosome::initialize` on a chromosome whose sites, if any, are 0. -/
theorem Chromosome.initialize_fresh (c : Chromosome) (m : Nat)
    (hfresh : c.vSeq = List.replicate m 0) (us : List ℚ) (hN : us.length = c.nbSites)
    (hus : ∀ u ∈ us, 0 ≤ u ∧ u ≤ 1) (rest : List Draw) :
    c.initialize (us.map Draw.uniform ++ rest)
      = Res.ret { c with vSeq := us.map (fun u => if u < c.probTEPerSite then 1 else 0) } ()
          rest := by
  have h := initializeLoop_fresh c.probTEPerSite rest us [] hus
  simp only [List.length_nil, List.nil_append] at h
  simp only [ Chromosome.initialize, hfresh, resize_replicate, ← hN, h]

theorem sum_map_zero (us : List ℚ) : (us.map (fun _ => (0 : Int))).sum = 0 := by
  induction us with
  | nil => rfl
  | cons u us ih => simp [ih]

theorem sum_map_one (us : List ℚ) : (us.map (fun _ => (1 : Int))).sum = us.length := by
  induction us with
  | nil => rfl
  | cons u us ih =>
    simp only [List.map_cons, List.sum_cons, ih, List.length_cons]
    push_cast
    omega

/-- `Chromosome::initialize` on a fresh chromosome (its sites, if any, are 0) of `N` sites
with the probability `p` per site, on the stored draws `u_0 .. u_(N-1)`, sets site `i` to 1
if and only if `u_i < p` and leaves the other sites at 0, consuming exactly these `N` draws;
hence the load is 0 when `p = 0`, and it is `N` when `p = 1` and every stored draw is
below 1. -/
theorem Chromosome.initialize_effect (c : Chromosome) (m : Nat)
    (hfresh : c.vSeq = List.replicate m 0) (us : List ℚ) (hN : us.length = c.nbSites)
    (hus : ∀ u ∈ us, 0 ≤ u ∧ u ≤ 1) (rest : List Draw) :
    c.initialize (us.map Draw.uniform ++ rest)
      = Res.ret { c with vSeq := us.map (fun u => if u < c.probTEPerSite then 1 else 0) } ()
          rest ∧
    (us.map (fun u => if u < c.probTEPerSite then (1 : Int) else 0)).length = c.nbSites ∧
    (∀ (i : Nat) (u : ℚ), us[i]? = some u →
      ((us.map (fun u => if u < c.probTEPerSite then (1 : Int) else 0))[i]? = some 1
        ↔ u < c.probTEPerSite) ∧
      ((us.map (fun u => if u < c.probTEPerSite then (1 : Int) else 0))[i]? = some 0
        ↔ ¬ u < c.probTEPerSite)) ∧
    (c.probTEPerSite = 0 →
      Chromosome.getNbTEs
        { c with vSeq := us.map (fun u => if u < c.probTEPerSite then 1 else 0) } = 0) ∧
    (c.probTEPerSite = 1 → (∀ u ∈ us, u < 1) →
      Chromosome.getNbTEs
        { c with vSeq := us.map (fun u => if u < c.probTEPerSite then 1 else 0) }
        = c.nbSites) := by
  refine ⟨Chromosome.initialize_fresh c m hfresh us hN hus rest, by simp [hN], ?_, ?_, ?_⟩
  · intro i u hi
    simp only [List.getElem?_map, hi, Option.map_some']
    by_cases hp : u < c.probTEPerSite
    · simp [hp]
    · simp [hp]
  · intro hp
    have e : us.map (fun u => if u < c.probTEPerSite then (1 : Int) else 0)
        = us.map (fun _ => (0 : Int)) := by
      apply List.map_congr_left
      intro u hu
      rw [hp, if_neg (not_lt.mpr (hus u hu).1)]
    simp only [Chromosome.getNbTEs, e, sum_map_zero]
  · intro hp hlt
    have e : us.map (fun u => if u < c.probTEPerSite then (1 : Int) else 0)
        = us.map (fun _ => (1 : Int)) := by
      apply List.map_congr_left
      intro u hu
      rw [hp, if_pos (hlt u hu)]
    simp only [Chromosome.getNbTEs, e, sum_map_one, hN]

/-- A fresh chromosome of 3 sites with the probability 1/2, on the draws 1/4, 3/4, 0: the
sites become 1 0 1. -/
theorem Chromosome.initialize_effect_witness :
    Chromosome.initialize
        { nbSites := 3, probTEPerSite := 1 / 2, verbose := 0, r := 0, vSeq := [] }
        [Draw.uniform (1 / 4), Draw.uniform (3 / 4), Draw.uniform 0, Draw.poisson 1]
      = Res.ret { nbSites := 3, probTEPerSite := 1 / 2, verbose := 0, r := 0,
                  vSeq := [1, 0, 1] } () [Draw.poisson 1] := by
  have h := (Chromosome.initialize_effect
    { nbSites := 3, probTEPerSite := 1 / 2, verbose := 0, r := 0, vSeq := [] } 0 rfl
    [1 / 4, 3 / 4, 0] rfl
    (by
      intro u hu
      simp only [List.mem_cons, List.mem_singleton, List.not_mem_nil, or_false] at hu
      rcases hu with rfl | rfl | rfl <;> norm_num)
    [Draw.poisson 1]).1
  simp only [List.map_cons, List.map_nil, List.cons_append, List.nil_append] at h
  rw [h]
  norm_num

/-- C20: `Chromosome::initialize` on a fresh chromosome of 1 site with the probability
`p = 1`, when the generator returns the double `1 - 2^-32` of `[0, 1)`: stored in the `float`
`probTE` the draw is 1, the test `probTE < probTEPerSite` fails, the site stays 0 and the
load is 0 and not `N = 1`. -/
theorem Chromosome.initialize_draw_stored_as_one :
    (0 : ℚ) ≤ 1 - 1 / 2 ^ 32 ∧ (1 - 1 / 2 ^ 32 : ℚ) < 1 ∧
    toFloat (1 - 1 / 2 ^ 32) = 1 ∧
    Chromosome.initialize
        { nbSites := 1, probTEPerSite := 1, verbose := 0, r := 0, vSeq := [] }
        [Draw.uniform (toFloat (1 - 1 / 2 ^ 32))]
      = Res.ret { nbSites := 1, probTEPerSite := 1, verbose := 0, r := 0, vSeq := [0] } () [] ∧
    Chromosome.getNbTEs
        { nbSites := 1, probTEPerSite := 1, verbose := 0, r := 0, vSeq := [0] } = 0 := by
  refine ⟨by norm_num, by norm_num, toFloat_near_one, ?_, by decide⟩
  rw [toFloat_near_one]
  have h := Chromosome.initialize_fresh
    { nbSites := 1, probTEPerSite := 1, verbose := 0, r := 0, vSeq := [] } 0 rfl [1] rfl
    (by simp) []
  simpa using h

/-! ## Individual::getOccPerLocus -/

theorem occAt_mem (ind : Individual) (chr site : Nat) :
    ind.occAt chr site = 0 ∨ ind.occAt chr site = 1 := by
  unfold Individual.occAt
  split
  · exact Or.inl rfl
  · split
    · exact Or.inr rfl
    · exact Or.inl rfl

/-- One test of `getOccPerLocus` adds the occupancy of the chromosome to entry `locus`. -/
theorem countAt_spec (ind : Individual) (chr site locus : Nat) (v : List Int) (c : Chromosome)
    (hc : ind.vChr[chr]? = some c) (hsite : site < c.vSeq.length) (hlocus : locus < v.length) :
    ∃ v1, ind.countAt chr site locus v = some v1 ∧
      ∀ j, v1[j]? = (v[j]?).map (fun y => y + if j = locus then ind.occAt chr site else 0) := by
  have hs : c.vSeq[site]? = some c.vSeq[site] := List.getElem?_eq_getElem hsite
  have hl : v[locus]? = some v[locus] := List.getElem?_eq_getElem hlocus
  by_cases h1 : c.vSeq[site] = 1
  · refine ⟨v.set locus (v[locus] + 1), ?_, ?_⟩
    · simp [Individual.countAt, hc, Chromosome.isTranspElemAtSite, hs, h1, incrAt, hl]
    · intro j
      have ho : ind.occAt chr site = 1 := by simp [Individual.occAt, hc, hs, h1]
      by_cases hj : j = locus
      · subst hj
        simp [List.getElem?_set, hlocus, hl, ho]
      · simp [List.getElem?_set, hj, Ne.symm hj]
  · refine ⟨v, ?_, ?_⟩
    · simp [Individual.countAt, hc, Chromosome.isTranspElemAtSite, hs, h1]
    · intro j
      have ho : ind.occAt chr site = 0 := by simp [Individual.occAt, hc, hs, h1]
      rw [ho]
      cases v[j]? <;> simp

theorem length_eq_of_getElem?_map {a b : List Int} {f : Nat → Int → Int}
    (h : ∀ j, a[j]? = (b[j]?).map (f j)) : a.length = b.length := by
  apply le_antisymm
  · by_contra hlt
    have h1 := h b.length
    rw [List.getElem?_eq_none (le_refl _), List.getElem?_eq_getElem (by omega)] at h1
    simp at h1
  · by_contra hlt
    have h1 := h a.length
    rw [List.getElem?_eq_none (le_refl _), List.getElem?_eq_getElem (by omega)] at h1
    simp at h1

/-- The inner loop of `getOccPerLocus` adds, for each site left, the occupancies of the two
chromosomes of the pair to the entry of the locus. -/
theorem getOccPerLocusSites_spec (ind : Individual) (chr N : Nat) (cA cB : Chromosome)
    (hA : ind.vChr[chr]? = some cA) (hB : ind.vChr[chr + 1]? = some cB)
    (hAN : cA.vSeq.length = N) (hBN : cB.vSeq.length = N) :
    ∀ (k site locus : Nat) (v : List Int), site + k = N → locus + k ≤ v.length →
      ∃ v1, Individual.getOccPerLocusSites ind chr k site locus v = some (v1, locus + k) ∧
        ∀ j, v1[j]? = (v[j]?).map (fun y => y +
          if locus ≤ j ∧ j < locus + k then
            ind.occAt chr (site + (j - locus)) + ind.occAt (chr + 1) (site + (j - locus))
          else 0)
  | 0, site, locus, v, _, _ => by
    refine ⟨v, by simp [Individual.getOccPerLocusSites], ?_⟩
    intro j
    rw [if_neg (by omega)]
    cases v[j]? <;> simp
  | k + 1, site, locus, v, hs, hl => by
    obtain ⟨v1, e1, p1⟩ := countAt_spec ind chr site locus v cA hA (by omega) (by omega)
    have len1 := length_eq_of_getElem?_map p1
    obtain ⟨v2, e2, p2⟩ := countAt_spec ind (chr + 1) site locus v1 cB hB (by omega) (by omega)
    have len2 := length_eq_of_getElem?_map p2
    obtain ⟨v3, e3, p3⟩ := getOccPerLocusSites_spec ind chr N cA cB hA hB hAN hBN k (site + 1)
      (locus + 1) v2 (by omega) (by omega)
    refine ⟨v3, ?_, ?_⟩
    · simp only [Individual.getOccPerLocusSites, e1, e2, e3]
      congr 2
      omega
    · intro j
      rw [p3 j, p2 j, p1 j]
      cases v[j]? with
      | none => simp
      | some y =>
        simp only [Option.map_some', Option.some.injEq]
        by_cases hj : j = locus
        · subst hj
          rw [if_pos rfl, if_pos rfl, if_neg (by omega), if_pos (by omega)]
          simp only [Nat.sub_self, Nat.add_zero]
          omega
        · rw [if_neg hj, if_neg hj]
          by_cases hr : locus + 1 ≤ j ∧ j < locus + 1 + k
          · rw [if_pos hr, if_pos (by omega)]
            have e : site + 1 + (j - (locus + 1)) = site + (j - locus) := by omega
            rw [e]
            omega
          · rw [if_neg hr, if_neg (by omega)]
            omega

theorem div_mod_of_range (N p j : Nat) (h1 : p * N ≤ j) (h2 : j < p * N + N) :
    j / N = p ∧ j % N = j - p * N := by
  have hN : 0 < N := by
    rcases Nat.eq_zero_or_pos N with h | h
    · subst h
      omega
    · exact h
  have hd : j / N = p := by
    apply Nat.div_eq_of_lt_le
    · exact h1
    · rw [Nat.succ_mul]
      exact h2
  refine ⟨hd, ?_⟩
  have := Nat.div_add_mod j N
  rw [hd, Nat.mul_comm] at this
  omega

/-- The outer loop of `getOccPerLocus` adds to every entry of the pairs left the occupancies
of the two chromosomes of the pair at the site of the entry. -/
theorem getOccPerLocusPairs_spec (ind : Individual) (N P : Nat) (hN : ind.nbSitesPerChr = N)
    (hlen : ind.vChr.length = 2 * P) (hseq : ∀ c ∈ ind.vChr, c.vSeq.length = N) :
    ∀ (k p : Nat) (v : List Int), p + k = P → p * N + k * N ≤ v.length →
      ∃ v1, Individual.getOccPerLocusPairs ind k (2 * p) (p * N) v = some v1 ∧
        ∀ j, v1[j]? = (v[j]?).map (fun y => y +
          if p * N ≤ j ∧ j < p * N + k * N then
            ind.occAt (2 * (j / N)) (j % N) + ind.occAt (2 * (j / N) + 1) (j % N)
          else 0)
  | 0, p, v, _, _ => by
    refine ⟨v, by simp [Individual.getOccPerLocusPairs], ?_⟩
    intro j
    rw [if_neg (by omega)]
    cases v[j]? <;> simp
  | k + 1, p, v, hp, hv => by
    have hA : ind.vChr[2 * p]? = some ind.vChr[2 * p] := List.getElem?_eq_getElem (by omega)
    have hB : ind.vChr[2 * p + 1]? = some ind.vChr[2 * p + 1] :=
      List.getElem?_eq_getElem (by omega)
    have hk : (k + 1) * N = k * N + N := Nat.succ_mul k N
    obtain ⟨v1, e1, p1⟩ := getOccPerLocusSites_spec ind (2 * p) N _ _ hA hB
      (hseq _ (List.getElem_mem _)) (hseq _ (List.getElem_mem _)) N 0 (p * N) v (by omega)
      (by omega)
    have len1 := length_eq_of_getElem?_map p1
    have hp1 : (p + 1) * N = p * N + N := Nat.succ_mul p N
    obtain ⟨v2, e2, p2⟩ := getOccPerLocusPairs_spec ind N P hN hlen hseq k (p + 1) v1
      (by omega) (by omega)
    refine ⟨v2, ?_, ?_⟩
    · simp only [Individual.getOccPerLocusPairs, hN, e1]
      have e : 2 * p + 2 = 2 * (p + 1) := by omega
      rw [e, ← hp1]
      exact e2
    · intro j
      rw [p2 j, p1 j]
      cases v[j]? with
      | none => simp
      | some y =>
        simp only [Option.map_some', Option.some.injEq]
        by_cases hr1 : p * N ≤ j ∧ j < p * N + N
        · obtain ⟨hd, hm⟩ := div_mod_of_range N p j hr1.1 hr1.2
          rw [if_pos hr1, if_neg (by omega), if_pos (by omega), hd, hm]
          simp only [Nat.zero_add]
          omega
        · rw [if_neg hr1]
          by_cases hr2 : (p + 1) * N ≤ j ∧ j < (p + 1) * N + k * N
          · rw [if_pos hr2, if_pos (by omega)]
            omega
          · rw [if_neg hr2, if_neg (by omega)]
            omega

/-- `getOccPerLocus` on a well-formed organism of `2 * P` chromosomes and a vector of
`P * N` entries: every entry `j` receives the occupancies of the pair `j / N` at the site
`j % N`. -/
theorem getOccPerLocus_spec (ind : Individual) (hw : ind.WellFormed) (P : Nat)
    (heven : ind.nbChr = 2 * P) (v : List Int) (hlen : v.length = P * ind.nbSitesPerChr) :
    ∃ out : List Int, ind.getOccPerLocus v = some out ∧ out.length = v.length ∧
      ∀ j, j < P * ind.nbSitesPerChr →
        out[j]? = (v[j]?).map (fun y => y +
          (ind.occAt (2 * (j / ind.nbSitesPerChr)) (j % ind.nbSitesPerChr)
            + ind.occAt (2 * (j / ind.nbSitesPerChr) + 1) (j % ind.nbSitesPerChr))) := by
  obtain ⟨out, e, pt⟩ := getOccPerLocusPairs_spec ind ind.nbSitesPerChr P rfl
    (by rw [hw.1, heven]) (fun c hc => (hw.2 c hc).2.1) P 0 v (by omega)
    (by rw [hlen]; omega)
  refine ⟨out, ?_, length_eq_of_getElem?_map pt, ?_⟩
  · have hP : (ind.nbChr + 1) / 2 = P := by omega
    simp only [Nat.mul_zero, Nat.zero_mul] at e
    simp only [Individual.getOccPerLocus, hP, e]
  · intro j hj
    rw [pt j]
    simp only [Nat.zero_mul, Nat.zero_add]
    rw [if_pos ⟨Nat.zero_le _, hj⟩]

/-- The test of a site, in terms of the occupancy. -/
theorem isTranspElemAtSite_occAt (ind : Individual) (chr site : Nat) (c : Chromosome)
    (hc : ind.vChr[chr]? = some c) (hsite : site < c.vSeq.length) :
    ∃ a : Bool, c.isTranspElemAtSite site = some a ∧
      (if a then (1 : Int) else 0) = ind.occAt chr site := by
  have hs : c.vSeq[site]? = some c.vSeq[site] := List.getElem?_eq_getElem hsite
  refine ⟨decide (c.vSeq[site] = 1), by simp [Chromosome.isTranspElemAtSite, hs], ?_⟩
  by_cases h1 : c.vSeq[site] = 1
  · simp [Individual.occAt, hc, hs, h1]
  · simp [Individual.occAt, hc, hs, h1]

/-- `getNbTEsForLocus` on an organism of `2 * P` chromosomes whose number of loci is at most
`2 ^ 24`: the quotient in single precision is the integer quotient, and the count is read at
site `locus % N` of the chromosomes `2 * (locus / N)` and `2 * (locus / N) + 1`. -/
theorem getNbTEsForLocus_small (ind : Individual) (hw : ind.WellFormed) (P : Nat)
    (heven : ind.nbChr = 2 * P) (hsmall : P * ind.nbSitesPerChr ≤ 2 ^ 24) (locus : Nat)
    (hlocus : locus < P * ind.nbSitesPerChr) :
    ind.getNbTEsForLocus locus
      = some (ind.occAt (2 * (locus / ind.nbSitesPerChr)) (locus % ind.nbSitesPerChr)
          + ind.occAt (2 * (locus / ind.nbSitesPerChr) + 1) (locus % ind.nbSitesPerChr)) := by
  have hN : 0 < ind.nbSitesPerChr := by
    rcases Nat.eq_zero_or_pos ind.nbSitesPerChr with h | h
    · rw [h] at hlocus; simp at hlocus
    · exact h
  have hP : 0 < P := by
    rcases Nat.eq_zero_or_pos P with h | h
    · rw [h] at hlocus; simp at hlocus
    · exact h
  have hN2 : ind.nbSitesPerChr ≤ 2 ^ 24 :=
    le_trans (Nat.le_mul_of_pos_left _ hP) hsmall
  have hq : locus / ind.nbSitesPerChr < P :=
    Nat.div_lt_of_lt_mul (by rw [Nat.mul_comm]; exact hlocus)
  have hfl := floor_toFloat_div locus ind.nbSitesPerChr hN hN2 (by omega)
  have hle : ¬ locus < ind.nbSitesPerChr * (locus / ind.nbSitesPerChr) :=
    not_lt.mpr (Nat.mul_div_le locus ind.nbSitesPerChr)
  have hsite : locus - ind.nbSitesPerChr * (locus / ind.nbSitesPerChr)
      = locus % ind.nbSitesPerChr := (Nat.mod_def locus ind.nbSitesPerChr).symm
  have hmod : locus % ind.nbSitesPerChr < ind.nbSitesPerChr := Nat.mod_lt _ hN
  have hA : 2 * (locus / ind.nbSitesPerChr) < ind.vChr.length := by rw [hw.1, heven]; omega
  have hB : 2 * (locus / ind.nbSitesPerChr) + 1 < ind.vChr.length := by
    rw [hw.1, heven]; omega
  have eA := List.getElem?_eq_getElem hA
  have eB := List.getElem?_eq_getElem hB
  obtain ⟨a, ha, hao⟩ := isTranspElemAtSite_occAt ind _ (locus % ind.nbSitesPerChr) _ eA
    (by rw [(hw.2 _ (List.getElem?_mem eA)).2.1]; exact hmod)
  obtain ⟨b, hb, hbo⟩ := isTranspElemAtSite_occAt ind _ (locus % ind.nbSitesPerChr) _ eB
    (by rw [(hw.2 _ (List.getElem?_mem eB)).2.1]; exact hmod)
  simp only [Individual.getNbTEsForLocus, if_neg hN.ne.symm, hfl, Int.toNat_natCast, if_neg hle,
    hsite, eA, eB, ha, hb, hao, hbo]

/-- On organisms whose number of loci is at most `2 ^ 24`, `getNbTEsForLocus( locus )` is
0, 1 or 2 and is entry `locus` of the vector that `getOccPerLocus` fills from zeros. -/
theorem getNbTEsForLocus_agrees_small (ind : Individual) (hw : ind.WellFormed) (P : Nat)
    (heven : ind.nbChr = 2 * P) (hsmall : P * ind.nbSitesPerChr ≤ 2 ^ 24) (locus : Nat)
    (hlocus : locus < P * ind.nbSitesPerChr) :
    ∃ (n : Int) (out : List Int),
      ind.getNbTEsForLocus locus = some n ∧ (n = 0 ∨ n = 1 ∨ n = 2) ∧
      ind.getOccPerLocus (List.replicate (P * ind.nbSitesPerChr) 0) = some out ∧
      out[locus]? = some n := by
  obtain ⟨out, e, _, pt⟩ := getOccPerLocus_spec ind hw P heven
    (List.replicate (P * ind.nbSitesPerChr) 0) (by simp)
  refine ⟨_, out, getNbTEsForLocus_small ind hw P heven hsmall locus hlocus, ?_, e, ?_⟩
  · rcases occAt_mem ind (2 * (locus / ind.nbSitesPerChr)) (locus % ind.nbSitesPerChr)
      with h1 | h1 <;>
    rcases occAt_mem ind (2 * (locus / ind.nbSitesPerChr) + 1) (locus % ind.nbSitesPerChr)
      with h2 | h2 <;> rw [h1, h2] <;> simp
  · rw [pt locus hlocus]
    simp [List.getElem?_replicate, hlocus]

/-- The organism `zeroInd N` is well formed. -/
theorem zeroInd_wellFormed (N : Nat) : (zeroInd N).WellFormed := by
  refine ⟨by simp [zeroInd], ?_⟩
  intro c hc
  have hc2 := List.eq_of_mem_replicate hc
  subst hc2
  refine ⟨rfl, by simp [zeroInd], ?_⟩
  intro x hx
  exact Or.inl (List.eq_of_mem_replicate hx)

/-- The organism `zeroInd N` carries no element. -/
theorem zeroInd_occAt (N chr site : Nat) : (zeroInd N).occAt chr site = 0 := by
  unfold Individual.occAt
  split
  · rfl
  · next c hc =>
    have hc2 := List.eq_of_mem_replicate (List.getElem?_mem hc)
    subst hc2
    rw [if_neg]
    intro h
    have := List.eq_of_mem_replicate (List.getElem?_mem h)
    exact absurd this (by decide)

/-- C16: `getNbTEsForLocus` does not agree with `getOccPerLocus` on the organism of 4
chromosomes of 16777217 sites without any element, at the locus 16777216 (site 16777216 of
the first pair): `getOccPerLocus` fills entry 16777216 with 0, and `getNbTEsForLocus`
converts 16777217 to the `float` 16777216, gets the quotient 1 for `chrPair` and reads the
site `16777216 - 16777217 = -1` of chromosome 2, out of bounds. -/
theorem Individual.getNbTEsForLocus_float_quotient :
    (zeroInd 16777217).WellFormed ∧ (zeroInd 16777217).nbChr = 4 ∧
    1 ≤ (zeroInd 16777217).nbSitesPerChr ∧
    16777216 < (zeroInd 16777217).nbChr * (zeroInd 16777217).nbSitesPerChr / 2 ∧
    (∃ out : List Int,
      (zeroInd 16777217).getOccPerLocus
          (List.replicate ((zeroInd 16777217).nbChr * (zeroInd 16777217).nbSitesPerChr / 2) 0)
        = some out ∧
      out[16777216]? = some 0) ∧
    ⌊toFloat (toFloat ((16777216 : Nat) : ℚ) / toFloat ((16777217 : Nat) : ℚ))⌋ = 1 ∧
    (zeroInd 16777217).getNbTEsForLocus 16777216 = none := by
  have hfl : ⌊toFloat (toFloat ((16777216 : Nat) : ℚ) / toFloat ((16777217 : Nat) : ℚ))⌋
      = 1 := by
    rw [toFloat_natCast 16777216 (by norm_num)]
    have e : ((16777217 : Nat) : ℚ) = 16777217 := by norm_num
    rw [e, toFloat_two_pow_24_succ]
    have e1 : ((16777216 : Nat) : ℚ) / 16777216 = ((1 : Nat) : ℚ) := by norm_num
    rw [e1, toFloat_natCast 1 (by norm_num)]
    norm_num
  have hnb : (zeroInd 16777217).nbChr * (zeroInd 16777217).nbSitesPerChr / 2
      = 2 * (zeroInd 16777217).nbSitesPerChr := by
    show 4 * 16777217 / 2 = 2 * 16777217
    norm_num
  refine ⟨zeroInd_wellFormed _, rfl, by show 1 ≤ 16777217; norm_num,
    by rw [hnb]; show 16777216 < 2 * 16777217; norm_num, ?_, hfl, ?_⟩
  · obtain ⟨out, e, _, pt⟩ := getOccPerLocus_spec (zeroInd 16777217) (zeroInd_wellFormed _) 2
      rfl (List.replicate (2 * (zeroInd 16777217).nbSitesPerChr) 0) (by simp)
    refine ⟨out, by rw [hnb]; exact e, ?_⟩
    have hj : 16777216 < 2 * (zeroInd 16777217).nbSitesPerChr := by
      show 16777216 < 2 * 16777217
      norm_num
    rw [pt 16777216 hj, List.getElem?_replicate, if_pos hj, zeroInd_occAt, zeroInd_occAt]
    rfl
  · have hN : ¬ (zeroInd 16777217).nbSitesPerChr = 0 := by
      show ¬ (16777217 = 0)
      norm_num
    have hlt : 16777216 < (zeroInd 16777217).nbSitesPerChr * 1 := by
      show 16777216 < 16777217 * 1
      norm_num
    have hfl2 : ⌊toFloat (toFloat ((16777216 : Nat) : ℚ)
        / toFloat (((zeroInd 16777217).nbSitesPerChr : Nat) : ℚ))⌋ = 1 := hfl
    simp only [Individual.getNbTEsForLocus, if_neg hN, hfl2]
    rw [if_pos (by simpa using hlt)]

/-! ## Population::getPropEmptyLoci -/

/-- The row that `saveData` writes holds the generation it was given. -/
theorem saveData_gen (pop : Population) (simu : Int) (gen : Nat) (row : Row)
    (h : pop.saveData simu gen = some row) : row.gen = gen := by
  unfold Population.saveData at h
  split at h
  · exact absurd h (by simp)
  · split at h
    · exact absurd h (by simp)
    · split at h
      · exact absurd h (by simp)
      · injection h with h
        rw [← h]

/-- The loop of `Simulation::run`, from the row `last` on: the rows added are at most `t`,
each follows the one before by one generation (`Simulation.Step`), and when the loop returns
it returns the population of the last row, before the turns are used up only if the load of
that population is not positive. -/
theorem runLoop_spec (pow : ℚ → ℚ → ℚ) (raw : Individual) (sim : Simulation) :
    ∀ (t g : Nat) (rows : List Snapshot) (last : Snapshot), last.row.gen + 1 = g →
      ∃ new : List Snapshot,
        (Simulation.runLoop pow raw sim t g last.pop last.rest rows).1 = rows ++ new ∧
        new.length ≤ t ∧
        List.Chain (Simulation.Step pow raw sim) last new ∧
        ∀ (p : Population) (s1 : List Draw),
          (Simulation.runLoop pow raw sim t g last.pop last.rest rows).2 = Res.ret p () s1 →
          p = ((last :: new).getLast (List.cons_ne_nil _ _)).pop ∧
          s1 = ((last :: new).getLast (List.cons_ne_nil _ _)).rest ∧
          (new.length < t → ∃ sumNbTEs : Int,
            ((last :: new).getLast (List.cons_ne_nil _ _)).pop.getSumNbTEs = some sumNbTEs ∧
            ¬ 0 < sumNbTEs)
  | 0, g, rows, last, _ => by
    refine ⟨[], by simp [Simulation.runLoop], le_refl _, List.Chain.nil, ?_⟩
    intro p s1 h
    simp only [Simulation.runLoop] at h
    injection h with h1 _ h3
    exact ⟨h1.symm, h3.symm, fun h => absurd h (by simp)⟩
  | t + 1, g, rows, last, hg => by
    unfold Simulation.runLoop
    cases hsum : last.pop.getSumNbTEs with
    | none =>
      exact ⟨[], by simp [hsum], by simp, List.Chain.nil, fun p s1 h => by simp [hsum] at h⟩
    | some sumNbTEs =>
      simp only []
      by_cases hpos : sumNbTEs > 0
      · rw [if_pos hpos]
        cases h1 : last.pop.makeNewGeneration pow raw last.rest with
        | exit _ => exact ⟨[], by simp [h1], by simp, List.Chain.nil, fun p s1 h => by simp [h1] at h⟩
        | fault => exact ⟨[], by simp [h1], by simp, List.Chain.nil, fun p s1 h => by simp [h1] at h⟩
        | noRun => exact ⟨[], by simp [h1], by simp, List.Chain.nil, fun p s1 h => by simp [h1] at h⟩
        | ret pop1 u1 s1 =>
          simp only []
          cases h2 : pop1.loss sim.probLoss s1 with
          | exit _ => exact ⟨[], by simp [h2], by simp, List.Chain.nil, fun p s1 h => by simp [h2] at h⟩
          | fault => exact ⟨[], by simp [h2], by simp, List.Chain.nil, fun p s1 h => by simp [h2] at h⟩
          | noRun => exact ⟨[], by simp [h2], by simp, List.Chain.nil, fun p s1 h => by simp [h2] at h⟩
          | ret pop2 n2 s2 =>
            simp only []
            cases h3 : pop2.transposition sim.probTransp0 sim.k s2 with
            | exit _ =>
              exact ⟨[], by simp [h3], by simp, List.Chain.nil, fun p s1 h => by simp [h3] at h⟩
            | fault =>
              exact ⟨[], by simp [h3], by simp, List.Chain.nil, fun p s1 h => by simp [h3] at h⟩
            | noRun =>
              exact ⟨[], by simp [h3], by simp, List.Chain.nil, fun p s1 h => by simp [h3] at h⟩
            | ret pop3 n3 s3 =>
              cases h4 : pop3.saveData sim.simuId g with
              | none =>
                exact ⟨[], by simp [h3, h4], by simp, List.Chain.nil,
                  fun p s1 h => by simp [h3, h4] at h⟩
              | some row =>
                simp only [h3, h4]
                have hrow : row.gen = g := saveData_gen _ _ _ _ h4
                obtain ⟨new, e, hl, hc, hf⟩ := runLoop_spec pow raw sim t (g + 1)
                  (rows ++ [{ row := row, pop := pop3, rest := s3 }])
                  { row := row, pop := pop3, rest := s3 } (by simp [hrow])
                refine ⟨{ row := row, pop := pop3, rest := s3 } :: new, ?_, ?_, ?_, ?_⟩
                · rw [e]
                  simp
                · simp only [List.length_cons]
                  omega
                · refine List.Chain.cons ⟨⟨sumNbTEs, hsum, hpos⟩, pop1, s1, pop2, n2, s2, n3,
                    ?_, h2, h3, ?_⟩ hc
                  · rw [h1]
                  · rw [hg]
                    exact h4
                · intro p s4 h
                  obtain ⟨a, b, c⟩ := hf p s4 h
                  rw [List.getLast_cons (List.cons_ne_nil _ _)]
                  refine ⟨a, b, ?_⟩
                  intro hlt
                  exact c (by simp only [List.length_cons] at hlt; omega)
      · rw [if_neg hpos]
        refine ⟨[], by simp, by simp, List.Chain.nil, ?_⟩
        intro p s1 h
        injection h with h1 _ h3
        exact ⟨h1.symm, h3.symm, fun _ => ⟨sumNbTEs, hsum, hpos⟩⟩

/-! ## The sites stay 0 or 1 -/

/-- Replacing a chromosome of binary sites by another one. -/
theorem binarySites_set (l : List Chromosome) (i : Nat) (c : Chromosome)
    (hl : ∀ x ∈ l, Binary x.vSeq) (hc : Binary c.vSeq) : ∀ x ∈ l.set i c, Binary x.vSeq := by
  intro x hx
  rcases List.mem_or_eq_of_mem_set hx with h | h
  · exact hl x h
  · rw [h]; exact hc

/-- A crossing-over exchanges sites: the sites stay 0 or 1. -/
theorem crossOver_binary (tmp : Chromosome) (ht : Binary tmp.vSeq) :
    ∀ (k j : Nat) (A B A1 B1 : Chromosome), Binary A.vSeq → Binary B.vSeq →
      Individual.crossOver tmp k j A B = some (A1, B1) → Binary A1.vSeq ∧ Binary B1.vSeq
  | 0, j, A, B, A1, B1, hA, hB, h => by
    simp only [Individual.crossOver, Option.some.injEq, Prod.mk.injEq] at h
    rw [← h.1, ← h.2]
    exact ⟨hA, hB⟩
  | k + 1, j, A, B, A1, B1, hA, hB, h => by
    unfold Individual.crossOver at h
    split at h
    · next b t hb htj =>
      split at h
      · exact crossOver_binary tmp ht k (j + 1) _ _ A1 B1
          (Binary.set_site hA j b (hB b (List.getElem?_mem hb)))
          (Binary.set_site hB j t (ht t (List.getElem?_mem htj))) h
      · exact absurd h (by simp)
    · exact absurd h (by simp)

/-- The crossing-overs of `recombine` keep the sites 0 or 1. -/
theorem recombineLoop_binary (ind : Individual) :
    ∀ (k : Nat) (A B : Chromosome) (s : List Draw) (A1 B1 : Chromosome) (u : Unit)
      (rest : List Draw), Binary A.vSeq → Binary B.vSeq →
      Individual.recombineLoop ind k A B s = Res.ret (A1, B1) u rest →
      Binary A1.vSeq ∧ Binary B1.vSeq
  | 0, A, B, s, A1, B1, u, rest, hA, hB, h => by
    simp only [Individual.recombineLoop, Res.ret.injEq, Prod.mk.injEq] at h
    rw [← h.1.1, ← h.1.2]
    exact ⟨hA, hB⟩
  | k + 1, A, B, s, A1, B1, u, rest, hA, hB, h => by
    unfold Individual.recombineLoop at h
    split at h
    · exact absurd h (by simp)
    · split at h
      · exact absurd h (by simp)
      · split at h
        · exact absurd h (by simp)
        · split at h
          · exact absurd h (by simp)
          · next vA vB hco =>
            obtain ⟨h1, h2⟩ := crossOver_binary A hA _ _ A B vA vB hA hB hco
            exact recombineLoop_binary ind k vA vB _ A1 B1 u rest h1 h2 h

/-- `Individual::recombine` keeps the sites 0 or 1. -/
theorem recombine_binary (ind : Individual) (d : Int) (A B : Chromosome) (s : List Draw)
    (A1 B1 : Chromosome) (u : Unit) (rest : List Draw) (hA : Binary A.vSeq)
    (hB : Binary B.vSeq) (h : ind.recombine d A B s = Res.ret (A1, B1) u rest) :
    Binary A1.vSeq ∧ Binary B1.vSeq := by
  unfold Individual.recombine at h
  split at h
  · exact absurd h (by simp)
  · split at h
    · exact absurd h (by simp)
    · split at h
      · exact recombineLoop_binary ind _ A B _ A1 B1 u rest hA hB h
      · simp only [Res.ret.injEq, Prod.mk.injEq] at h
        rw [← h.1.1, ← h.1.2]
        exact ⟨hA, hB⟩

/-- The gamete of an organism of binary sites has binary sites. -/
theorem getGamete_binary (ind : Individual) (d : Int) (gamete0 : List Chromosome)
    (s : List Draw) (ind2 : Individual) (gam : List Chromosome) (u : Unit) (rest : List Draw)
    (hb : ind.BinarySites) (h : ind.getGamete d gamete0 s = Res.ret (ind2, gam) u rest) :
    ∀ c ∈ gam, Binary c.vSeq := by
  unfold Individual.getGamete at h
  split at h
  · next c0 c1 h0 h1 =>
    split at h
    · next a b u1 s1 hr1 =>
      obtain ⟨ha, hbb⟩ := recombine_binary ind d c0 c1 s a b u1 s1
        (hb c0 (List.getElem?_mem h0)) (hb c1 (List.getElem?_mem h1)) hr1
      have hb1 : ∀ x ∈ (ind.vChr.set 0 a).set 1 b, Binary x.vSeq :=
        binarySites_set _ 1 b (binarySites_set _ 0 a hb ha) hbb
      simp only [] at h
      split at h
      · exact absurd h (by simp)
      · split at h
        · next c2 c3 h2 h3 =>
          split at h
          · next c e u2 s3 hr2 =>
            obtain ⟨hc, he⟩ := recombine_binary _ d c2 c3 _ c e u2 s3
              (hb1 c2 (List.getElem?_mem h2)) (hb1 c3 (List.getElem?_mem h3)) hr2
            have hb2 : ∀ x ∈ (((ind.vChr.set 0 a).set 1 b).set 2 c).set 3 e, Binary x.vSeq :=
              binarySites_set _ 3 e (binarySites_set _ 2 c hb1 hc) he
            split at h
            · exact absurd h (by simp)
            · split at h
              · next g1 g2 hg1 hg2 =>
                simp only [Res.ret.injEq, Prod.mk.injEq] at h
                rw [← h.1.2]
                intro x hx
                simp only [List.mem_cons, List.mem_singleton, List.not_mem_nil, or_false] at hx
                rcases hx with rfl | rfl
                · exact hb2 _ (List.getElem?_mem hg1)
                · exact hb2 _ (List.getElem?_mem hg2)
              · exact absurd h (by simp)
          · exact absurd h (by simp)
          · exact absurd h (by simp)
          · exact absurd h (by simp)
        · exact absurd h (by simp)
    · exact absurd h (by simp)
    · exact absurd h (by simp)
    · exact absurd h (by simp)
  · exact absurd h (by simp)

/-- The parents that `sampleCouple` copies have the sites of members of the population. -/
theorem sampleCouple_binary (pop : Population) (p1 p2 : Individual) (s : List Draw)
    (q1 q2 : Individual) (u : Unit) (rest : List Draw) (hb : pop.BinarySites)
    (h : pop.sampleCouple p1 p2 s = Res.ret (q1, q2) u rest) :
    q1.BinarySites ∧ q2.BinarySites := by
  unfold Population.sampleCouple at h
  split at h
  · exact absurd h (by simp)
  · split at h
    · exact absurd h (by simp)
    · split at h
      · exact absurd h (by simp)
      · split at h
        · split at h
          · next i1 i2 h1 h2 =>
            simp only [Res.ret.injEq, Prod.mk.injEq] at h
            rw [← h.1.1, ← h.1.2]
            exact ⟨hb i1 (List.getElem?_mem h1), hb i2 (List.getElem?_mem h2)⟩
          · exact absurd h (by simp)
        · exact absurd h (by simp)
        · exact absurd h (by simp)
        · exact absurd h (by simp)

/-- The zygote of two gametes of binary sites has binary sites. -/
theorem fecundation_binary (ind : Individual) (gam1 gam2 : List Chromosome) (zs : Bool)
    (sm se : ℚ) (v : Int) (child : Individual) (hi : ind.BinarySites)
    (h1 : ∀ c ∈ gam1, Binary c.vSeq) (h2 : ∀ c ∈ gam2, Binary c.vSeq)
    (h : ind.fecundation gam1 gam2 zs sm se v = some child) : child.BinarySites := by
  unfold Individual.fecundation at h
  split at h
  · next g10 g20 g11 g21 e10 e20 e11 e21 =>
    injection h with h
    rw [← h]
    intro c hc
    simp only [List.mem_append, List.mem_cons, List.mem_singleton, List.not_mem_nil,
      or_false] at hc
    rcases hc with hc | rfl | rfl | rfl | rfl
    · exact hi c hc
    · exact h1 _ (List.getElem?_mem e10)
    · exact h2 _ (List.getElem?_mem e20)
    · exact h1 _ (List.getElem?_mem e11)
    · exact h2 _ (List.getElem?_mem e21)
  · exact absurd h (by simp)

/-- A freshly constructed organism holds no chromosome. -/
theorem ctor_binary (raw : Individual) : (Individual.ctor raw).BinarySites := by
  intro c hc
  simp [Individual.ctor, Individual.reset] at hc

/-- A candidate of `makeNewGeneration` has binary sites. -/
theorem makeCandidate_binary (pow : ℚ → ℚ → ℚ) (pop : Population) (raw : Individual)
    (s : List Draw) (ind : Individual) (viable : Bool) (rest : List Draw)
    (hb : pop.BinarySites)
    (h : pop.makeCandidate pow raw s = Candidate.made ind viable rest) : ind.BinarySites := by
  unfold Population.makeCandidate at h
  split at h
  · next parent1 parent2 u1 s1 hs =>
    obtain ⟨hp1, hp2⟩ := sampleCouple_binary pop _ _ s parent1 parent2 u1 s1 hb hs
    split at h
    · next i1 gamete1 u2 s2 hg1 =>
      have hgam1 := getGamete_binary parent1 _ [] s1 i1 gamete1 u2 s2 hp1 hg1
      split at h
      · next i2 gamete2 u3 s3 hg2 =>
        have hgam2 := getGamete_binary parent2 _ [] s2 i2 gamete2 u3 s3 hp2 hg2
        split at h
        · exact absurd h (by simp)
        · next child hf =>
          have hc := fecundation_binary _ gamete1 gamete2 _ _ _ _ child (ctor_binary raw)
            hgam1 hgam2 hf
          split at h
          · simp only [Candidate.made.injEq] at h
            rw [← h.1]
            exact hc
          · exact absurd h (by simp)
          · exact absurd h (by simp)
          · exact absurd h (by simp)
      · exact absurd h (by simp)
      · exact absurd h (by simp)
      · exact absurd h (by simp)
    · exact absurd h (by simp)
    · exact absurd h (by simp)
    · exact absurd h (by simp)
  · exact absurd h (by simp)
  · exact absurd h (by simp)
  · exact absurd h (by simp)

/-- The offspring that the loop of `makeNewGeneration` collects have binary sites. -/
theorem makeNewGenerationLoop_binary (pow : ℚ → ℚ → ℚ) (pop : Population) (raw : Individual)
    (hb : pop.BinarySites) :
    ∀ (fuel i : Nat) (vNewInd : List Individual) (s : List Draw) (out : List Individual)
      (u : Unit) (rest : List Draw), (∀ x ∈ vNewInd, x.BinarySites) →
      Population.makeNewGenerationLoop pow pop raw fuel i vNewInd s = Res.ret out u rest →
      ∀ x ∈ out, x.BinarySites
  | 0, i, vNewInd, s, out, u, rest, _, h => by
    simp [Population.makeNewGenerationLoop] at h
  | fuel + 1, i, vNewInd, s, out, u, rest, hv, h => by
    unfold Population.makeNewGenerationLoop at h
    split at h
    · split at h
      · next ind viable s1 hc =>
        have hi := makeCandidate_binary pow pop raw s ind viable s1 hb hc
        split at h
        · refine makeNewGenerationLoop_binary pow pop raw hb fuel (i + 1) _ s1 out u rest ?_ h
          intro x hx
          rcases List.mem_append.1 hx with hx | hx
          · exact hv x hx
          · rw [List.mem_singleton.1 hx]; exact hi
        · exact makeNewGenerationLoop_binary pow pop raw hb fuel i _ s1 out u rest hv h
      · exact absurd h (by simp)
      · exact absurd h (by simp)
      · exact absurd h (by simp)
    · simp only [Res.ret.injEq] at h
      rw [← h.1]
      exact hv

/-- The vector assignment keeps the chromosomes of the assigned organisms. -/
theorem assignVector_binary : ∀ (old new : List Individual), (∀ x ∈ new, x.BinarySites) →
    ∀ x ∈ assignVector old new, x.BinarySites
  | [], new, h => by simpa [assignVector] using h
  | _ :: _, [], _ => by simp [assignVector]
  | o :: old, n :: new, h => by
    intro x hx
    simp only [assignVector, List.mem_cons] at hx
    rcases hx with rfl | hx
    · exact h n (List.mem_cons_self _ _)
    · exact assignVector_binary old new (fun y hy => h y (List.mem_cons_of_mem _ hy)) x hx

/-- `makeNewGeneration` keeps the sites 0 or 1. -/
theorem makeNewGeneration_binary (pow : ℚ → ℚ → ℚ) (pop : Population) (raw : Individual)
    (s : List Draw) (pop1 : Population) (u : Unit) (rest : List Draw) (hb : pop.BinarySites)
    (h : pop.makeNewGeneration pow raw s = Res.ret pop1 u rest) : pop1.BinarySites := by
  unfold Population.makeNewGeneration at h
  split at h
  · next vNewInd u1 s1 hl =>
    have hv := makeNewGenerationLoop_binary pow pop raw hb _ 0 [] s vNewInd u1 s1
      (by simp) hl
    unfold Population.setIndividuals at h
    split at h
    · exact absurd h (by simp)
    · split at h
      · exact absurd h (by simp)
      · split at h
        · exact absurd h (by simp)
        · simp only [Res.ret.injEq] at h
          rw [← h.1]
          exact assignVector_binary pop.vInd vNewInd hv
  · exact absurd h (by simp)
  · exact absurd h (by simp)
  · exact absurd h (by simp)

/-- `Chromosome::loss` keeps the sites 0 or 1. -/
theorem Chromosome.loss_keeps_binary (c : Chromosome) (s : List Draw) (c1 : Chromosome) (u : Unit)
    (rest : List Draw) (hb : Binary c.vSeq) (h : c.loss s = Res.ret c1 u rest) :
    Binary c1.vSeq := by
  unfold Chromosome.loss at h
  split at h
  · exact absurd h (by simp)
  · split at h
    · exact absurd h (by simp)
    · split at h
      · exact absurd h (by simp)
      · split at h
        · exact absurd h (by simp)
        · simp only [Res.ret.injEq] at h
          rw [← h.1]
          exact Binary.set_site hb _ 0 (Or.inl rfl)

/-- The loop of `Chromosome::transposition` keeps the sites 0 or 1. -/
theorem Chromosome.transpositionLoop_keeps_binary (c : Chromosome) (hb : Binary c.vSeq) :
    ∀ (s : List Draw) (c1 : Chromosome) (u : Unit) (rest : List Draw),
      Chromosome.transpositionLoop c s = Res.ret c1 u rest → Binary c1.vSeq
  | [], c1, u, rest, h => by simp [Chromosome.transpositionLoop] at h
  | d :: s, c1, u, rest, h => by
    unfold Chromosome.transpositionLoop at h
    split at h
    · exact absurd h (by simp)
    · split at h
      · exact absurd h (by simp)
      · split at h
        · exact Chromosome.transpositionLoop_keeps_binary c hb s c1 u rest h
        · simp only [Res.ret.injEq] at h
          rw [← h.1]
          exact Binary.set_site hb _ 1 (Or.inr rfl)

/-- `Chromosome::transposition` keeps the sites 0 or 1. -/
theorem Chromosome.transposition_keeps_binary (c : Chromosome) (s : List Draw) (c1 : Chromosome)
    (u : Unit) (rest : List Draw) (hb : Binary c.vSeq)
    (h : c.transposition s = Res.ret c1 u rest) : Binary c1.vSeq := by
  unfold Chromosome.transposition at h
  split at h
  · exact absurd h (by simp)
  · exact Chromosome.transpositionLoop_keeps_binary c hb s c1 u rest h

/-- The losses of `Individual::loss` keep the sites 0 or 1. -/
theorem lossEvents_binary : ∀ (k : Nat) (ind : Individual) (s : List Draw) (ind1 : Individual)
    (u : Unit) (rest : List Draw), ind.BinarySites →
    Individual.lossEvents k ind s = Res.ret ind1 u rest → ind1.BinarySites
  | 0, ind, s, ind1, u, rest, hb, h => by
    simp only [Individual.lossEvents, Res.ret.injEq] at h
    rw [← h.1]
    exact hb
  | k + 1, ind, s, ind1, u, rest, hb, h => by
    unfold Individual.lossEvents at h
    split at h
    · split at h
      · exact absurd h (by simp)
      · next c hc =>
        split at h
        · next c1 u1 s2 hl =>
          refine lossEvents_binary k _ s2 ind1 u rest ?_ h
          exact binarySites_set _ _ c1 hb
            (Chromosome.loss_keeps_binary c _ c1 u1 s2 (hb c (List.getElem?_mem hc)) hl)
        · exact absurd h (by simp)
        · exact absurd h (by simp)
        · exact absurd h (by simp)
    · exact absurd h (by simp)
    · exact absurd h (by simp)
    · exact absurd h (by simp)

/-- `Individual::loss` keeps the sites 0 or 1. -/
theorem Individual.loss_binary (ind : Individual) (probLoss : ℚ) (s : List Draw)
    (ind1 : Individual) (n : Int) (rest : List Draw) (hb : ind.BinarySites)
    (h : ind.loss probLoss s = Res.ret ind1 n rest) : ind1.BinarySites := by
  unfold Individual.loss at h
  split at h
  · exact absurd h (by simp)
  · split at h
    · split at h
      · exact absurd h (by simp)
      · split at h
        · exact absurd h (by simp)
        · split at h
          · split at h
            · next i1 u1 s1 he =>
              have hb1 := lossEvents_binary _ ind _ i1 u1 s1 hb he
              split at h
              · exact absurd h (by simp)
              · split at h
                · exact absurd h (by simp)
                · simp only [Res.ret.injEq] at h
                  rw [← h.1]
                  exact hb1
            · exact absurd h (by simp)
            · exact absurd h (by simp)
            · exact absurd h (by simp)
          · simp only [Res.ret.injEq] at h
            rw [← h.1]
            exact hb
    · simp only [Res.ret.injEq] at h
      rw [← h.1]
      exact hb

/-- The transpositions of `Individual::transposition` keep the sites 0 or 1. -/
theorem transpositionEvents_binary : ∀ (k : Nat) (ind : Individual) (s : List Draw)
    (ind1 : Individual) (u : Unit) (rest : List Draw), ind.BinarySites →
    Individual.transpositionEvents k ind s = Res.ret ind1 u rest → ind1.BinarySites
  | 0, ind, s, ind1, u, rest, hb, h => by
    simp only [Individual.transpositionEvents, Res.ret.injEq] at h
    rw [← h.1]
    exact hb
  | k + 1, ind, s, ind1, u, rest, hb, h => by
    unfold Individual.transpositionEvents at h
    split at h
    · split at h
      · exact absurd h (by simp)
      · next c hc =>
        split at h
        · next c1 u1 s2 hl =>
          refine transpositionEvents_binary k _ s2 ind1 u rest ?_ h
          exact binarySites_set _ _ c1 hb
            (Chromosome.transposition_keeps_binary c _ c1 u1 s2 (hb c (List.getElem?_mem hc)) hl)
        · exact absurd h (by simp)
        · exact absurd h (by simp)
        · exact absurd h (by simp)
    · exact absurd h (by simp)
    · exact absurd h (by simp)
    · exact absurd h (by simp)

/-- A return of `Individual::transposition` is the organism as it was, or the organism that
the `nbTransp > 0` events return. -/
theorem transposition_ret_cases (ind : Individual) (probTransp0 k : ℚ) (s : List Draw)
    (ind1 : Individual) (n : Int) (rest : List Draw)
    (h : ind.transposition probTransp0 k s = Res.ret ind1 n rest) :
    ind1 = ind ∨
    (0 < n ∧ ∃ s0 : List Draw,
      Individual.transpositionEvents n.toNat ind s0 = Res.ret ind1 () rest) := by
  unfold Individual.transposition at h
  split at h
  · exact absurd h (by simp)
  · split at h
    · split at h
      · exact absurd h (by simp)
      · split at h
        · exact absurd h (by simp)
        · split at h
          · exact absurd h (by simp)
          · split at h
            · exact absurd h (by simp)
            · split at h
              · next hpos =>
                split at h
                · next i1 u1 s1 he =>
                  split at h
                  · exact absurd h (by simp)
                  · split at h
                    · exact absurd h (by simp)
                    · simp only [Res.ret.injEq] at h
                      obtain ⟨h1, h2, h3⟩ := h
                      subst h1 h2 h3
                      exact Or.inr ⟨hpos, _, he⟩
                · exact absurd h (by simp)
                · exact absurd h (by simp)
                · exact absurd h (by simp)
              · simp only [Res.ret.injEq] at h
                exact Or.inl h.1.symm
    · simp only [Res.ret.injEq] at h
      exact Or.inl h.1.symm

/-- `Individual::transposition` keeps the sites 0 or 1. -/
theorem Individual.transposition_binary (ind : Individual) (probTransp0 k : ℚ)
    (s : List Draw) (ind1 : Individual) (n : Int) (rest : List Draw) (hb : ind.BinarySites)
    (h : ind.transposition probTransp0 k s = Res.ret ind1 n rest) : ind1.BinarySites := by
  rcases transposition_ret_cases ind probTransp0 k s ind1 n rest h with e | ⟨_, s0, he⟩
  · rw [e]
    exact hb
  · exact transpositionEvents_binary _ ind s0 ind1 () rest hb he

/-- Replacing an organism of binary sites by another one. -/
theorem binarySites_set_ind (l : List Individual) (i : Nat) (o : Individual)
    (hl : ∀ x ∈ l, x.BinarySites) (ho : o.BinarySites) : ∀ x ∈ l.set i o, x.BinarySites := by
  intro x hx
  rcases List.mem_or_eq_of_mem_set hx with h | h
  · exact hl x h
  · rw [h]; exact ho

/-- `Population::loss` keeps the sites 0 or 1. -/
theorem lossLoop_binary (probLoss : ℚ) : ∀ (k i : Nat) (pop : Population) (acc : Int)
    (s : List Draw) (pop1 : Population) (n : Int) (rest : List Draw), pop.BinarySites →
    Population.lossLoop probLoss k i pop acc s = Res.ret pop1 n rest → pop1.BinarySites
  | 0, i, pop, acc, s, pop1, n, rest, hb, h => by
    simp only [Population.lossLoop, Res.ret.injEq] at h
    rw [← h.1]
    exact hb
  | k + 1, i, pop, acc, s, pop1, n, rest, hb, h => by
    unfold Population.lossLoop at h
    split at h
    · exact absurd h (by simp)
    · next ind hi =>
      split at h
      · next ind1 m s1 hl =>
        refine lossLoop_binary probLoss k (i + 1) _ _ s1 pop1 n rest ?_ h
        exact binarySites_set_ind _ _ ind1 hb
          (Individual.loss_binary ind probLoss s ind1 m s1 (hb ind (List.getElem?_mem hi)) hl)
      · exact absurd h (by simp)
      · exact absurd h (by simp)
      · exact absurd h (by simp)

/-- `Population::transposition` keeps the sites 0 or 1. -/
theorem transpositionLoop_binary (probTransp0 k : ℚ) : ∀ (t i : Nat) (pop : Population)
    (acc : Int) (s : List Draw) (pop1 : Population) (n : Int) (rest : List Draw),
    pop.BinarySites →
    Population.transpositionLoop probTransp0 k t i pop acc s = Res.ret pop1 n rest →
    pop1.BinarySites
  | 0, i, pop, acc, s, pop1, n, rest, hb, h => by
    simp only [Population.transpositionLoop, Res.ret.injEq] at h
    rw [← h.1]
    exact hb
  | t + 1, i, pop, acc, s, pop1, n, rest, hb, h => by
    unfold Population.transpositionLoop at h
    split at h
    · exact absurd h (by simp)
    · next ind hi =>
      split at h
      · next ind1 m s1 hl =>
        refine transpositionLoop_binary probTransp0 k t (i + 1) _ _ s1 pop1 n rest ?_ h
        exact binarySites_set_ind _ _ ind1 hb
          (Individual.transposition_binary ind probTransp0 k s ind1 m s1
            (hb ind (List.getElem?_mem hi)) hl)
      · exact absurd h (by simp)
      · exact absurd h (by simp)
      · exact absurd h (by simp)

/-- The load of an organism of binary sites is not negative. -/
theorem getNbTEsLoop_nonneg (vChr : List Chromosome) (hb : ∀ c ∈ vChr, Binary c.vSeq) :
    ∀ (k i : Nat) (acc n : Int), 0 ≤ acc →
      Individual.getNbTEsLoop vChr k i acc = some n → 0 ≤ n
  | 0, i, acc, n, ha, h => by
    simp only [Individual.getNbTEsLoop, Option.some.injEq] at h
    omega
  | k + 1, i, acc, n, ha, h => by
    unfold Individual.getNbTEsLoop at h
    split at h
    · exact absurd h (by simp)
    · next c hc =>
      have : 0 ≤ c.getNbTEs := Binary.sum_nonneg (hb c (List.getElem?_mem hc))
      exact getNbTEsLoop_nonneg vChr hb k (i + 1) _ n (by omega) h

/-- The loads that `getNbTEsPerInd` collects are not negative. -/
theorem getNbTEsPerIndLoop_nonneg (vInd : List Individual) (hb : ∀ x ∈ vInd, x.BinarySites) :
    ∀ (k i : Nat) (acc out : List Int), 0 ≤ acc.sum →
      Population.getNbTEsPerIndLoop vInd k i acc = some out → 0 ≤ out.sum
  | 0, i, acc, out, ha, h => by
    simp only [Population.getNbTEsPerIndLoop, Option.some.injEq] at h
    rw [← h]
    exact ha
  | k + 1, i, acc, out, ha, h => by
    unfold Population.getNbTEsPerIndLoop at h
    split at h
    · exact absurd h (by simp)
    · next ind hi =>
      split at h
      · exact absurd h (by simp)
      · next n hn =>
        have h0 : 0 ≤ n := getNbTEsLoop_nonneg ind.vChr (hb ind (List.getElem?_mem hi)) _ 0 0 n
          (le_refl 0) hn
        refine getNbTEsPerIndLoop_nonneg vInd hb k (i + 1) _ out ?_ h
        rw [List.sum_append]
        simp only [List.sum_cons, List.sum_nil, add_zero]
        omega

/-- The total load of a population of binary sites is not negative. -/
theorem getSumNbTEs_nonneg (pop : Population) (hb : pop.BinarySites) (n : Int)
    (h : pop.getSumNbTEs = some n) : 0 ≤ n := by
  unfold Population.getSumNbTEs at h
  split at h
  · exact absurd h (by simp)
  · next v hv =>
    injection h with h
    rw [← h]
    exact getNbTEsPerIndLoop_nonneg pop.vInd hb _ 0 [] v (by simp) hv

/-! ## Initialization and the first row -/

/-- The loop of `Chromosome::initialize` stays in bounds and keeps the sites 0 or 1. -/
theorem initializeLoop_sites_holds (p : ℚ) : ∀ (k i : Nat) (vSeq : List Int) (s : List Draw),
    i + k ≤ vSeq.length → Binary vSeq →
    Res.Holds (fun v _ _ => v.length = vSeq.length ∧ Binary v)
      (Chromosome.initializeLoop p k i vSeq s)
  | 0, i, vSeq, s, _, hb => by
    exact ⟨rfl, hb⟩
  | k + 1, i, vSeq, s, hi, hb => by
    unfold Chromosome.initializeLoop
    split
    · trivial
    · next d rest =>
      split
      · trivial
      · split
        · rw [if_pos (by omega)]
          have ih := initializeLoop_sites_holds p k (i + 1) (vSeq.set i 1) rest
            (by rw [List.length_set]; omega) (Binary.set_site hb i 1 (Or.inr rfl))
          refine Res.Holds.mono ih ?_
          intro v _ _ hv
          rw [List.length_set] at hv
          exact hv
        · exact initializeLoop_sites_holds p k (i + 1) vSeq rest (by omega) hb

/-- `Chromosome::initialize` on a chromosome without site builds `nbSites` binary sites. -/
theorem Chromosome.initialize_sites_holds (c : Chromosome) (hc : c.vSeq = []) (s : List Draw) :
    Res.Holds (fun c1 _ _ => c1.nbSites = c.nbSites ∧ c1.vSeq.length = c.nbSites ∧
      Binary c1.vSeq) ( c.initialize s) := by
  have hr : resize c.vSeq c.nbSites = List.replicate c.nbSites 0 := by
    rw [hc]
    exact resize_replicate 0 c.nbSites
  have h := initializeLoop_sites_holds c.probTEPerSite c.nbSites 0 (List.replicate c.nbSites 0) s
    (by simp) (fun x hx => Or.inl (List.eq_of_mem_replicate hx))
  unfold Chromosome.initialize
  rw [hr]
  cases hl : Chromosome.initializeLoop c.probTEPerSite c.nbSites 0
      (List.replicate c.nbSites 0) s with
  | ret v u rest =>
    rw [hl] at h
    simp only [Res.Holds] at h
    exact ⟨rfl, by rw [h.1, List.length_replicate], h.2⟩
  | exit v => rw [hl] at h; exact absurd h (by simp [Res.Holds])
  | fault => rw [hl] at h; exact absurd h (by simp [Res.Holds])
  | noRun => trivial

/-- The loop of `Individual::initialize` adds `k` chromosomes of `nbSitesPerChr` binary
sites. -/
theorem Individual.initializeLoop_chromosomes_holds (p : ℚ) : ∀ (k : Nat) (ind : Individual)
    (s : List Draw),
    (∀ c ∈ ind.vChr, c.nbSites = ind.nbSitesPerChr ∧ c.vSeq.length = ind.nbSitesPerChr ∧
      Binary c.vSeq) →
    Res.Holds (fun ind1 _ _ => ind1.nbChr = ind.nbChr ∧
      ind1.nbSitesPerChr = ind.nbSitesPerChr ∧ ind1.vChr.length = ind.vChr.length + k ∧
      ∀ c ∈ ind1.vChr, c.nbSites = ind.nbSitesPerChr ∧ c.vSeq.length = ind.nbSitesPerChr ∧
        Binary c.vSeq) (Individual.initializeLoop p k ind s)
  | 0, ind, s, h => by
    exact ⟨rfl, rfl, rfl, h⟩
  | k + 1, ind, s, h => by
    unfold Individual.initializeLoop
    have hc := Chromosome.initialize_sites_holds
      { nbSites := ind.nbSitesPerChr, probTEPerSite := p, verbose := ind.verbose - 1,
        r := ind.r, vSeq := [] } rfl s
    cases hl : Chromosome.initialize
      { nbSites := ind.nbSitesPerChr, probTEPerSite := p, verbose := ind.verbose - 1,
        r := ind.r, vSeq := [] } s with
    | ret chr u rest =>
      rw [hl] at hc
      simp only [Res.Holds] at hc
      have ih := Individual.initializeLoop_chromosomes_holds p k { ind with vChr := ind.vChr ++ [chr] } rest
        (by
          intro c hcm
          rcases List.mem_append.1 hcm with hcm | hcm
          · exact h c hcm
          · rw [List.mem_singleton.1 hcm]; exact hc)
      simp only []
      refine Res.Holds.mono ih ?_
      intro ind1 _ _ hi
      refine ⟨hi.1, hi.2.1, ?_, hi.2.2.2⟩
      rw [hi.2.2.1]
      simp only [List.length_append, List.length_singleton]
      omega
    | exit v => rw [hl] at hc; exact absurd hc (by simp [Res.Holds])
    | fault => rw [hl] at hc; exact absurd hc (by simp [Res.Holds])
    | noRun => trivial

/-- `Individual::initialize` on an organism without chromosome builds a well-formed
organism. -/
theorem Individual.initialize_chromosomes_holds (ind : Individual) (hv : ind.vChr = []) (s : List Draw) :
    Res.Holds (fun ind1 _ _ => ind1.WellFormed ∧ ind1.nbChr = ind.nbChr ∧
      ind1.nbSitesPerChr = ind.nbSitesPerChr) ( ind.initialize s) := by
  unfold Individual.initialize
  refine Res.Holds.mono (Individual.initializeLoop_chromosomes_holds _ ind.nbChr ind s
    (by rw [hv]; intro c hc; simp at hc)) ?_
  intro ind1 _ _ h
  refine ⟨⟨?_, ?_⟩, h.1, h.2.1⟩
  · rw [h.2.2.1, hv, h.1]
    simp
  · intro c hc
    rw [h.2.1]
    exact h.2.2.2 c hc

/-- The loop of `Population::initialize` adds `k` well-formed organisms of the configured
shape. -/
theorem Population.initializeLoop_organisms_holds : ∀ (k : Nat) (pop : Population) (s : List Draw),
    (∀ x ∈ pop.vInd, x.WellFormed ∧ x.nbChr = pop.nbChrPerInd ∧
      x.nbSitesPerChr = pop.nbSitesPerChr) →
    Res.Holds (fun pop1 _ _ => pop1.nbDiploids = pop.nbDiploids ∧
      pop1.nbChrPerInd = pop.nbChrPerInd ∧ pop1.nbSitesPerChr = pop.nbSitesPerChr ∧
      pop1.vInd.length = pop.vInd.length + k ∧
      ∀ x ∈ pop1.vInd, x.WellFormed ∧ x.nbChr = pop.nbChrPerInd ∧
        x.nbSitesPerChr = pop.nbSitesPerChr) (Population.initializeLoop k pop s)
  | 0, pop, s, h => by
    exact ⟨rfl, rfl, rfl, rfl, h⟩
  | k + 1, pop, s, h => by
    unfold Population.initializeLoop
    have hc := Individual.initialize_chromosomes_holds
      { nbChr := pop.nbChrPerInd, nbSitesPerChr := pop.nbSitesPerChr,
        expNbTEsPerInd := pop.expNbTEsPerInd, zygoteSelection := pop.zygoteSelection,
        selMult := pop.selMult, selExp := pop.selExp, verbose := pop.verbose - 1,
        r := pop.r, vChr := [] } rfl s
    cases hl : Individual.initialize
      { nbChr := pop.nbChrPerInd, nbSitesPerChr := pop.nbSitesPerChr,
        expNbTEsPerInd := pop.expNbTEsPerInd, zygoteSelection := pop.zygoteSelection,
        selMult := pop.selMult, selExp := pop.selExp, verbose := pop.verbose - 1,
        r := pop.r, vChr := [] } s with
    | ret ind u rest =>
      rw [hl] at hc
      simp only [Res.Holds] at hc
      have ih := Population.initializeLoop_organisms_holds k { pop with vInd := pop.vInd ++ [ind] } rest
        (by
          intro x hx
          rcases List.mem_append.1 hx with hx | hx
          · exact h x hx
          · rw [List.mem_singleton.1 hx]; exact hc)
      simp only []
      refine Res.Holds.mono ih ?_
      intro pop1 _ _ hi
      refine ⟨hi.1, hi.2.1, hi.2.2.1, ?_, hi.2.2.2.2⟩
      rw [hi.2.2.2.1]
      simp only [List.length_append, List.length_singleton]
      omega
    | exit v => rw [hl] at hc; exact absurd hc (by simp [Res.Holds])
    | fault => rw [hl] at hc; exact absurd hc (by simp [Res.Holds])
    | noRun => trivial

/-- `Population::initialize` on a population without organism builds a well-formed
population: it neither exits nor faults. -/
theorem Population.initialize_organisms_holds (pop : Population) (hv : pop.vInd = []) (s : List Draw) :
    Res.Holds (fun pop1 _ _ => pop1.WellFormed ∧ pop1.nbDiploids = pop.nbDiploids ∧
      pop1.nbChrPerInd = pop.nbChrPerInd ∧ pop1.nbSitesPerChr = pop.nbSitesPerChr)
      ( pop.initialize s) := by
  unfold Population.initialize
  refine Res.Holds.mono (Population.initializeLoop_organisms_holds pop.nbDiploids pop s
    (by rw [hv]; intro x hx; simp at hx)) ?_
  intro pop1 _ _ h
  refine ⟨⟨?_, ?_⟩, h.1, h.2.1, h.2.2.1⟩
  · rw [h.2.2.2.1, hv, h.1]
    simp
  · intro x hx
    rw [h.2.1, h.2.2.1]
    exact h.2.2.2.2 x hx

/-- A well-formed population has binary sites. -/
theorem WellFormed.binarySites {pop : Population} (hw : pop.WellFormed) : pop.BinarySites :=
  fun ind hi c hc => ((hw.2 ind hi).1.2 c hc).2.2

/-- The populations of the rows that the loop of `Simulation::run` adds have binary sites. -/
theorem runLoop_binary (pow : ℚ → ℚ → ℚ) (raw : Individual) (sim : Simulation) :
    ∀ (t g : Nat) (pop : Population) (s : List Draw) (rows : List Snapshot),
      pop.BinarySites → (∀ x ∈ rows, x.pop.BinarySites) →
      ∀ x ∈ (Simulation.runLoop pow raw sim t g pop s rows).1, x.pop.BinarySites
  | 0, g, pop, s, rows, _, hr => by simpa [Simulation.runLoop] using hr
  | t + 1, g, pop, s, rows, hb, hr => by
    unfold Simulation.runLoop
    split
    · exact hr
    · split
      · split
        · next pop1 u1 s1 h1 =>
          have hb1 := makeNewGeneration_binary pow pop raw s pop1 u1 s1 hb h1
          split
          · next pop2 n2 s2 h2 =>
            have hb2 : pop2.BinarySites :=
              lossLoop_binary sim.probLoss _ 0 pop1 0 s1 pop2 n2 s2 hb1 h2
            split
            · next pop3 n3 s3 h3 =>
              have hb3 : pop3.BinarySites :=
                transpositionLoop_binary sim.probTransp0 sim.k _ 0 pop2 0 s2 pop3 n3 s3 hb2 h3
              split
              · exact hr
              · next row h4 =>
                refine runLoop_binary pow raw sim t (g + 1) pop3 s3 _ hb3 ?_
                intro x hx
                rcases List.mem_append.1 hx with hx | hx
                · exact hr x hx
                · rw [List.mem_singleton.1 hx]; exact hb3
            · exact hr
            · exact hr
            · exact hr
          · exact hr
          · exact hr
          · exact hr
        · exact hr
        · exact hr
        · exact hr
      · exact hr

/-- Two consecutive elements of a chain are related. -/
theorem chain_getElem? {α : Type} {R : α → α → Prop} : ∀ (l : List α) (a : α),
    List.Chain R a l → ∀ (i : Nat) (x y : α), (a :: l)[i]? = some x →
      (a :: l)[i + 1]? = some y → R x y
  | [], a, _, i, x, y, _, hy => by simp at hy
  | b :: l, a, h, 0, x, y, hx, hy => by
    simp only [List.getElem?_cons_zero, Option.some.injEq, List.getElem?_cons_succ] at hx hy
    rw [← hx, ← hy]
    exact (List.chain_cons.1 h).1
  | b :: l, a, h, i + 1, x, y, hx, hy => by
    rw [List.getElem?_cons_succ] at hx hy
    exact chain_getElem? l b (List.chain_cons.1 h).2 i x y hx hy

/-- What `Simulation::run` emits: nothing, when the initialization or the first row fails;
otherwise the row of generation 0 followed by at most `nbGen` rows, each one generation
after the one before.  The populations of the rows have binary sites, and a run that
returns returns the population of the last row, before `nbGen` only if its load is 0. -/
theorem run_spec (pow : ℚ → ℚ → ℚ) (raw : Individual) (sim : Simulation) (s : List Draw) :
    ((sim.run pow raw s).1 = [] ∧
      ∀ (p : Population) (s1 : List Draw), (sim.run pow raw s).2 ≠ Res.ret p () s1) ∨
    ∃ (first : Snapshot) (new : List Snapshot),
      (sim.run pow raw s).1 = first :: new ∧ first.row.gen = 0 ∧ new.length ≤ sim.nbGen ∧
      List.Chain (Simulation.Step pow raw sim) first new ∧
      (∀ x ∈ first :: new, x.pop.BinarySites) ∧
      ∀ (p : Population) (s1 : List Draw), (sim.run pow raw s).2 = Res.ret p () s1 →
        p = ((first :: new).getLast (List.cons_ne_nil _ _)).pop ∧
        s1 = ((first :: new).getLast (List.cons_ne_nil _ _)).rest ∧
        (new.length < sim.nbGen →
          ((first :: new).getLast (List.cons_ne_nil _ _)).pop.getSumNbTEs = some 0) := by
  have hinit := Population.initialize_organisms_holds sim.newPopulation rfl s
  unfold Simulation.run
  cases hi : sim.newPopulation.initialize s with
  | exit _ => exact Or.inl ⟨rfl, fun p s1 h => by simp at h⟩
  | fault => exact Or.inl ⟨rfl, fun p s1 h => by simp at h⟩
  | noRun => exact Or.inl ⟨rfl, fun p s1 h => by simp at h⟩
  | ret pop u s1 =>
    rw [hi] at hinit
    have hb : pop.BinarySites := WellFormed.binarySites hinit.1
    simp only []
    cases hs : pop.saveData sim.simuId 0 with
    | none => exact Or.inl ⟨rfl, fun p s1 h => by simp at h⟩
    | some row =>
      simp only []
      have hrow : row.gen = 0 := saveData_gen _ _ _ _ hs
      obtain ⟨new, e, hl, hc, hf⟩ := runLoop_spec pow raw sim sim.nbGen 1
        [{ row := row, pop := pop, rest := s1 }] { row := row, pop := pop, rest := s1 }
        (by simp [hrow])
      have hbin := runLoop_binary pow raw sim sim.nbGen 1 pop s1
        [{ row := row, pop := pop, rest := s1 }] hb
        (by intro x hx; rw [List.mem_singleton.1 hx]; exact hb)
      refine Or.inr ⟨{ row := row, pop := pop, rest := s1 }, new, ?_, hrow, hl, hc, ?_, ?_⟩
      · rw [e]
        rfl
      · intro x hx
        apply hbin
        rw [e]
        exact hx
      · intro p s2 h
        obtain ⟨a, b, c⟩ := hf p s2 h
        refine ⟨a, b, ?_⟩
        intro hlt
        obtain ⟨n, hn, hpos⟩ := c hlt
        have h0 := getSumNbTEs_nonneg _
          (hbin _ (by rw [e]; exact List.getLast_mem _)) n hn
        have : n = 0 := by omega
        rw [hn, this]

/-- The generation numbers of the rows of a chain that starts at generation `g`. -/
theorem chain_gen (pow : ℚ → ℚ → ℚ) (raw : Individual) (sim : Simulation) :
    ∀ (new : List Snapshot) (first : Snapshot),
      List.Chain (Simulation.Step pow raw sim) first new →
      ∀ (i : Nat) (x : Snapshot), (first :: new)[i]? = some x → x.row.gen = first.row.gen + i
  | new, first, _, 0, x, hx => by
    simp only [List.getElem?_cons_zero, Option.some.injEq] at hx
    rw [← hx]
    rfl
  | [], first, _, i + 1, x, hx => by simp at hx
  | b :: new, first, h, i + 1, x, hx => by
    simp only [List.getElem?_cons_succ] at hx
    have hb := chain_gen pow raw sim new b (List.chain_cons.1 h).2 i x hx
    obtain ⟨_, _, _, _, _, _, _, _, _, _, hsave⟩ := (List.chain_cons.1 h).1
    have := saveData_gen _ _ _ _ hsave
    omega

/-- C19: in `Simulation::run`, whenever the row of generation `i + 1` follows the row of
generation `i`, the total load of the population of row `i` is `> 0` and the population of
row `i + 1` is what `makeNewGeneration`, then `loss( probLoss )`, then
`transposition( probTransp0, k )` make of the population of row `i`, each operator reading
the draws that the one before left; the row is what `saveData` writes for that population
and the generation `i + 1`. -/
theorem Simulation.run_generation (pow : ℚ → ℚ → ℚ) (raw : Individual) (sim : Simulation)
    (s : List Draw) (i : Nat) (x y : Snapshot)
    (hx : (sim.run pow raw s).1[i]? = some x) (hy : (sim.run pow raw s).1[i + 1]? = some y) :
    x.row.gen = i ∧ y.row.gen = i + 1 ∧
    (∃ sumNbTEs : Int, x.pop.getSumNbTEs = some sumNbTEs ∧ 0 < sumNbTEs) ∧
    ∃ (pop1 : Population) (s1 : List Draw) (pop2 : Population) (nbLosses : Int)
      (s2 : List Draw) (nbTransp : Int),
      x.pop.makeNewGeneration pow raw x.rest = Res.ret pop1 () s1 ∧
      pop1.loss sim.probLoss s1 = Res.ret pop2 nbLosses s2 ∧
      pop2.transposition sim.probTransp0 sim.k s2 = Res.ret y.pop nbTransp y.rest ∧
      y.pop.saveData sim.simuId (i + 1) = some y.row := by
  rcases run_spec pow raw sim s with ⟨he, _⟩ | ⟨first, new, e, hg, _, hc, _, _⟩
  · rw [he] at hx
    simp at hx
  · rw [e] at hx hy
    have gx := chain_gen pow raw sim new first hc i x hx
    have gy := chain_gen pow raw sim new first hc (i + 1) y hy
    obtain ⟨hpos, pop1, s1, pop2, n2, s2, n3, h1, h2, h3, h4⟩ :=
      chain_getElem? new first hc i x y hx hy
    have gxi : x.row.gen = i := by omega
    refine ⟨gxi, by omega, hpos, pop1, s1, pop2, n2, s2, n3, h1, h2, h3, ?_⟩
    rw [← gxi]
    exact h4

/-- C19, on `oneGenSim` with the stream `fullDraws`: the run returns after the rows of the
generations 0 and 1, with the loads 1 0 and then 0 2; the 27 draws left at row 0 are read by
`makeNewGeneration`, `loss` and `transposition` in this order, none is left at row 1. -/
theorem Simulation.run_generation_witness :
    ((oneGenSim.run (fun x _ => x) rawInd fullDraws).1.map (fun x => x.row.nbTEsPerInd)
      = [[1, 0], [0, 2]]) ∧
    ((oneGenSim.run (fun x _ => x) rawInd fullDraws).1.map (fun x => x.rest.length)
      = [27, 0]) ∧
    (oneGenSim.run (fun x _ => x) rawInd fullDraws).2.isRet = true ∧
    ∃ x y : Snapshot,
      (oneGenSim.run (fun x _ => x) rawInd fullDraws).1[0]? = some x ∧
      (oneGenSim.run (fun x _ => x) rawInd fullDraws).1[0 + 1]? = some y ∧
      ∃ (pop1 : Population) (s1 : List Draw) (pop2 : Population) (nbLosses : Int)
        (s2 : List Draw) (nbTransp : Int),
        x.pop.makeNewGeneration (fun x _ => x) rawInd x.rest = Res.ret pop1 () s1 ∧
        pop1.loss oneGenSim.probLoss s1 = Res.ret pop2 nbLosses s2 ∧
        pop2.transposition oneGenSim.probTransp0 oneGenSim.k s2
          = Res.ret y.pop nbTransp y.rest ∧
        y.pop.saveData oneGenSim.simuId (0 + 1) = some y.row := by
  have hlen : (oneGenSim.run (fun x _ => x) rawInd fullDraws).1.length = 2 := by decide!
  refine ⟨by decide!, by decide!, by decide!, ?_⟩
  cases h0 : (oneGenSim.run (fun x _ => x) rawInd fullDraws).1[0]? with
  | none =>
    have := List.getElem?_eq_none_iff.1 h0
    omega
  | some x =>
    cases h1 : (oneGenSim.run (fun x _ => x) rawInd fullDraws).1[0 + 1]? with
    | none =>
      have := List.getElem?_eq_none_iff.1 h1
      omega
    | some y =>
      exact ⟨x, y, rfl, rfl,
        (Simulation.run_generation (fun x _ => x) rawInd oneGenSim fullDraws 0 x y h0 h1).2.2.2⟩

/-! ## Chromosome::operator== -/

/-- What `operator==` decides: the equality of the site counts, the verbosities, the
generator handles and the sequences; the probabilities per site play no role. -/
theorem operatorEq_iff (a b : Chromosome) :
    a.operatorEq b = true ↔
      a.nbSites = b.nbSites ∧ a.verbose = b.verbose ∧ a.r = b.r ∧ a.vSeq = b.vSeq := by
  simp only [Chromosome.operatorEq, Bool.and_eq_true, beq_iff_eq, beq_self_eq_true, and_true]
  constructor
  · rintro ⟨⟨⟨h1, h2⟩, h3⟩, h4⟩
    exact ⟨h1, h2, h3, h4⟩
  · rintro ⟨h1, h2, h3, h4⟩
    exact ⟨⟨⟨h1, h2⟩, h3⟩, h4⟩

/-- C21: `Chromosome::operator==` is not the equality of all the parameters: two chromosomes
of 2 sites that differ in `probTEPerSite` only (0 and 1/2) compare equal.  In general the
operator holds exactly when the site counts, the verbosities, the generator handles and the
sequences are equal. -/
theorem Chromosome.operatorEq_ignores_probTEPerSite :
    Chromosome.operatorEq
        { nbSites := 2, probTEPerSite := 0, verbose := 0, r := 0, vSeq := [1, 0] }
        { nbSites := 2, probTEPerSite := 1 / 2, verbose := 0, r := 0, vSeq := [1, 0] } = true ∧
    ({ nbSites := 2, probTEPerSite := 0, verbose := 0, r := 0, vSeq := [1, 0] } : Chromosome)
      ≠ { nbSites := 2, probTEPerSite := 1 / 2, verbose := 0, r := 0, vSeq := [1, 0] } ∧
    ∀ a b : Chromosome, a.operatorEq b = true ↔
      (a.nbSites = b.nbSites ∧ a.verbose = b.verbose ∧ a.r = b.r ∧ a.vSeq = b.vSeq) := by
  refine ⟨(operatorEq_iff _ _).2 ⟨rfl, rfl, rfl, rfl⟩, ?_, operatorEq_iff⟩
  intro h
  have h2 := congrArg Chromosome.probTEPerSite h
  norm_num at h2

/-! ## Population::sampleCouple -/

/-- The redraw loop of `sampleCouple` returns the first draw that differs from `idPar1`,
after any number of draws equal to `idPar1`. -/
theorem sampleCoupleLoop_spec (pop : Population) (idPar1 : Nat) :
    ∀ (s : List Draw) (u : Unit) (idPar2 : Nat) (rest : List Draw),
      Population.sampleCoupleLoop pop idPar1 s = Res.ret u idPar2 rest →
      ∃ m : Nat, s = List.replicate m (Draw.uniformInt idPar1) ++ Draw.uniformInt idPar2 :: rest ∧
        idPar2 ≠ idPar1 ∧ idPar2 < pop.nbDiploids
  | [], u, idPar2, rest, h => by simp [Population.sampleCoupleLoop] at h
  | d :: s, u, idPar2, rest, h => by
    unfold Population.sampleCoupleLoop at h
    split at h
    · exact absurd h (by simp)
    · next v hv =>
      obtain ⟨hd, hlt⟩ := gsl_rng_uniform_int_some hv
      split at h
      · next heq =>
        obtain ⟨m, hs, hne, hi⟩ := sampleCoupleLoop_spec pop idPar1 s u idPar2 rest h
        refine ⟨m + 1, ?_, hne, hi⟩
        rw [hd, heq, hs, List.replicate_succ, List.cons_append]
      · next hne =>
        simp only [Res.ret.injEq] at h
        refine ⟨0, ?_, ?_, ?_⟩
        · rw [hd, ← h.2.1, ← h.2.2]
          rfl
        · rw [← h.2.1]; exact hne
        · rw [← h.2.1]; exact_mod_cast hlt

/-- The redraw loop on a stream that repeats `idPar1` and then gives another index. -/
theorem sampleCoupleLoop_returns (pop : Population) (idPar1 idPar2 : Nat)
    (h1 : idPar1 < pop.nbDiploids) (h2 : idPar2 < pop.nbDiploids) (hne : idPar2 ≠ idPar1)
    (rest : List Draw) : ∀ m : Nat,
      Population.sampleCoupleLoop pop idPar1
          (List.replicate m (Draw.uniformInt idPar1) ++ Draw.uniformInt idPar2 :: rest)
        = Res.ret () idPar2 rest
  | 0 => by
    simp only [List.replicate_zero, List.nil_append, Population.sampleCoupleLoop,
      gsl_rng_uniform_int]
    rw [if_pos (by exact_mod_cast h2)]
    simp only [if_neg hne]
  | m + 1 => by
    simp only [List.replicate_succ, List.cons_append, Population.sampleCoupleLoop,
      gsl_rng_uniform_int]
    rw [if_pos (by exact_mod_cast h1)]
    simp only [if_true]
    exact sampleCoupleLoop_returns pop idPar1 idPar2 h1 h2 hne rest m

/-- What `sampleCouple` does when it returns: `idPar1` is the first draw, `idPar2` the first
later draw that differs from it, both are indices of the population, and the parents are
assigned (`Individual::operator=`) the members at these indices. -/
theorem sampleCouple_spec (pop : Population) (parent1 parent2 : Individual) (s : List Draw)
    (q1 q2 : Individual) (u : Unit) (rest : List Draw)
    (h : pop.sampleCouple parent1 parent2 s = Res.ret (q1, q2) u rest) :
    ∃ (idPar1 idPar2 m : Nat) (m1 m2 : Individual),
      s = Draw.uniformInt idPar1 ::
        (List.replicate m (Draw.uniformInt idPar1) ++ Draw.uniformInt idPar2 :: rest) ∧
      idPar1 ≠ idPar2 ∧ idPar1 < pop.nbDiploids ∧ idPar2 < pop.nbDiploids ∧
      pop.vInd[idPar1]? = some m1 ∧ pop.vInd[idPar2]? = some m2 ∧
      q1 = parent1.assign m1 ∧ q2 = parent2.assign m2 := by
  unfold Population.sampleCouple at h
  split at h
  · exact absurd h (by simp)
  · split at h
    · exact absurd h (by simp)
    · next d s1 =>
      split at h
      · exact absurd h (by simp)
      · next idPar1 hv =>
        obtain ⟨hd, hlt⟩ := gsl_rng_uniform_int_some hv
        split at h
        · next u1 idPar2 s2 hl =>
          obtain ⟨m, hs, hne, hi⟩ := sampleCoupleLoop_spec pop idPar1 s1 u1 idPar2 s2 hl
          split at h
          · next i1 i2 e1 e2 =>
            simp only [Res.ret.injEq, Prod.mk.injEq] at h
            refine ⟨idPar1, idPar2, m, i1, i2, ?_, hne.symm, by exact_mod_cast hlt, hi, e1, e2,
              h.1.1.symm, h.1.2.symm⟩
            rw [hd, hs, h.2.2]
          · exact absurd h (by simp)
        · exact absurd h (by simp)
        · exact absurd h (by simp)
        · exact absurd h (by simp)

/-- `sampleCouple` returns on every stream that gives an index, repeats it any number of
times and then gives another index, when the population holds `nbDiploids` organisms. -/
theorem sampleCouple_returns (pop : Population) (hlen : pop.vInd.length = pop.nbDiploids)
    (parent1 parent2 : Individual) (idPar1 idPar2 m : Nat) (rest : List Draw)
    (h1 : idPar1 < pop.nbDiploids) (h2 : idPar2 < pop.nbDiploids) (hne : idPar1 ≠ idPar2) :
    ∃ m1 m2 : Individual, pop.vInd[idPar1]? = some m1 ∧ pop.vInd[idPar2]? = some m2 ∧
      pop.sampleCouple parent1 parent2 (Draw.uniformInt idPar1 ::
        (List.replicate m (Draw.uniformInt idPar1) ++ Draw.uniformInt idPar2 :: rest))
        = Res.ret (parent1.assign m1, parent2.assign m2) () rest := by
  have e1 := List.getElem?_eq_getElem (by rw [hlen]; exact h1 : idPar1 < pop.vInd.length)
  have e2 := List.getElem?_eq_getElem (by rw [hlen]; exact h2 : idPar2 < pop.vInd.length)
  refine ⟨_, _, e1, e2, ?_⟩
  have hn : ¬ pop.nbDiploids = 0 := by omega
  simp only [Population.sampleCouple, if_neg hn, gsl_rng_uniform_int]
  rw [if_pos (by exact_mod_cast h1)]
  simp only [sampleCoupleLoop_returns pop idPar1 idPar2 h1 h2 (Ne.symm hne) rest m, e1, e2]

/-- C22: the parents that `sampleCouple` hands over are not copies of the members in every
field: `Individual::operator=` does not assign `zygoteSelection`.  On `twoPop`, whose members
are under zygote selection, with two fresh parents whose flag is false and the draws 0, 0, 1:
the call returns after these three draws, the parents have the chromosomes and the other
parameters of the members 0 and 1, and their flag is still false. -/
theorem Population.sampleCouple_selection_flag :
    twoPop.vInd[0]? = some carrier ∧ twoPop.vInd[1]? = some carrier ∧
    carrier.zygoteSelection = true ∧ (Individual.ctor rawInd).zygoteSelection = false ∧
    ∃ q1 q2 : Individual,
      twoPop.sampleCouple (Individual.ctor rawInd) (Individual.ctor rawInd)
          [Draw.uniformInt 0, Draw.uniformInt 0, Draw.uniformInt 1, Draw.poisson 3]
        = Res.ret (q1, q2) () [Draw.poisson 3] ∧
      q1.vChr = carrier.vChr ∧ q1.nbChr = carrier.nbChr ∧
      q1.nbSitesPerChr = carrier.nbSitesPerChr ∧ q1.selMult = carrier.selMult ∧
      q1.selExp = carrier.selExp ∧ q1.zygoteSelection = false ∧ q1 ≠ carrier ∧
      q2.vChr = carrier.vChr ∧ q2.zygoteSelection = false ∧ q2 ≠ carrier := by
  refine ⟨rfl, rfl, rfl, rfl, (Individual.ctor rawInd).assign carrier,
    (Individual.ctor rawInd).assign carrier, by decide, rfl, rfl, rfl, rfl, rfl, rfl,
    by decide, rfl, rfl, by decide⟩

/-! ## The sites are copied: any property of the sites is kept -/

/-- Writing a value that satisfies `P`. -/
theorem Sites.set_value {P : Int → Prop} {v : List Int} (h : Sites P v) (i : Nat) (b : Int)
    (hb : P b) : Sites P (v.set i b) := by
  intro x hx
  rcases List.mem_or_eq_of_mem_set hx with h1 | h1
  · exact h x h1
  · rw [h1]; exact hb

/-- Replacing a chromosome by another one, the sites of both satisfying `P`. -/
theorem allSites_set {P : Int → Prop} (l : List Chromosome) (i : Nat) (c : Chromosome)
    (hl : ∀ x ∈ l, Sites P x.vSeq) (hc : Sites P c.vSeq) : ∀ x ∈ l.set i c, Sites P x.vSeq := by
  intro x hx
  rcases List.mem_or_eq_of_mem_set hx with h | h
  · exact hl x h
  · rw [h]; exact hc

/-- A crossing-over exchanges sites: a property of all the sites is kept. -/
theorem crossOver_sites {P : Int → Prop} (tmp : Chromosome) (ht : Sites P tmp.vSeq) :
    ∀ (k j : Nat) (A B A1 B1 : Chromosome), Sites P A.vSeq → Sites P B.vSeq →
      Individual.crossOver tmp k j A B = some (A1, B1) → Sites P A1.vSeq ∧ Sites P B1.vSeq
  | 0, j, A, B, A1, B1, hA, hB, h => by
    simp only [Individual.crossOver, Option.some.injEq, Prod.mk.injEq] at h
    rw [← h.1, ← h.2]
    exact ⟨hA, hB⟩
  | k + 1, j, A, B, A1, B1, hA, hB, h => by
    unfold Individual.crossOver at h
    split at h
    · next b t hb htj =>
      split at h
      · exact crossOver_sites tmp ht k (j + 1) _ _ A1 B1
          (Sites.set_value hA j b (hB b (List.getElem?_mem hb)))
          (Sites.set_value hB j t (ht t (List.getElem?_mem htj))) h
      · exact absurd h (by simp)
    · exact absurd h (by simp)

/-- The crossing-overs of `recombine` keep a property of all the sites. -/
theorem recombineLoop_sites {P : Int → Prop} (ind : Individual) :
    ∀ (k : Nat) (A B : Chromosome) (s : List Draw) (A1 B1 : Chromosome) (u : Unit)
      (rest : List Draw), Sites P A.vSeq → Sites P B.vSeq →
      Individual.recombineLoop ind k A B s = Res.ret (A1, B1) u rest →
      Sites P A1.vSeq ∧ Sites P B1.vSeq
  | 0, A, B, s, A1, B1, u, rest, hA, hB, h => by
    simp only [Individual.recombineLoop, Res.ret.injEq, Prod.mk.injEq] at h
    rw [← h.1.1, ← h.1.2]
    exact ⟨hA, hB⟩
  | k + 1, A, B, s, A1, B1, u, rest, hA, hB, h => by
    unfold Individual.recombineLoop at h
    split at h
    · exact absurd h (by simp)
    · split at h
      · exact absurd h (by simp)
      · split at h
        · exact absurd h (by simp)
        · split at h
          · exact absurd h (by simp)
          · next vA vB hco =>
            obtain ⟨h1, h2⟩ := crossOver_sites A hA _ _ A B vA vB hA hB hco
            exact recombineLoop_sites ind k vA vB _ A1 B1 u rest h1 h2 h

/-- `Individual::recombine` keeps a property of all the sites. -/
theorem recombine_sites {P : Int → Prop} (ind : Individual) (d : Int) (A B : Chromosome) (s : List Draw)
    (A1 B1 : Chromosome) (u : Unit) (rest : List Draw) (hA : Sites P A.vSeq)
    (hB : Sites P B.vSeq) (h : ind.recombine d A B s = Res.ret (A1, B1) u rest) :
    Sites P A1.vSeq ∧ Sites P B1.vSeq := by
  unfold Individual.recombine at h
  split at h
  · exact absurd h (by simp)
  · split at h
    · exact absurd h (by simp)
    · split at h
      · exact recombineLoop_sites ind _ A B _ A1 B1 u rest hA hB h
      · simp only [Res.ret.injEq, Prod.mk.injEq] at h
        rw [← h.1.1, ← h.1.2]
        exact ⟨hA, hB⟩

/-- The sites of a gamete satisfy what all the sites of the organism satisfy. -/
theorem getGamete_sites {P : Int → Prop} (ind : Individual) (d : Int) (gamete0 : List Chromosome)
    (s : List Draw) (ind2 : Individual) (gam : List Chromosome) (u : Unit) (rest : List Draw)
    (hb : ind.AllSites P) (h : ind.getGamete d gamete0 s = Res.ret (ind2, gam) u rest) :
    ∀ c ∈ gam, Sites P c.vSeq := by
  unfold Individual.getGamete at h
  split at h
  · next c0 c1 h0 h1 =>
    split at h
    · next a b u1 s1 hr1 =>
      obtain ⟨ha, hbb⟩ := recombine_sites ind d c0 c1 s a b u1 s1
        (hb c0 (List.getElem?_mem h0)) (hb c1 (List.getElem?_mem h1)) hr1
      have hb1 : ∀ x ∈ (ind.vChr.set 0 a).set 1 b, Sites P x.vSeq :=
        allSites_set _ 1 b (allSites_set _ 0 a hb ha) hbb
      simp only [] at h
      split at h
      · exact absurd h (by simp)
      · split at h
        · next c2 c3 h2 h3 =>
          split at h
          · next c e u2 s3 hr2 =>
            obtain ⟨hc, he⟩ := recombine_sites _ d c2 c3 _ c e u2 s3
              (hb1 c2 (List.getElem?_mem h2)) (hb1 c3 (List.getElem?_mem h3)) hr2
            have hb2 : ∀ x ∈ (((ind.vChr.set 0 a).set 1 b).set 2 c).set 3 e, Sites P x.vSeq :=
              allSites_set _ 3 e (allSites_set _ 2 c hb1 hc) he
            split at h
            · exact absurd h (by simp)
            · split at h
              · next g1 g2 hg1 hg2 =>
                simp only [Res.ret.injEq, Prod.mk.injEq] at h
                rw [← h.1.2]
                intro x hx
                simp only [List.mem_cons, List.mem_singleton, List.not_mem_nil, or_false] at hx
                rcases hx with rfl | rfl
                · exact hb2 _ (List.getElem?_mem hg1)
                · exact hb2 _ (List.getElem?_mem hg2)
              · exact absurd h (by simp)
          · exact absurd h (by simp)
          · exact absurd h (by simp)
          · exact absurd h (by simp)
        · exact absurd h (by simp)
    · exact absurd h (by simp)
    · exact absurd h (by simp)
    · exact absurd h (by simp)
  · exact absurd h (by simp)

/-- The sites of the parents of `sampleCouple` are sites of members of the population. -/
theorem sampleCouple_sites {P : Int → Prop} (pop : Population) (p1 p2 : Individual) (s : List Draw)
    (q1 q2 : Individual) (u : Unit) (rest : List Draw) (hb : pop.AllSites P)
    (h : pop.sampleCouple p1 p2 s = Res.ret (q1, q2) u rest) :
    q1.AllSites P ∧ q2.AllSites P := by
  unfold Population.sampleCouple at h
  split at h
  · exact absurd h (by simp)
  · split at h
    · exact absurd h (by simp)
    · split at h
      · exact absurd h (by simp)
      · split at h
        · split at h
          · next i1 i2 h1 h2 =>
            simp only [Res.ret.injEq, Prod.mk.injEq] at h
            rw [← h.1.1, ← h.1.2]
            exact ⟨hb i1 (List.getElem?_mem h1), hb i2 (List.getElem?_mem h2)⟩
          · exact absurd h (by simp)
        · exact absurd h (by simp)
        · exact absurd h (by simp)
        · exact absurd h (by simp)

/-- The sites of a zygote are the sites of its two gametes. -/
theorem fecundation_sites {P : Int → Prop} (ind : Individual) (gam1 gam2 : List Chromosome) (zs : Bool)
    (sm se : ℚ) (v : Int) (child : Individual) (hi : ind.AllSites P)
    (h1 : ∀ c ∈ gam1, Sites P c.vSeq) (h2 : ∀ c ∈ gam2, Sites P c.vSeq)
    (h : ind.fecundation gam1 gam2 zs sm se v = some child) : child.AllSites P := by
  unfold Individual.fecundation at h
  split at h
  · next g10 g20 g11 g21 e10 e20 e11 e21 =>
    injection h with h
    rw [← h]
    intro c hc
    simp only [List.mem_append, List.mem_cons, List.mem_singleton, List.not_mem_nil,
      or_false] at hc
    rcases hc with hc | rfl | rfl | rfl | rfl
    · exact hi c hc
    · exact h1 _ (List.getElem?_mem e10)
    · exact h2 _ (List.getElem?_mem e20)
    · exact h1 _ (List.getElem?_mem e11)
    · exact h2 _ (List.getElem?_mem e21)
  · exact absurd h (by simp)

/-- A freshly constructed organism holds no site. -/
theorem ctor_sites {P : Int → Prop} (raw : Individual) : (Individual.ctor raw).AllSites P := by
  intro c hc
  simp [Individual.ctor, Individual.reset] at hc

/-- The sites of a candidate of `makeNewGeneration` satisfy what all the sites of the population satisfy. -/
theorem makeCandidate_sites {P : Int → Prop} (pow : ℚ → ℚ → ℚ) (pop : Population) (raw : Individual)
    (s : List Draw) (ind : Individual) (viable : Bool) (rest : List Draw)
    (hb : pop.AllSites P)
    (h : pop.makeCandidate pow raw s = Candidate.made ind viable rest) : ind.AllSites P := by
  unfold Population.makeCandidate at h
  split at h
  · next parent1 parent2 u1 s1 hs =>
    obtain ⟨hp1, hp2⟩ := sampleCouple_sites pop _ _ s parent1 parent2 u1 s1 hb hs
    split at h
    · next i1 gamete1 u2 s2 hg1 =>
      have hgam1 := getGamete_sites parent1 _ [] s1 i1 gamete1 u2 s2 hp1 hg1
      split at h
      · next i2 gamete2 u3 s3 hg2 =>
        have hgam2 := getGamete_sites parent2 _ [] s2 i2 gamete2 u3 s3 hp2 hg2
        split at h
        · exact absurd h (by simp)
        · next child hf =>
          have hc := fecundation_sites _ gamete1 gamete2 _ _ _ _ child (ctor_sites raw)
            hgam1 hgam2 hf
          split at h
          · simp only [Candidate.made.injEq] at h
            rw [← h.1]
            exact hc
          · exact absurd h (by simp)
          · exact absurd h (by simp)
          · exact absurd h (by simp)
      · exact absurd h (by simp)
      · exact absurd h (by simp)
      · exact absurd h (by simp)
    · exact absurd h (by simp)
    · exact absurd h (by simp)
    · exact absurd h (by simp)
  · exact absurd h (by simp)
  · exact absurd h (by simp)
  · exact absurd h (by simp)

/-- What holds of every candidate of `makeNewGeneration` holds of every offspring that its
loop collects. -/
theorem makeNewGenerationLoop_all (pow : ℚ → ℚ → ℚ) (pop : Population) (raw : Individual)
    (Q : Individual → Prop)
    (hc : ∀ (s : List Draw) (ind : Individual) (viable : Bool) (rest : List Draw),
      pop.makeCandidate pow raw s = Candidate.made ind viable rest → Q ind) :
    ∀ (fuel i : Nat) (vNewInd : List Individual) (s : List Draw) (out : List Individual)
      (u : Unit) (rest : List Draw), (∀ x ∈ vNewInd, Q x) →
      Population.makeNewGenerationLoop pow pop raw fuel i vNewInd s = Res.ret out u rest →
      ∀ x ∈ out, Q x
  | 0, i, vNewInd, s, out, u, rest, _, h => by
    simp [Population.makeNewGenerationLoop] at h
  | fuel + 1, i, vNewInd, s, out, u, rest, hv, h => by
    unfold Population.makeNewGenerationLoop at h
    split at h
    · split at h
      · next ind viable s1 hm =>
        have hi := hc s ind viable s1 hm
        split at h
        · refine makeNewGenerationLoop_all pow pop raw Q hc fuel (i + 1) _ s1 out u rest ?_ h
          intro x hx
          rcases List.mem_append.1 hx with hx | hx
          · exact hv x hx
          · rw [List.mem_singleton.1 hx]; exact hi
        · exact makeNewGenerationLoop_all pow pop raw Q hc fuel i _ s1 out u rest hv h
      · exact absurd h (by simp)
      · exact absurd h (by simp)
      · exact absurd h (by simp)
    · simp only [Res.ret.injEq] at h
      rw [← h.1]
      exact hv

/-- What the vector assignment keeps: a property of the new organisms that
`Individual::operator=` hands over. -/
theorem assignVector_all (Q : Individual → Prop)
    (ha : ∀ o n : Individual, Q n → Q (o.assign n)) :
    ∀ (old new : List Individual), (∀ x ∈ new, Q x) → ∀ x ∈ assignVector old new, Q x
  | [], new, h => by simpa [assignVector] using h
  | _ :: _, [], _ => by simp [assignVector]
  | o :: old, n :: new, h => by
    intro x hx
    simp only [assignVector, List.mem_cons] at hx
    rcases hx with rfl | hx
    · exact ha o n (h n (List.mem_cons_self _ _))
    · exact assignVector_all Q ha old new (fun y hy => h y (List.mem_cons_of_mem _ hy)) x hx

/-- What holds of every candidate of `makeNewGeneration`, and is handed over by
`Individual::operator=`, holds of every organism of the new generation. -/
theorem makeNewGeneration_all (pow : ℚ → ℚ → ℚ) (pop : Population) (raw : Individual)
    (Q : Individual → Prop)
    (hc : ∀ (s : List Draw) (ind : Individual) (viable : Bool) (rest : List Draw),
      pop.makeCandidate pow raw s = Candidate.made ind viable rest → Q ind)
    (ha : ∀ o n : Individual, Q n → Q (o.assign n))
    (s : List Draw) (pop1 : Population) (u : Unit) (rest : List Draw)
    (h : pop.makeNewGeneration pow raw s = Res.ret pop1 u rest) : ∀ x ∈ pop1.vInd, Q x := by
  unfold Population.makeNewGeneration at h
  split at h
  · next vNewInd u1 s1 hl =>
    have hv := makeNewGenerationLoop_all pow pop raw Q hc _ 0 [] s vNewInd u1 s1 (by simp) hl
    unfold Population.setIndividuals at h
    split at h
    · exact absurd h (by simp)
    · split at h
      · exact absurd h (by simp)
      · split at h
        · exact absurd h (by simp)
        · simp only [Res.ret.injEq] at h
          rw [← h.1]
          exact assignVector_all Q ha pop.vInd vNewInd hv
  · exact absurd h (by simp)
  · exact absurd h (by simp)
  · exact absurd h (by simp)

/-- A candidate of `makeNewGeneration` holds the 4 chromosomes of its two gametes, and
`nbChr = 4`. -/
theorem makeCandidate_shape (pow : ℚ → ℚ → ℚ) (pop : Population) (raw : Individual)
    (s : List Draw) (ind : Individual) (viable : Bool) (rest : List Draw)
    (h : pop.makeCandidate pow raw s = Candidate.made ind viable rest) :
    ind.nbChr = 4 ∧ ind.vChr.length = 4 := by
  unfold Population.makeCandidate at h
  split at h
  · next parent1 parent2 u1 s1 hs =>
    split at h
    · next i1 gamete1 u2 s2 hg1 =>
      have hl1 := getGamete_length parent1 _ [] s1 i1 gamete1 s2 hg1
      split at h
      · next i2 gamete2 u3 s3 hg2 =>
        have hl2 := getGamete_length parent2 _ [] s2 i2 gamete2 s3 hg2
        split at h
        · exact absurd h (by simp)
        · next child hf =>
          have hc : child.nbChr = 4 ∧ child.vChr.length = 4 := by
            unfold Individual.fecundation at hf
            split at hf
            · injection hf with hf
              rw [← hf]
              simp [hl1, hl2, Individual.ctor, Individual.reset]
            · exact absurd hf (by simp)
          split at h
          · simp only [Candidate.made.injEq] at h
            rw [← h.1]
            exact hc
          · exact absurd h (by simp)
          · exact absurd h (by simp)
          · exact absurd h (by simp)
      · exact absurd h (by simp)
      · exact absurd h (by simp)
      · exact absurd h (by simp)
    · exact absurd h (by simp)
    · exact absurd h (by simp)
    · exact absurd h (by simp)
  · exact absurd h (by simp)
  · exact absurd h (by simp)
  · exact absurd h (by simp)

/-! ## Extinction -/

/-- A binary sequence of sum 0 holds only sites 0. -/
theorem Binary.sites_zero : ∀ {v : List Int}, Binary v → v.sum = 0 → Sites (fun x => x = 0) v
  | [], _, _ => by intro x hx; simp at hx
  | x :: v, hb, hs => by
    have h1 := Binary.sum_nonneg (Binary.tail hb)
    have h2 := Binary.head hb
    simp only [List.sum_cons] at hs
    have hx : x = 0 := by omega
    have hv : v.sum = 0 := by omega
    intro y hy
    rcases List.mem_cons.1 hy with rfl | hy
    · exact hx
    · exact Binary.sites_zero (Binary.tail hb) hv y hy

/-- A sequence of sites 0 has sum 0. -/
theorem Sites.sum_zero : ∀ {v : List Int}, Sites (fun x => x = 0) v → v.sum = 0
  | [], _ => by simp
  | x :: v, h => by
    have hx : x = 0 := h x (List.mem_cons_self _ _)
    have hv := Sites.sum_zero (v := v) (fun y hy => h y (List.mem_cons_of_mem _ hy))
    simp [hx, hv]

/-- Chromosomes of loads that are not negative and add up to 0 have load 0 each. -/
theorem loads_zero_of_sum_zero : ∀ (l : List Chromosome), (∀ c ∈ l, 0 ≤ c.getNbTEs) →
    (l.map Chromosome.getNbTEs).sum = 0 → ∀ c ∈ l, c.getNbTEs = 0
  | [], _, _ => by intro c hc; simp at hc
  | c :: l, hnn, h => by
    have h1 := hnn c (List.mem_cons_self _ _)
    have h2 : 0 ≤ (l.map Chromosome.getNbTEs).sum := by
      apply List.sum_nonneg
      intro x hx
      obtain ⟨d, hd, rfl⟩ := List.mem_map.mp hx
      exact hnn d (List.mem_cons_of_mem _ hd)
    simp only [List.map_cons, List.sum_cons] at h
    intro d hd
    rcases List.mem_cons.1 hd with rfl | hd
    · omega
    · exact loads_zero_of_sum_zero l (fun x hx => hnn x (List.mem_cons_of_mem _ hx))
        (by omega) d hd

/-- A well-formed organism of load 0 holds only sites 0. -/
theorem WellFormed.allSites_zero {ind : Individual} (hw : ind.WellFormed)
    (h : ind.getNbTEs = some 0) : ind.AllSites (fun x => x = 0) := by
  rw [getNbTEs_eq_load ind hw.1] at h
  injection h with h
  intro c hc
  have hz := loads_zero_of_sum_zero ind.vChr
    (fun d hd => Binary.sum_nonneg (hw.2 d hd).2.2) h c hc
  exact Binary.sites_zero (hw.2 c hc).2.2 hz

/-- An organism that holds `nbChr` chromosomes of sites 0 has load 0. -/
theorem getNbTEs_zero_of_sites (ind : Individual) (hl : ind.vChr.length = ind.nbChr)
    (h : ind.AllSites (fun x => x = 0)) : ind.getNbTEs = some 0 := by
  rw [getNbTEs_eq_load ind hl]
  unfold Individual.load
  have : ∀ x ∈ ind.vChr.map Chromosome.getNbTEs, x = 0 := by
    intro x hx
    obtain ⟨c, hc, rfl⟩ := List.mem_map.mp hx
    exact Sites.sum_zero (h c hc)
  rw [List.sum_eq_zero this]

/-- Writing back the element read leaves a vector as it is. -/
theorem set_same {α : Type} : ∀ (l : List α) (i : Nat) (x : α), l[i]? = some x → l.set i x = l
  | [], _, _, h => by simp at h
  | a :: l, 0, x, h => by
    simp only [List.getElem?_cons_zero, Option.some.injEq] at h
    simp [h]
  | a :: l, i + 1, x, h => by
    rw [List.getElem?_cons_succ] at h
    simp [set_same l i x h]

/-- On organisms of load 0 the loop of `Population::loss` reads no draw and changes
nothing. -/
theorem lossLoop_extinct (probLoss : ℚ) (pop : Population)
    (h0 : ∀ ind ∈ pop.vInd, ind.getNbTEs = some 0) :
    ∀ (k i : Nat) (acc : Int) (s : List Draw), i + k ≤ pop.vInd.length →
      Population.lossLoop probLoss k i pop acc s = Res.ret pop acc s
  | 0, i, acc, s, _ => rfl
  | k + 1, i, acc, s, hk => by
    have hi : i < pop.vInd.length := by omega
    have hz := h0 pop.vInd[i] (List.getElem_mem hi)
    have hl : pop.vInd[i].loss probLoss s = Res.ret pop.vInd[i] 0 s := by
      simp [Individual.loss, hz]
    unfold Population.lossLoop
    simp only [List.getElem?_eq_getElem hi, hl,
      set_same pop.vInd i _ (List.getElem?_eq_getElem hi), add_zero]
    exact lossLoop_extinct probLoss pop h0 k (i + 1) acc s (by omega)

/-- On organisms of load 0 the loop of `Population::transposition` reads no draw and
changes nothing. -/
theorem transpositionLoop_extinct (probTransp0 k : ℚ) (pop : Population)
    (h0 : ∀ ind ∈ pop.vInd, ind.getNbTEs = some 0) :
    ∀ (n i : Nat) (acc : Int) (s : List Draw), i + n ≤ pop.vInd.length →
      Population.transpositionLoop probTransp0 k n i pop acc s = Res.ret pop acc s
  | 0, i, acc, s, _ => rfl
  | n + 1, i, acc, s, hn => by
    have hi : i < pop.vInd.length := by omega
    have hz := h0 pop.vInd[i] (List.getElem_mem hi)
    have hl : pop.vInd[i].transposition probTransp0 k s = Res.ret pop.vInd[i] 0 s := by
      simp [Individual.transposition, hz]
    unfold Population.transpositionLoop
    simp only [List.getElem?_eq_getElem hi, hl,
      set_same pop.vInd i _ (List.getElem?_eq_getElem hi), add_zero]
    exact transpositionLoop_extinct probTransp0 k pop h0 n (i + 1) acc s (by omega)

/-- C23.  Extinction is absorbing.  In a well-formed population whose organisms all have load
0, for every stream of draws: every organism of the generation that `makeNewGeneration`
returns has load 0 (whatever the selection), and `Population::loss` and
`Population::transposition` return the population as it is, reading no draw and counting 0
events. -/
theorem Population.extinction_absorbing (pow : ℚ → ℚ → ℚ) (pop : Population)
    (raw : Individual) (probLoss probTransp0 k : ℚ) (hw : pop.WellFormed)
    (h0 : ∀ ind ∈ pop.vInd, ind.getNbTEs = some 0) (s : List Draw) :
    (∀ (pop1 : Population) (u : Unit) (rest : List Draw),
      pop.makeNewGeneration pow raw s = Res.ret pop1 u rest →
      ∀ ind ∈ pop1.vInd, ind.getNbTEs = some 0) ∧
    pop.loss probLoss s = Res.ret pop 0 s ∧
    pop.transposition probTransp0 k s = Res.ret pop 0 s := by
  refine ⟨?_, ?_, ?_⟩
  · intro pop1 u rest h ind hind
    have hz : pop.AllSites (fun x => x = 0) :=
      fun o ho => WellFormed.allSites_zero (hw.2 o ho).1 (h0 o ho)
    have hq := makeNewGeneration_all pow pop raw
      (fun o => (o.nbChr = 4 ∧ o.vChr.length = 4) ∧ o.AllSites (fun x => x = 0))
      (fun s1 o v r1 hm => ⟨makeCandidate_shape pow pop raw s1 o v r1 hm,
        makeCandidate_sites pow pop raw s1 o v r1 hz hm⟩)
      (fun o n hn => hn) s pop1 u rest h ind hind
    exact getNbTEs_zero_of_sites ind (by rw [hq.1.1, hq.1.2]) hq.2
  · exact lossLoop_extinct probLoss pop h0 pop.nbDiploids 0 0 s (by rw [hw.1]; omega)
  · exact transpositionLoop_extinct probTransp0 k pop h0 pop.nbDiploids 0 0 s
      (by rw [hw.1]; omega)

/-- C23 at `extinctPop`, with the power function `fun b _ => b` and the stream
`extinctDraws`, on which `makeNewGeneration` returns. -/
theorem Population.extinction_absorbing_witness :
    extinctPop.WellFormed ∧ (∀ ind ∈ extinctPop.vInd, ind.getNbTEs = some 0) ∧
    (extinctPop.makeNewGeneration (fun b _ => b) rawInd extinctDraws).isRet = true ∧
    ((∀ (pop1 : Population) (u : Unit) (rest : List Draw),
      extinctPop.makeNewGeneration (fun b _ => b) rawInd extinctDraws = Res.ret pop1 u rest →
      ∀ ind ∈ pop1.vInd, ind.getNbTEs = some 0) ∧
    extinctPop.loss (1 / 200) extinctDraws = Res.ret extinctPop 0 extinctDraws ∧
    extinctPop.transposition (1 / 100) (1 / 20) extinctDraws
      = Res.ret extinctPop 0 extinctDraws) := by
  have hw : extinctPop.WellFormed := by
    refine ⟨rfl, ?_⟩
    intro ind hind
    simp only [extinctPop, List.mem_cons, List.mem_singleton, List.not_mem_nil, or_false,
      or_self] at hind
    subst hind
    exact ⟨zeroInd_wellFormed 2, rfl, rfl⟩
  have h0 : ∀ ind ∈ extinctPop.vInd, ind.getNbTEs = some 0 := by
    intro ind hind
    simp only [extinctPop, List.mem_cons, List.mem_singleton, List.not_mem_nil, or_false,
      or_self] at hind
    subst hind
    rfl
  exact ⟨hw, h0, by decide!,
    Population.extinction_absorbing (fun b _ => b) extinctPop rawInd (1 / 200) (1 / 100)
      (1 / 20) hw h0 extinctDraws⟩

/-! ## Individual::initialize and Population::initialize -/

/-- The invariant is well-formedness with 4 chromosomes. -/
theorem core_iff (ind : Individual) : ind.Core ↔ ind.WellFormed ∧ ind.nbChr = 4 := by
  constructor
  · rintro ⟨h1, h2, h3, _⟩
    exact ⟨⟨h2.trans h1.symm, h3⟩, h1⟩
  · rintro ⟨hw, h4⟩
    exact ⟨h4, hw.1.trans h4, hw.2, getNbTEs_eq_load ind hw.1⟩

/-- A crossing-over keeps the field `nbSites` and the length of both sequences. -/
theorem crossOver_shape (tmp : Chromosome) :
    ∀ (k j : Nat) (A B A1 B1 : Chromosome),
      Individual.crossOver tmp k j A B = some (A1, B1) →
      (A1.nbSites = A.nbSites ∧ A1.vSeq.length = A.vSeq.length) ∧
      (B1.nbSites = B.nbSites ∧ B1.vSeq.length = B.vSeq.length)
  | 0, j, A, B, A1, B1, h => by
    simp only [Individual.crossOver, Option.some.injEq, Prod.mk.injEq] at h
    rw [← h.1, ← h.2]
    exact ⟨⟨rfl, rfl⟩, rfl, rfl⟩
  | k + 1, j, A, B, A1, B1, h => by
    unfold Individual.crossOver at h
    split at h
    · split at h
      · have ih := crossOver_shape tmp k (j + 1) _ _ A1 B1 h
        simpa using ih
      · exact absurd h (by simp)
    · exact absurd h (by simp)

/-- The crossing-overs of `recombine` keep the field `nbSites` and the length of both
sequences. -/
theorem recombineLoop_shape (ind : Individual) :
    ∀ (k : Nat) (A B : Chromosome) (s : List Draw) (A1 B1 : Chromosome) (u : Unit)
      (rest : List Draw), Individual.recombineLoop ind k A B s = Res.ret (A1, B1) u rest →
      (A1.nbSites = A.nbSites ∧ A1.vSeq.length = A.vSeq.length) ∧
      (B1.nbSites = B.nbSites ∧ B1.vSeq.length = B.vSeq.length)
  | 0, A, B, s, A1, B1, u, rest, h => by
    simp only [Individual.recombineLoop, Res.ret.injEq, Prod.mk.injEq] at h
    rw [← h.1.1, ← h.1.2]
    exact ⟨⟨rfl, rfl⟩, rfl, rfl⟩
  | k + 1, A, B, s, A1, B1, u, rest, h => by
    unfold Individual.recombineLoop at h
    split at h
    · exact absurd h (by simp)
    · split at h
      · exact absurd h (by simp)
      · split at h
        · exact absurd h (by simp)
        · split at h
          · exact absurd h (by simp)
          · next vA vB hco =>
            obtain ⟨⟨a1, a2⟩, b1, b2⟩ := crossOver_shape A _ _ A B vA vB hco
            obtain ⟨⟨c1, c2⟩, d1, d2⟩ := recombineLoop_shape ind k vA vB _ A1 B1 u rest h
            exact ⟨⟨c1.trans a1, c2.trans a2⟩, d1.trans b1, d2.trans b2⟩

/-- `Individual::recombine` keeps the field `nbSites` and the length of both sequences. -/
theorem recombine_shape (ind : Individual) (d : Int) (A B : Chromosome) (s : List Draw)
    (A1 B1 : Chromosome) (u : Unit) (rest : List Draw)
    (h : ind.recombine d A B s = Res.ret (A1, B1) u rest) :
    (A1.nbSites = A.nbSites ∧ A1.vSeq.length = A.vSeq.length) ∧
    (B1.nbSites = B.nbSites ∧ B1.vSeq.length = B.vSeq.length) := by
  unfold Individual.recombine at h
  split at h
  · exact absurd h (by simp)
  · split at h
    · exact absurd h (by simp)
    · split at h
      · exact recombineLoop_shape ind _ A B _ A1 B1 u rest h
      · simp only [Res.ret.injEq, Prod.mk.injEq] at h
        rw [← h.1.1, ← h.1.2]
        exact ⟨⟨rfl, rfl⟩, rfl, rfl⟩

/-- `Individual::recombine` on two chromosomes of a well-formed organism leaves it well
formed. -/
theorem recombine_wellFormed (ind : Individual) (hw : ind.WellFormed) (d : Int) (i j : Nat)
    (A B : Chromosome) (s : List Draw) (A1 B1 : Chromosome) (u : Unit) (rest : List Draw)
    (hA : ind.vChr[i]? = some A) (hB : ind.vChr[j]? = some B)
    (h : ind.recombine d A B s = Res.ret (A1, B1) u rest) :
    Individual.WellFormed { ind with vChr := (ind.vChr.set i A1).set j B1 } := by
  obtain ⟨a1, a2, a3⟩ := hw.2 A (List.getElem?_mem hA)
  obtain ⟨b1, b2, b3⟩ := hw.2 B (List.getElem?_mem hB)
  obtain ⟨⟨c1, c2⟩, d1, d2⟩ := recombine_shape ind d A B s A1 B1 u rest h
  obtain ⟨e1, e2⟩ := recombine_binary ind d A B s A1 B1 u rest a3 b3 h
  have hw1 : Individual.WellFormed { ind with vChr := ind.vChr.set i A1 } :=
    WellFormed.set_chr hw i A1 (c1.trans a1) (c2.trans a2) e1
  exact WellFormed.set_chr hw1 j B1 (d1.trans b1) (d2.trans b2) e2

/-- `Individual::getGamete` leaves a well-formed organism well formed, and the chromosomes of
the gamete are chromosomes of the organism. -/
theorem getGamete_wellFormed (ind : Individual) (hw : ind.WellFormed) (d : Int)
    (gamete0 : List Chromosome) (s : List Draw) (ind2 : Individual) (gam : List Chromosome)
    (u : Unit) (rest : List Draw) (h : ind.getGamete d gamete0 s = Res.ret (ind2, gam) u rest) :
    ind2.WellFormed ∧ ind2.nbChr = ind.nbChr ∧ ind2.nbSitesPerChr = ind.nbSitesPerChr ∧
    ∀ c ∈ gam, c ∈ ind2.vChr := by
  unfold Individual.getGamete at h
  split at h
  · next c0 c1 h0 h1 =>
    split at h
    · next a b u1 s1 hr1 =>
      have hw1 := recombine_wellFormed ind hw d 0 1 c0 c1 s a b u1 s1 h0 h1 hr1
      simp only [] at h
      split at h
      · exact absurd h (by simp)
      · split at h
        · next c2 c3 h2 h3 =>
          split at h
          · next c e u2 s3 hr2 =>
            have hw2 := recombine_wellFormed _ hw1 d 2 3 c2 c3 _ c e u2 s3 h2 h3 hr2
            split at h
            · exact absurd h (by simp)
            · split at h
              · next g1 g2 hg1 hg2 =>
                simp only [Res.ret.injEq, Prod.mk.injEq] at h
                rw [← h.1.1, ← h.1.2]
                refine ⟨hw2, rfl, rfl, ?_⟩
                intro x hx
                simp only [List.mem_cons, List.mem_singleton, List.not_mem_nil, or_false] at hx
                rcases hx with rfl | rfl
                · exact List.getElem?_mem hg1
                · exact List.getElem?_mem hg2
              · exact absurd h (by simp)
          · exact absurd h (by simp)
          · exact absurd h (by simp)
          · exact absurd h (by simp)
        · exact absurd h (by simp)
    · exact absurd h (by simp)
    · exact absurd h (by simp)
    · exact absurd h (by simp)
  · exact absurd h (by simp)

/-- `Individual::fecundation` on an organism without chromosome, with two gametes of two
chromosomes of `N` binary sites each, builds an organism that satisfies the invariant. -/
theorem fecundation_core (ind : Individual) (hv : ind.vChr = []) (N : Nat)
    (gam1 gam2 : List Chromosome) (h1 : gam1.length = 2) (h2 : gam2.length = 2)
    (hg1 : ∀ c ∈ gam1, c.nbSites = N ∧ c.vSeq.length = N ∧ Binary c.vSeq)
    (hg2 : ∀ c ∈ gam2, c.nbSites = N ∧ c.vSeq.length = N ∧ Binary c.vSeq)
    (zs : Bool) (sm se : ℚ) (v : Int) :
    ∃ child, ind.fecundation gam1 gam2 zs sm se v = some child ∧ child.Core ∧
      child.nbSitesPerChr = N := by
  match gam1, gam2, h1, h2 with
  | [a, b], [c, e], _, _ =>
    refine ⟨_, rfl, ?_, (hg1 a (by simp)).1⟩
    rw [core_iff]
    refine ⟨⟨by simp [hv], ?_⟩, rfl⟩
    intro x hx
    simp only [hv, List.nil_append, List.mem_cons, List.mem_singleton, List.not_mem_nil,
      or_false] at hx
    have ha := hg1 a (by simp)
    show x.nbSites = a.nbSites ∧ x.vSeq.length = a.nbSites ∧ Binary x.vSeq
    rw [ha.1]
    rcases hx with rfl | rfl | rfl | rfl
    · exact ha
    · exact hg2 _ (by simp)
    · exact hg1 _ (by simp)
    · exact hg2 _ (by simp)

/-- What holds of an outcome holds of the state, value and stream returned. -/
theorem Res.Holds.of_ret {σ α : Type} {P : σ → α → List Draw → Prop} {x : Res σ α}
    (h : x.Holds P) {st : σ} {a : α} {rest : List Draw} (hx : x = Res.ret st a rest) :
    P st a rest := by
  rw [hx] at h
  exact h

/-- `Individual::loss` leaves a well-formed organism well formed, when it returns. -/
theorem loss_wellFormed (ind : Individual) (hw : ind.WellFormed) (hn : ind.nbChr ≠ 0)
    (probLoss : ℚ) (s : List Draw) (ind1 : Individual) (n : Int) (rest : List Draw)
    (h : ind.loss probLoss s = Res.ret ind1 n rest) :
    ind1.WellFormed ∧ ind1.nbChr = ind.nbChr ∧ ind1.nbSitesPerChr = ind.nbSitesPerChr := by
  unfold Individual.loss at h
  split at h
  · exact absurd h (by simp)
  · split at h
    · split at h
      · exact absurd h (by simp)
      · split at h
        · exact absurd h (by simp)
        · split at h
          · split at h
            · next i1 u1 s1 he =>
              have hh := Res.Holds.of_ret (lossEvents_holds _ ind hw hn _) he
              split at h
              · exact absurd h (by simp)
              · split at h
                · exact absurd h (by simp)
                · simp only [Res.ret.injEq] at h
                  rw [← h.1]
                  exact ⟨hh.1, hh.2.1, hh.2.2.1⟩
            · exact absurd h (by simp)
            · exact absurd h (by simp)
            · exact absurd h (by simp)
          · simp only [Res.ret.injEq] at h
            rw [← h.1]
            exact ⟨hw, rfl, rfl⟩
    · simp only [Res.ret.injEq] at h
      rw [← h.1]
      exact ⟨hw, rfl, rfl⟩

/-- `Individual::transposition` leaves a well-formed organism well formed, when it
returns. -/
theorem transposition_wellFormed (ind : Individual) (hw : ind.WellFormed)
    (hn : ind.nbChr ≠ 0) (probTransp0 k : ℚ) (s : List Draw) (ind1 : Individual) (n : Int)
    (rest : List Draw) (h : ind.transposition probTransp0 k s = Res.ret ind1 n rest) :
    ind1.WellFormed ∧ ind1.nbChr = ind.nbChr ∧ ind1.nbSitesPerChr = ind.nbSitesPerChr := by
  rcases transposition_ret_cases ind probTransp0 k s ind1 n rest h with e | ⟨_, s0, he⟩
  · rw [e]
    exact ⟨hw, rfl, rfl⟩
  · have hh := Res.Holds.of_ret (transpositionEvents_holds _ ind hw hn _) he
    exact ⟨hh.1, hh.2.1, hh.2.2.1⟩

/-- An outcome that is a return has a state, a value and a stream. -/
theorem Res.exists_of_isRet {σ α : Type} {x : Res σ α} (h : x.isRet = true) :
    ∃ st a rest, x = Res.ret st a rest := by
  cases x with
  | ret st a rest => exact ⟨st, a, rest, rfl⟩
  | exit st => exact absurd h (by simp [Res.isRet])
  | fault => exact absurd h (by simp [Res.isRet])
  | noRun => exact absurd h (by simp [Res.isRet])

/-- C25, as the specification states it, fails for `fecundation`: the organisms `zeroInd 1`
and `zeroInd 2` satisfy the invariant, `getGamete` returns a gamete of each, and the organism
that `fecundation` builds from the two gametes holds chromosomes of 1 site and chromosomes of
2 sites, with `nbSitesPerChr = 1`: it does not satisfy the invariant. -/
theorem Individual.fecundation_core_refuted :
    (zeroInd 1).Core ∧ (zeroInd 2).Core ∧
    (zeroInd 1).getGamete 0 [] gameteDraws
      = Res.ret (zeroInd 1, [zeroChr 1, zeroChr 1]) () [] ∧
    (zeroInd 2).getGamete 0 [] gameteDraws
      = Res.ret (zeroInd 2, [zeroChr 2, zeroChr 2]) () [] ∧
    ∃ child, (Individual.ctor rawInd).fecundation [zeroChr 1, zeroChr 1]
        [zeroChr 2, zeroChr 2] false 0 0 0 = some child ∧
      child.nbSitesPerChr = 1 ∧ child.vChr.map (fun c => c.vSeq.length) = [1, 2, 1, 2] ∧
      ¬ child.Core := by
  refine ⟨(core_iff _).2 ⟨zeroInd_wellFormed 1, rfl⟩, (core_iff _).2 ⟨zeroInd_wellFormed 2, rfl⟩,
    by decide!, by decide!, _, rfl, rfl, rfl, ?_⟩
  intro h
  have h2 := (h.2.2.1 (zeroChr 2) (by simp [Individual.fecundation, Individual.ctor,
    Individual.reset, rawInd])).2.1
  revert h2
  decide

/-- C25, amended (for `fecundation` the two parents have the same `nbSitesPerChr`).  The
invariant `Individual.Core` is established by `Individual::initialize` on an organism without
chromosome with `nbChr = 4` (the call neither exits nor faults), and by `fecundation`, on an
organism without chromosome, of gametes that `getGamete` returned for two parents that
satisfy the invariant and have the same `nbSitesPerChr`; and it is preserved by `recombine`
on two chromosomes of the organism, by `getGamete`, by `Individual::loss` and by
`Individual::transposition` whenever they return. -/
theorem Individual.core_invariant :
    (∀ (ind : Individual) (s : List Draw), ind.vChr = [] → ind.nbChr = 4 →
      ( ind.initialize s).Holds (fun ind1 _ _ => ind1.Core)) ∧
    (∀ (p1 p2 ind : Individual) (d1 d2 : Int) (g1 g2 : List Chromosome) (s1 s2 : List Draw)
      (q1 q2 : Individual) (gam1 gam2 : List Chromosome) (r1 r2 : List Draw) (zs : Bool)
      (sm se : ℚ) (v : Int), p1.Core → p2.Core → p1.nbSitesPerChr = p2.nbSitesPerChr →
      ind.vChr = [] →
      p1.getGamete d1 g1 s1 = Res.ret (q1, gam1) () r1 →
      p2.getGamete d2 g2 s2 = Res.ret (q2, gam2) () r2 →
      ∃ child, ind.fecundation gam1 gam2 zs sm se v = some child ∧ child.Core) ∧
    (∀ (ind : Individual) (d : Int) (i j : Nat) (A B : Chromosome) (s : List Draw)
      (A1 B1 : Chromosome) (rest : List Draw), ind.Core → i ≠ j →
      ind.vChr[i]? = some A → ind.vChr[j]? = some B →
      ind.recombine d A B s = Res.ret (A1, B1) () rest →
      Individual.Core { ind with vChr := (ind.vChr.set i A1).set j B1 }) ∧
    (∀ (ind : Individual) (d : Int) (g : List Chromosome) (s : List Draw) (ind1 : Individual)
      (gam : List Chromosome) (rest : List Draw), ind.Core →
      ind.getGamete d g s = Res.ret (ind1, gam) () rest → ind1.Core) ∧
    (∀ (ind : Individual) (probLoss : ℚ) (s : List Draw) (ind1 : Individual) (n : Int)
      (rest : List Draw), ind.Core →
      ind.loss probLoss s = Res.ret ind1 n rest → ind1.Core) ∧
    (∀ (ind : Individual) (probTransp0 k : ℚ) (s : List Draw) (ind1 : Individual) (n : Int)
      (rest : List Draw), ind.Core →
      ind.transposition probTransp0 k s = Res.ret ind1 n rest → ind1.Core) := by
  refine ⟨?_, ?_, ?_, ?_, ?_, ?_⟩
  · intro ind s hv h4
    refine Res.Holds.mono (Individual.initialize_chromosomes_holds ind hv s) ?_
    intro ind1 _ _ h
    exact (core_iff ind1).2 ⟨h.1, h.2.1.trans h4⟩
  · intro p1 p2 ind d1 d2 g1 g2 s1 s2 q1 q2 gam1 gam2 r1 r2 zs sm se v hc1 hc2 hN hv hg1 hg2
    have hw1 := ((core_iff p1).1 hc1).1
    have hw2 := ((core_iff p2).1 hc2).1
    obtain ⟨a1, _, a3, a4⟩ := getGamete_wellFormed p1 hw1 d1 g1 s1 q1 gam1 () r1 hg1
    obtain ⟨b1, _, b3, b4⟩ := getGamete_wellFormed p2 hw2 d2 g2 s2 q2 gam2 () r2 hg2
    obtain ⟨child, e1, e2, _⟩ := fecundation_core ind hv p1.nbSitesPerChr gam1 gam2
      (getGamete_length p1 d1 g1 s1 q1 gam1 r1 hg1)
      (getGamete_length p2 d2 g2 s2 q2 gam2 r2 hg2)
      (fun c hc => by rw [← a3]; exact a1.2 c (a4 c hc))
      (fun c hc => by rw [hN, ← b3]; exact b1.2 c (b4 c hc)) zs sm se v
    exact ⟨child, e1, e2⟩
  · intro ind d i j A B s A1 B1 rest hc _ hA hB h
    obtain ⟨hw, h4⟩ := (core_iff ind).1 hc
    exact (core_iff _).2 ⟨recombine_wellFormed ind hw d i j A B s A1 B1 () rest hA hB h, h4⟩
  · intro ind d g s ind1 gam rest hc h
    obtain ⟨hw, h4⟩ := (core_iff ind).1 hc
    obtain ⟨a1, a2, _, _⟩ := getGamete_wellFormed ind hw d g s ind1 gam () rest h
    exact (core_iff ind1).2 ⟨a1, a2.trans h4⟩
  · intro ind probLoss s ind1 n rest hc h
    obtain ⟨hw, h4⟩ := (core_iff ind).1 hc
    obtain ⟨a1, a2, _⟩ := loss_wellFormed ind hw (by omega) probLoss s ind1 n rest h
    exact (core_iff ind1).2 ⟨a1, a2.trans h4⟩
  · intro ind probTransp0 k s ind1 n rest hc h
    obtain ⟨hw, h4⟩ := (core_iff ind).1 hc
    obtain ⟨a1, a2, _⟩ := transposition_wellFormed ind hw (by omega) probTransp0 k s ind1 n
      rest h
    exact (core_iff ind1).2 ⟨a1, a2.trans h4⟩

/-- C25 on concrete organisms: `freshInd` with the draws `freshDraws` for `initialize`, and
`fourChrInd` (4 chromosomes of 3 sites, load 5) for the other operators, each on a stream on
which the operator returns. -/
theorem Individual.core_invariant_witness :
    fourChrInd.Core ∧
    (∃ ind1 rest, freshInd.initialize (uniformDraws freshDraws) = Res.ret ind1 () rest ∧
      ind1.Core) ∧
    (∃ q1 gam1 r1 q2 gam2 r2 child,
      fourChrInd.getGamete 1 []
          [Draw.poisson 0, Draw.uniformInt 1, Draw.poisson 1, Draw.uniformInt 1,
           Draw.uniformInt 0] = Res.ret (q1, gam1) () r1 ∧
      fourChrInd.getGamete 1 [] gameteDraws = Res.ret (q2, gam2) () r2 ∧
      (Individual.ctor rawInd).fecundation gam1 gam2 false 0 0 0 = some child ∧
      q1.Core ∧ q2.Core ∧ child.Core) ∧
    (∃ A1 B1 rest,
      fourChrInd.recombine 1 (Chromosome.ofSites [0, 1, 0]) (Chromosome.ofSites [1, 0, 1])
          [Draw.poisson 1, Draw.uniformInt 1] = Res.ret (A1, B1) () rest ∧
      Individual.Core { fourChrInd with vChr := (fourChrInd.vChr.set 2 A1).set 3 B1 }) ∧
    (∃ ind1 n rest,
      fourChrInd.loss 1
          [Draw.poisson 2, Draw.uniformInt 1, Draw.uniformInt 0, Draw.uniformInt 1,
           Draw.uniformInt 3, Draw.uniformInt 0] = Res.ret ind1 n rest ∧ ind1.Core) ∧
    (∃ ind1 n rest,
      fourChrInd.transposition 1 0
          [Draw.poisson 1, Draw.uniformInt 0, Draw.uniformInt 0, Draw.uniformInt 2]
        = Res.ret ind1 n rest ∧ ind1.Core) := by
  have hc : fourChrInd.Core := (core_iff _).2
    ⟨by simp [Individual.WellFormed, fourChrInd, Chromosome.ofSites, Binary], rfl⟩
  obtain ⟨t1, t2, t3, t4, t5, t6⟩ := Individual.core_invariant
  refine ⟨hc, ?_, ?_, ?_, ?_, ?_⟩
  · obtain ⟨ind1, u, rest, h⟩ := Res.exists_of_isRet
      (by decide! : ( freshInd.initialize (uniformDraws freshDraws)).isRet = true)
    exact ⟨ind1, rest, h, Res.Holds.of_ret (t1 freshInd _ rfl rfl) h⟩
  · obtain ⟨⟨q1, gam1⟩, u1, r1, h1⟩ := Res.exists_of_isRet
      (by decide! : (fourChrInd.getGamete 1 []
          [Draw.poisson 0, Draw.uniformInt 1, Draw.poisson 1, Draw.uniformInt 1,
           Draw.uniformInt 0]).isRet = true)
    obtain ⟨⟨q2, gam2⟩, u2, r2, h2⟩ := Res.exists_of_isRet
      (by decide! : (fourChrInd.getGamete 1 [] gameteDraws).isRet = true)
    obtain ⟨child, e1, e2⟩ := t2 fourChrInd fourChrInd (Individual.ctor rawInd) 1 1 [] [] _ _
      q1 q2 gam1 gam2 r1 r2 false 0 0 0 hc hc rfl rfl h1 h2
    exact ⟨q1, gam1, r1, q2, gam2, r2, child, h1, h2, e1,
      t4 fourChrInd 1 [] _ q1 gam1 r1 hc h1, t4 fourChrInd 1 [] _ q2 gam2 r2 hc h2, e2⟩
  · obtain ⟨⟨A1, B1⟩, u, rest, h⟩ := Res.exists_of_isRet
      (by decide! : (fourChrInd.recombine 1 (Chromosome.ofSites [0, 1, 0])
          (Chromosome.ofSites [1, 0, 1]) [Draw.poisson 1, Draw.uniformInt 1]).isRet = true)
    exact ⟨A1, B1, rest, h, t3 fourChrInd 1 2 3 _ _ _ A1 B1 rest hc (by decide) rfl rfl h⟩
  · obtain ⟨ind1, n, rest, h⟩ := Res.exists_of_isRet
      (by decide! : (fourChrInd.loss 1
          [Draw.poisson 2, Draw.uniformInt 1, Draw.uniformInt 0, Draw.uniformInt 1,
           Draw.uniformInt 3, Draw.uniformInt 0]).isRet = true)
    exact ⟨ind1, n, rest, h, t5 fourChrInd 1 _ ind1 n rest hc h⟩
  · obtain ⟨ind1, n, rest, h⟩ := Res.exists_of_isRet
      (by decide! : (fourChrInd.transposition 1 0
          [Draw.poisson 1, Draw.uniformInt 0, Draw.uniformInt 0, Draw.uniformInt 2]).isRet
        = true)
    exact ⟨ind1, n, rest, h, t6 fourChrInd 1 0 _ ind1 n rest hc h⟩

/-! ## The rejection sampling of makeNewGeneration -/

/-- What `isViable` returns is the organism itself. -/
theorem isViable_state (pow : ℚ → ℚ → ℚ) (ind : Individual) (s : List Draw) (st : Individual)
    (v : Bool) (rest : List Draw) (h : ind.isViable pow s = Res.ret st v rest) : st = ind := by
  unfold Individual.isViable at h
  split at h
  · simp only [Res.ret.injEq] at h
    exact h.1.symm
  · split at h
    · exact absurd h (by simp)
    · split at h
      · exact absurd h (by simp)
      · split at h
        · exact absurd h (by simp)
        · split at h
          · simp only [Res.ret.injEq] at h
            exact h.1.symm
          · simp only [Res.ret.injEq] at h
            exact h.1.symm

/-- A candidate of `makeNewGeneration` is an offspring of the population, and its flag is the
value that `isViable` returned for it. -/
theorem makeCandidate_offspring (pow : ℚ → ℚ → ℚ) (pop : Population) (raw : Individual)
    (s : List Draw) (ind : Individual) (viable : Bool) (rest : List Draw)
    (h : pop.makeCandidate pow raw s = Candidate.made ind viable rest) :
    pop.IsOffspring raw ind ∧ ∃ t, ind.isViable pow t = Res.ret ind viable rest := by
  unfold Population.makeCandidate at h
  split at h
  · next parent1 parent2 u1 s1 hs =>
    obtain ⟨i1, i2, m, m1, m2, _, hne, hi1, hi2, hm1, hm2, hq1, hq2⟩ :=
      sampleCouple_spec pop _ _ s parent1 parent2 u1 s1 hs
    split at h
    · next j1 gamete1 u2 s2 hg1 =>
      split at h
      · next j2 gamete2 u3 s3 hg2 =>
        split at h
        · exact absurd h (by simp)
        · next child hf =>
          split at h
          · next st v s4 hv =>
            simp only [Candidate.made.injEq] at h
            obtain ⟨e1, e2, e3⟩ := h
            subst e1 e2 e3
            have hst := isViable_state pow child s3 st v s4 hv
            subst hst
            refine ⟨⟨i1, i2, m1, m2, s1, s2, s2, s3, j1, j2, gamete1, gamete2, hne, hi1, hi2,
              hm1, hm2, ?_, ?_, hf⟩, s3, hv⟩
            · rw [← hq1]; exact hg1
            · rw [← hq2]; exact hg2
          · exact absurd h (by simp)
          · exact absurd h (by simp)
          · exact absurd h (by simp)
      · exact absurd h (by simp)
      · exact absurd h (by simp)
      · exact absurd h (by simp)
    · exact absurd h (by simp)
    · exact absurd h (by simp)
    · exact absurd h (by simp)
  · exact absurd h (by simp)
  · exact absurd h (by simp)
  · exact absurd h (by simp)

/-- The loop of `makeNewGeneration`, when it returns, has appended to `vNewInd` the accepted
candidates of a trace of candidates built one after the other, in this order. -/
theorem makeNewGenerationLoop_trace (pow : ℚ → ℚ → ℚ) (pop : Population) (raw : Individual) :
    ∀ (fuel i : Nat) (vNewInd : List Individual) (s : List Draw) (out : List Individual)
      (u : Unit) (rest : List Draw),
      Population.makeNewGenerationLoop pow pop raw fuel i vNewInd s = Res.ret out u rest →
      ∃ trace, pop.Candidates pow raw trace s rest ∧ out = vNewInd ++ accepted trace
  | 0, i, vNewInd, s, out, u, rest, h => by
    simp [Population.makeNewGenerationLoop] at h
  | fuel + 1, i, vNewInd, s, out, u, rest, h => by
    unfold Population.makeNewGenerationLoop at h
    split at h
    · split at h
      · next ind viable s1 hc =>
        split at h
        · next hv =>
          obtain ⟨trace, ht, ho⟩ :=
            makeNewGenerationLoop_trace pow pop raw fuel (i + 1) _ s1 out u rest h
          subst hv
          refine ⟨(ind, true) :: trace, ⟨s1, hc, ht⟩, ?_⟩
          rw [ho]
          simp [accepted]
        · next hv =>
          obtain ⟨trace, ht, ho⟩ :=
            makeNewGenerationLoop_trace pow pop raw fuel i _ s1 out u rest h
          have hv2 : viable = false := by simpa using hv
          subst hv2
          refine ⟨(ind, false) :: trace, ⟨s1, hc, ht⟩, ?_⟩
          rw [ho]
          simp [accepted]
      · exact absurd h (by simp)
      · exact absurd h (by simp)
      · exact absurd h (by simp)
    · simp only [Res.ret.injEq] at h
      exact ⟨[], h.2.2, by simp [accepted, h.1]⟩

/-- Every candidate of a trace is a candidate of `makeNewGeneration` on some stream. -/
theorem Candidates.mem (pow : ℚ → ℚ → ℚ) (pop : Population) (raw : Individual) :
    ∀ (trace : List (Individual × Bool)) (s rest : List Draw),
      pop.Candidates pow raw trace s rest → ∀ cv ∈ trace,
      ∃ t r, pop.makeCandidate pow raw t = Candidate.made cv.1 cv.2 r
  | [], _, _, _ => by intro cv hcv; simp at hcv
  | c :: trace, s, rest, h => by
    obtain ⟨s1, h1, h2⟩ := h
    intro cv hcv
    rcases List.mem_cons.1 hcv with rfl | hcv
    · exact ⟨s, s1, h1⟩
    · exact Candidates.mem pow pop raw trace s1 rest h2 cv hcv

/-- `Individual::operator=` between organisms of the same selection flag is a copy. -/
theorem assign_eq (o n : Individual) (h : o.zygoteSelection = n.zygoteSelection) :
    o.assign n = n := by
  cases o
  cases n
  simp only [Individual.assign] at *
  rw [h]

/-- Element `i` of the vector assigned holds the values of element `i` of the source, the
selection flag apart. -/
theorem assignVector_getElem? : ∀ (old new : List Individual) (i : Nat) (o : Individual),
    (assignVector old new)[i]? = some o →
    ∃ c, new[i]? = some c ∧ o.vChr = c.vChr ∧ o.nbChr = c.nbChr ∧
      o.nbSitesPerChr = c.nbSitesPerChr ∧ o.selMult = c.selMult ∧ o.selExp = c.selExp
  | [], new, i, o, h => by
    simp only [assignVector] at h
    exact ⟨o, h, rfl, rfl, rfl, rfl, rfl⟩
  | _ :: _, [], i, o, h => by simp [assignVector] at h
  | a :: old, n :: new, 0, o, h => by
    simp only [assignVector, List.getElem?_cons_zero, Option.some.injEq] at h
    subst h
    exact ⟨n, by simp, rfl, rfl, rfl, rfl, rfl⟩
  | a :: old, n :: new, i + 1, o, h => by
    simp only [assignVector, List.getElem?_cons_succ] at h
    simpa using assignVector_getElem? old new i o h

/-- The vector assigned is the source when the flags agree. -/
theorem assignVector_eq : ∀ (old new : List Individual),
    (∀ o ∈ old, ∀ n ∈ new, o.zygoteSelection = n.zygoteSelection) → assignVector old new = new
  | [], new, _ => by simp [assignVector]
  | _ :: _, [], _ => by simp [assignVector]
  | a :: old, n :: new, h => by
    simp only [assignVector]
    rw [assign_eq a n (h a (List.mem_cons_self _ _) n (List.mem_cons_self _ _)),
      assignVector_eq old new (fun o ho m hm =>
        h o (List.mem_cons_of_mem _ ho) m (List.mem_cons_of_mem _ hm))]

/-- C26.  When `makeNewGeneration` returns, there is a trace of candidates, built one after
the other from the stream, each with the value that `isViable` returned for it, such that:
every candidate is the fecundation of one gamete of each of two copies of members of the old
generation at two distinct indices; the vector handed to `setIndividuals` holds exactly the
candidates for which `isViable` returned true, in the order in which they were built, and
there are `nbDiploids` of them; organism `i` of the new generation holds the chromosomes and
the parameters of the accepted candidate `i`; and the new generation is this vector of
accepted candidates when the organisms of the old generation have the selection flag of the
population. -/
theorem Population.makeNewGeneration_rejection (pow : ℚ → ℚ → ℚ) (pop : Population)
    (raw : Individual) (s : List Draw) (pop1 : Population) (rest : List Draw)
    (h : pop.makeNewGeneration pow raw s = Res.ret pop1 () rest) :
    ∃ trace : List (Individual × Bool),
      pop.Candidates pow raw trace s rest ∧
      (∀ cv ∈ trace, pop.IsOffspring raw cv.1 ∧
        ∃ t r, cv.1.isViable pow t = Res.ret cv.1 cv.2 r) ∧
      (accepted trace).length = pop.nbDiploids ∧
      (∀ c ∈ accepted trace, (c, true) ∈ trace) ∧
      (∀ c, (c, false) ∈ trace → (c, true) ∉ trace → c ∉ accepted trace) ∧
      pop1.vInd = assignVector pop.vInd (accepted trace) ∧
      (∀ (i : Nat) (o : Individual), pop1.vInd[i]? = some o →
        ∃ c, (accepted trace)[i]? = some c ∧ o.vChr = c.vChr ∧ o.nbChr = c.nbChr ∧
          o.nbSitesPerChr = c.nbSitesPerChr ∧ o.selMult = c.selMult ∧ o.selExp = c.selExp) ∧
      ((∀ o ∈ pop.vInd, o.zygoteSelection = pop.zygoteSelection) →
        pop1.vInd = accepted trace) := by
  unfold Population.makeNewGeneration at h
  split at h
  · next vNewInd u1 s1 hl =>
    obtain ⟨trace, ht, ho⟩ := makeNewGenerationLoop_trace pow pop raw _ 0 [] s vNewInd u1 s1 hl
    rw [List.nil_append] at ho
    subst ho
    unfold Population.setIndividuals at h
    split at h
    · exact absurd h (by simp)
    · next hlen =>
      split at h
      · exact absurd h (by simp)
      · split at h
        · exact absurd h (by simp)
        · simp only [Res.ret.injEq] at h
          obtain ⟨h1, _, h3⟩ := h
          subst h3
          have hmem := Candidates.mem pow pop raw trace s s1 ht
          have hoff : ∀ cv ∈ trace, pop.IsOffspring raw cv.1 ∧
              ∃ t r, cv.1.isViable pow t = Res.ret cv.1 cv.2 r := by
            intro cv hcv
            obtain ⟨t, r, hm⟩ := hmem cv hcv
            obtain ⟨a, t1, b⟩ := makeCandidate_offspring pow pop raw t cv.1 cv.2 r hm
            exact ⟨a, t1, r, b⟩
          have hacc : ∀ c ∈ accepted trace, (c, true) ∈ trace := by
            intro c hc
            simp only [accepted, List.mem_map, List.mem_filter] at hc
            obtain ⟨⟨c1, v⟩, ⟨hin, hv⟩, rfl⟩ := hc
            simp only at hv
            subst hv
            exact hin
          refine ⟨trace, ht, hoff, by simpa using hlen, hacc, ?_, ?_, ?_, ?_⟩
          · intro c _ hn hc
            exact hn (hacc c hc)
          · rw [← h1]
          · intro i o hio
            rw [← h1] at hio
            exact assignVector_getElem? pop.vInd (accepted trace) i o hio
          · intro hflag
            rw [← h1]
            apply assignVector_eq
            intro o ho n hn
            obtain ⟨⟨_, _, _, _, _, _, _, _, _, _, _, _, _, _, _, _, _, _, _, hf⟩, _⟩ :=
              hoff (n, true) (hacc n hn)
            rw [hflag o ho]
            simp only [] at hf
            unfold Individual.fecundation at hf
            split at hf
            · injection hf with hf
              rw [← hf]
            · exact absurd hf (by simp)
  · exact absurd h (by simp)
  · exact absurd h (by simp)
  · exact absurd h (by simp)

/-- C26 on `twoPop`, on a stream whose first candidate is rejected and whose next two
candidates are accepted: the new generation is the vector of the two accepted candidates. -/
theorem Population.makeNewGeneration_rejection_witness :
    twoPop.makeNewGeneration (fun x _ => x) carrier
        (candidateDraws 0 ++ (candidateDraws 1 ++ (candidateDraws 1 ++ [])))
      = Res.ret { twoPop with vInd := [emptyChild, emptyChild] } () [] ∧
    ∃ trace : List (Individual × Bool),
      twoPop.Candidates (fun x _ => x) carrier trace
        (candidateDraws 0 ++ (candidateDraws 1 ++ (candidateDraws 1 ++ []))) [] ∧
      (∀ cv ∈ trace, twoPop.IsOffspring carrier cv.1 ∧
        ∃ t r, cv.1.isViable (fun x _ => x) t = Res.ret cv.1 cv.2 r) ∧
      accepted trace = [emptyChild, emptyChild] := by
  obtain ⟨trace, h1, h2, _, _, _, _, _, h8⟩ :=
    Population.makeNewGeneration_rejection (fun x _ => x) twoPop carrier
      (candidateDraws 0 ++ (candidateDraws 1 ++ (candidateDraws 1 ++ [])))
      { twoPop with vInd := [emptyChild, emptyChild] } [] twoPop_makeNewGeneration
  refine ⟨twoPop_makeNewGeneration, trace, h1, h2, (h8 ?_).symm⟩
  intro o ho
  simp only [twoPop, List.mem_cons, List.mem_singleton, List.not_mem_nil, or_false,
    or_self] at ho
  subst ho
  rfl

/-! ## Chromosome::loss followed by Chromosome::transposition -/

/-- What `Chromosome::loss` has done when it returns: an occupied site is cleared. -/
theorem Chromosome.loss_ret (c : Chromosome) (hb : Binary c.vSeq) (s : List Draw)
    (c1 : Chromosome) (u : Unit) (rest : List Draw) (h : c.loss s = Res.ret c1 u rest) :
    ∃ i, i < c.vSeq.length ∧ c.vSeq[i]? = some 1 ∧ c1 = { c with vSeq := c.vSeq.set i 0 } ∧
      ∃ r : Nat, (r : Int) < c.getNbTEs ∧ s = Draw.uniformInt r :: rest := by
  cases s with
  | nil =>
    unfold Chromosome.loss at h
    split at h <;> exact absurd h (by simp)
  | cons d s1 =>
    cases hg : gsl_rng_uniform_int c.getNbTEs d with
    | none =>
      unfold Chromosome.loss at h
      split at h
      · exact absurd h (by simp)
      · simp only [hg] at h
        exact absurd h (by simp)
    | some v =>
      obtain ⟨hd, hv⟩ := gsl_rng_uniform_int_some hg
      subst hd
      obtain ⟨site, a1, a2, _, _, a5, _⟩ := Chromosome.loss_spec c hb v hv s1
      rw [a5] at h
      simp only [Res.ret.injEq] at h
      exact ⟨site, a1, a2, h.1.symm, v, hv, by rw [h.2.2]⟩

/-- What the loop of `Chromosome::transposition` has done when it returns: a site that was
not occupied is set. -/
theorem Chromosome.transpositionLoop_ret (c : Chromosome) :
    ∀ (s : List Draw) (c1 : Chromosome) (u : Unit) (rest : List Draw),
      Chromosome.transpositionLoop c s = Res.ret c1 u rest →
      ∃ (j : Nat) (x : Int), j < c.nbSites ∧ c.vSeq[j]? = some x ∧ x ≠ 1 ∧
        c1 = { c with vSeq := c.vSeq.set j 1 }
  | [], c1, u, rest, h => by simp [Chromosome.transpositionLoop] at h
  | d :: s, c1, u, rest, h => by
    unfold Chromosome.transpositionLoop at h
    split at h
    · exact absurd h (by simp)
    · next insSite hg =>
      split at h
      · exact absurd h (by simp)
      · next x hx =>
        split at h
        · exact Chromosome.transpositionLoop_ret c s c1 u rest h
        · next hne =>
          simp only [Res.ret.injEq] at h
          exact ⟨insSite, x, by exact_mod_cast (gsl_rng_uniform_int_some hg).2, hx, hne, h.1.symm⟩

/-- What `Chromosome::transposition` has done when it returns. -/
theorem Chromosome.transposition_ret (c : Chromosome) (s : List Draw) (c1 : Chromosome)
    (u : Unit) (rest : List Draw) (h : c.transposition s = Res.ret c1 u rest) :
    ∃ (j : Nat) (x : Int), j < c.nbSites ∧ c.vSeq[j]? = some x ∧ x ≠ 1 ∧
      c1 = { c with vSeq := c.vSeq.set j 1 } := by
  unfold Chromosome.transposition at h
  split at h
  · exact absurd h (by simp)
  · exact Chromosome.transpositionLoop_ret c s c1 u rest h

/-- C27.  `Chromosome::loss` followed by `Chromosome::transposition` on a chromosome of
binary sites and load `L > 0`: `loss` neither faults nor exits and leaves the load `L - 1`;
whenever `loss` and then `transposition` return, `loss` cleared an occupied site `i` and
`transposition` set a site `j` that was 0 after the loss; the load is `L` again; the final
sequence is the original one if and only if `j = i`; and when `j ≠ i` the two sequences
differ at the sites `i` (now 0, before 1) and `j` (now 1, before 0) and at no other site.
Both cases occur when the sequence has `nbSites` sites: after the rank draw `r < L`, the
draw of the cleared site restores the chromosome, and the draw of any site that was 0 sets
that site. -/
theorem Chromosome.loss_then_transposition (c : Chromosome) (hb : Binary c.vSeq)
    (hL : 0 < c.getNbTEs) :
    (∀ s : List Draw, (c.loss s).Holds (fun c1 _ _ => c1.getNbTEs = c.getNbTEs - 1)) ∧
    (∀ (s s1 s2 : List Draw) (c1 c2 : Chromosome), c.loss s = Res.ret c1 () s1 →
      c1.transposition s1 = Res.ret c2 () s2 →
      ∃ i j : Nat, i < c.vSeq.length ∧ j < c.vSeq.length ∧
        c.vSeq[i]? = some 1 ∧ c1.vSeq = c.vSeq.set i 0 ∧
        c1.vSeq[j]? = some 0 ∧ c2.vSeq = c1.vSeq.set j 1 ∧
        c2.getNbTEs = c.getNbTEs ∧
        (c2.vSeq = c.vSeq ↔ j = i) ∧
        (j ≠ i → c2.vSeq[i]? = some 0 ∧ c2.vSeq[j]? = some 1 ∧ c.vSeq[j]? = some 0 ∧
          ∀ k : Nat, k ≠ i → k ≠ j → c2.vSeq[k]? = c.vSeq[k]?)) ∧
    (c.vSeq.length = c.nbSites → ∀ (r : Nat) (rest : List Draw), (r : Int) < c.getNbTEs →
      ∃ i : Nat, c.vSeq[i]? = some 1 ∧
        c.loss (Draw.uniformInt r :: Draw.uniformInt i :: rest)
          = Res.ret { c with vSeq := c.vSeq.set i 0 } () (Draw.uniformInt i :: rest) ∧
        Chromosome.transposition { c with vSeq := c.vSeq.set i 0 } (Draw.uniformInt i :: rest)
          = Res.ret c () rest ∧
        ∀ j : Nat, c.vSeq[j]? = some 0 →
          c.loss (Draw.uniformInt r :: Draw.uniformInt j :: rest)
            = Res.ret { c with vSeq := c.vSeq.set i 0 } () (Draw.uniformInt j :: rest) ∧
          Chromosome.transposition { c with vSeq := c.vSeq.set i 0 }
              (Draw.uniformInt j :: rest)
            = Res.ret { c with vSeq := (c.vSeq.set i 0).set j 1 } () rest) := by
  refine ⟨?_, ?_, ?_⟩
  · intro s
    exact (Chromosome.loss_holds c hb (by omega) s).mono (fun _ _ _ h => h.2.2.2)
  · intro s s1 s2 c1 c2 h1 h2
    obtain ⟨i, hi, hci, e1, _⟩ := Chromosome.loss_ret c hb s c1 () s1 h1
    obtain ⟨j, x, _, hx, hx1, e2⟩ := Chromosome.transposition_ret c1 s1 c2 () s2 h2
    have hv1 : c1.vSeq = c.vSeq.set i 0 := by rw [e1]
    have hb1 : Binary c1.vSeq := by
      rw [hv1]; exact Binary.set_site hb i 0 (Or.inl rfl)
    have hx0 : x = 0 := by
      rcases hb1 x (List.getElem?_mem hx) with h | h
      · exact h
      · exact absurd h hx1
    subst hx0
    have hv2 : c2.vSeq = c1.vSeq.set j 1 := by rw [e2]
    have hj : j < c.vSeq.length := by
      have := (List.getElem?_eq_some_iff.1 hx).1
      rw [hv1, List.length_set] at this
      exact this
    have hload : c2.getNbTEs = c.getNbTEs := by
      unfold Chromosome.getNbTEs
      rw [hv2, sum_set_of_getElem? c1.vSeq j 0 1 hx, hv1, sum_set_of_getElem? c.vSeq i 1 0 hci]
      omega
    have hiff : c2.vSeq = c.vSeq ↔ j = i := by
      constructor
      · intro h
        by_contra hne
        have h3 : c2.vSeq[i]? = some 0 := by
          rw [hv2, List.getElem?_set_ne hne, hv1, List.getElem?_set_self hi]
        rw [h, hci] at h3
        exact absurd h3 (by decide)
      · intro h
        subst h
        rw [hv2, hv1, List.set_set, set_same c.vSeq j 1 hci]
    refine ⟨i, j, hi, hj, hci, hv1, hx, hv2, hload, hiff, ?_⟩
    intro hne
    refine ⟨?_, ?_, ?_, ?_⟩
    · rw [hv2, List.getElem?_set_ne hne, hv1, List.getElem?_set_self hi]
    · rw [hv2, List.getElem?_set_self (by rw [hv1, List.length_set]; exact hj)]
    · rw [hv1, List.getElem?_set_ne (Ne.symm hne)] at hx
      exact hx
    · intro k hki hkj
      rw [hv2, List.getElem?_set_ne (Ne.symm hkj), hv1, List.getElem?_set_ne (Ne.symm hki)]
  · intro hN r rest hr
    obtain ⟨i, hi, hci, _, hscan, _, _⟩ := Chromosome.loss_spec c hb r hr rest
    have hloss : ∀ rest1 : List Draw, c.loss (Draw.uniformInt r :: rest1)
        = Res.ret { c with vSeq := c.vSeq.set i 0 } () rest1 := by
      intro rest1
      obtain ⟨i1, _, _, _, a4, a5, _⟩ := Chromosome.loss_spec c hb r hr rest1
      have e : i1 = i := Option.some.inj (a4.symm.trans hscan)
      rw [a5, e]
    have hn0 : ¬ c.nbSites = 0 := by omega
    have htr : ∀ (j : Nat) (x : Int), j < c.nbSites → (c.vSeq.set i 0)[j]? = some x → x ≠ 1 →
        Chromosome.transposition { c with vSeq := c.vSeq.set i 0 } (Draw.uniformInt j :: rest)
          = Res.ret { c with vSeq := (c.vSeq.set i 0).set j 1 } () rest := by
      intro j x hj hx hx1
      have := Chromosome.transpositionLoop_spec { c with vSeq := c.vSeq.set i 0 } j rest hj x
        hx hx1 [] (by intro k hk; simp at hk)
      simp only [Chromosome.transposition, if_neg hn0]
      simpa using this
    refine ⟨i, hci, hloss _, ?_, ?_⟩
    · rw [htr i 0 (by omega) (List.getElem?_set_self hi) (by decide), List.set_set,
        set_same c.vSeq i 1 hci]
    · intro j hcj
      have hne : i ≠ j := by
        intro h
        rw [h, hcj] at hci
        exact absurd hci (by decide)
      have hj : j < c.vSeq.length := (List.getElem?_eq_some_iff.1 hcj).1
      exact ⟨hloss _, htr j 0 (by omega) (by rw [List.getElem?_set_ne hne]; exact hcj)
        (by decide)⟩

/-- C27 on the chromosome 1 0 1 0: the rank draw 1 clears site 2; the draw of site 2 restores
the chromosome, and the draw of site 1 gives 1 1 0 0, which differs from 1 0 1 0 at the sites
1 and 2. -/
theorem Chromosome.loss_then_transposition_witness :
    Binary (Chromosome.ofSites [1, 0, 1, 0]).vSeq ∧
    0 < (Chromosome.ofSites [1, 0, 1, 0]).getNbTEs ∧
    (Chromosome.ofSites [1, 0, 1, 0]).loss [Draw.uniformInt 1, Draw.uniformInt 2]
      = Res.ret (Chromosome.ofSites [1, 0, 0, 0]) () [Draw.uniformInt 2] ∧
    (Chromosome.ofSites [1, 0, 0, 0]).transposition [Draw.uniformInt 2]
      = Res.ret (Chromosome.ofSites [1, 0, 1, 0]) () [] ∧
    (Chromosome.ofSites [1, 0, 0, 0]).transposition [Draw.uniformInt 1]
      = Res.ret (Chromosome.ofSites [1, 1, 0, 0]) () [] ∧
    ∃ i j : Nat, i < 4 ∧ j < 4 ∧
      (Chromosome.ofSites [1, 0, 1, 0]).vSeq[i]? = some 1 ∧
      (Chromosome.ofSites [1, 0, 0, 0]).vSeq = (Chromosome.ofSites [1, 0, 1, 0]).vSeq.set i 0 ∧
      (Chromosome.ofSites [1, 0, 0, 0]).vSeq[j]? = some 0 ∧
      (Chromosome.ofSites [1, 1, 0, 0]).vSeq = (Chromosome.ofSites [1, 0, 0, 0]).vSeq.set j 1 ∧
      (Chromosome.ofSites [1, 1, 0, 0]).getNbTEs = (Chromosome.ofSites [1, 0, 1, 0]).getNbTEs ∧
      ((Chromosome.ofSites [1, 1, 0, 0]).vSeq = (Chromosome.ofSites [1, 0, 1, 0]).vSeq
        ↔ j = i) := by
  have hb : Binary (Chromosome.ofSites [1, 0, 1, 0]).vSeq := by
    simp [Binary, Chromosome.ofSites]
  have h1 : (Chromosome.ofSites [1, 0, 1, 0]).loss [Draw.uniformInt 1, Draw.uniformInt 2]
      = Res.ret (Chromosome.ofSites [1, 0, 0, 0]) () [Draw.uniformInt 2] := by decide
  have h1b : (Chromosome.ofSites [1, 0, 1, 0]).loss [Draw.uniformInt 1, Draw.uniformInt 1]
      = Res.ret (Chromosome.ofSites [1, 0, 0, 0]) () [Draw.uniformInt 1] := by decide
  have h2 : (Chromosome.ofSites [1, 0, 0, 0]).transposition [Draw.uniformInt 2]
      = Res.ret (Chromosome.ofSites [1, 0, 1, 0]) () [] := by decide
  have h3 : (Chromosome.ofSites [1, 0, 0, 0]).transposition [Draw.uniformInt 1]
      = Res.ret (Chromosome.ofSites [1, 1, 0, 0]) () [] := by decide
  obtain ⟨i, j, a1, a2, a3, a4, a5, a6, a7, a8, _⟩ :=
    (Chromosome.loss_then_transposition (Chromosome.ofSites [1, 0, 1, 0]) hb (by decide)).2.1
      _ _ _ _ _ h1b h3
  exact ⟨hb, by decide, h1, h2, h3, i, j, a1, a2, a3, a4, a5, a6, a7, a8⟩

/-! ## The calls of Chromosome::loss and Chromosome::transposition -/

/-- When the loop over the losses returns, `lossSteps` holds its `k` events, each with the
chromosome of its call. -/
theorem lossSteps_complete : ∀ (k : Nat) (ind : Individual) (s : List Draw) (ind1 : Individual)
    (u : Unit) (rest : List Draw), Individual.lossEvents k ind s = Res.ret ind1 u rest →
    (Individual.lossSteps k ind s).length = k ∧
      ∀ e ∈ Individual.lossSteps k ind s, e.2 ≠ none
  | 0, ind, s, ind1, u, rest, _ => by simp [Individual.lossSteps]
  | k + 1, ind, s, ind1, u, rest, h => by
    unfold Individual.lossEvents at h
    unfold Individual.lossSteps
    split at h
    · next u1 chr s1 hp =>
      split at h
      · exact absurd h (by simp)
      · next c hc =>
        split at h
        · next c1 u2 s2 hl =>
          obtain ⟨a1, a2⟩ := lossSteps_complete k _ s2 ind1 u rest h
          simp only [hp, hc, hl, List.length_cons, a1, List.mem_cons, true_and]
          rintro e (rfl | he)
          · exact Option.some_ne_none c
          · exact a2 e he
        · exact absurd h (by simp)
        · exact absurd h (by simp)
        · exact absurd h (by simp)
    · exact absurd h (by simp)
    · exact absurd h (by simp)
    · exact absurd h (by simp)

/-- When the loop over the transpositions returns, `transpositionSteps` holds its `k` events,
each with the chromosome of its call. -/
theorem transpositionSteps_complete : ∀ (k : Nat) (ind : Individual) (s : List Draw)
    (ind1 : Individual) (u : Unit) (rest : List Draw),
    Individual.transpositionEvents k ind s = Res.ret ind1 u rest →
    (Individual.transpositionSteps k ind s).length = k ∧
      ∀ e ∈ Individual.transpositionSteps k ind s, e.2 ≠ none
  | 0, ind, s, ind1, u, rest, _ => by simp [Individual.transpositionSteps]
  | k + 1, ind, s, ind1, u, rest, h => by
    unfold Individual.transpositionEvents at h
    unfold Individual.transpositionSteps
    split at h
    · next u1 chr s1 hp =>
      split at h
      · exact absurd h (by simp)
      · next c hc =>
        split at h
        · next c1 u2 s2 hl =>
          obtain ⟨a1, a2⟩ := transpositionSteps_complete k _ s2 ind1 u rest h
          simp only [hp, hc, hl, List.length_cons, a1, List.mem_cons, true_and]
          rintro e (rfl | he)
          · exact Option.some_ne_none c
          · exact a2 e he
        · exact absurd h (by simp)
        · exact absurd h (by simp)
        · exact absurd h (by simp)
    · exact absurd h (by simp)
    · exact absurd h (by simp)
    · exact absurd h (by simp)

/-- Every call of `Chromosome::loss` in the loop over the losses is on a chromosome of
positive load. -/
theorem lossSteps_guard : ∀ (k : Nat) (ind : Individual), ind.WellFormed → ind.nbChr ≠ 0 →
    ∀ (s : List Draw), ∀ e ∈ Individual.lossSteps k ind s,
      ∀ c, e.2 = some c → 0 < c.getNbTEs
  | 0, ind, _, _, s => by simp [Individual.lossSteps]
  | k + 1, ind, hw, hn, s => by
    unfold Individual.lossSteps
    simp only [Individual.lossPick, if_neg hn]
    have hp := lossPickLoop_holds ind hw.1 s
    cases hr : Individual.lossPickLoop ind s with
    | fault => simp
    | exit st => simp
    | noRun => simp
    | ret u chr s1 =>
      obtain ⟨c, hc, hne⟩ := Res.Holds.of_ret hp hr
      simp only [hc]
      obtain ⟨w1, w2, w3⟩ := hw.2 c (List.getElem?_mem hc)
      have hpos : 0 < c.getNbTEs := by
        have := Binary.sum_nonneg w3
        unfold Chromosome.getNbTEs at hne ⊢
        omega
      intro e he c2 hc2
      rcases List.mem_cons.1 he with rfl | he
      · simp only [Option.some.injEq] at hc2
        rw [← hc2]; exact hpos
      · have hl := Chromosome.loss_holds c w3 hne s1
        cases hc1 : c.loss s1 with
        | fault => rw [hc1] at he; simp at he
        | exit st => rw [hc1] at he; simp at he
        | noRun => rw [hc1] at he; simp at he
        | ret c1 u2 s2 =>
          rw [hc1] at he
          obtain ⟨a1, a2, a3, _⟩ := Res.Holds.of_ret hl hc1
          have hw1 : Individual.WellFormed { ind with vChr := ind.vChr.set chr c1 } :=
            WellFormed.set_chr hw chr c1 (a1.trans w1) (a2.trans w2) a3
          exact lossSteps_guard k _ hw1 hn s2 e he c2 hc2

/-- In the loop over the transpositions of an organism whose load plus the number of events
is at most the capacity: before each event a chromosome is below capacity, and every call of
`Chromosome::transposition` is on a chromosome below capacity. -/
theorem transpositionSteps_guard : ∀ (k : Nat) (ind : Individual), ind.WellFormed →
    ind.nbChr ≠ 0 → ind.load + k ≤ ((ind.nbChr * ind.nbSitesPerChr : Nat) : Int) →
    ∀ (s : List Draw), ∀ e ∈ Individual.transpositionSteps k ind s,
      (∃ c ∈ e.1.vChr, c.getNbTEs < ind.nbSitesPerChr) ∧
      ∀ c, e.2 = some c → c.getNbTEs < ind.nbSitesPerChr
  | 0, ind, _, _, _, s => by simp [Individual.transpositionSteps]
  | k + 1, ind, hw, hn, hcap, s => by
    have hle : ∀ c ∈ ind.vChr, c.getNbTEs ≤ ind.nbSitesPerChr := by
      intro c hc
      obtain ⟨_, w2, w3⟩ := hw.2 c hc
      have := Binary.sum_le_length w3
      unfold Chromosome.getNbTEs
      omega
    have hex : ∃ c ∈ ind.vChr, c.getNbTEs < ind.nbSitesPerChr := by
      obtain ⟨chr, c, h1, h2⟩ := exists_not_full ind.nbSitesPerChr ind.vChr hle (by
        rw [hw.1]
        unfold Individual.load at hcap
        push_cast at hcap ⊢
        omega)
      exact ⟨c, List.getElem?_mem h1, h2⟩
    unfold Individual.transpositionSteps
    simp only [Individual.transpositionPick, if_neg hn]
    have hp := transpositionPickLoop_holds ind hw.1 s
    cases hr : Individual.transpositionPickLoop ind s with
    | fault =>
      intro e he
      simp only [List.mem_singleton] at he
      subst he
      exact ⟨hex, by simp⟩
    | exit st =>
      intro e he
      simp only [List.mem_singleton] at he
      subst he
      exact ⟨hex, by simp⟩
    | noRun =>
      intro e he
      simp only [List.mem_singleton] at he
      subst he
      exact ⟨hex, by simp⟩
    | ret u chr s1 =>
      obtain ⟨c, hc, hne⟩ := Res.Holds.of_ret hp hr
      simp only [hc]
      obtain ⟨w1, w2, w3⟩ := hw.2 c (List.getElem?_mem hc)
      have hlt : c.getNbTEs < ind.nbSitesPerChr := by
        have := hle c (List.getElem?_mem hc)
        omega
      intro e he
      rcases List.mem_cons.1 he with rfl | he
      · refine ⟨hex, ?_⟩
        intro c2 hc2
        simp only [Option.some.injEq] at hc2
        rw [← hc2]; exact hlt
      · have hN0 : c.nbSites ≠ 0 := by
          intro h0
          apply hne
          have : c.vSeq = [] := List.length_eq_zero.mp (by omega)
          simp [Chromosome.getNbTEs, this]
          omega
        have hl := Chromosome.transpositionLoop_holds c (w2.trans w1.symm) w3 s1
        simp only [Chromosome.transposition, if_neg hN0] at he
        cases hc1 : Chromosome.transpositionLoop c s1 with
        | fault => rw [hc1] at he; simp at he
        | exit st => rw [hc1] at he; simp at he
        | noRun => rw [hc1] at he; simp at he
        | ret c1 u2 s2 =>
          rw [hc1] at he
          obtain ⟨a1, a2, a3, a4⟩ := Res.Holds.of_ret hl hc1
          have hw1 : Individual.WellFormed { ind with vChr := ind.vChr.set chr c1 } :=
            WellFormed.set_chr hw chr c1 (a1.trans w1) (a2.trans w2) a3
          have hload := load_set ind chr c c1 hc
          exact transpositionSteps_guard k _ hw1 hn (by
            rw [hload, a4]
            push_cast at hcap ⊢
            omega) s2 e he

/-- Every call of `Chromosome::transposition` in the loop over the transpositions is on a
chromosome below capacity, whatever the number of events. -/
theorem transpositionSteps_calls : ∀ (k : Nat) (ind : Individual), ind.WellFormed →
    ind.nbChr ≠ 0 → ∀ (s : List Draw), ∀ e ∈ Individual.transpositionSteps k ind s,
      ∀ c, e.2 = some c → c.getNbTEs < ind.nbSitesPerChr
  | 0, ind, _, _, s => by simp [Individual.transpositionSteps]
  | k + 1, ind, hw, hn, s => by
    have hle : ∀ c ∈ ind.vChr, c.getNbTEs ≤ ind.nbSitesPerChr := by
      intro c hc
      obtain ⟨_, w2, w3⟩ := hw.2 c hc
      have := Binary.sum_le_length w3
      unfold Chromosome.getNbTEs
      omega
    unfold Individual.transpositionSteps
    simp only [Individual.transpositionPick, if_neg hn]
    have hp := transpositionPickLoop_holds ind hw.1 s
    cases hr : Individual.transpositionPickLoop ind s with
    | fault => simp
    | exit st => simp
    | noRun => simp
    | ret u chr s1 =>
      obtain ⟨c, hc, hne⟩ := Res.Holds.of_ret hp hr
      simp only [hc]
      obtain ⟨w1, w2, w3⟩ := hw.2 c (List.getElem?_mem hc)
      have hlt : c.getNbTEs < ind.nbSitesPerChr := by
        have := hle c (List.getElem?_mem hc)
        omega
      intro e he c2 hc2
      rcases List.mem_cons.1 he with rfl | he
      · simp only [Option.some.injEq] at hc2
        rw [← hc2]; exact hlt
      · have hN0 : c.nbSites ≠ 0 := by
          intro h0
          apply hne
          have : c.vSeq = [] := List.length_eq_zero.mp (by omega)
          simp [Chromosome.getNbTEs, this]
          omega
        have hl := Chromosome.transpositionLoop_holds c (w2.trans w1.symm) w3 s1
        simp only [Chromosome.transposition, if_neg hN0] at he
        cases hc1 : Chromosome.transpositionLoop c s1 with
        | fault => rw [hc1] at he; simp at he
        | exit st => rw [hc1] at he; simp at he
        | noRun => rw [hc1] at he; simp at he
        | ret c1 u2 s2 =>
          rw [hc1] at he
          obtain ⟨a1, a2, a3, a4⟩ := Res.Holds.of_ret hl hc1
          have hw1 : Individual.WellFormed { ind with vChr := ind.vChr.set chr c1 } :=
            WellFormed.set_chr hw chr c1 (a1.trans w1) (a2.trans w2) a3
          exact transpositionSteps_calls k _ hw1 hn s2 e he c2 hc2

/-- The trace of a call of `Individual::transposition` that returns `n` holds `n` events,
each with its call. -/
theorem transpositionTrace_complete (ind : Individual) (probTransp0 k : ℚ) (s : List Draw)
    (ind1 : Individual) (n : Int) (rest : List Draw)
    (h : ind.transposition probTransp0 k s = Res.ret ind1 n rest) :
    (ind.transpositionTrace probTransp0 k s).length = n.toNat ∧
    ∀ e ∈ ind.transpositionTrace probTransp0 k s, e.2 ≠ none := by
  unfold Individual.transposition at h
  unfold Individual.transpositionTrace
  split at h
  · exact absurd h (by simp)
  · split at h
    · next hpos =>
      rw [if_pos hpos]
      split at h
      · exact absurd h (by simp)
      · split at h
        · exact absurd h (by simp)
        · split at h
          · exact absurd h (by simp)
          · next nbTransp hg =>
            split at h
            · exact absurd h (by simp)
            · next hcap =>
              rw [if_neg hcap]
              split at h
              · next hnb =>
                rw [if_pos hnb]
                split at h
                · next i1 u1 s1 hev =>
                  have hc := transpositionSteps_complete _ ind _ i1 u1 s1 hev
                  split at h
                  · exact absurd h (by simp)
                  · split at h
                    · exact absurd h (by simp)
                    · simp only [Res.ret.injEq] at h
                      rw [← h.2.1]
                      exact hc
                · exact absurd h (by simp)
                · exact absurd h (by simp)
                · exact absurd h (by simp)
              · next hnb =>
                rw [if_neg hnb]
                simp only [Res.ret.injEq] at h
                rw [← h.2.1]
                exact ⟨by simp; omega, by simp⟩
    · next hpos =>
      rw [if_neg hpos]
      simp only [Res.ret.injEq] at h
      rw [← h.2.1]
      exact ⟨by simp, by simp⟩

/-- C28.  In a well-formed organism of load `L` (its capacity `nbChr * nbSitesPerChr` being an
`int`): every call of `Chromosome::loss` made by `Individual::loss` is on a chromosome whose
load is > 0, and every call of `Chromosome::transposition` made by
`Individual::transposition` is on a chromosome whose load is < `nbSitesPerChr`.  When the
sum `L + nbTransp` is below `2^31`, `Individual::transposition` runs its events only when
`L + nbTransp < nbChr * nbSitesPerChr`, and before each event a chromosome of the organism
is below capacity.  The traces hold all the events: when `Individual::loss`
(`Individual::transposition`) returns `n`, its trace has `n` events, each with its call.
But for a count `n < 2^31` with `L + n >= 2^31` the sum of the `int`s wraps to a negative
number: `L + n` is over the capacity and the events run all the same (the trace is the trace
of the `n` events), so that an event begins when no chromosome is below capacity. -/
theorem Individual.callers_guard (ind : Individual) (hw : ind.WellFormed)
    (hcap : ind.nbChr * ind.nbSitesPerChr < 2 ^ 31) :
    (∀ (probLoss : ℚ) (s : List Draw), ∀ e ∈ ind.lossTrace probLoss s,
      ∀ c, e.2 = some c → 0 < c.getNbTEs) ∧
    (∀ (probTransp0 k : ℚ) (s : List Draw), ∀ e ∈ ind.transpositionTrace probTransp0 k s,
      ∀ c, e.2 = some c → c.getNbTEs < ind.nbSitesPerChr) ∧
    (∀ (probTransp0 k rate : ℚ) (d : Draw) (rest : List Draw) (nbTransp : Int),
      Individual.probTransp probTransp0 k ind.load = some rate →
      gsl_ran_poisson (Individual.meanNbTransp rate ind.load) d = some nbTransp →
      ind.load + nbTransp < 2 ^ 31 →
      ∀ e ∈ ind.transpositionTrace probTransp0 k (d :: rest),
        ind.load + nbTransp < ((ind.nbChr * ind.nbSitesPerChr : Nat) : Int) ∧
        ∃ c ∈ e.1.vChr, c.getNbTEs < ind.nbSitesPerChr) ∧
    (∀ (probLoss : ℚ) (s : List Draw) (ind1 : Individual) (n : Int) (rest : List Draw),
      ind.loss probLoss s = Res.ret ind1 n rest →
      (ind.lossTrace probLoss s).length = n.toNat ∧
      ∀ e ∈ ind.lossTrace probLoss s, e.2 ≠ none) ∧
    (∀ (probTransp0 k : ℚ) (s : List Draw) (ind1 : Individual) (n : Int) (rest : List Draw),
      ind.transposition probTransp0 k s = Res.ret ind1 n rest →
      (ind.transpositionTrace probTransp0 k s).length = n.toNat ∧
      ∀ e ∈ ind.transpositionTrace probTransp0 k s, e.2 ≠ none) ∧
    (∀ (probTransp0 k rate : ℚ), 0 < ind.load →
      Individual.probTransp probTransp0 k ind.load = some rate → 0 < rate →
      ∀ (n : Nat) (rest : List Draw), n < 2 ^ 31 → 2 ^ 31 ≤ ind.load + n →
        ind.load + n ≥ ((ind.nbChr * ind.nbSitesPerChr : Nat) : Int) ∧
        ind.transpositionTrace probTransp0 k (Draw.poisson n :: rest)
          = Individual.transpositionSteps n ind rest) := by
  have hL := getNbTEs_eq_load ind hw.1
  have hnn : 0 ≤ ind.load := WellFormed.load_nonneg hw
  have hle := WellFormed.load_le hw
  have hcapz : ((ind.nbChr * ind.nbSitesPerChr : Nat) : Int) < 2 ^ 31 := by exact_mod_cast hcap
  refine ⟨?_, ?_, ?_, ?_, ?_, ?_⟩
  · intro probLoss s e he
    unfold Individual.lossTrace at he
    rw [hL] at he
    simp only [] at he
    split at he
    · next hpos =>
      have hn := WellFormed.nbChr_ne_zero hw hpos
      split at he
      · simp at he
      · split at he
        · simp at he
        · split at he
          · exact lossSteps_guard _ ind hw hn _ e he
          · simp at he
    · simp at he
  · intro probTransp0 k s e he
    unfold Individual.transpositionTrace at he
    rw [hL] at he
    simp only [] at he
    split at he
    · next hpos =>
      have hn := WellFormed.nbChr_ne_zero hw hpos
      split at he
      · simp at he
      · split at he
        · simp at he
        · split at he
          · simp at he
          · split at he
            · simp at he
            · split at he
              · exact transpositionSteps_calls _ ind hw hn _ e he
              · simp at he
    · simp at he
  · intro probTransp0 k rate d rest nbTransp hrate hg h31 e he
    obtain ⟨hr1, _, _⟩ := gsl_ran_poisson_some hg
    have hwr : wrapInt (ind.load + nbTransp) = ind.load + nbTransp :=
      wrapInt_eq (by omega) h31
    simp only [Individual.transpositionTrace, hL, hrate, hg, hwr] at he
    split at he
    · next hpos =>
      have hn := WellFormed.nbChr_ne_zero hw hpos
      split at he
      · simp at he
      · next hc =>
        split at he
        · next hnb =>
          have hc1 : ind.load + nbTransp < ((ind.nbChr * ind.nbSitesPerChr : Nat) : Int) := by
            omega
          refine ⟨hc1, (transpositionSteps_guard _ ind hw hn ?_ _ e he).1⟩
          rw [Int.toNat_of_nonneg (le_of_lt hnb)]
          omega
        · simp at he
    · simp at he
  · intro probLoss s ind1 n rest h
    unfold Individual.loss at h
    unfold Individual.lossTrace
    rw [hL] at h ⊢
    simp only [] at h ⊢
    split at h
    · next hpos =>
      rw [if_pos hpos]
      split at h
      · exact absurd h (by simp)
      · split at h
        · exact absurd h (by simp)
        · next nbLoss hg =>
          split at h
          · next hnb =>
            rw [if_pos hnb]
            split at h
            · next i1 u1 s1 hev =>
              have hc := lossSteps_complete _ ind _ i1 u1 s1 hev
              split at h
              · exact absurd h (by simp)
              · split at h
                · exact absurd h (by simp)
                · simp only [Res.ret.injEq] at h
                  rw [← h.2.1]
                  exact hc
            · exact absurd h (by simp)
            · exact absurd h (by simp)
            · exact absurd h (by simp)
          · next hnb =>
            rw [if_neg hnb]
            simp only [Res.ret.injEq] at h
            rw [← h.2.1]
            exact ⟨by simp; omega, by simp⟩
    · next hpos =>
      rw [if_neg hpos]
      simp only [Res.ret.injEq] at h
      rw [← h.2.1]
      exact ⟨by simp, by simp⟩
  · intro probTransp0 k s ind1 n rest h
    exact transpositionTrace_complete ind probTransp0 k s ind1 n rest h
  · intro probTransp0 k rate hpos hrate hq n rest hn hwrap
    have hmu := meanNbTransp_pos hq hpos
    have hg : gsl_ran_poisson (Individual.meanNbTransp rate ind.load) (Draw.poisson n)
        = some (n : Int) := by
      simp only [gsl_ran_poisson]
      rw [if_pos ⟨Or.inl hmu, hn⟩]
    have hwr : wrapInt (ind.load + (n : Int)) = ind.load + n - 2 ^ 32 := by
      unfold wrapInt
      omega
    refine ⟨by omega, ?_⟩
    simp only [Individual.transpositionTrace, hL, if_pos hpos, hrate, hg, hwr]
    rw [if_neg (by omega), if_pos (by omega)]
    simp

/-- C28 on `fourChrInd` (chromosomes 1 1 0, 0 0 0, 0 1 0, 1 0 1): two losses, the first
choice falling on the empty chromosome 1 and being redrawn, call `Chromosome::loss` on
1 1 0 and on 1 0 1; one transposition calls `Chromosome::transposition` on 1 1 0.  And on
`singleInd` (4 chromosomes of 1 site, load 1, capacity 4) with the Poisson count `2^31 - 1`:
`1 + (2^31 - 1)` is over the capacity, three events fill the chromosomes 1, 2 and 3, and a
fourth event begins when every chromosome is full: no chromosome is below capacity, and no
chromosome is chosen. -/
theorem Individual.callers_guard_witness :
    fourChrInd.WellFormed ∧
    (fourChrInd.lossTrace 1
        [Draw.poisson 2, Draw.uniformInt 1, Draw.uniformInt 0, Draw.uniformInt 1,
         Draw.uniformInt 3, Draw.uniformInt 0]).map (fun e => e.2.map Chromosome.vSeq)
      = [some [1, 1, 0], some [1, 0, 1]] ∧
    (fourChrInd.transpositionTrace 1 0
        [Draw.poisson 1, Draw.uniformInt 0, Draw.uniformInt 0, Draw.uniformInt 2]).map
        (fun e => e.2.map Chromosome.vSeq)
      = [some [1, 1, 0]] ∧
    (∀ e ∈ fourChrInd.lossTrace 1
        [Draw.poisson 2, Draw.uniformInt 1, Draw.uniformInt 0, Draw.uniformInt 1,
         Draw.uniformInt 3, Draw.uniformInt 0],
      ∀ c, e.2 = some c → 0 < c.getNbTEs) ∧
    (∀ e ∈ fourChrInd.transpositionTrace 1 0
        [Draw.poisson 1, Draw.uniformInt 0, Draw.uniformInt 0, Draw.uniformInt 2],
      ∀ c, e.2 = some c → c.getNbTEs < fourChrInd.nbSitesPerChr) ∧
    singleInd.WellFormed ∧ singleInd.getNbTEs = some 1 ∧
    (1 : Int) + (2147483647 : Nat) ≥ ((singleInd.nbChr * singleInd.nbSitesPerChr : Nat) : Int) ∧
    (singleInd.transpositionTrace 1 0
        [Draw.poisson 2147483647, Draw.uniformInt 1, Draw.uniformInt 0, Draw.uniformInt 2,
         Draw.uniformInt 0, Draw.uniformInt 3, Draw.uniformInt 0, Draw.uniformInt 0]).map
        (fun e => (e.1.vChr.map Chromosome.vSeq, e.2.map Chromosome.vSeq))
      = [([[1], [0], [0], [0]], some [0]), ([[1], [1], [0], [0]], some [0]),
         ([[1], [1], [1], [0]], some [0]), ([[1], [1], [1], [1]], none)] ∧
    ¬ ∃ c ∈ fullInd.vChr, c.getNbTEs < singleInd.nbSitesPerChr := by
  have hw : fourChrInd.WellFormed := by
    simp [Individual.WellFormed, fourChrInd, Chromosome.ofSites, Binary]
  have hws : singleInd.WellFormed := by
    simp [Individual.WellFormed, singleInd, Chromosome.ofSites, Binary]
  have h := Individual.callers_guard fourChrInd hw (by decide)
  have hs := (Individual.callers_guard singleInd hws (by decide)).2.2.2.2.2 1 0 1 (by decide)
    (probTransp_zero _ _) (by norm_num) 2147483647
    [Draw.uniformInt 1, Draw.uniformInt 0, Draw.uniformInt 2,
     Draw.uniformInt 0, Draw.uniformInt 3, Draw.uniformInt 0, Draw.uniformInt 0]
    (by norm_num) (by decide)
  refine ⟨hw, by decide!, by decide!, h.1 1 _, h.2.1 1 0 _, hws, by decide, hs.1, ?_, by decide⟩
  rw [hs.2]
  decide!

/-! ## The scan of Chromosome::loss -/

/-- When the scan finds the site `i`, it has read exactly the indices from its start to
`i`. -/
theorem lossScanReads_of_some (R : Int) : ∀ (v : List Int) (off : Nat) (rk : Int) (i : Nat),
    Chromosome.lossScan R v off rk = some i →
    off ≤ i ∧ i < off + v.length ∧
      Chromosome.lossScanReads R v off rk = List.range' off (i + 1 - off)
  | [], off, rk, i, h => by simp [Chromosome.lossScan] at h
  | x :: v, off, rk, i, h => by
    unfold Chromosome.lossScan at h
    unfold Chromosome.lossScanReads
    split at h
    · next hx =>
      rw [if_pos hx]
      split at h
      · next hr =>
        rw [if_pos hr]
        simp only [Option.some.injEq] at h
        subst h
        refine ⟨le_refl _, by simp, ?_⟩
        simp
      · next hr =>
        rw [if_neg hr]
        obtain ⟨a1, a2, a3⟩ := lossScanReads_of_some R v (off + 1) (rk + 1) i h
        refine ⟨by omega, by simp only [List.length_cons]; omega, ?_⟩
        rw [a3, show i + 1 - off = (i + 1 - (off + 1)) + 1 by omega, List.range'_succ]
    · next hx =>
      rw [if_neg hx]
      obtain ⟨a1, a2, a3⟩ := lossScanReads_of_some R v (off + 1) rk i h
      refine ⟨by omega, by simp only [List.length_cons]; omega, ?_⟩
      rw [a3, show i + 1 - off = (i + 1 - (off + 1)) + 1 by omega, List.range'_succ]

/-- On a rank that is not below the load, the scan runs past the end of the vector: it reads
the index `N`. -/
theorem lossScan_past_end : ∀ (v : List Int), Binary v → ∀ (off : Nat) (rk : Int) (r : Int),
    v.sum ≤ r → Chromosome.lossScan (rk + r) v off rk = none ∧
      off + v.length ∈ Chromosome.lossScanReads (rk + r) v off rk
  | [], _, off, rk, r, _ => by simp [Chromosome.lossScan, Chromosome.lossScanReads]
  | x :: v, hb, off, rk, r, hr => by
    have hx := Binary.head hb
    have hv := Binary.tail hb
    have hnn := Binary.sum_nonneg hv
    simp only [List.sum_cons] at hr
    unfold Chromosome.lossScan Chromosome.lossScanReads
    rcases hx with hx | hx
    · subst hx
      obtain ⟨a1, a2⟩ := lossScan_past_end v hv (off + 1) rk r (by omega)
      rw [if_neg (by decide), if_neg (by decide)]
      refine ⟨a1, ?_⟩
      rw [List.length_cons, show off + (v.length + 1) = off + 1 + v.length by omega]
      exact List.mem_cons_of_mem _ a2
    · subst hx
      have e : rk + r = (rk + 1) + (r - 1) := by omega
      obtain ⟨a1, a2⟩ := lossScan_past_end v hv (off + 1) (rk + 1) (r - 1) (by omega)
      rw [if_pos rfl, if_pos rfl, if_neg (by omega), if_neg (by omega), e]
      refine ⟨a1, ?_⟩
      rw [List.length_cons, show off + (v.length + 1) = off + 1 + v.length by omega]
      exact List.mem_cons_of_mem _ a2

/-- C29.  For a chromosome of `N` binary sites (`N` the size of `vSeq`) with load `L` and a
rank draw `r` of `[0, L)`, so that `L > 0`: the scan of `Chromosome::loss` ends at a site `site < N`; it has
read exactly the indices `0 .. site`, one per iteration, so at most `N` iterations and only
indices below `N`; and `Chromosome::loss` returns.  The bound comes from the rank alone: on a
rank that is not below the load the same scan reads the index `N`, past the end. -/
theorem Chromosome.loss_scan_in_bounds (c : Chromosome) (hb : Binary c.vSeq)
    (r : Nat) (hr : (r : Int) < c.getNbTEs) (rest : List Draw) :
    (∃ site, Chromosome.lossScan ((r : Int) + 1) c.vSeq 0 1 = some site ∧
      site < c.vSeq.length ∧
      Chromosome.lossScanReads ((r : Int) + 1) c.vSeq 0 1 = List.range (site + 1) ∧
      (Chromosome.lossScanReads ((r : Int) + 1) c.vSeq 0 1).length ≤ c.vSeq.length ∧
      (∀ i ∈ Chromosome.lossScanReads ((r : Int) + 1) c.vSeq 0 1, i < c.vSeq.length) ∧
      c.loss (Draw.uniformInt r :: rest)
        = Res.ret { c with vSeq := c.vSeq.set site 0 } () rest) ∧
    (∀ q : Int, c.getNbTEs ≤ q →
      Chromosome.lossScan (q + 1) c.vSeq 0 1 = none ∧
      c.vSeq.length ∈ Chromosome.lossScanReads (q + 1) c.vSeq 0 1) := by
  constructor
  · obtain ⟨site, a1, _, _, a4, a5, _⟩ := Chromosome.loss_spec c hb r hr rest
    obtain ⟨_, _, b3⟩ := lossScanReads_of_some _ c.vSeq 0 1 site a4
    have e : Chromosome.lossScanReads ((r : Int) + 1) c.vSeq 0 1 = List.range (site + 1) := by
      rw [b3, List.range_eq_range']
      rfl
    refine ⟨site, a4, a1, e, ?_, ?_, a5⟩
    · rw [e, List.length_range]
      omega
    · intro i hi
      rw [e, List.mem_range] at hi
      omega
  · intro q hq
    have h := lossScan_past_end c.vSeq hb 0 1 q hq
    rw [show (1 : Int) + q = q + 1 by omega, zero_add] at h
    exact h

/-- C29 on the chromosome 0 1 0 1 0 with the rank draw 1: the scan ends at site 3, after
reading the indices 0, 1, 2, 3. -/
theorem Chromosome.loss_scan_in_bounds_witness :
    Binary (Chromosome.ofSites [0, 1, 0, 1, 0]).vSeq ∧
    Chromosome.lossScan 2 [0, 1, 0, 1, 0] 0 1 = some 3 ∧
    Chromosome.lossScanReads 2 [0, 1, 0, 1, 0] 0 1 = [0, 1, 2, 3] ∧
    (Chromosome.ofSites [0, 1, 0, 1, 0]).loss [Draw.uniformInt 1]
      = Res.ret (Chromosome.ofSites [0, 1, 0, 0, 0]) () [] ∧
    ∃ site, Chromosome.lossScan ((1 : Nat) + 1) (Chromosome.ofSites [0, 1, 0, 1, 0]).vSeq 0 1
        = some site ∧
      site < (Chromosome.ofSites [0, 1, 0, 1, 0]).vSeq.length ∧
      Chromosome.lossScanReads ((1 : Nat) + 1) (Chromosome.ofSites [0, 1, 0, 1, 0]).vSeq 0 1
        = List.range (site + 1) := by
  have hb : Binary (Chromosome.ofSites [0, 1, 0, 1, 0]).vSeq := by
    simp [Binary, Chromosome.ofSites]
  obtain ⟨site, a1, a2, a3, _⟩ :=
    (Chromosome.loss_scan_in_bounds (Chromosome.ofSites [0, 1, 0, 1, 0]) hb 1
      (by decide) []).1
  exact ⟨hb, by decide, by decide, by decide, site, a1, a2, a3⟩

/-! ## The regulation of the transposition -/

/-- The exchange of the suffixes, site by site. -/
theorem swapSuffix_getElem? (l : Nat) (p : Chromosome × Chromosome)
    (h : p.1.vSeq.length = p.2.vSeq.length) (j : Nat) :
    (swapSuffix l p).1.vSeq[j]? = (if j < l then p.1.vSeq[j]? else p.2.vSeq[j]?) ∧
    (swapSuffix l p).2.vSeq[j]? = (if j < l then p.2.vSeq[j]? else p.1.vSeq[j]?) := by
  simp only [swapSuffix]
  exact ⟨getElem?_swap _ _ h l j, getElem?_swap _ _ h.symm l j⟩

/-- After the crossing-overs at `loci`, site `j` of the two chromosomes is exchanged when the
number of loci at or before `j` is odd, and in place when it is even. -/
theorem foldl_swapSuffix_parity : ∀ (loci : List Nat) (p : Chromosome × Chromosome),
    p.1.vSeq.length = p.2.vSeq.length → ∀ j : Nat,
    ((loci.foldl (fun p l => swapSuffix l p) p).1.vSeq[j]?,
      (loci.foldl (fun p l => swapSuffix l p) p).2.vSeq[j]?)
      = if loci.countP (fun l => decide (l ≤ j)) % 2 = 1 then (p.2.vSeq[j]?, p.1.vSeq[j]?)
        else (p.1.vSeq[j]?, p.2.vSeq[j]?)
  | [], p, _, j => by simp
  | l :: loci, p, h, j => by
    have hl := swapSuffix_length p.1.vSeq.length l p rfl h.symm
    have ih := foldl_swapSuffix_parity loci (swapSuffix l p) (hl.1.trans hl.2.symm) j
    obtain ⟨e1, e2⟩ := swapSuffix_getElem? l p h j
    rw [List.foldl_cons, ih, e1, e2, List.countP_cons]
    by_cases hj : l ≤ j
    · have hlt : ¬ j < l := by omega
      by_cases hc : loci.countP (fun l => decide (l ≤ j)) % 2 = 1
      · have hc1 : ¬ (loci.countP (fun l => decide (l ≤ j)) + 1) % 2 = 1 := by omega
        simp [hlt, hj, hc, hc1]
      · have hc1 : (loci.countP (fun l => decide (l ≤ j)) + 1) % 2 = 1 := by omega
        simp [hlt, hj, hc, hc1]
    · have hlt : j < l := by omega
      simp [hlt, hj]

/-- Two crossing-overs at the same locus cancel. -/
theorem swapSuffix_swapSuffix (l : Nat) (p : Chromosome × Chromosome)
    (h : p.1.vSeq.length = p.2.vSeq.length) : swapSuffix l (swapSuffix l p) = p := by
  have hl := swapSuffix_length p.1.vSeq.length l p rfl h.symm
  have e1 : (swapSuffix l (swapSuffix l p)).1.vSeq = p.1.vSeq := by
    apply List.ext_getElem?
    intro j
    rw [(swapSuffix_getElem? l _ (hl.1.trans hl.2.symm) j).1,
      (swapSuffix_getElem? l p h j).1, (swapSuffix_getElem? l p h j).2]
    split_ifs <;> rfl
  have e2 : (swapSuffix l (swapSuffix l p)).2.vSeq = p.2.vSeq := by
    apply List.ext_getElem?
    intro j
    rw [(swapSuffix_getElem? l _ (hl.1.trans hl.2.symm) j).2,
      (swapSuffix_getElem? l p h j).1, (swapSuffix_getElem? l p h j).2]
    split_ifs <;> rfl
  obtain ⟨A, B⟩ := p
  cases A
  cases B
  simp only [swapSuffix] at e1 e2 ⊢
  rw [e1, e2]

/-- C31.  For two chromosomes `A`, `B` of `N = nbSitesPerChr` sites and crossing-over loci
`loci` of `[0, N)`, `Individual::recombine` on the draw of these crossing-overs returns two
chromosomes of `N` sites such that, at every site `j < N`, they hold `(B[j], A[j])` when the
number of loci `<= j` in the list is odd and `(A[j], B[j])` when it is even.  The result is
the same for every list with the same loci in another order, and the same when two more
crossing-overs at one locus `l` are drawn. -/
theorem Individual.recombine_parity (ind : Individual) (d : Int) (A B : Chromosome)
    (loci : List Nat) (rest : List Draw) (hA : A.vSeq.length = ind.nbSitesPerChr)
    (hB : B.vSeq.length = ind.nbSitesPerChr) (h : ∀ l ∈ loci, l < ind.nbSitesPerChr)
    (hd : 0 < d ∨ loci = []) (hlen : loci.length < 2 ^ 31) :
    ∃ A1 B1 : Chromosome,
      ind.recombine d A B (Draw.poisson loci.length :: (loci.map Draw.uniformInt ++ rest))
        = Res.ret (A1, B1) () rest ∧
      A1.vSeq.length = ind.nbSitesPerChr ∧ B1.vSeq.length = ind.nbSitesPerChr ∧
      (∀ j : Nat, j < ind.nbSitesPerChr →
        (A1.vSeq[j]?, B1.vSeq[j]?)
          = if loci.countP (fun l => decide (l ≤ j)) % 2 = 1 then (B.vSeq[j]?, A.vSeq[j]?)
            else (A.vSeq[j]?, B.vSeq[j]?)) ∧
      (∀ loci1 : List Nat, loci.Perm loci1 →
        ind.recombine d A B (Draw.poisson loci1.length :: (loci1.map Draw.uniformInt ++ rest))
          = Res.ret (A1, B1) () rest) ∧
      (∀ l : Nat, l < ind.nbSitesPerChr → 0 < d → loci.length + 2 < 2 ^ 31 →
        ind.recombine d A B
            (Draw.poisson (l :: l :: loci).length ::
              ((l :: l :: loci).map Draw.uniformInt ++ rest))
          = Res.ret (A1, B1) () rest) := by
  have hAB : A.vSeq.length = B.vSeq.length := hA.trans hB.symm
  have hr := recombine_loci ind d rest loci A B hA hB h hd hlen
  refine ⟨_, _, hr, ?_, ?_, ?_, ?_, ?_⟩
  · have : ∀ (ls : List Nat) (p : Chromosome × Chromosome),
        p.1.vSeq.length = ind.nbSitesPerChr → p.2.vSeq.length = ind.nbSitesPerChr →
        (ls.foldl (fun p l => swapSuffix l p) p).1.vSeq.length = ind.nbSitesPerChr ∧
        (ls.foldl (fun p l => swapSuffix l p) p).2.vSeq.length = ind.nbSitesPerChr := by
      intro ls
      induction ls with
      | nil => intro p h1 h2; exact ⟨h1, h2⟩
      | cons l ls ih =>
        intro p h1 h2
        have := swapSuffix_length ind.nbSitesPerChr l p h1 h2
        exact ih _ this.1 this.2
    exact (this loci (A, B) hA hB).1
  · have : ∀ (ls : List Nat) (p : Chromosome × Chromosome),
        p.1.vSeq.length = ind.nbSitesPerChr → p.2.vSeq.length = ind.nbSitesPerChr →
        (ls.foldl (fun p l => swapSuffix l p) p).2.vSeq.length = ind.nbSitesPerChr := by
      intro ls
      induction ls with
      | nil => intro p _ h2; exact h2
      | cons l ls ih =>
        intro p h1 h2
        have := swapSuffix_length ind.nbSitesPerChr l p h1 h2
        exact ih _ this.1 this.2
    exact this loci (A, B) hA hB
  · intro j _
    exact foldl_swapSuffix_parity loci (A, B) hAB j
  · intro loci1 hp
    rw [← recombine_perm ind d rest loci loci1 A B hA hB h hp]
    exact hr
  · intro l hl hd0 hlen2
    have h2 : ∀ x ∈ l :: l :: loci, x < ind.nbSitesPerChr := by
      intro x hx
      simp only [List.mem_cons] at hx
      rcases hx with rfl | rfl | hx
      · exact hl
      · exact hl
      · exact h x hx
    rw [recombine_loci ind d rest (l :: l :: loci) A B hA hB h2 (Or.inl hd0)
      (by simp only [List.length_cons]; omega)]
    simp only [List.foldl_cons]
    rw [swapSuffix_swapSuffix l (A, B) hAB]

/-- C31 on the all-empty and the all-occupied chromosome of 10 sites, with crossing-overs at
the loci 7, 2, 5: the sites 2, 3, 4 and 7, 8, 9 are exchanged (1 or 3 loci at or before
them), the other sites are in place. -/
theorem Individual.recombine_parity_witness :
    testInd.recombine 1 testChr1 testChr2
        [Draw.poisson 3, Draw.uniformInt 7, Draw.uniformInt 2, Draw.uniformInt 5]
      = Res.ret (Chromosome.ofSites [0, 0, 1, 1, 1, 0, 0, 1, 1, 1],
                 Chromosome.ofSites [1, 1, 0, 0, 0, 1, 1, 0, 0, 0]) () [] ∧
    ∃ A1 B1 : Chromosome,
      testInd.recombine 1 testChr1 testChr2
          (Draw.poisson [7, 2, 5].length :: ([7, 2, 5].map Draw.uniformInt ++ []))
        = Res.ret (A1, B1) () [] ∧
      (∀ j : Nat, j < testInd.nbSitesPerChr →
        (A1.vSeq[j]?, B1.vSeq[j]?)
          = if [7, 2, 5].countP (fun l => decide (l ≤ j)) % 2 = 1
            then (testChr2.vSeq[j]?, testChr1.vSeq[j]?)
            else (testChr1.vSeq[j]?, testChr2.vSeq[j]?)) := by
  obtain ⟨A1, B1, h1, _, _, h4, _⟩ := Individual.recombine_parity testInd 1 testChr1 testChr2
    [7, 2, 5] [] rfl rfl (by decide) (Or.inl (by decide)) (by decide)
  exact ⟨by decide, A1, B1, h1, h4⟩

/-! ## Individual::getGamete: the loads -/

/-- The exchange of the suffixes keeps the sum of the two loads. -/
theorem swapSuffix_sum (l : Nat) (p : Chromosome × Chromosome) :
    (swapSuffix l p).1.getNbTEs + (swapSuffix l p).2.getNbTEs
      = p.1.getNbTEs + p.2.getNbTEs := by
  simp only [swapSuffix, Chromosome.getNbTEs, List.sum_append]
  have h1 := List.sum_take_add_sum_drop p.1.vSeq l
  have h2 := List.sum_take_add_sum_drop p.2.vSeq l
  omega

/-- The crossing-overs of `recombine` keep the sum of the two loads. -/
theorem recombineLoop_sum (ind : Individual) :
    ∀ (k : Nat) (A B : Chromosome) (s : List Draw) (A1 B1 : Chromosome) (u : Unit)
      (rest : List Draw), A.vSeq.length = ind.nbSitesPerChr →
      B.vSeq.length = ind.nbSitesPerChr →
      Individual.recombineLoop ind k A B s = Res.ret (A1, B1) u rest →
      A1.getNbTEs + B1.getNbTEs = A.getNbTEs + B.getNbTEs
  | 0, A, B, s, A1, B1, u, rest, _, _, h => by
    simp only [Individual.recombineLoop, Res.ret.injEq, Prod.mk.injEq] at h
    rw [← h.1.1, ← h.1.2]
  | k + 1, A, B, s, A1, B1, u, rest, hA, hB, h => by
    unfold Individual.recombineLoop at h
    split at h
    · exact absurd h (by simp)
    · split at h
      · exact absurd h (by simp)
      · split at h
        · exact absurd h (by simp)
        · next coLocus hg =>
          have hlt : coLocus < ind.nbSitesPerChr := by
            exact_mod_cast (gsl_rng_uniform_int_some hg).2
          rw [crossOver_eq_swapSuffix ind.nbSitesPerChr coLocus A B hA hB (by omega)] at h
          simp only [] at h
          have hl := swapSuffix_length ind.nbSitesPerChr coLocus (A, B) hA hB
          rw [recombineLoop_sum ind k _ _ _ A1 B1 u rest hl.1 hl.2 h]
          exact swapSuffix_sum coLocus (A, B)

/-- `Individual::recombine` keeps the sum of the two loads. -/
theorem recombine_sum (ind : Individual) (d : Int) (A B : Chromosome) (s : List Draw)
    (A1 B1 : Chromosome) (u : Unit) (rest : List Draw)
    (hA : A.vSeq.length = ind.nbSitesPerChr) (hB : B.vSeq.length = ind.nbSitesPerChr)
    (h : ind.recombine d A B s = Res.ret (A1, B1) u rest) :
    A1.getNbTEs + B1.getNbTEs = A.getNbTEs + B.getNbTEs := by
  unfold Individual.recombine at h
  split at h
  · exact absurd h (by simp)
  · split at h
    · exact absurd h (by simp)
    · split at h
      · exact recombineLoop_sum ind _ A B _ A1 B1 u rest hA hB h
      · simp only [Res.ret.injEq, Prod.mk.injEq] at h
        rw [← h.1.1, ← h.1.2]

/-- The index that `pickHomologue` returns is 0 or 1. -/
theorem pickHomologue_lt (s : List Draw) (id : Nat) (rest : List Draw)
    (h : Individual.pickHomologue s = some (id, rest)) : id < 2 := by
  unfold Individual.pickHomologue at h
  split at h
  · exact absurd h (by simp)
  · split at h
    · exact absurd h (by simp)
    · next v hg =>
      simp only [Option.some.injEq, Prod.mk.injEq] at h
      rw [← h.1]
      exact_mod_cast (gsl_rng_uniform_int_some hg).2

/-- What `getGamete` has done when it returns: the organism held four chromosomes `c0 .. c3`
first, they are now `a, b, c, e` with `(a, b)` recombined from `(c0, c1)` and `(c, e)` from
`(c2, c3)`, and the gamete is one of `a, b` followed by one of `c, e`. -/
theorem getGamete_ret (ind : Individual) (d : Int) (gamete0 : List Chromosome) (s : List Draw)
    (ind2 : Individual) (gam : List Chromosome) (u : Unit) (rest : List Draw)
    (h : ind.getGamete d gamete0 s = Res.ret (ind2, gam) u rest) :
    ∃ (c0 c1 c2 c3 a b c e : Chromosome) (tl : List Chromosome) (s1 s2 s3 : List Draw)
      (g1 g2 : Chromosome),
      ind.vChr = c0 :: c1 :: c2 :: c3 :: tl ∧
      ind2 = { ind with vChr := a :: b :: c :: e :: tl } ∧
      ind.recombine d c0 c1 s = Res.ret (a, b) () s1 ∧
      ind.recombine d c2 c3 s2 = Res.ret (c, e) () s3 ∧
      gam = [g1, g2] ∧ (g1 = a ∨ g1 = b) ∧ (g2 = c ∨ g2 = e) := by
  unfold Individual.getGamete at h
  split at h
  · next c0 c1 h0 h1 =>
    split at h
    · next a b u1 s1 hr1 =>
      simp only [] at h
      split at h
      · exact absurd h (by simp)
      · next idChr1 s2 hp1 =>
        split at h
        · next c2 c3 h2 h3 =>
          split at h
          · next c e u2 s3 hr2 =>
            split at h
            · exact absurd h (by simp)
            · next id2 s4 hp2 =>
              split at h
              · next g1 g2 hg1 hg2 =>
                simp only [Res.ret.injEq, Prod.mk.injEq] at h
                obtain ⟨⟨e1, e2⟩, _, _⟩ := h
                have hi1 := pickHomologue_lt _ _ _ hp1
                have hi2 := pickHomologue_lt _ _ _ hp2
                have hr2' : ind.recombine d c2 c3 s2 = Res.ret (c, e) () s3 :=
                  (recombine_congr ind { ind with vChr := (ind.vChr.set 0 a).set 1 b } rfl d
                    c2 c3 s2).symm.trans hr2
                match hv : ind.vChr with
                | [] => rw [hv] at h0; simp at h0
                | [_] => rw [hv] at h1; simp at h1
                | [_, _] => rw [hv] at h2; simp at h2
                | [_, _, _] => rw [hv] at h3; simp at h3
                | x0 :: x1 :: x2 :: x3 :: tl =>
                  rw [hv] at h0 h1 h2 h3 hg1 hg2
                  simp only [List.set_cons_zero, List.set_cons_succ, List.getElem?_cons_zero,
                    List.getElem?_cons_succ, Option.some.injEq] at h0 h1 h2 h3
                  subst h0 h1 h2 h3
                  refine ⟨_, _, _, _, a, b, c, e, tl, s1, s2, s3, g1, g2, rfl, ?_, hr1,
                    hr2', e2.symm, ?_, ?_⟩
                  · rw [← e1, hv]
                    rfl
                  · simp only [List.set_cons_zero, List.set_cons_succ] at hg1
                    interval_cases idChr1
                    · simp at hg1; exact Or.inl hg1.symm
                    · simp at hg1; exact Or.inr hg1.symm
                  · simp only [List.set_cons_zero, List.set_cons_succ] at hg2
                    interval_cases id2
                    · simp at hg2; exact Or.inl hg2.symm
                    · simp at hg2; exact Or.inr hg2.symm
              · exact absurd h (by simp)
          · exact absurd h (by simp)
          · exact absurd h (by simp)
          · exact absurd h (by simp)
        · exact absurd h (by simp)
    · exact absurd h (by simp)
    · exact absurd h (by simp)
    · exact absurd h (by simp)
  · exact absurd h (by simp)

/-- C32.  When `getGamete` returns on a well-formed organism, whatever the numbers of
crossing-overs and the loci drawn: the load of the pair of chromosomes 0 and 1 and the load
of the pair 2 and 3 are what they were, the total load `getNbTEs` of the organism is what it
was, and the load of the gamete returned is at most the load of the organism. -/
theorem Individual.getGamete_loads (ind : Individual) (hw : ind.WellFormed) (d : Int)
    (gamete0 : List Chromosome) (s : List Draw) (ind2 : Individual) (gam : List Chromosome)
    (rest : List Draw) (h : ind.getGamete d gamete0 s = Res.ret (ind2, gam) () rest) :
    ind2.pairLoad 0 = ind.pairLoad 0 ∧ ind2.pairLoad 1 = ind.pairLoad 1 ∧
    ind2.load = ind.load ∧ ind.getNbTEs = some ind.load ∧ ind2.getNbTEs = some ind.load ∧
    (gam.map Chromosome.getNbTEs).sum ≤ ind.load := by
  obtain ⟨h2w, h2n, _, _⟩ := getGamete_wellFormed ind hw d gamete0 s ind2 gam () rest h
  obtain ⟨c0, c1, c2, c3, a, b, c, e, tl, s1, s2, s3, g1, g2, hv, e2, hr1, hr2, hg, hg1, hg2⟩ :=
    getGamete_ret ind d gamete0 s ind2 gam () rest h
  have hv2 : ind2.vChr = a :: b :: c :: e :: tl := by rw [e2]
  have hm : ∀ x, x ∈ [c0, c1, c2, c3] → x.vSeq.length = ind.nbSitesPerChr := by
    intro x hx
    refine (hw.2 x ?_).2.1
    rw [hv]
    simp only [List.mem_cons, List.mem_singleton, List.not_mem_nil, or_false] at hx ⊢
    tauto
  have s01 := recombine_sum ind d c0 c1 s a b () s1 (hm c0 (by simp)) (hm c1 (by simp)) hr1
  have s23 := recombine_sum ind d c2 c3 s2 c e () s3 (hm c2 (by simp)) (hm c3 (by simp)) hr2
  have hnn : ∀ x ∈ ind2.vChr, 0 ≤ x.getNbTEs := fun x hx => Binary.sum_nonneg (h2w.2 x hx).2.2
  have htl : 0 ≤ (tl.map Chromosome.getNbTEs).sum := by
    apply List.sum_nonneg
    intro y hy
    obtain ⟨x, hx, rfl⟩ := List.mem_map.mp hy
    exact hnn x (by rw [hv2]; simp [hx])
  have na := hnn a (by rw [hv2]; simp)
  have nb := hnn b (by rw [hv2]; simp)
  have nc := hnn c (by rw [hv2]; simp)
  have ne := hnn e (by rw [hv2]; simp)
  have hload : ind2.load = ind.load := by
    simp only [Individual.load, hv, hv2, List.map_cons, List.sum_cons]
    omega
  refine ⟨?_, ?_, hload, getNbTEs_eq_load ind hw.1, ?_, ?_⟩
  · simp only [Individual.pairLoad, hv, hv2]
    simp
    omega
  · simp only [Individual.pairLoad, hv, hv2]
    simp
    omega
  · rw [getNbTEs_eq_load ind2 h2w.1, hload]
  · rw [hg]
    simp only [Individual.load, hv, List.map_cons, List.map_nil, List.sum_cons, List.sum_nil]
    rcases hg1 with rfl | rfl <;> rcases hg2 with rfl | rfl <;> omega

/-- C32 on `fourChrInd` (chromosomes 1 1 0, 0 0 0, 0 1 0, 1 0 1, load 5): no crossing-over in
the first pair, one at locus 1 in the second pair; the loads of the pairs stay 2 and 3 and
the gamete 0 0 0, 0 0 1 has load 1. -/
theorem Individual.getGamete_loads_witness :
    fourChrInd.WellFormed ∧ fourChrInd.pairLoad 0 = 2 ∧ fourChrInd.pairLoad 1 = 3 ∧
    fourChrInd.load = 5 ∧
    fourChrInd.getGamete 1 []
        [Draw.poisson 0, Draw.uniformInt 1, Draw.poisson 1, Draw.uniformInt 1,
         Draw.uniformInt 0]
      = Res.ret ({ fourChrInd with
                    vChr := [Chromosome.ofSites [1, 1, 0], Chromosome.ofSites [0, 0, 0],
                             Chromosome.ofSites [0, 0, 1], Chromosome.ofSites [1, 1, 0]] },
                 [Chromosome.ofSites [0, 0, 0], Chromosome.ofSites [0, 0, 1]]) () [] ∧
    Individual.pairLoad { fourChrInd with
        vChr := [Chromosome.ofSites [1, 1, 0], Chromosome.ofSites [0, 0, 0],
                 Chromosome.ofSites [0, 0, 1], Chromosome.ofSites [1, 1, 0]] } 1
      = fourChrInd.pairLoad 1 ∧
    (([Chromosome.ofSites [0, 0, 0], Chromosome.ofSites [0, 0, 1]]).map
      Chromosome.getNbTEs).sum ≤ fourChrInd.load := by
  have hw : fourChrInd.WellFormed := by
    simp [Individual.WellFormed, fourChrInd, Chromosome.ofSites, Binary]
  have hg : fourChrInd.getGamete 1 []
        [Draw.poisson 0, Draw.uniformInt 1, Draw.poisson 1, Draw.uniformInt 1,
         Draw.uniformInt 0]
      = Res.ret ({ fourChrInd with
                    vChr := [Chromosome.ofSites [1, 1, 0], Chromosome.ofSites [0, 0, 0],
                             Chromosome.ofSites [0, 0, 1], Chromosome.ofSites [1, 1, 0]] },
                 [Chromosome.ofSites [0, 0, 0], Chromosome.ofSites [0, 0, 1]]) () [] := by
    decide
  have h := Individual.getGamete_loads fourChrInd hw 1 [] _ _ _ [] hg
  exact ⟨hw, by decide, by decide, by decide, hg, h.2.1, h.2.2.2.2.2⟩

/-! ## Inheritance site by site -/

/-- After the crossing-overs of `recombine`, each site of the two chromosomes holds the two
values it held, in place or exchanged. -/
theorem recombineLoop_inherits (ind : Individual) :
    ∀ (k : Nat) (A B : Chromosome) (s : List Draw) (A1 B1 : Chromosome) (u : Unit)
      (rest : List Draw), A.vSeq.length = ind.nbSitesPerChr →
      B.vSeq.length = ind.nbSitesPerChr →
      Individual.recombineLoop ind k A B s = Res.ret (A1, B1) u rest →
      ∀ j : Nat, (A1.vSeq[j]? = A.vSeq[j]? ∧ B1.vSeq[j]? = B.vSeq[j]?) ∨
        (A1.vSeq[j]? = B.vSeq[j]? ∧ B1.vSeq[j]? = A.vSeq[j]?)
  | 0, A, B, s, A1, B1, u, rest, _, _, h => by
    simp only [Individual.recombineLoop, Res.ret.injEq, Prod.mk.injEq] at h
    rw [← h.1.1, ← h.1.2]
    exact fun j => Or.inl ⟨rfl, rfl⟩
  | k + 1, A, B, s, A1, B1, u, rest, hA, hB, h => by
    unfold Individual.recombineLoop at h
    split at h
    · exact absurd h (by simp)
    · split at h
      · exact absurd h (by simp)
      · split at h
        · exact absurd h (by simp)
        · next coLocus hg =>
          have hlt : coLocus < ind.nbSitesPerChr := by
            exact_mod_cast (gsl_rng_uniform_int_some hg).2
          rw [crossOver_eq_swapSuffix ind.nbSitesPerChr coLocus A B hA hB (by omega)] at h
          simp only [] at h
          have hl := swapSuffix_length ind.nbSitesPerChr coLocus (A, B) hA hB
          intro j
          have ih := recombineLoop_inherits ind k _ _ _ A1 B1 u rest hl.1 hl.2 h j
          obtain ⟨e1, e2⟩ := swapSuffix_getElem? coLocus (A, B) (hA.trans hB.symm) j
          rw [e1, e2] at ih
          by_cases hj : j < coLocus
          · simpa [hj] using ih
          · simp only [hj, if_false] at ih
            rcases ih with ih | ih
            · exact Or.inr ih
            · exact Or.inl ih

/-- After `Individual::recombine`, each site of the two chromosomes holds the two values it
held, in place or exchanged. -/
theorem recombine_inherits (ind : Individual) (d : Int) (A B : Chromosome) (s : List Draw)
    (A1 B1 : Chromosome) (u : Unit) (rest : List Draw)
    (hA : A.vSeq.length = ind.nbSitesPerChr) (hB : B.vSeq.length = ind.nbSitesPerChr)
    (h : ind.recombine d A B s = Res.ret (A1, B1) u rest) :
    ∀ j : Nat, (A1.vSeq[j]? = A.vSeq[j]? ∧ B1.vSeq[j]? = B.vSeq[j]?) ∨
      (A1.vSeq[j]? = B.vSeq[j]? ∧ B1.vSeq[j]? = A.vSeq[j]?) := by
  unfold Individual.recombine at h
  split at h
  · exact absurd h (by simp)
  · split at h
    · exact absurd h (by simp)
    · split at h
      · exact recombineLoop_inherits ind _ A B _ A1 B1 u rest hA hB h
      · simp only [Res.ret.injEq, Prod.mk.injEq] at h
        rw [← h.1.1, ← h.1.2]
        exact fun j => Or.inl ⟨rfl, rfl⟩

/-- The gamete of a well-formed organism: each site of its first chromosome holds the value
of chromosome 0 or of chromosome 1 of the organism at this site, each site of its second
chromosome the value of chromosome 2 or of chromosome 3. -/
theorem getGamete_inherits (ind : Individual) (hw : ind.WellFormed) (d : Int)
    (gamete0 : List Chromosome) (s : List Draw) (ind2 : Individual) (gam : List Chromosome)
    (u : Unit) (rest : List Draw) (h : ind.getGamete d gamete0 s = Res.ret (ind2, gam) u rest) :
    ∃ (c0 c1 c2 c3 g1 g2 : Chromosome) (tl : List Chromosome),
      ind.vChr = c0 :: c1 :: c2 :: c3 :: tl ∧ gam = [g1, g2] ∧
      (∀ j : Nat, g1.vSeq[j]? = c0.vSeq[j]? ∨ g1.vSeq[j]? = c1.vSeq[j]?) ∧
      (∀ j : Nat, g2.vSeq[j]? = c2.vSeq[j]? ∨ g2.vSeq[j]? = c3.vSeq[j]?) := by
  obtain ⟨c0, c1, c2, c3, a, b, c, e, tl, s1, s2, s3, g1, g2, hv, _, hr1, hr2, hg, hg1, hg2⟩ :=
    getGamete_ret ind d gamete0 s ind2 gam u rest h
  have hm : ∀ x, x ∈ [c0, c1, c2, c3] → x.vSeq.length = ind.nbSitesPerChr := by
    intro x hx
    refine (hw.2 x ?_).2.1
    rw [hv]
    simp only [List.mem_cons, List.mem_singleton, List.not_mem_nil, or_false] at hx ⊢
    tauto
  have i01 := recombine_inherits ind d c0 c1 s a b () s1 (hm c0 (by simp)) (hm c1 (by simp)) hr1
  have i23 := recombine_inherits ind d c2 c3 s2 c e () s3 (hm c2 (by simp)) (hm c3 (by simp))
    hr2
  refine ⟨c0, c1, c2, c3, g1, g2, tl, hv, hg, ?_, ?_⟩
  · intro j
    rcases hg1 with rfl | rfl <;> rcases i01 j with ⟨x, y⟩ | ⟨x, y⟩
    · exact Or.inl x
    · exact Or.inr x
    · exact Or.inr y
    · exact Or.inl y
  · intro j
    rcases hg2 with rfl | rfl <;> rcases i23 j with ⟨x, y⟩ | ⟨x, y⟩
    · exact Or.inl x
    · exact Or.inr x
    · exact Or.inr y
    · exact Or.inl y

/-- A copy by `Individual::operator=` of a well-formed organism is well formed. -/
theorem assign_wellFormed (o m : Individual) (hw : m.WellFormed) : (o.assign m).WellFormed :=
  hw

/-- An offspring of a well-formed population carries no element at a locus, the site `j` of
the pair `p` of chromosomes, at which no organism of the population carries one. -/
theorem offspring_empty_locus (pop : Population) (hw : pop.WellFormed) (raw : Individual)
    (c : Individual) (p j : Nat) (hp : p < 2)
    (he : ∀ ind ∈ pop.vInd, ind.occAt (2 * p) j = 0 ∧ ind.occAt (2 * p + 1) j = 0)
    (h : pop.IsOffspring raw c) : c.occAt (2 * p) j = 0 ∧ c.occAt (2 * p + 1) j = 0 := by
  obtain ⟨i1, i2, m1, m2, s1, s2, r1, r2, q1, q2, gam1, gam2, _, _, _, hm1, hm2, hg1, hg2, hf⟩ := h
  have key : ∀ (m : Individual) (s r : List Draw) (q : Individual) (gam : List Chromosome),
      m ∈ pop.vInd →
      ((Individual.ctor raw).assign m).getGamete pop.totalMapDist [] s = Res.ret (q, gam) () r →
      ∃ g : Chromosome, gam[p]? = some g ∧ g.vSeq[j]? ≠ some 1 := by
    intro m s r q gam hm hg
    obtain ⟨c0, c1, c2, c3, g1, g2, tl, hv, hgam, h01, h23⟩ :=
      getGamete_inherits _ (assign_wellFormed (Individual.ctor raw) m (hw.2 m hm).1)
        pop.totalMapDist [] s q gam () r hg
    have hv1 : m.vChr = c0 :: c1 :: c2 :: c3 :: tl := hv
    obtain ⟨e0, e1⟩ := he m hm
    simp only [Individual.occAt, hv1] at e0 e1
    interval_cases p
    · simp only [Nat.mul_zero, Nat.zero_add, List.getElem?_cons_zero, List.getElem?_cons_succ]
        at e0 e1
      refine ⟨g1, by rw [hgam]; rfl, ?_⟩
      intro h1
      rcases h01 j with x | x
      · rw [x] at h1; rw [if_pos h1] at e0; exact absurd e0 (by decide)
      · rw [x] at h1; rw [if_pos h1] at e1; exact absurd e1 (by decide)
    · simp only [Nat.mul_one, List.getElem?_cons_zero, List.getElem?_cons_succ] at e0 e1
      refine ⟨g2, by rw [hgam]; rfl, ?_⟩
      intro h1
      rcases h23 j with x | x
      · rw [x] at h1; rw [if_pos h1] at e0; exact absurd e0 (by decide)
      · rw [x] at h1; rw [if_pos h1] at e1; exact absurd e1 (by decide)
  obtain ⟨ga, hga, na⟩ := key m1 s1 r1 q1 gam1 (List.getElem?_mem hm1) hg1
  obtain ⟨gb, hgb, nb⟩ := key m2 s2 r2 q2 gam2 (List.getElem?_mem hm2) hg2
  unfold Individual.fecundation at hf
  split at hf
  · next g10 g20 g11 g21 a0 b0 a1 b1 =>
    injection hf with hf
    rw [← hf]
    simp only [Individual.occAt, Individual.ctor, Individual.reset, List.nil_append]
    interval_cases p
    · rw [a0] at hga
      rw [b0] at hgb
      injection hga with hga
      injection hgb with hgb
      subst hga hgb
      simp [na, nb]
    · rw [a1] at hga
      rw [b1] at hgb
      injection hga with hga
      injection hgb with hgb
      subst hga hgb
      simp [na, nb]
  · exact absurd hf (by simp)

/-- C33.  For every well-formed parent and every stream on which `getGamete` returns: the
parent held chromosomes `c0, c1, c2, c3` before the call, the gamete is `g1, g2`, and at
every site `j` the value of `g1` is the value of `c0` or of `c1` at `j`, the value of `g2` is
the value of `c2` or of `c3` at `j`; so a site that is 0 on both homologues is 0 in the
gamete.  And in a well-formed population, a locus (site `j` of the pair `p` of chromosomes)
at which no organism carries an element is still empty in every organism of the generation
that `makeNewGeneration` returns. -/
theorem Individual.sitewise_inheritance :
    (∀ (ind : Individual) (d : Int) (gamete0 : List Chromosome) (s : List Draw)
      (ind2 : Individual) (gam : List Chromosome) (rest : List Draw), ind.WellFormed →
      ind.getGamete d gamete0 s = Res.ret (ind2, gam) () rest →
      ∃ (c0 c1 c2 c3 g1 g2 : Chromosome) (tl : List Chromosome),
        ind.vChr = c0 :: c1 :: c2 :: c3 :: tl ∧ gam = [g1, g2] ∧
        (∀ j : Nat, g1.vSeq[j]? = c0.vSeq[j]? ∨ g1.vSeq[j]? = c1.vSeq[j]?) ∧
        (∀ j : Nat, g2.vSeq[j]? = c2.vSeq[j]? ∨ g2.vSeq[j]? = c3.vSeq[j]?) ∧
        (∀ j : Nat, c0.vSeq[j]? = some 0 → c1.vSeq[j]? = some 0 → g1.vSeq[j]? = some 0) ∧
        (∀ j : Nat, c2.vSeq[j]? = some 0 → c3.vSeq[j]? = some 0 → g2.vSeq[j]? = some 0)) ∧
    (∀ (pow : ℚ → ℚ → ℚ) (pop : Population) (raw : Individual) (s : List Draw)
      (pop1 : Population) (rest : List Draw) (p j : Nat), pop.WellFormed → p < 2 →
      (∀ ind ∈ pop.vInd, ind.occAt (2 * p) j = 0 ∧ ind.occAt (2 * p + 1) j = 0) →
      pop.makeNewGeneration pow raw s = Res.ret pop1 () rest →
      ∀ ind ∈ pop1.vInd, ind.occAt (2 * p) j = 0 ∧ ind.occAt (2 * p + 1) j = 0) := by
  constructor
  · intro ind d gamete0 s ind2 gam rest hw h
    obtain ⟨c0, c1, c2, c3, g1, g2, tl, hv, hg, h01, h23⟩ :=
      getGamete_inherits ind hw d gamete0 s ind2 gam () rest h
    refine ⟨c0, c1, c2, c3, g1, g2, tl, hv, hg, h01, h23, ?_, ?_⟩
    · intro j e0 e1
      rcases h01 j with x | x
      · rw [x, e0]
      · rw [x, e1]
    · intro j e0 e1
      rcases h23 j with x | x
      · rw [x, e0]
      · rw [x, e1]
  · intro pow pop raw s pop1 rest p j hw hp he h
    exact makeNewGeneration_all pow pop raw
      (fun c => c.occAt (2 * p) j = 0 ∧ c.occAt (2 * p + 1) j = 0)
      (fun s1 c v r1 hm => offspring_empty_locus pop hw raw c p j hp he
        (makeCandidate_offspring pow pop raw s1 c v r1 hm).1)
      (fun o n hn => hn) s pop1 () rest h

/-- C33 on `fourChrInd`, whose chromosomes 0 and 1 are 1 1 0 and 0 0 0: site 2 is 0 in the
first chromosome of the gamete.  And on `twoPop`, where no organism carries an element on
the pair 1: after `makeNewGeneration`, site 0 of the pair 1 is empty in every organism. -/
theorem Individual.sitewise_inheritance_witness :
    fourChrInd.WellFormed ∧
    fourChrInd.getGamete 1 []
        [Draw.poisson 1, Draw.uniformInt 1, Draw.uniformInt 0, Draw.poisson 0,
         Draw.uniformInt 0]
      = Res.ret ({ fourChrInd with
                    vChr := [Chromosome.ofSites [1, 0, 0], Chromosome.ofSites [0, 1, 0],
                             Chromosome.ofSites [0, 1, 0], Chromosome.ofSites [1, 0, 1]] },
                 [Chromosome.ofSites [1, 0, 0], Chromosome.ofSites [0, 1, 0]]) () [] ∧
    (∃ (c0 c1 c2 c3 g1 g2 : Chromosome) (tl : List Chromosome),
      fourChrInd.vChr = c0 :: c1 :: c2 :: c3 :: tl ∧
      [Chromosome.ofSites [1, 0, 0], Chromosome.ofSites [0, 1, 0]] = [g1, g2] ∧
      (c0.vSeq[2]? = some 0 → c1.vSeq[2]? = some 0 → g1.vSeq[2]? = some 0)) ∧
    twoPop.WellFormed ∧
    (∀ ind ∈ Population.vInd { twoPop with vInd := [emptyChild, emptyChild] },
      ind.occAt (2 * 1) 0 = 0 ∧ ind.occAt (2 * 1 + 1) 0 = 0) := by
  have hw : fourChrInd.WellFormed := by
    simp [Individual.WellFormed, fourChrInd, Chromosome.ofSites, Binary]
  have hg : fourChrInd.getGamete 1 []
        [Draw.poisson 1, Draw.uniformInt 1, Draw.uniformInt 0, Draw.poisson 0,
         Draw.uniformInt 0]
      = Res.ret ({ fourChrInd with
                    vChr := [Chromosome.ofSites [1, 0, 0], Chromosome.ofSites [0, 1, 0],
                             Chromosome.ofSites [0, 1, 0], Chromosome.ofSites [1, 0, 1]] },
                 [Chromosome.ofSites [1, 0, 0], Chromosome.ofSites [0, 1, 0]]) () [] := by
    decide
  have hc : carrier.WellFormed := by
    simp [Individual.WellFormed, carrier, Chromosome.ofSites, Binary]
  have hpw : twoPop.WellFormed := by
    refine ⟨rfl, ?_⟩
    intro o ho
    simp only [twoPop, List.mem_cons, List.mem_singleton, List.not_mem_nil, or_false,
      or_self] at ho
    subst ho
    exact ⟨hc, rfl, rfl⟩
  obtain ⟨t1, t2⟩ := Individual.sitewise_inheritance
  obtain ⟨c0, c1, c2, c3, g1, g2, tl, a1, a2, _, _, a5, _⟩ := t1 fourChrInd 1 [] _ _ _ [] hw hg
  refine ⟨hw, hg, ⟨c0, c1, c2, c3, g1, g2, tl, a1, a2, a5 2⟩, hpw, ?_⟩
  refine t2 (fun x _ => x) twoPop carrier _ _ [] 1 0 hpw (by decide) ?_ twoPop_makeNewGeneration
  intro o ho
  simp only [twoPop, List.mem_cons, List.mem_singleton, List.not_mem_nil, or_false,
    or_self] at ho
  subst ho
  exact ⟨by decide, by decide⟩

/-! ## Individual::loss: more losses drawn than elements -/

/-- The sum of a vector is the sum of its entries over the indices. -/
theorem sum_eq_sum_range : ∀ (l : List Int),
    l.sum = ∑ i in Finset.range l.length, (l[i]?).getD 0
  | [] => by simp
  | x :: l => by
    rw [List.length_cons, Finset.sum_range_succ', List.sum_cons, sum_eq_sum_range l]
    simp only [List.getElem?_cons_succ, List.getElem?_cons_zero, Option.getD_some]
    ring

/-- The load of a chromosome of binary sites is the number of its occupied sites. -/
theorem getNbTEs_eq_sum_range (c : Chromosome) (hb : Binary c.vSeq) :
    c.getNbTEs = ∑ s in Finset.range c.vSeq.length,
      (if c.vSeq[s]? = some 1 then (1 : Int) else 0) := by
  unfold Chromosome.getNbTEs
  rw [sum_eq_sum_range]
  apply Finset.sum_congr rfl
  intro s hs
  have hlt : s < c.vSeq.length := Finset.mem_range.1 hs
  rw [List.getElem?_eq_getElem hlt]
  rcases hb _ (List.getElem_mem hlt) with h | h <;> simp [h]

/-- A sum over `P * N` indices, pair by pair. -/
theorem sum_range_mul (f : Nat → Nat → Int) (N : Nat) : ∀ P : Nat,
    ∑ j in Finset.range (P * N), f (j / N) (j % N)
      = ∑ p in Finset.range P, ∑ s in Finset.range N, f p s
  | 0 => by simp
  | P + 1 => by
    rw [Finset.sum_range_succ, ← sum_range_mul f N P, Nat.succ_mul, Finset.sum_range_add]
    congr 1
    apply Finset.sum_congr rfl
    intro s hs
    have hlt : s < N := Finset.mem_range.1 hs
    have hN : 0 < N := by omega
    have e1 : (P * N + s) / N = P := by
      rw [Nat.mul_comm, Nat.mul_add_div hN, Nat.div_eq_of_lt hlt, Nat.add_zero]
    have e2 : (P * N + s) % N = s := by
      rw [Nat.mul_comm, Nat.mul_add_mod, Nat.mod_eq_of_lt hlt]
    rw [e1, e2]

/-- A sum over `2 * P` chromosomes, pair by pair. -/
theorem sum_range_pairs (g : Nat → Int) : ∀ P : Nat,
    ∑ chr in Finset.range (2 * P), g chr
      = ∑ p in Finset.range P, (g (2 * p) + g (2 * p + 1))
  | 0 => by simp
  | P + 1 => by
    rw [show 2 * (P + 1) = 2 * P + 1 + 1 by ring, Finset.sum_range_succ, Finset.sum_range_succ,
      sum_range_pairs g P, Finset.sum_range_succ]
    ring

/-- The load of a well-formed organism is the sum of the occupancies of its chromosomes at
their sites. -/
theorem load_eq_sum_occAt (ind : Individual) (hw : ind.WellFormed) :
    ind.load = ∑ chr in Finset.range ind.nbChr, ∑ s in Finset.range ind.nbSitesPerChr,
      ind.occAt chr s := by
  unfold Individual.load
  rw [sum_eq_sum_range, List.length_map, hw.1]
  apply Finset.sum_congr rfl
  intro chr hchr
  have hlt : chr < ind.vChr.length := by rw [hw.1]; exact Finset.mem_range.1 hchr
  obtain ⟨_, w2, w3⟩ := hw.2 _ (List.getElem_mem hlt)
  simp only [List.getElem?_map, List.getElem?_eq_getElem hlt, Option.map_some',
    Option.getD_some, Individual.occAt]
  rw [getNbTEs_eq_sum_range _ w3, w2]

/-- The occupancies that `getOccPerLocus` fills into a vector of zeros add up to the load. -/
theorem getOccPerLocus_sum_spec (ind : Individual) (hw : ind.WellFormed) (P : Nat)
    (heven : ind.nbChr = 2 * P) :
    ∃ out : List Int,
      ind.getOccPerLocus (List.replicate (P * ind.nbSitesPerChr) 0) = some out ∧
      out.length = P * ind.nbSitesPerChr ∧ out.sum = ind.load := by
  obtain ⟨out, e, hl, pt⟩ := getOccPerLocus_spec ind hw P heven
    (List.replicate (P * ind.nbSitesPerChr) 0) (by simp)
  rw [List.length_replicate] at hl
  refine ⟨out, e, hl, ?_⟩
  rw [sum_eq_sum_range, hl, load_eq_sum_occAt ind hw, heven,
    sum_range_pairs (fun chr => ∑ s in Finset.range ind.nbSitesPerChr, ind.occAt chr s) P]
  simp only [← Finset.sum_add_distrib]
  rw [← sum_range_mul (fun p s => ind.occAt (2 * p) s + ind.occAt (2 * p + 1) s)
    ind.nbSitesPerChr P]
  apply Finset.sum_congr rfl
  intro j hj
  have hlt : j < P * ind.nbSitesPerChr := Finset.mem_range.1 hj
  rw [pt j hlt, List.getElem?_replicate, if_pos hlt]
  simp

/-- C35.  For every well-formed organism of 4 chromosomes of `N` sites, `getOccPerLocus` on
the vector of `2 * N` zeros returns a vector of `2 * N` entries whose sum is the load
`getNbTEs()` of the organism. -/
theorem Individual.getOccPerLocus_sum (ind : Individual) (hw : ind.WellFormed)
    (h4 : ind.nbChr = 4) :
    ∃ out : List Int,
      ind.getOccPerLocus (List.replicate (2 * ind.nbSitesPerChr) 0) = some out ∧
      out.length = 2 * ind.nbSitesPerChr ∧ ind.getNbTEs = some out.sum := by
  obtain ⟨out, e, hl, hs⟩ := getOccPerLocus_sum_spec ind hw 2 (by rw [h4])
  exact ⟨out, e, hl, by rw [hs]; exact getNbTEs_eq_load ind hw.1⟩

/-- C35 on the organism 1 0, 1 0, 0 1, 0 0: the occupancies 2, 0, 0, 1 add up to the
load 3. -/
theorem Individual.getOccPerLocus_sum_witness :
    occInd.WellFormed ∧ occInd.getOccPerLocus [0, 0, 0, 0] = some [2, 0, 0, 1] ∧
    occInd.getNbTEs = some 3 ∧
    ∃ out : List Int,
      occInd.getOccPerLocus (List.replicate (2 * occInd.nbSitesPerChr) 0) = some out ∧
      out.length = 2 * occInd.nbSitesPerChr ∧ occInd.getNbTEs = some out.sum := by
  have hw : occInd.WellFormed := by
    simp [Individual.WellFormed, occInd, Chromosome.ofSites, Binary]
  exact ⟨hw, by decide, by decide, Individual.getOccPerLocus_sum occInd hw rfl⟩

/-! ## The proportion of empty loci and the extinction -/

/-- The redraw loop of `sampleCouple` never exits. -/
theorem sampleCoupleLoop_ne_exit (pop : Population) (idPar1 : Nat) :
    ∀ (s : List Draw) (st : Unit), Population.sampleCoupleLoop pop idPar1 s ≠ Res.exit st
  | [], st => by simp [Population.sampleCoupleLoop]
  | d :: s, st => by
    unfold Population.sampleCoupleLoop
    split
    · simp
    · split
      · exact sampleCoupleLoop_ne_exit pop idPar1 s st
      · simp

/-- `sampleCouple` never exits. -/
theorem sampleCouple_ne_exit (pop : Population) (p1 p2 : Individual) (s : List Draw)
    (st : Individual × Individual) : pop.sampleCouple p1 p2 s ≠ Res.exit st := by
  unfold Population.sampleCouple
  split
  · simp
  · split
    · simp
    · split
      · simp
      · split
        · split <;> simp
        · next st1 he => exact absurd he (sampleCoupleLoop_ne_exit pop _ _ st1)
        · simp
        · simp

/-- The loop over the crossing-overs never exits. -/
theorem recombineLoop_ne_exit (ind : Individual) :
    ∀ (k : Nat) (A B : Chromosome) (s : List Draw) (st : Chromosome × Chromosome),
      Individual.recombineLoop ind k A B s ≠ Res.exit st
  | 0, A, B, s, st => by simp [Individual.recombineLoop]
  | k + 1, A, B, s, st => by
    unfold Individual.recombineLoop
    split
    · simp
    · split
      · simp
      · split
        · simp
        · split
          · simp
          · exact recombineLoop_ne_exit ind k _ _ _ st

/-- `Individual::recombine` never exits. -/
theorem recombine_ne_exit (ind : Individual) (d : Int) (A B : Chromosome) (s : List Draw)
    (st : Chromosome × Chromosome) : ind.recombine d A B s ≠ Res.exit st := by
  unfold Individual.recombine
  split
  · simp
  · split
    · simp
    · split
      · exact recombineLoop_ne_exit ind _ A B _ st
      · simp

/-- `Individual::getGamete` never exits. -/
theorem getGamete_ne_exit (ind : Individual) (d : Int) (gamete0 : List Chromosome)
    (s : List Draw) (st : Individual × List Chromosome) :
    ind.getGamete d gamete0 s ≠ Res.exit st := by
  unfold Individual.getGamete
  split
  · split
    · simp only []
      split
      · simp
      · split
        · split
          · split
            · simp
            · split <;> simp
          · next x y he => exact absurd he (recombine_ne_exit _ d _ _ _ (x, y))
          · simp
          · simp
        · simp
    · next x y he => exact absurd he (recombine_ne_exit ind d _ _ s (x, y))
    · simp
    · simp
  · simp

/-- `Individual::isViable` never exits. -/
theorem isViable_ne_exit (pow : ℚ → ℚ → ℚ) (ind : Individual) (s : List Draw)
    (st : Individual) : ind.isViable pow s ≠ Res.exit st := by
  unfold Individual.isViable
  split
  · simp
  · split
    · simp
    · split
      · simp
      · split
        · simp
        · split <;> simp

/-- No turn of the loop of `makeNewGeneration` exits. -/
theorem makeCandidate_ne_exit (pow : ℚ → ℚ → ℚ) (pop : Population) (raw : Individual)
    (s : List Draw) : pop.makeCandidate pow raw s ≠ Candidate.exit := by
  unfold Population.makeCandidate
  split
  · split
    · split
      · split
        · simp
        · split
          · simp
          · next st he => exact absurd he (isViable_ne_exit pow _ _ st)
          · simp
          · simp
      · next st he => exact absurd he (getGamete_ne_exit _ _ _ _ st)
      · simp
      · simp
    · next st he => exact absurd he (getGamete_ne_exit _ _ _ _ st)
    · simp
    · simp
  · next st he => exact absurd he (sampleCouple_ne_exit pop _ _ s st)
  · simp
  · simp

/-- The loop of `makeNewGeneration` never exits. -/
theorem makeNewGenerationLoop_ne_exit (pow : ℚ → ℚ → ℚ) (pop : Population) (raw : Individual) :
    ∀ (fuel i : Nat) (vNewInd : List Individual) (s : List Draw) (st : List Individual),
      Population.makeNewGenerationLoop pow pop raw fuel i vNewInd s ≠ Res.exit st
  | 0, i, vNewInd, s, st => by simp [Population.makeNewGenerationLoop]
  | fuel + 1, i, vNewInd, s, st => by
    unfold Population.makeNewGenerationLoop
    split
    · split
      · split
        · exact makeNewGenerationLoop_ne_exit pow pop raw fuel (i + 1) _ _ st
        · exact makeNewGenerationLoop_ne_exit pow pop raw fuel i _ _ st
      · next he => exact absurd he (makeCandidate_ne_exit pow pop raw s)
      · simp
      · simp
    · simp

/-- A candidate of `makeNewGeneration` in a well-formed population satisfies the invariant of
the operators and has the `nbSitesPerChr` of the population. -/
theorem makeCandidate_core (pow : ℚ → ℚ → ℚ) (pop : Population) (hw : pop.WellFormed)
    (raw : Individual) (s : List Draw) (ind : Individual) (viable : Bool) (rest : List Draw)
    (h : pop.makeCandidate pow raw s = Candidate.made ind viable rest) :
    ind.Core ∧ ind.nbSitesPerChr = pop.nbSitesPerChr := by
  obtain ⟨⟨i1, i2, m1, m2, s1, s2, r1, r2, q1, q2, gam1, gam2, _, _, _, hm1, hm2, hg1, hg2,
    hf⟩, _⟩ := makeCandidate_offspring pow pop raw s ind viable rest h
  obtain ⟨w1, _, n1⟩ := hw.2 m1 (List.getElem?_mem hm1)
  obtain ⟨w2, _, n2⟩ := hw.2 m2 (List.getElem?_mem hm2)
  obtain ⟨a1, _, a3, a4⟩ := getGamete_wellFormed _
    (assign_wellFormed (Individual.ctor raw) m1 w1) _ _ _ q1 gam1 () r1 hg1
  obtain ⟨b1, _, b3, b4⟩ := getGamete_wellFormed _
    (assign_wellFormed (Individual.ctor raw) m2 w2) _ _ _ q2 gam2 () r2 hg2
  have e1 : q1.nbSitesPerChr = pop.nbSitesPerChr := a3.trans n1
  have e2 : q2.nbSitesPerChr = pop.nbSitesPerChr := b3.trans n2
  obtain ⟨child, c1, c2, c3⟩ := fecundation_core (Individual.ctor raw) rfl pop.nbSitesPerChr
    gam1 gam2 (getGamete_length _ _ _ _ q1 gam1 r1 hg1) (getGamete_length _ _ _ _ q2 gam2 r2 hg2)
    (fun c hc => by rw [← e1]; exact a1.2 c (a4 c hc))
    (fun c hc => by rw [← e2]; exact b1.2 c (b4 c hc))
    pop.zygoteSelection pop.selMult pop.selExp (pop.verbose - 1)
  rw [hf] at c1
  injection c1 with c1
  subst c1
  exact ⟨c2, c3⟩

/-- C37.  In a well-formed population with `nbDiploids >= 2` and `nbChrPerInd = 4`: the
vector that the loop of `makeNewGeneration` hands to `setIndividuals` holds exactly
`nbDiploids` organisms, its first organism (every organism of it) has `nbChr = 4`, 4
chromosomes of `nbSitesPerChr` sites and the `nbSitesPerChr` of the population, and
`setIndividuals` returns on it; no part of `makeNewGeneration` exits, on any stream. -/
theorem Population.setIndividuals_exit_unreachable (pow : ℚ → ℚ → ℚ) (pop : Population)
    (raw : Individual) (hw : pop.WellFormed) (h2 : 2 ≤ pop.nbDiploids)
    (h4 : pop.nbChrPerInd = 4) (s : List Draw) :
    (∀ (fuel : Nat) (vNewInd : List Individual) (rest : List Draw),
      Population.makeNewGenerationLoop pow pop raw fuel 0 [] s = Res.ret vNewInd () rest →
      vNewInd.length = pop.nbDiploids ∧
      (∀ x ∈ vNewInd, x.nbChr = pop.nbChrPerInd ∧ x.vChr.length = 4 ∧
        x.nbSitesPerChr = pop.nbSitesPerChr ∧
        ∀ c ∈ x.vChr, c.nbSites = pop.nbSitesPerChr ∧ c.vSeq.length = pop.nbSitesPerChr) ∧
      (∃ ind0, vNewInd[0]? = some ind0 ∧ ind0.nbChr = pop.nbChrPerInd ∧
        ind0.nbSitesPerChr = pop.nbSitesPerChr) ∧
      pop.setIndividuals vNewInd rest
        = Res.ret { pop with vInd := assignVector pop.vInd vNewInd } () rest) ∧
    (∀ st, pop.makeNewGeneration pow raw s ≠ Res.exit st) := by
  have key : ∀ (fuel : Nat) (vNewInd : List Individual) (rest : List Draw),
      Population.makeNewGenerationLoop pow pop raw fuel 0 [] s = Res.ret vNewInd () rest →
      vNewInd.length = pop.nbDiploids ∧
      (∀ x ∈ vNewInd, x.Core ∧ x.nbSitesPerChr = pop.nbSitesPerChr) := by
    intro fuel vNewInd rest h
    have hlen := makeNewGenerationLoop_size pow pop raw fuel 0 [] s vNewInd rest (by omega) h
    simp only [List.length_nil, Nat.add_zero, Nat.zero_add] at hlen
    exact ⟨hlen, makeNewGenerationLoop_all pow pop raw
      (fun x => x.Core ∧ x.nbSitesPerChr = pop.nbSitesPerChr)
      (fun s1 c v r1 hm => makeCandidate_core pow pop hw raw s1 c v r1 hm)
      fuel 0 [] s vNewInd () rest (by simp) h⟩
  have hset : ∀ (fuel : Nat) (vNewInd : List Individual) (rest : List Draw),
      Population.makeNewGenerationLoop pow pop raw fuel 0 [] s = Res.ret vNewInd () rest →
      (∃ ind0, vNewInd[0]? = some ind0 ∧ ind0.nbChr = pop.nbChrPerInd ∧
        ind0.nbSitesPerChr = pop.nbSitesPerChr) ∧
      pop.setIndividuals vNewInd rest
        = Res.ret { pop with vInd := assignVector pop.vInd vNewInd } () rest := by
    intro fuel vNewInd rest h
    obtain ⟨hlen, hall⟩ := key fuel vNewInd rest h
    have h0 : 0 < vNewInd.length := by omega
    have e0 := List.getElem?_eq_getElem h0
    obtain ⟨c0, n0⟩ := hall _ (List.getElem_mem h0)
    have hc : vNewInd[0].nbChr = pop.nbChrPerInd := by rw [c0.1, h4]
    refine ⟨⟨_, e0, hc, n0⟩, ?_⟩
    simp only [Population.setIndividuals, e0, hlen, hc, n0]
    simp
  constructor
  · intro fuel vNewInd rest h
    obtain ⟨hlen, hall⟩ := key fuel vNewInd rest h
    obtain ⟨a, b⟩ := hset fuel vNewInd rest h
    refine ⟨hlen, ?_, a, b⟩
    intro x hx
    obtain ⟨c, n⟩ := hall x hx
    refine ⟨by rw [c.1, h4], c.2.1, n, ?_⟩
    intro ch hch
    rw [← n]
    exact ⟨(c.2.2.1 ch hch).1, (c.2.2.1 ch hch).2.1⟩
  · intro st h
    unfold Population.makeNewGeneration at h
    split at h
    · next vNewInd u1 s1 hl =>
      rw [(hset _ vNewInd s1 hl).2] at h
      exact absurd h (by simp)
    · next st1 he => exact absurd he (makeNewGenerationLoop_ne_exit pow pop raw _ 0 [] s st1)
    · exact absurd h (by simp)
    · exact absurd h (by simp)

/-- C37 on `twoPop`: on a stream whose first candidate is rejected and whose next two are
accepted, `setIndividuals` receives 2 organisms and `makeNewGeneration` returns. -/
theorem Population.setIndividuals_exit_unreachable_witness :
    twoPop.WellFormed ∧ 2 ≤ twoPop.nbDiploids ∧ twoPop.nbChrPerInd = 4 ∧
    twoPop.makeNewGeneration (fun x _ => x) carrier
        (candidateDraws 0 ++ (candidateDraws 1 ++ (candidateDraws 1 ++ [])))
      = Res.ret { twoPop with vInd := [emptyChild, emptyChild] } () [] ∧
    ∀ st, twoPop.makeNewGeneration (fun x _ => x) carrier
        (candidateDraws 0 ++ (candidateDraws 1 ++ (candidateDraws 1 ++ []))) ≠ Res.exit st := by
  have hc : carrier.WellFormed := by
    simp [Individual.WellFormed, carrier, Chromosome.ofSites, Binary]
  have hpw : twoPop.WellFormed := by
    refine ⟨rfl, ?_⟩
    intro o ho
    simp only [twoPop, List.mem_cons, List.mem_singleton, List.not_mem_nil, or_false,
      or_self] at ho
    subst ho
    exact ⟨hc, rfl, rfl⟩
  exact ⟨hpw, by decide, rfl, twoPop_makeNewGeneration,
    (Population.setIndividuals_exit_unreachable (fun x _ => x) twoPop carrier hpw (by decide)
      rfl _).2⟩

/-! ## Individual::getNbSites and Individual::getNbLoci -/

end ModelCC83
